import Mathlib

/-!
# etcd client layer of `mantle` (vendored `github.com/coreos/etcd`)

A shallow embedding of the request translator (`etcdhttp/client.go`), the
authorization gate (`etcdhttp/client_auth.go`) and the membership validator
(`etcdserver`), with the properties proved about them.

Conventions of the embedding:
* a Go `string` is a Lean `String`; all the byte-level operations used here
  (`strings.HasPrefix`, slicing by `len(keysPrefix)`) involve ASCII prefixes
  only, so they are taken on the list of characters;
* `uint64` values are natural numbers, reduced modulo `2^64` wherever the
  source does arithmetic on them;
* a Go `map` with no observable iteration order is an association list with
  distinct keys (`AList`), a Go set (`map[K]bool`) a `Finset`;
* a pointer that may be `nil` is an `Option`.
-/

namespace Mantle

/-! ## The auth store, as far as `client_auth.go` uses it -/

namespace Auth

/-- The role record of package `auth`, seen through the two permission queries
that `client_auth.go` calls on it (their bodies belong to package `auth`). -/
structure Role where
  /-- `role.HasKeyAccess(key, write)`. -/
  HasKeyAccess : String → Bool → Bool
  /-- `role.HasRecursiveAccess(key, write)`. -/
  HasRecursiveAccess : String → Bool → Bool

/-- The user record of package `auth`: the names of the assigned roles and the
password check. -/
structure User where
  Roles : List String
  /-- `user.CheckPassword(password)`. -/
  CheckPassword : String → Bool

/-- The handle `*auth.Store`; `GetUser` and `GetRole` return `none` where the Go
functions return a non-nil error. -/
structure Store where
  AuthEnabled : Bool
  GetUser : String → Option User
  GetRole : String → Option Role

/-- The constant `auth.RootRoleName`. -/
def RootRoleName : String := "root"

/-- The constant `auth.GuestRoleName`. -/
def GuestRoleName : String := "guest"

end Auth

/-! ## `net/http` and `net/url`, as far as the handlers use them -/

/-- The type `url.Values`: a map from a key to the list of its values. -/
abbrev Values := List (String × List String)

/-- The part of `http.Request` read by the handlers. `ParseFormErr` is the error
of `r.ParseForm()` (`none` when the form parses), `Form` the parsed form,
`Path` is `r.URL.Path` and `BasicAuth` the result of `netutil.BasicAuth(r)`
(`none` when its `ok` is false). -/
structure Request where
  Method : String
  Path : String
  ParseFormErr : Option String
  Form : Values
  BasicAuth : Option (String × String)

/-- The method `r.FormValue(key)`: the first value of the key, or the empty
string when the key is absent or has no value. -/
def Request.FormValue (r : Request) (key : String) : String :=
  match r.Form.lookup key with
  | some (v :: _) => v
  | _ => ""

namespace Etcdhttp

open Auth

/-! ## `etcdhttp/client_auth.go` -/

/-- The loop `for _, role := range rootUser.Roles` of `hasRootAccess`. -/
def hasRootRole : List String → Bool
  | [] => false
  | role :: rest => if role = RootRoleName then true else hasRootRole rest

/-- The function `hasRootAccess(sec, r)`. -/
def hasRootAccess (sec : Option Store) (r : Request) : Bool :=
  match sec with
  | none => true
  | some sec =>
    if !sec.AuthEnabled then true
    else
      match r.BasicAuth with
      | none => false
      | some (username, password) =>
        match sec.GetUser username with
        | none => false
        | some rootUser =>
          if !rootUser.CheckPassword password then false
          else hasRootRole rootUser.Roles

/-- The function `hasWriteRootAccess(sec, r)`. -/
def hasWriteRootAccess (sec : Option Store) (r : Request) : Bool :=
  if r.Method = "GET" ∨ r.Method = "HEAD" then true
  else hasRootAccess sec r

/-- The function `hasGuestAccess(sec, r, key)`. -/
def hasGuestAccess (sec : Store) (r : Request) (key : String) : Bool :=
  let writeAccess := decide (r.Method ≠ "GET" ∧ r.Method ≠ "HEAD")
  match sec.GetRole GuestRoleName with
  | none => false
  | some role => if role.HasKeyAccess key writeAccess then true else false

/-- The loop `for _, roleName := range user.Roles` of `hasKeyPrefixAccess`: a
role that cannot be loaded is skipped (`continue`); the body returns at the
first role that loads. Reaching the end of the list is the `return false`
after the loop. -/
def hasKeyPrefixAccessRoles (sec : Store) (key : String) (recursive writeAccess : Bool) :
    List String → Bool
  | [] => false
  | roleName :: rest =>
    match sec.GetRole roleName with
    | none => hasKeyPrefixAccessRoles sec key recursive writeAccess rest
    | some role =>
      if recursive then role.HasRecursiveAccess key writeAccess
      else role.HasKeyAccess key writeAccess

/-- The function `hasKeyPrefixAccess(sec, r, key, recursive)`. -/
def hasKeyPrefixAccess (sec : Option Store) (r : Request) (key : String)
    (recursive : Bool) : Bool :=
  match sec with
  | none => true
  | some sec =>
    if !sec.AuthEnabled then true
    else
      match r.BasicAuth with
      | none => hasGuestAccess sec r key
      | some (username, password) =>
        match sec.GetUser username with
        | none => false
        | some user =>
          if !user.CheckPassword password then false
          else
            let writeAccess := decide (r.Method ≠ "GET" ∧ r.Method ≠ "HEAD")
            hasKeyPrefixAccessRoles sec key recursive writeAccess user.Roles

/-- Whether a role grants the access that `hasKeyPrefixAccess` asks for:
recursive access when `recursive` is set, exact-key access otherwise. -/
def roleGrants (role : Role) (key : String) (recursive writeAccess : Bool) : Bool :=
  if recursive then role.HasRecursiveAccess key writeAccess
  else role.HasKeyAccess key writeAccess

/-! ### A store with two roles -/

/-- A role that grants nothing. -/
def denyAll : Role := ⟨fun _ _ => false, fun _ _ => false⟩

/-- A role that grants everything. -/
def grantAll : Role := ⟨fun _ _ => true, fun _ _ => true⟩

/-- Authorization enabled; user `alice` (password `pw`) holds the roles
`closed` (grants nothing) and `open` (grants everything), in this order. -/
def twoRoleStore : Store where
  AuthEnabled := true
  GetUser := fun name =>
    if name = "alice" then some ⟨["closed", "open"], fun p => decide (p = "pw")⟩ else none
  GetRole := fun name =>
    if name = "closed" then some denyAll
    else if name = "open" then some grantAll
    else none

/-- A `GET` on `/v2/keys/foo` with the credentials of `alice`. -/
def aliceGet : Request where
  Method := "GET"
  Path := "/v2/keys/foo"
  ParseFormErr := none
  Form := []
  BasicAuth := some ("alice", "pw")

/-! ### A store with a guest role and a root user -/

/-- A guest role that grants read access to the key `/public` and nothing
else. -/
def publicReader : Role :=
  ⟨fun key write => decide (key = "/public") && !write, fun _ _ => false⟩

/-- Authorization enabled; user `root` (password `rootpw`) holds the root role,
user `bob` (password `bobpw`) holds the role `closed`; the guest role reads
`/public`. -/
def gateStore : Store where
  AuthEnabled := true
  GetUser := fun name =>
    if name = "root" then some ⟨[RootRoleName], fun p => decide (p = "rootpw")⟩
    else if name = "bob" then some ⟨["closed"], fun p => decide (p = "bobpw")⟩
    else none
  GetRole := fun name =>
    if name = GuestRoleName then some publicReader
    else if name = RootRoleName then some grantAll
    else if name = "closed" then some denyAll
    else none

/-- The store `gateStore` with authorization disabled. -/
def disabledStore : Store :=
  { gateStore with AuthEnabled := false }

/-- A request on `/v2/keys/public` with the given method and credentials. -/
def publicRequest (method : String) (auth : Option (String × String)) : Request where
  Method := method
  Path := "/v2/keys/public"
  ParseFormErr := none
  Form := []
  BasicAuth := auth

/-- The credentials of the request authenticate, against the configured store, a
user whose assigned roles include the root role. -/
def AuthenticatesRoot (sec : Option Store) (r : Request) : Prop :=
  ∃ s username password user, sec = some s ∧ r.BasicAuth = some (username, password) ∧
    s.GetUser username = some user ∧ user.CheckPassword password = true ∧
    RootRoleName ∈ user.Roles

end Etcdhttp

/-! ## `strconv` and `path` of the Go standard library -/

namespace Strconv

/-- The two errors of `strconv`: `ErrSyntax` and `ErrRange`. -/
inductive NumError
  | ErrSyntax
  | ErrRange
  deriving DecidableEq, Repr

/-- The loop of `strconv.ParseUint(s, 10, 64)` over the bytes of `s`, with the
accumulator `n`: a byte outside `'0'` (48) to `'9'` (57) is a syntax error (a
letter is a digit of value ten or more, not below the base); `n >= cutoff`
(the multiplication by ten would overflow) and `n1 < n || n1 > maxVal` (the
addition of the digit overflows) are range errors. The arithmetic is that of
`uint64`. -/
def parseUintLoop : List Char → Nat → Except NumError Nat
  | [], n => .ok n
  | c :: cs, n =>
    if 48 ≤ c.toNat ∧ c.toNat ≤ 57 then
      let d := c.toNat - 48
      if n ≥ (2 ^ 64 - 1) / 10 + 1 then .error .ErrRange
      else
        let n10 := (n * 10) % 2 ^ 64
        let n1 := (n10 + d) % 2 ^ 64
        if n1 < n10 ∨ n1 > 2 ^ 64 - 1 then .error .ErrRange
        else parseUintLoop cs n1
    else .error .ErrSyntax

/-- The call `strconv.ParseUint(s, 10, 64)`: the empty string is a syntax error
(no sign, base prefix or underscore is accepted in base 10). -/
def ParseUint (s : String) : Except NumError Nat :=
  if s = "" then .error .ErrSyntax else parseUintLoop s.data 0

/-- The function `strconv.ParseBool(str)`: the accepted literals are `1`, `t`,
`T`, `TRUE`, `true`, `True` and `0`, `f`, `F`, `FALSE`, `false`, `False`. -/
def ParseBool (str : String) : Except NumError Bool :=
  if str ∈ ["1", "t", "T", "TRUE", "true", "True"] then .ok true
  else if str ∈ ["0", "f", "F", "FALSE", "false", "False"] then .ok false
  else .error .ErrSyntax

/-- The number that a list of decimal digits denotes, most significant digit
first, on top of the value `n` of the digits already read. -/
def decimalValue : List Char → Nat → Nat
  | [], n => n
  | c :: cs, n => decimalValue cs (n * 10 + (c.toNat - 48))

/-- A valid base-10 unsigned 64-bit literal: at least one character, decimal
digits `'0'` to `'9'` only (no sign), and a value of at most `2^64 - 1`. -/
def IsUint64Literal (s : String) : Prop :=
  s ≠ "" ∧ (∀ c ∈ s.data, 48 ≤ c.toNat ∧ c.toNat ≤ 57) ∧ decimalValue s.data 0 ≤ 2 ^ 64 - 1

instance : DecidablePred IsUint64Literal := fun s => by
  unfold IsUint64Literal
  infer_instance

/-- A valid boolean literal of `strconv.ParseBool`. -/
def IsBoolLiteral (str : String) : Prop :=
  str ∈ ["1", "t", "T", "TRUE", "true", "True", "0", "f", "F", "FALSE", "false", "False"]

instance : DecidablePred IsBoolLiteral := fun str => by
  unfold IsBoolLiteral
  infer_instance

end Strconv

namespace Path

/-- The backtracking loop of `path.Clean` on a `..` element, `out.w--` being
done by the caller: from the write index `w`, step down while `w > dotdot` and
the byte at `w` is not a slash. -/
def backtrack (out : List Char) (dotdot : Nat) : Nat → Nat
  | 0 => 0
  | w + 1 =>
    if w + 1 > dotdot ∧ out.getD (w + 1) ' ' ≠ '/' then backtrack out dotdot w
    else w + 1

/-- The main loop `for r < n` of `path.Clean`: `r` is the index of the next
byte of `path` to read, `out` the bytes written so far (`out.w` is its
length), `dotdot` the index where `..` must stop. Every round reads at least
one byte; the first argument bounds the number of rounds. -/
def cleanLoop (path : List Char) (rooted : Bool) :
    Nat → Nat → List Char → Nat → List Char
  | 0, _, out, _ => out
  | fuel + 1, r, out, dotdot =>
    let n := path.length
    if r < n then
      if path.getD r ' ' = '/' then
        cleanLoop path rooted fuel (r + 1) out dotdot
      else if path.getD r ' ' = '.' ∧ (r + 1 = n ∨ path.getD (r + 1) ' ' = '/') then
        cleanLoop path rooted fuel (r + 1) out dotdot
      else if path.getD r ' ' = '.' ∧ path.getD (r + 1) ' ' = '.' ∧
          (r + 2 = n ∨ path.getD (r + 2) ' ' = '/') then
        if out.length > dotdot then
          cleanLoop path rooted fuel (r + 2)
            (out.take (backtrack out dotdot (out.length - 1))) dotdot
        else if !rooted then
          let out1 := if out.length > 0 then out ++ ['/'] else out
          let out2 := out1 ++ ['.', '.']
          cleanLoop path rooted fuel (r + 2) out2 out2.length
        else cleanLoop path rooted fuel (r + 2) out dotdot
      else
        let out1 :=
          if (rooted ∧ out.length ≠ 1) ∨ (!rooted ∧ out.length ≠ 0) then out ++ ['/']
          else out
        let elem := (path.drop r).takeWhile (fun c => c != '/')
        cleanLoop path rooted fuel (r + elem.length) (out1 ++ elem) dotdot
    else out

/-- The function `path.Clean(path)`. -/
def Clean (path : String) : String :=
  if path = "" then "."
  else
    let rooted := path.data.head? = some '/'
    let out :=
      if rooted then cleanLoop path.data true path.length 1 ['/'] 1
      else cleanLoop path.data false path.length 0 [] 0
    if out.length = 0 then "." else String.mk out

/-- The function `path.Join(elem...)`: the elements from the first non-empty
one on, joined with slashes and cleaned; the empty string when all are empty. -/
def Join (elem : List String) : String :=
  match elem.dropWhile (fun e => e = "") with
  | [] => ""
  | rest => Clean ("/".intercalate rest)

end Path

/-! ## `etcdhttp/client.go`: the request translator -/

/-- The error codes of package `etcdErr` that the request translator returns. -/
inductive Ecode
  | EcodeInvalidForm
  | EcodeInvalidField
  | EcodeIndexNaN
  | EcodeTTLNaN
  | EcodePrevValueRequired
  deriving DecidableEq, Repr

/-- What a function of `client.go` ends in when it does not return normally
with a nil error: an error built by `etcdErr.NewRequestError(code, cause)`, an
error of `strconv`, or the run-time panic of indexing an empty slice. -/
inductive Failure
  | RequestError (code : Ecode) (cause : String)
  | NumError (e : Strconv.NumError)
  | IndexOutOfRange
  deriving DecidableEq, Repr

/-- The message `etcdserverpb.Request`. `PrevExist` is a `*bool`, `Expiration`
and `Time` are `int64`; `ID` and `Time` are not set by the translator. -/
structure ServerRequest where
  ID : Nat := 0
  Method : String := ""
  Path : String := ""
  Val : String := ""
  Dir : Bool := false
  PrevValue : String := ""
  PrevIndex : Nat := 0
  PrevExist : Option Bool := none
  Expiration : Int := 0
  Wait : Bool := false
  Since : Nat := 0
  Recursive : Bool := false
  Sorted : Bool := false
  Quorum : Bool := false
  Time : Int := 0
  Stream : Bool := false
  deriving DecidableEq, Repr

/-- The interface `clockwork.Clock`, reduced to what the translator reads:
`clock.Now()` as Unix nanoseconds. -/
structure Clock where
  Now : Int

/-- The value of a 64-bit two's complement word: the conversion to `int64`. -/
def toInt64 (x : Int) : Int :=
  (x + 2 ^ 63) % 2 ^ 64 - 2 ^ 63

namespace Etcdhttp

/-- The constant `keysPrefix`. -/
def keysPrefix : String := "/v2/keys"

/-- The constant `etcdserver.StoreKeysPrefix`, the root of the key space in the
store. -/
def StoreKeysPrefix : String := "/1"

/-- The function `getUint64(form, key)`: `0` when the key is absent, the parse
of `vals[0]` otherwise. -/
def getUint64 (form : Values) (key : String) : Except Failure Nat :=
  match form.lookup key with
  | none => .ok 0
  | some [] => .error .IndexOutOfRange
  | some (v :: _) =>
    match Strconv.ParseUint v with
    | .ok i => .ok i
    | .error e => .error (.NumError e)

/-- The function `getBool(form, key)`: `false` when the key is absent, the parse
of `vals[0]` otherwise. -/
def getBool (form : Values) (key : String) : Except Failure Bool :=
  match form.lookup key with
  | none => .ok false
  | some [] => .error .IndexOutOfRange
  | some (v :: _) =>
    match Strconv.ParseBool v with
    | .ok b => .ok b
    | .error e => .error (.NumError e)

/-- The pattern `if x, err = get(...); err != nil { return emptyReq,
etcdErr.NewRequestError(code, cause) }`: an error of the getter becomes the
request error; a panic is not caught. -/
def orRequestError {α : Type} (x : Except Failure α) (code : Ecode) (cause : String) :
    Except Failure α :=
  match x with
  | .ok a => .ok a
  | .error .IndexOutOfRange => .error .IndexOutOfRange
  | .error _ => .error (.RequestError code cause)

/-- Lines 476-488 of `parseKeyRequest`: the nullable `ttl`, left `nil` when the
field is not specified or is the empty string. -/
def ttlField (r : Request) : Except Failure (Option Nat) :=
  if (r.FormValue "ttl").length > 0 then
    match orRequestError (getUint64 r.Form "ttl") .EcodeTTLNaN "invalid value for \"ttl\"" with
    | .ok i => .ok (some i)
    | .error e => .error e
  else .ok none

/-- Lines 490-501 of `parseKeyRequest`: the nullable `prevExist`, left `nil`
when the field is not specified. -/
def prevExistField (r : Request) : Except Failure (Option Bool) :=
  if (r.Form.lookup "prevExist").isSome then
    match orRequestError (getBool r.Form "prevExist") .EcodeInvalidField
        "invalid value for prevExist" with
    | .ok bv => .ok (some bv)
    | .error e => .error e
  else .ok none

/-- Lines 523-527 of `parseKeyRequest`: a non-nil `ttl` sets `Expiration` to
`clock.Now().Add(time.Duration(ttl) * time.Second).UnixNano()`, computed in
`int64`; a nil `ttl` leaves it unset. -/
def withExpiration (rr : ServerRequest) (ttl : Option Nat) (clock : Clock) : ServerRequest :=
  match ttl with
  | some t =>
    let expr := toInt64 (toInt64 t * 1000000000)
    { rr with Expiration := toInt64 (clock.Now + expr) }
  | none => rr

/-- The function `parseKeyRequest(r, clock)`. A `throw` is a `return emptyReq,
err`; the second assignment of `pe` to `rr.PrevExist` (lines 519-521) repeats
the one of the struct literal and changes nothing. -/
def parseKeyRequest (r : Request) (clock : Clock) : Except Failure ServerRequest := do
  if let some err := r.ParseFormErr then
    throw (.RequestError .EcodeInvalidForm err)
  if !(keysPrefix.data.isPrefixOf r.Path.data) then
    throw (.RequestError .EcodeInvalidForm "incorrect key prefix")
  let p := Path.Join [StoreKeysPrefix, String.mk (r.Path.data.drop keysPrefix.length)]
  let pIdx ← orRequestError (getUint64 r.Form "prevIndex") .EcodeIndexNaN
    "invalid value for \"prevIndex\""
  let wIdx ← orRequestError (getUint64 r.Form "waitIndex") .EcodeIndexNaN
    "invalid value for \"waitIndex\""
  let rec_ ← orRequestError (getBool r.Form "recursive") .EcodeInvalidField
    "invalid value for \"recursive\""
  let sort ← orRequestError (getBool r.Form "sorted") .EcodeInvalidField
    "invalid value for \"sorted\""
  let wait ← orRequestError (getBool r.Form "wait") .EcodeInvalidField
    "invalid value for \"wait\""
  let dir ← orRequestError (getBool r.Form "dir") .EcodeInvalidField
    "invalid value for \"dir\""
  let quorum ← orRequestError (getBool r.Form "quorum") .EcodeInvalidField
    "invalid value for \"quorum\""
  let stream ← orRequestError (getBool r.Form "stream") .EcodeInvalidField
    "invalid value for \"stream\""
  if wait ∧ r.Method ≠ "GET" then
    throw (.RequestError .EcodeInvalidField "\"wait\" can only be used with GET requests")
  let pV := r.FormValue "prevValue"
  if (r.Form.lookup "prevValue").isSome ∧ pV = "" then
    throw (.RequestError .EcodePrevValueRequired "\"prevValue\" cannot be empty")
  let ttl ← ttlField r
  let pe ← prevExistField r
  let rr : ServerRequest :=
    { Method := r.Method, Path := p, Val := r.FormValue "value", Dir := dir,
      PrevValue := pV, PrevIndex := pIdx, PrevExist := pe, Wait := wait, Since := wIdx,
      Recursive := rec_, Sorted := sort, Quorum := quorum, Stream := stream }
  return withExpiration rr ttl clock

/-! ### Conditions on a key request -/

/-- The call `r.ParseForm()` succeeded: it returned no error and, as the parser
only ever appends a value to the list of its key, every key of the form has at
least one value. -/
def FormParses (r : Request) : Prop :=
  r.ParseFormErr = none ∧ ∀ kv ∈ r.Form, kv.2 ≠ []

/-- The path of the request has the keys prefix. -/
def HasKeysPrefix (r : Request) : Prop :=
  keysPrefix.data.isPrefixOf r.Path.data = true

/-- The form parses, the path has the keys prefix, the numeric fields
`prevIndex` and `waitIndex` and the boolean fields `recursive`, `sorted`,
`wait`, `dir`, `quorum` and `stream` are well formed: the checks of
`parseKeyRequest` that precede the one on `wait` and the method all pass. -/
def FieldChecksPass (r : Request) : Prop :=
  r.ParseFormErr = none ∧ HasKeysPrefix r ∧
  (∃ i, getUint64 r.Form "prevIndex" = .ok i) ∧
  (∃ i, getUint64 r.Form "waitIndex" = .ok i) ∧
  (∃ b, getBool r.Form "recursive" = .ok b) ∧
  (∃ b, getBool r.Form "sorted" = .ok b) ∧
  (∃ b, getBool r.Form "wait" = .ok b) ∧
  (∃ b, getBool r.Form "dir" = .ok b) ∧
  (∃ b, getBool r.Form "quorum" = .ok b) ∧
  (∃ b, getBool r.Form "stream" = .ok b)

/-- The check on `wait` and the method passes: `wait` is not true, or the
method is `GET`. -/
def WaitCheckPasses (r : Request) : Prop :=
  ¬ (getBool r.Form "wait" = .ok true ∧ r.Method ≠ "GET")

/-- The checks of `parseKeyRequest` that follow the one on `wait` and the method
all pass: `prevValue` is not present and empty, `ttl` and `prevExist` are well
formed. -/
def LateChecksPass (r : Request) : Prop :=
  ¬ ((r.Form.lookup "prevValue").isSome = true ∧ r.FormValue "prevValue" = "") ∧
  (∃ ttl, ttlField r = .ok ttl) ∧ (∃ pe, prevExistField r = .ok pe)

/-- The check on `prevValue` passes: the field is not present with an empty
first value. -/
def PrevValueCheckPasses (r : Request) : Prop :=
  ¬ ((r.Form.lookup "prevValue").isSome = true ∧ r.FormValue "prevValue" = "")

/-- The checks of `parseKeyRequest` that precede the one on `ttl` all pass. -/
def ChecksBeforeTTLPass (r : Request) : Prop :=
  FieldChecksPass r ∧ WaitCheckPasses r ∧ PrevValueCheckPasses r

/-- The checks of `parseKeyRequest` that precede the one on `prevExist` all
pass. -/
def ChecksBeforePrevExistPass (r : Request) : Prop :=
  ChecksBeforeTTLPass r ∧ ∃ ttl, ttlField r = .ok ttl

/-- The names of the six boolean fields that `parseKeyRequest` reads with
`getBool` before the check on `wait` and the method. -/
def booleanFields : List String :=
  ["recursive", "sorted", "wait", "dir", "quorum", "stream"]

/-- The value that an accepted request holds for one of the six boolean fields. -/
def booleanFieldOf (rr : ServerRequest) (key : String) : Bool :=
  if key = "recursive" then rr.Recursive
  else if key = "sorted" then rr.Sorted
  else if key = "wait" then rr.Wait
  else if key = "dir" then rr.Dir
  else if key = "quorum" then rr.Quorum
  else if key = "stream" then rr.Stream
  else false

/-! ### Sample requests -/

/-- A `POST` on `/v2/keys/foo` with `wait=true`. -/
def waitPost : Request where
  Method := "POST"
  Path := "/v2/keys/foo"
  ParseFormErr := none
  Form := [("wait", ["true"])]
  BasicAuth := none

/-- A `PUT` on `/v2/keys/foo` with `value=bar` and an empty `prevValue`. -/
def emptyPrevValuePut : Request where
  Method := "PUT"
  Path := "/v2/keys/foo"
  ParseFormErr := none
  Form := [("value", ["bar"]), ("prevValue", [""])]
  BasicAuth := none

/-- A `PUT` on `/v2/keys/foo` with `value=bar` and `prevValue=old`. -/
def prevValuePut : Request where
  Method := "PUT"
  Path := "/v2/keys/foo"
  ParseFormErr := none
  Form := [("value", ["bar"]), ("prevValue", ["old"])]
  BasicAuth := none

/-- A `GET` on `/v2/keys/foo` with the given first value of `prevIndex`. -/
def prevIndexGet (v : String) : Request where
  Method := "GET"
  Path := "/v2/keys/foo"
  ParseFormErr := none
  Form := [("prevIndex", [v])]
  BasicAuth := none

/-- A `GET` on `/v2/keys/foo` with `prevIndex=7` and the given first value of
`waitIndex`. -/
def waitIndexGet (v : String) : Request where
  Method := "GET"
  Path := "/v2/keys/foo"
  ParseFormErr := none
  Form := [("prevIndex", ["7"]), ("waitIndex", [v])]
  BasicAuth := none

/-- A request on `/v2/keys/foo` with the given method and form. -/
def fooRequest (method : String) (form : Values) : Request where
  Method := method
  Path := "/v2/keys/foo"
  ParseFormErr := none
  Form := form
  BasicAuth := none

/-- A `GET` on `/v2/keys/foo` whose query `recursive=bogus&%zz=1` has a badly
escaped second pair: `ParseForm` returns an error and keeps the first pair. -/
def unparsedGet : Request where
  Method := "GET"
  Path := "/v2/keys/foo"
  ParseFormErr := some "invalid URL escape \"%zz\""
  Form := [("recursive", ["bogus"])]
  BasicAuth := none

/-- A `GET` on `/v2/members` with `recursive=bogus`: the path is outside the
keys prefix. -/
def membersGet : Request where
  Method := "GET"
  Path := "/v2/members"
  ParseFormErr := none
  Form := [("recursive", ["bogus"])]
  BasicAuth := none

end Etcdhttp

/-! ## `etcdserver`: membership store and configuration-change validator -/

namespace Etcdserver

/-- The error values declared in `etcdserver/errors.go`. -/
inductive ServerError
  | ErrUnknownMethod
  | ErrStopped
  | ErrIDRemoved
  | ErrIDExists
  | ErrIDNotFound
  | ErrPeerURLexists
  | ErrCanceled
  | ErrTimeout
  | ErrTimeoutDueToLeaderFail
  deriving DecidableEq, Repr

/-- The struct `RaftAttributes` of a member. -/
structure RaftAttributes where
  PeerURLs : List String := []
  deriving DecidableEq, Repr

/-- The struct `Attributes` of a member. -/
structure Attributes where
  Name : String := ""
  ClientURLs : List String := []
  deriving DecidableEq, Repr

/-- The struct `Member`: an ID (`types.ID`, an unsigned 64-bit number) with the
embedded raft attributes and general attributes. -/
structure Member extends RaftAttributes, Attributes where
  ID : Nat := 0
  deriving DecidableEq, Repr

/-- The kinds of `raftpb.ConfChange`. -/
inductive ConfChangeType
  | AddNode
  | RemoveNode
  | UpdateNode
  deriving DecidableEq, Repr

/-- The message `raftpb.ConfChange`, as the validator reads it: the kind, the
node ID and the context bytes (an encoded `Member` for add and update). -/
structure ConfChange where
  Kind : ConfChangeType
  NodeID : Nat
  Context : List Nat := []
  deriving DecidableEq, Repr

/-- Modelled from the spec: the struct `cluster` of `etcdserver/cluster.go`, which
is not part of the sources at hand (`cluster_test.go` shows its fields
`members` and `removed`). It owns the mapping of ID to member record, the set
of removed IDs and the derived cluster identifier. -/
structure Cluster where
  id : Nat := 0
  members : AList (fun _ : Nat => Member) := ∅
  removed : Finset Nat := ∅
  deriving DecidableEq

/-- What a validation ends in: the error it returns (`none` is Go's `nil`, the
change is accepted), or `undecodable` when the candidate member has to be
decoded from a context that does not decode, a case the specification says
nothing about. -/
inductive Validation
  | returns (err : Option ServerError)
  | undecodable
  deriving DecidableEq, Repr

/-- Whether one of the candidate's peer URLs is a peer URL of one of the given
member records. -/
def peerURLCollision (urls : List String) (others : List Member) : Bool :=
  urls.any fun u => others.any fun m => decide (u ∈ m.PeerURLs)

/-- The records of all active members. -/
def Cluster.activeMembers (c : Cluster) : List Member :=
  c.members.entries.map fun e => e.2

/-- The records of the active members other than the one stored under `id`. -/
def Cluster.otherMembers (c : Cluster) (id : Nat) : List Member :=
  (c.members.entries.filter fun e => decide (e.1 ≠ id)).map fun e => e.2

/-- Modelled from the spec: the decision of `ValidateConfigurationChange(cc)`,
whose body (`etcdserver/cluster.go`) is not part of the sources at hand. The
rules are those of the specification, checked in its order; `decode` is the
codec that reads a `Member` out of the context bytes.
1. `cc.NodeID` in the removed set: `ErrIDRemoved`.
2. `AddNode`: `cc.NodeID` already active: `ErrIDExists`; then the candidate is
   decoded and a peer URL shared with any active member gives `ErrPeerURLexists`.
3. `RemoveNode`: `cc.NodeID` not active: `ErrIDNotFound`.
4. `UpdateNode`: `cc.NodeID` not active: `ErrIDNotFound`; then the candidate is
   decoded and a peer URL shared with any other active member gives
   `ErrPeerURLexists`.
The change is accepted in all other cases. -/
def validate (decode : List Nat → Option Member) (c : Cluster) (cc : ConfChange) :
    Validation :=
  if cc.NodeID ∈ c.removed then .returns (some .ErrIDRemoved)
  else
    match cc.Kind with
    | .AddNode =>
      if (c.members.lookup cc.NodeID).isSome then .returns (some .ErrIDExists)
      else
        match decode cc.Context with
        | none => .undecodable
        | some m =>
          if peerURLCollision m.PeerURLs c.activeMembers then
            .returns (some .ErrPeerURLexists)
          else .returns none
    | .RemoveNode =>
      if (c.members.lookup cc.NodeID).isNone then .returns (some .ErrIDNotFound)
      else .returns none
    | .UpdateNode =>
      if (c.members.lookup cc.NodeID).isNone then .returns (some .ErrIDNotFound)
      else
        match decode cc.Context with
        | none => .undecodable
        | some m =>
          if peerURLCollision m.PeerURLs (c.otherMembers cc.NodeID) then
            .returns (some .ErrPeerURLexists)
          else .returns none

/-- Modelled from the spec: the method `ValidateConfigurationChange(cc)` of the
cluster as a step on the membership store, returning the store after the call
together with the decision. The specification gives the validator no effect on
the store: mutation happens only when a confirmed change is applied. -/
def ValidateConfigurationChange (decode : List Nat → Option Member) (c : Cluster)
    (cc : ConfChange) : Cluster × Validation :=
  (c, validate decode c cc)

/-! ### Listing the members -/

/-- Modelled from the spec: the accessor `MemberIDs()` of the cluster
(`etcdserver/cluster.go`, not part of the sources at hand): the IDs of the
active members, sorted ascending numerically. -/
def Cluster.MemberIDs (c : Cluster) : List Nat :=
  c.members.keys.insertionSort (· ≤ ·)

/-- Modelled from the spec: the accessor `Members()` of the cluster
(`etcdserver/cluster.go`, not part of the sources at hand): the records of the
active members, listed by ascending ID. -/
def Cluster.Members (c : Cluster) : List Member :=
  c.MemberIDs.filterMap fun id => c.members.lookup id

/-- The helper `newTestCluster(membs)` of `cluster_test.go`: an empty cluster
into which each member is stored under its ID, in the order of the slice. -/
def newTestCluster (membs : List Member) : Cluster where
  members := membs.foldl (fun acc m => acc.insert m.ID m) ∅

/-- Every member record of the store is stored under its own ID. -/
def Cluster.KeyedByID (c : Cluster) : Prop :=
  ∀ e ∈ c.members.entries, e.2.ID = e.1

/-! ### Listing the URLs -/

/-- The order `a <= b` of Go strings: lexicographic on the bytes, which for
UTF-8 is the lexicographic order on the characters. -/
def strLE (a b : String) : Prop := a.data ≤ b.data

instance : DecidableRel strLE := fun a b => inferInstanceAs (Decidable (a.data ≤ b.data))

instance : IsTotal String strLE := ⟨fun a b => le_total a.data b.data⟩

instance : IsTrans String strLE := ⟨fun _ _ _ h1 h2 => le_trans h1 h2⟩

instance : IsAntisymm String strLE :=
  ⟨fun _ _ h1 h2 => String.ext (le_antisymm h1 h2)⟩

/-- The call `sort.Strings(urls)`: the strings in ascending order. -/
def sortStrings (l : List String) : List String :=
  l.insertionSort strLE

/-- Modelled from the spec: the accessor `PeerURLs()` of the cluster
(`etcdserver/cluster.go`, not part of the sources at hand): the peer URLs of
all active members, sorted ascending lexicographically. Peer URLs of active
members being disjoint in the data model, no entry is dropped. -/
def Cluster.PeerURLs (c : Cluster) : List String :=
  sortStrings (c.activeMembers.flatMap fun m => m.PeerURLs)

/-- Modelled from the spec: the accessor `ClientURLs()` of the cluster
(`etcdserver/cluster.go`, not part of the sources at hand): the client URLs of
all active members, sorted ascending lexicographically. -/
def Cluster.ClientURLs (c : Cluster) : List String :=
  sortStrings (c.activeMembers.flatMap fun m => m.ClientURLs)

/-- The helper `newTestMember(id, peerURLs, name, clientURLs)` used by
`cluster_test.go`. -/
def newTestMember (id : Nat) (peerURLs : List String) (name : String)
    (clientURLs : List String) : Member :=
  { ID := id, PeerURLs := peerURLs, Name := name, ClientURLs := clientURLs }

/-! ### Reconciling a local cluster with an existing one -/

/-- The peer URL set of a member: its peer URLs in ascending order. -/
def sortedPeerURLs (m : Member) : List String :=
  sortStrings m.PeerURLs

/-- The joined peer URL string of a member, by which members are ordered. -/
def joinedPeerURLs (m : Member) : String :=
  ",".intercalate (sortedPeerURLs m)

/-- The members ordered by their joined peer URL string. -/
def byPeerURLs (ms : List Member) : List Member :=
  ms.insertionSort fun a b => strLE (joinedPeerURLs a) (joinedPeerURLs b)

/-- A member map that stores each member of the list under its ID. -/
def membersByID (ms : List Member) : AList (fun _ : Nat => Member) :=
  ms.foldl (fun acc m => acc.insert m.ID m) ∅

/-- The position-by-position comparison of the ordered local members with the
ordered existing members: the peer URL sets must match at every position,
and each local member takes the ID of the existing member at its position.
There is no result when a pair does not match or one list is longer. -/
def assignIDs : List Member → List Member → Option (List Member)
  | [], [] => some []
  | l :: ls, e :: es =>
    if sortedPeerURLs l = sortedPeerURLs e then
      (assignIDs ls es).map fun ms => { l with ID := e.ID } :: ms
    else none
  | _, _ => none

/-- Modelled from the spec: the function `ValidateClusterAndAssignIDs(local,
existing)` of `etcdserver/cluster.go` (not part of the sources at hand). It
fails if the two membership sets differ in size, or if the peer URL sets of
the members do not match position by position once both clusters are ordered
by their joined peer URL string. On success each local member takes the ID of
the existing member with the matching peer URL set, and the local member map
is rebuilt under the new IDs; the existing cluster is only read. -/
def ValidateClusterAndAssignIDs (lcl ecl : Cluster) : Except String Cluster :=
  let ems := byPeerURLs ecl.Members
  let lms := byPeerURLs lcl.Members
  if ems.length ≠ lms.length then .error "member count is unequal"
  else
    match assignIDs lms ems with
    | some ms => .ok { lcl with members := membersByID ms }
    | none => .error "unmatched member while checking PeerURLs"

/-! ### The cluster identifier -/

/-- The sorted concatenation of the active members' peer URLs, from which the
cluster identifier is derived: every active member contributes the joined
string of its sorted peer URLs, and these strings are sorted. -/
def Cluster.peerURLKeys (c : Cluster) : List String :=
  sortStrings (c.activeMembers.map joinedPeerURLs)

/-- Modelled from the spec: the method `genID()` of the cluster
(`etcdserver/cluster.go`, not part of the sources at hand): the identifier is
recomputed from the sorted concatenation of all active members' peer URLs,
through a hash function that is a parameter here. One string per member
enters the hash, so that adding a member without peer URLs changes the hash
input, as `TestClusterGenID` expects of the identifier. -/
def genID (hash : List String → Nat) (c : Cluster) : Cluster :=
  { c with id := hash c.peerURLKeys }

/-! ### Mutating the membership store -/

/-- The paths of the underlying store that the membership store writes, each
derived from a member ID: the record of a member, its raft attributes, and
the marker of a removed member. -/
inductive StoreKey
  | member (id : Nat)
  | memberRaftAttributes (id : Nat)
  | removedMember (id : Nat)
  deriving DecidableEq, Repr

/-- The calls on the underlying store that `cluster_test.go` records:
`Delete(key, dir, recursive)` and `Create(key, dir, value, unique,
expiration)` with the expiration `store.Permanent` or not. -/
inductive StoreAction
  | Delete (key : StoreKey) (dir recursive : Bool)
  | Create (key : StoreKey) (dir : Bool) (value : String) (unique permanent : Bool)
  deriving DecidableEq, Repr

/-- Modelled from the spec: the method `RemoveMember(id)` of the cluster
(`etcdserver/cluster.go`, not part of the sources at hand): `id` is deleted
from the active map and inserted into the removed set. The calls on the
store are those `TestClusterRemoveMember` expects: the member's key is
deleted, then the removed-member marker is created. -/
def RemoveMember (c : Cluster) (id : Nat) : Cluster × List StoreAction :=
  ({ c with members := c.members.erase id, removed := insert id c.removed },
    [.Delete (.member id) true true, .Create (.removedMember id) false "" false true])

/-- Modelled from the spec: the method `AddMember(m)` of the cluster
(`etcdserver/cluster.go`, not part of the sources at hand): it fails with
`ErrIDExists` if `m.ID` is already active and otherwise inserts `m` into the
active map, also when `m.ID` is in the removed set (the caller validates the
change first). The call on the store is the one `TestClusterAddMember`
expects, the creation of the raft attributes record; `marshal` is the codec
of that record. -/
def AddMember (marshal : RaftAttributes → String) (c : Cluster) (m : Member) :
    (Cluster × List StoreAction) × Option ServerError :=
  if m.ID ∈ c.members then ((c, []), some .ErrIDExists)
  else
    (({ c with members := c.members.insert m.ID m },
      [.Create (.memberRaftAttributes m.ID) false (marshal m.toRaftAttributes) false true]),
      none)

/-- Modelled from the spec: the method `UpdateAttributes(id, attrs)` of the
cluster (`etcdserver/cluster.go`, not part of the sources at hand): a no-op,
not an error, if `id` is in the removed set; otherwise the `Name` and
`ClientURLs` of the active member `id` become those of `attrs`. The
specification says nothing about an `id` that is neither removed nor active:
there is no result then. -/
def UpdateAttributes (c : Cluster) (id : Nat) (attrs : Attributes) : Option Cluster :=
  if id ∈ c.removed then some c
  else
    match c.members.lookup id with
    | some m =>
      let updated : Member := { m with Name := attrs.Name, ClientURLs := attrs.ClientURLs }
      some { c with members := c.members.insert id updated }
    | none => none

/-! ### The operations of the membership store -/

/-- The operations on the membership store: the three mutations, the two
validations and the recomputation of the identifier. -/
inductive StoreOp
  | AddMember (m : Member)
  | RemoveMember (id : Nat)
  | UpdateAttributes (id : Nat) (attrs : Attributes)
  | ValidateConfigurationChange (cc : ConfChange)
  | ValidateClusterAndAssignIDs (existing : Cluster)
  | genID

/-- The membership store after an operation. An operation that returns an error
or has no result leaves the store as it was. -/
def applyOp (decode : List Nat → Option Member) (marshal : RaftAttributes → String)
    (hash : List String → Nat) (c : Cluster) : StoreOp → Cluster
  | .AddMember m => (AddMember marshal c m).1.1
  | .RemoveMember id => (RemoveMember c id).1
  | .UpdateAttributes id attrs => (UpdateAttributes c id attrs).getD c
  | .ValidateConfigurationChange cc => (ValidateConfigurationChange decode c cc).1
  | .ValidateClusterAndAssignIDs existing =>
    match ValidateClusterAndAssignIDs c existing with
    | .ok c' => c'
    | .error _ => c
  | .genID => genID hash c

/-! ### The cluster of `TestClusterValidateConfigurationChange` -/

/-- The peer URL `http://127.0.0.1:<i>` of the test, for the ports it uses. -/
def testURL : Nat → String
  | 1 => "http://127.0.0.1:1"
  | 2 => "http://127.0.0.1:2"
  | 3 => "http://127.0.0.1:3"
  | 4 => "http://127.0.0.1:4"
  | _ => "http://127.0.0.1:5"

/-- The member with ID `i` and the single peer URL of port `port`. -/
def testMember (i port : Nat) : Member :=
  { ID := i, PeerURLs := [testURL port] }

/-- A codec for the contexts of the test: the two bytes `[i, port]` stand for
the member `i` with the peer URL of `port`; nothing else decodes. -/
def testDecode : List Nat → Option Member
  | [i, port] => some (testMember i port)
  | _ => none

/-- The cluster the test builds: members 1 to 4 added, then member 4 removed. -/
def testCluster : Cluster where
  members := (((∅ : AList fun _ : Nat => Member).insert 3 (testMember 3 3)).insert 2
    (testMember 2 2)).insert 1 (testMember 1 1)
  removed := {4}

end Etcdserver

/-! ## Package `store`, as far as the watch handler uses it -/

namespace Store

/-- The struct `store.NodeExtern`, with the fields that `client.go` and
`cluster_test.go` use: a node of the key space as shown to clients, with its
key, its value (a `*string`, nil when there is none) and its child nodes. -/
inductive NodeExtern
  | mk (Key : String) (Value : Option String) (Nodes : List NodeExtern)

/-- The key of a node. -/
def NodeExtern.Key : NodeExtern → String
  | .mk key _ _ => key

/-- The child nodes of a node. -/
def NodeExtern.Nodes : NodeExtern → List NodeExtern
  | .mk _ _ nodes => nodes

/-- The struct `store.Event`, with the fields that `client.go` uses: the node
after the action and the node before it, either of which may be nil, and the
index of the store. -/
structure Event where
  Node : Option NodeExtern
  PrevNode : Option NodeExtern
  EtcdIndex : Nat

end Store

/-! ## `etcdhttp/client.go`: the watch handler -/

namespace Etcdhttp

open Store

/-- The function `strings.TrimPrefix(s, prefix)`: `s` without the leading
`prefix`, or `s` itself when it does not start with it. -/
def TrimPrefix (s pfx : String) : String :=
  if pfx.data.isPrefixOf s.data then String.mk (s.data.drop pfx.length) else s

mutual

/-- The function `trimNodeExternPrefix(n, prefix)` on a non-nil node: the key
loses the prefix, and the loop over `n.Nodes` does the same, in place, to
every child. -/
def trimNodeExternPrefix : NodeExtern → String → NodeExtern
  | .mk key value nodes, pfx =>
    .mk (TrimPrefix key pfx) value (trimNodeExternPrefixList nodes pfx)

/-- The loop `for _, nn := range n.Nodes` of `trimNodeExternPrefix`. -/
def trimNodeExternPrefixList : List NodeExtern → String → List NodeExtern
  | [], _ => []
  | nn :: rest, pfx => trimNodeExternPrefix nn pfx :: trimNodeExternPrefixList rest pfx

end

/-- The function `trimEventPrefix(ev, prefix)`: nil for a nil event; otherwise a
copy of the event (`ev.Clone()`) in which the prefix is trimmed from `Node`
and from `PrevNode`, where they are not nil. -/
def trimEventPrefix (ev : Option Event) (pfx : String) : Option Event :=
  match ev with
  | none => none
  | some e =>
    some { e with
      Node := e.Node.map fun n => trimNodeExternPrefix n pfx
      PrevNode := e.PrevNode.map fun n => trimNodeExternPrefix n pfx }

/-- What one round of the `select` statement of `handleKeyWatch` receives: the
close notification of the client (never delivered when the writer is not a
`CloseNotifier`, the channel being nil), the end of the context, an event of
the watcher, or the closing of the event channel. An event carries whether
the encoder will fail on it. -/
inductive Signal
  | CloseNotify
  | Done
  | Event (ev : Option Event) (encodeFails : Bool)
  | Closed

/-- The calls that `handleKeyWatch` makes on the response writer, the logger
and the watcher. -/
inductive Output
  | SetHeader (key value : String)
  | WriteHeader (status : Nat)
  | Flush
  | Encode (ev : Option Event)
  | Warning
  | Remove

/-- How a run of `handleKeyWatch` ends: by one of its five `return` statements,
or not at all, the `select` waiting for a signal that does not come. -/
inductive Exit
  | ClientClosed
  | TimedOut
  | ChannelClosed
  | EncodeError
  | SingleEvent
  | Blocked
  deriving DecidableEq, Repr

/-- The loop `for { select { ... } }` of `handleKeyWatch`, run on the signals
that the successive rounds of the `select` receive: the calls made and the
way the loop ends. -/
def handleKeyWatchLoop (stream : Bool) : List Signal → List Output × Exit
  | [] => ([], .Blocked)
  | .CloseNotify :: _ => ([], .ClientClosed)
  | .Done :: _ => ([], .TimedOut)
  | .Closed :: _ => ([], .ChannelClosed)
  | .Event ev encodeFails :: rest =>
    let e := trimEventPrefix ev StoreKeysPrefix
    if encodeFails then ([.Encode e, .Warning], .EncodeError)
    else if !stream then ([.Encode e], .SingleEvent)
    else
      let r := handleKeyWatchLoop stream rest
      (.Encode e :: .Flush :: r.1, r.2)

/-- The headers, the status and the first flush that `handleKeyWatch` writes
before the loop; `fmt.Sprint` of an index is its decimal form. -/
def watchPreamble (startIndex raftIndex raftTerm : Nat) : List Output :=
  [.SetHeader "Content-Type" "application/json",
   .SetHeader "X-Etcd-Index" (toString startIndex),
   .SetHeader "X-Raft-Index" (toString raftIndex),
   .SetHeader "X-Raft-Term" (toString raftTerm),
   .WriteHeader 200,
   .Flush]

/-- The function `handleKeyWatch(ctx, w, wa, stream, rt)`, run on the signals
that its `select` receives: the calls it makes, in order, and the way it
ends. `startIndex` is `wa.StartIndex()`, `raftIndex` and `raftTerm` are
`rt.Index()` and `rt.Term()`. The deferred `wa.Remove()` runs when the
function returns, hence after every call of the body and not when the run is
blocked. -/
def handleKeyWatch (startIndex raftIndex raftTerm : Nat) (stream : Bool)
    (signals : List Signal) : List Output × Exit :=
  let r := handleKeyWatchLoop stream signals
  (watchPreamble startIndex raftIndex raftTerm ++ r.1 ++
    (if r.2 = .Blocked then [] else [.Remove]), r.2)

/-- The events that a list of calls encodes, in order. -/
def encodedEvents : List Output → List (Option Event)
  | [] => []
  | .Encode ev :: rest => ev :: encodedEvents rest
  | _ :: rest => encodedEvents rest

/-- The events received before the first termination signal (client close,
deadline, closed event channel). -/
def eventsBeforeTermination : List Signal → List (Option Event)
  | .Event ev _ :: rest => ev :: eventsBeforeTermination rest
  | _ => []

/-- The way the loop ends on a termination signal. -/
def exitOf : Signal → Exit
  | .CloseNotify => .ClientClosed
  | .Done => .TimedOut
  | .Closed => .ChannelClosed
  | .Event _ _ => .SingleEvent

/-- The termination signals: client close, deadline, closed event channel. -/
def Signal.isTermination : Signal → Bool
  | .Event _ _ => false
  | _ => true

/-- An event on the key `/1/foo`, as the store reports it. -/
def fooEvent (index : Nat) : Event where
  Node := some (.mk "/1/foo" (some "bar") [])
  PrevNode := none
  EtcdIndex := index

end Etcdhttp

/-! ### The checks of `parseKeyRequest`, one by one -/

namespace Etcdhttp

/-- The variable `emptyReq` of `parseKeyRequest`: the zero `Request`. -/
def emptyReq : ServerRequest := {}

/-- The two results `(etcdserverpb.Request, error)` of `parseKeyRequest` as the
caller receives them: every `return` with a non-nil error has `emptyReq` as
its first result; a panic returns nothing. -/
def parseKeyRequestResults (r : Request) (clock : Clock) :
    Option (ServerRequest × Option Failure) :=
  match parseKeyRequest r clock with
  | .ok rr => some (rr, none)
  | .error .IndexOutOfRange => none
  | .error e => some (emptyReq, some e)

/-- A check on a request: it passes, or fails with an error. -/
abbrev Check := Request → Except Failure Unit

/-- The check of a numeric or boolean field read by a getter: it fails with the
request error of the field when the getter does. -/
def fieldCheck {α : Type} (x : Except Failure α) (code : Ecode) (cause : String) :
    Except Failure Unit :=
  match orRequestError x code cause with
  | .ok _ => .ok ()
  | .error e => .error e

/-- The fourteen checks in the order form parse, key prefix, `prevIndex`,
`waitIndex`, `recursive`, `sorted`, `wait`, `dir`, `quorum`, `stream`, `wait`
with a method other than `GET`, empty `prevValue`, `ttl`, `prevExist`, each
stated on the request alone. -/
def checksInOrder : List Check :=
  [fun r => match r.ParseFormErr with
      | some err => .error (.RequestError .EcodeInvalidForm err)
      | none => .ok (),
   fun r => if keysPrefix.data.isPrefixOf r.Path.data then .ok ()
      else .error (.RequestError .EcodeInvalidForm "incorrect key prefix"),
   fun r => fieldCheck (getUint64 r.Form "prevIndex") .EcodeIndexNaN
      "invalid value for \"prevIndex\"",
   fun r => fieldCheck (getUint64 r.Form "waitIndex") .EcodeIndexNaN
      "invalid value for \"waitIndex\"",
   fun r => fieldCheck (getBool r.Form "recursive") .EcodeInvalidField
      "invalid value for \"recursive\"",
   fun r => fieldCheck (getBool r.Form "sorted") .EcodeInvalidField
      "invalid value for \"sorted\"",
   fun r => fieldCheck (getBool r.Form "wait") .EcodeInvalidField
      "invalid value for \"wait\"",
   fun r => fieldCheck (getBool r.Form "dir") .EcodeInvalidField
      "invalid value for \"dir\"",
   fun r => fieldCheck (getBool r.Form "quorum") .EcodeInvalidField
      "invalid value for \"quorum\"",
   fun r => fieldCheck (getBool r.Form "stream") .EcodeInvalidField
      "invalid value for \"stream\"",
   fun r => match getBool r.Form "wait" with
      | .ok true =>
        if r.Method ≠ "GET" then
          .error (.RequestError .EcodeInvalidField
            "\"wait\" can only be used with GET requests")
        else .ok ()
      | _ => .ok (),
   fun r => if (r.Form.lookup "prevValue").isSome ∧ r.FormValue "prevValue" = "" then
        .error (.RequestError .EcodePrevValueRequired "\"prevValue\" cannot be empty")
      else .ok (),
   fun r => match ttlField r with
      | .ok _ => .ok ()
      | .error e => .error e,
   fun r => match prevExistField r with
      | .ok _ => .ok ()
      | .error e => .error e]

/-- The error of the earliest failing check of a list, if any check fails. -/
def firstFailure : List Check → Request → Option Failure
  | [], _ => none
  | check :: rest, r =>
    match check r with
    | .error e => some e
    | .ok _ => firstFailure rest r

end Etcdhttp

/-! ## `etcdhttp/client_auth.go`: the user endpoint -/

namespace Auth

/-- The data fields of the struct `auth.User`, as `forUser` decodes and encodes
them: the name, the password, the roles, and the roles to grant and to
revoke. -/
structure UserRecord where
  User : String := ""
  Password : String := ""
  Roles : List String := []
  Grant : List String := []
  Revoke : List String := []
  deriving DecidableEq, Repr

/-- The methods of `*auth.Store` that `forUser` calls (their bodies belong to
package `auth`), with `ε` the type of their errors. `CreateOrUpdateUser`
returns the record and whether it was created; `DeleteUser` returns the
error, if any. -/
structure UserStore (ε : Type) where
  GetUser : String → Except ε UserRecord
  CreateUser : UserRecord → Except ε UserRecord
  CreateOrUpdateUser : UserRecord → Except ε (UserRecord × Bool)
  UpdateUser : UserRecord → Except ε UserRecord
  DeleteUser : String → Option ε

end Auth

namespace Etcdhttp

open Auth

/-- The calls that `forUser` makes on the response writer and the logger:
`HTTPError code message` is an `httptypes.HTTPError` handed to `writeError`
or written by `WriteTo`, `WriteError err` is `writeError(w, err)` on an error
of the store, `Encode u` is `json.NewEncoder(w).Encode(u)`. -/
inductive UserReply (ε : Type)
  | SetHeader (key value : String)
  | WriteHeader (status : Nat)
  | HTTPError (code : Nat) (message : String)
  | WriteError (err : ε)
  | Encode (u : UserRecord)
  | Warning

/-- The end of the `PUT` case of `forUser`: the status, the record with its
password blanked, and the warning when the encoder fails. -/
def putUserReply {ε : Type} (out : UserRecord) (created encodeFails : Bool) :
    List (UserReply ε) :=
  [.WriteHeader (if created then 201 else 200), .Encode { out with Password := "" }] ++
    (if encodeFails then [.Warning] else [])

/-- The method `authHandler.forUser(w, r, user)`. `allowMethod` is the function
of that name of `http.go`, which is not among the sources at hand: it tells
whether the method is one of those listed and answers the request itself
when it is not. `body` is the user that `json.NewDecoder(r.Body).Decode`
yields (`none` when it fails), `encodeFails` tells whether the encoder fails,
`clusterID` is `sh.cluster.ID().String()`. -/
def forUser {ε : Type} (allowMethod : String → List String → Bool) (sec : Option Store)
    (store : UserStore ε) (clusterID : String) (r : Request) (body : Option UserRecord)
    (encodeFails : Bool) (user : String) : List (UserReply ε) :=
  if !allowMethod r.Method ["GET", "PUT", "DELETE"] then []
  else if !hasRootAccess sec r then [.HTTPError 401 "Insufficient credentials"]
  else
    [.SetHeader "X-Etcd-Cluster-ID" clusterID, .SetHeader "Content-Type" "application/json"] ++
    if r.Method = "GET" then
      match store.GetUser user with
      | .error err => [.WriteError err]
      | .ok u => .Encode { u with Password := "" } :: (if encodeFails then [.Warning] else [])
    else if r.Method = "PUT" then
      match body with
      | none => [.HTTPError 400 "Invalid JSON in request body."]
      | some u =>
        if u.User ≠ user then
          [.HTTPError 400 "User JSON name does not match the name in the URL"]
        else if u.Grant.length = 0 ∧ u.Revoke.length = 0 then
          if u.Roles.length ≠ 0 then
            match store.CreateUser u with
            | .error err => [.WriteError err]
            | .ok out => putUserReply out false encodeFails
          else
            match store.CreateOrUpdateUser u with
            | .error err => [.WriteError err]
            | .ok (out, created) => putUserReply out created encodeFails
        else if u.Roles.length ≠ 0 then
          [.HTTPError 400 "User JSON contains both roles and grant/revoke"]
        else
          match store.UpdateUser u with
          | .error err => [.WriteError err]
          | .ok out => putUserReply out false encodeFails
    else if r.Method = "DELETE" then
      match store.DeleteUser user with
      | some err => [.WriteError err]
      | none => []
    else []

/-- The user records that a list of calls writes into the response body. -/
def encodedUsers {ε : Type} : List (UserReply ε) → List UserRecord
  | [] => []
  | .Encode u :: rest => u :: encodedUsers rest
  | _ :: rest => encodedUsers rest

/-- A user store with the single user `alice`, whose stored password is a
hash, and which echoes the submitted record on every write. -/
def aliceStore : UserStore String where
  GetUser := fun name =>
    if name = "alice" then .ok { User := "alice", Password := "$2a$10$hash", Roles := ["root"] }
    else .error "not found"
  CreateUser := fun u => .ok u
  CreateOrUpdateUser := fun u => .ok (u, u.User ≠ "alice")
  UpdateUser := fun u =>
    .ok { User := u.User, Password := "$2a$10$hash", Roles := u.Grant }
  DeleteUser := fun _ => none

/-- A request on `/v2/auth/users/<name>` without credentials. -/
def userRequest (method name : String) : Request where
  Method := method
  Path := "/v2/auth/users/" ++ name
  ParseFormErr := none
  Form := []
  BasicAuth := none

end Etcdhttp

/-! ## `etcdhttp/client.go`: the members handler -/

namespace Etcdserver

/-- The method `Error()` of the error values of `etcdserver/errors.go`: the text
given to `errors.New`. -/
def ServerError.Error : ServerError → String
  | .ErrUnknownMethod => "etcdserver: unknown method"
  | .ErrStopped => "etcdserver: server stopped"
  | .ErrIDRemoved => "etcdserver: ID removed"
  | .ErrIDExists => "etcdserver: ID exists"
  | .ErrIDNotFound => "etcdserver: ID not found"
  | .ErrPeerURLexists => "etcdserver: peerURL exists"
  | .ErrCanceled => "etcdserver: request cancelled"
  | .ErrTimeout => "etcdserver: request timed out"
  | .ErrTimeoutDueToLeaderFail =>
    "etcdserver: request timed out, possibly due to previous leader failure"

end Etcdserver

namespace Etcdhttp

open Auth

/-- The constant `membersPrefix`. -/
def membersPrefix : String := "/v2/members"

/-- The function `trimPrefix(p, prefix)`: `p` without the prefix and without a
slash that follows it. -/
def trimPrefix (p pfx : String) : String :=
  TrimPrefix (TrimPrefix p pfx) "/"

/-- The struct `httptypes.Member`, as `newMember` fills it. -/
structure HTTPMember where
  ID : String
  Name : String
  PeerURLs : List String
  ClientURLs : List String
  deriving DecidableEq, Repr

/-- The methods of `etcdserver.Server` and `etcdserver.Cluster` that the members
handler calls; an error is `none` where the Go method returns `nil`. `ID` is
`h.cluster.ID().String()`. -/
structure MembersServer where
  AddMember : Etcdserver.Member → Option Etcdserver.ServerError
  RemoveMember : Nat → Option Etcdserver.ServerError
  UpdateMember : Etcdserver.Member → Option Etcdserver.ServerError
  Leader : Nat
  ID : String
  Members : List Etcdserver.Member
  Member : Nat → Option Etcdserver.Member

/-- The functions of other packages that the members handler calls and that are
not among the sources at hand: `allowMethod` of `http.go` (whether the method
is one of those listed; it answers the request itself when it is not),
`types.IDFromString` (`none` when it returns an error), the method `String`
of `types.ID`, `etcdserver.NewMember("", peerURLs, "", &now)`, and
`UnmarshalJSON` of the two request types of `httptypes`, which yields the
peer URLs of the request. -/
structure MembersEnv where
  allowMethod : String → List String → Bool
  IDFromString : String → Option Nat
  idString : Nat → String
  NewMember : List String → Etcdserver.Member
  UnmarshalJSON : String → Except String (List String)

/-- A request with the parts that `unmarshalRequest` reads: the `Content-Type`
header and the result of `ioutil.ReadAll(r.Body)`. -/
structure BodyRequest extends Request where
  ContentType : String
  Body : Except String String

/-- The calls that the members handler makes on the response writer, the logger
and the server: `HTTPError code message` is an `httptypes.HTTPError` handed
to `writeError`, `Error text code` is `http.Error(w, text, code)`,
`WriteError err` is `writeError(w, err)` on an error of the server. -/
inductive MemberReply
  | SetHeader (key value : String)
  | WriteHeader (status : Nat)
  | HTTPError (code : Nat) (message : String)
  | Error (text : String) (code : Nat)
  | WriteError (err : Etcdserver.ServerError)
  | EncodeMembers (ms : List HTTPMember)
  | EncodeMember (m : HTTPMember)
  | Warning
  | Errorf
  | NilDereference
  | AddMember (m : Etcdserver.Member)
  | RemoveMember (id : Nat)
  | UpdateMember (m : Etcdserver.Member)
  deriving DecidableEq

/-- The function `newMember(m)`. -/
def newMember (env : MembersEnv) (m : Etcdserver.Member) : HTTPMember where
  ID := env.idString m.ID
  Name := m.Name
  PeerURLs := m.PeerURLs
  ClientURLs := m.ClientURLs

/-- The function `newMemberCollection(ms)`. -/
def newMemberCollection (env : MembersEnv) (ms : List Etcdserver.Member) : List HTTPMember :=
  ms.map (newMember env)

/-- The function `unmarshalRequest(r, req, w)`: the request it decodes when it
returns true, the call by which it answers when it returns false. -/
def unmarshalRequest (env : MembersEnv) (r : BodyRequest) : Except MemberReply (List String) :=
  if r.ContentType ≠ "application/json" then
    .error (.HTTPError 415 ("Bad Content-Type " ++ r.ContentType ++ ", accept application/json"))
  else
    match r.Body with
    | .error err => .error (.HTTPError 400 err)
    | .ok b =>
      match env.UnmarshalJSON b with
      | .error err => .error (.HTTPError 400 err)
      | .ok req => .ok req

/-- The function `getID(p, w)`: the ID when its `ok` is true, the call by which
it answers when it is false. -/
def getID (env : MembersEnv) (p : String) : Except MemberReply Nat :=
  let idStr := trimPrefix p membersPrefix
  if idStr = "" then .error (.Error "Method Not Allowed" 405)
  else
    match env.IDFromString idStr with
    | none => .error (.HTTPError 404 ("No such member: " ++ idStr))
    | some id => .ok id

/-- The end of a branch that encodes a response: the warning when the encoder
fails. -/
def encodeWarning (encodeFails : Bool) : List MemberReply :=
  if encodeFails then [.Warning] else []

/-- The method `membersHandler.ServeHTTP(w, r)`: the calls it makes, in order.
`encodeFails` tells whether the JSON encoder fails. -/
def membersHandlerServeHTTP (env : MembersEnv) (sec : Option Store) (server : MembersServer)
    (r : BodyRequest) (encodeFails : Bool) : List MemberReply :=
  if !env.allowMethod r.Method ["GET", "POST", "DELETE", "PUT"] then []
  else if !hasWriteRootAccess sec r.toRequest then
    [.HTTPError 401 "Insufficient credentials"]
  else
    .SetHeader "X-Etcd-Cluster-ID" server.ID ::
    if r.Method = "GET" then
      let sub := trimPrefix r.Path membersPrefix
      if sub = "" then
        [.SetHeader "Content-Type" "application/json",
          .EncodeMembers (newMemberCollection env server.Members)] ++ encodeWarning encodeFails
      else if sub = "leader" then
        if server.Leader = 0 then [.HTTPError 503 "During election"]
        else
          match server.Member server.Leader with
          | none => [.NilDereference]
          | some m =>
            [.SetHeader "Content-Type" "application/json", .EncodeMember (newMember env m)] ++
              encodeWarning encodeFails
      else [.HTTPError 404 "Not found"]
    else if r.Method = "POST" then
      match unmarshalRequest env r with
      | .error reply => [reply]
      | .ok peerURLs =>
        let m := env.NewMember peerURLs
        .AddMember m ::
        match server.AddMember m with
        | some err =>
          if err = .ErrIDExists ∨ err = .ErrPeerURLexists then
            [.HTTPError 409 err.Error]
          else [.Errorf, .WriteError err]
        | none =>
          [.SetHeader "Content-Type" "application/json", .WriteHeader 201,
            .EncodeMember (newMember env m)] ++ encodeWarning encodeFails
    else if r.Method = "DELETE" then
      match getID env r.Path with
      | .error reply => [reply]
      | .ok id =>
        .RemoveMember id ::
        match server.RemoveMember id with
        | some .ErrIDRemoved =>
          [.HTTPError 410 ("Member permanently removed: " ++ env.idString id)]
        | some .ErrIDNotFound => [.HTTPError 404 ("No such member: " ++ env.idString id)]
        | some err => [.Errorf, .WriteError err]
        | none => [.WriteHeader 204]
    else if r.Method = "PUT" then
      match getID env r.Path with
      | .error reply => [reply]
      | .ok id =>
        match unmarshalRequest env r with
        | .error reply => [reply]
        | .ok peerURLs =>
          let m : Etcdserver.Member := { ID := id, PeerURLs := peerURLs }
          .UpdateMember m ::
          match server.UpdateMember m with
          | some .ErrPeerURLexists =>
            [.HTTPError 409 Etcdserver.ServerError.ErrPeerURLexists.Error]
          | some .ErrIDNotFound => [.HTTPError 404 ("No such member: " ++ env.idString id)]
          | some err => [.Errorf, .WriteError err]
          | none => [.WriteHeader 204]
    else []

/-- The status of the response that a list of calls produces: that of the first
call that writes the header; `writeError` gives the status with which the
function of that name (of `http.go`, not among the sources at hand) answers
on an error of the server. A body written before any status has status 200. -/
def statusOf (writeError : Etcdserver.ServerError → Nat) : List MemberReply → Option Nat
  | [] => none
  | .WriteHeader status :: _ => some status
  | .HTTPError code _ :: _ => some code
  | .Error _ code :: _ => some code
  | .WriteError err :: _ => some (writeError err)
  | .EncodeMembers _ :: _ => some 200
  | .EncodeMember _ :: _ => some 200
  | _ :: rest => statusOf writeError rest

/-- The calls on the server among a list of calls. -/
def serverCalls (replies : List MemberReply) : List MemberReply :=
  replies.filter fun c =>
    match c with
    | .AddMember _ => true
    | .RemoveMember _ => true
    | .UpdateMember _ => true
    | _ => false

end Etcdhttp

namespace Etcdhttp

open Auth

/-- A members environment in which `allowMethod` checks the list, the IDs
`1`, `2`, `3` and `9` parse, and a new member gets the ID 5. -/
def sampleEnv : MembersEnv where
  allowMethod := fun m ms => ms.contains m
  IDFromString := fun s =>
    if s = "1" then some 1 else if s = "2" then some 2 else if s = "3" then some 3
    else if s = "9" then some 9 else none
  idString := fun id => toString id
  NewMember := fun peerURLs => { ID := 5, PeerURLs := peerURLs }
  UnmarshalJSON := fun b => if b = "" then .error "unexpected end of JSON input" else .ok [b]

/-- A server in which member 1 is active and member 2 has been removed: removing
or updating another ID does not find it, and the peer URL of member 1 is
taken. -/
def sampleServer : MembersServer where
  AddMember := fun m =>
    if m.PeerURLs = ["http://h1"] then some .ErrPeerURLexists else none
  RemoveMember := fun id =>
    if id = 1 then none else if id = 2 then some .ErrIDRemoved
    else if id = 9 then some .ErrStopped else some .ErrIDNotFound
  UpdateMember := fun m =>
    if m.ID ≠ 1 then some .ErrIDNotFound
    else if m.PeerURLs = ["http://h1"] then some .ErrPeerURLexists else none
  Leader := 1
  ID := "cid"
  Members := [{ ID := 1, PeerURLs := ["http://h1"] }]
  Member := fun id => if id = 1 then some { ID := 1, PeerURLs := ["http://h1"] } else none

/-- A request to the members handler with a JSON body, without credentials. -/
def membersRequest (method path body : String) : BodyRequest where
  Method := method
  Path := path
  ParseFormErr := none
  Form := []
  BasicAuth := none
  ContentType := "application/json"
  Body := .ok body

/-- The function `writeError` on an error of the server, as a sample: status
500. -/
def sampleWriteError : Etcdserver.ServerError → Nat := fun _ => 500

end Etcdhttp

/-! ## `migrate/etcd4pb/log_entry.pb.go`: the wire format of a log entry -/

namespace Etcd4pb

/-- The value of a 32-bit two's complement word: the conversion to `int32`. -/
def toInt32 (x : Int) : Int :=
  (x + 2 ^ 31) % 2 ^ 32 - 2 ^ 31

/-- The struct `LogEntry`. A byte is a natural number below 256, a `string` is
the list of its bytes; `*uint64`, `*string` and the byte slices, which may be
`nil`, are options. -/
structure LogEntry where
  Index : Option Nat := none
  Term : Option Nat := none
  CommandName : Option (List Nat) := none
  Command : Option (List Nat) := none
  XXX_unrecognized : Option (List Nat) := none
  deriving DecidableEq, Repr

/-- What `Unmarshal`, `skipLogEntry` and `Marshal` end in when they do not return
a nil error: one of the errors they return, a run-time panic (`OutOfRange`:
an index or a slice bound is out of range; `Unreachable`: the
`panic("unreachable")` of `skipLogEntry`), or, in the model only, a loop that
has not ended within the rounds allowed. -/
inductive Failure
  | ErrUnexpectedEOF
  | WrongWireType (wireType : Nat) (field : String)
  | IllegalWireType (wireType : Nat)
  | RequiredNotSet (field : String)
  | OutOfRange
  | Unreachable
  | OutOfFuel
  deriving DecidableEq, Repr

/-- The loop `for shift := uint(0); ; shift += 7` that reads a varint, run on
`data[iNdEx:]`: the value, in `uint64` arithmetic, and the number of bytes
read. An empty rest is `iNdEx >= l`. -/
def readVarint : List Nat → Nat → Nat → Except Failure (Nat × Nat)
  | [], _, _ => .error .ErrUnexpectedEOF
  | b :: rest, shift, acc =>
    let v := (acc ||| ((b &&& 0x7F) <<< shift) % 2 ^ 64) % 2 ^ 64
    if b < 0x80 then .ok (v, 1)
    else
      match readVarint rest ((shift + 7) % 2 ^ 64) v with
      | .ok (x, n) => .ok (x, n + 1)
      | .error e => .error e

/-- The loop of `sovLogEntry`, at most `fuel + 1` rounds. -/
def sovLoop : Nat → Nat → Nat
  | 0, _ => 1
  | fuel + 1, x => if x >>> 7 = 0 then 1 else 1 + sovLoop fuel (x >>> 7)

/-- The function `sovLogEntry(x)`: the number of bytes of the varint of `x`. The
loop shifts `x` by seven bits per round, so `x` rounds are enough. -/
def sovLogEntry (x : Nat) : Nat :=
  sovLoop x x

/-- A slice `data[lo:hi]` of a slice of length and capacity `data.length`: a
panic unless `0 <= lo <= hi <= len`. -/
def slice (data : List Nat) (lo hi : Int) : Except Failure (List Nat) :=
  if 0 ≤ lo ∧ lo ≤ hi ∧ hi ≤ data.length then .ok ((data.drop lo.toNat).take (hi - lo).toNat)
  else .error .OutOfRange

/-- The loop of case 0 of `skipLogEntry`, run on `data[iNdEx:]`: the number of
bytes up to and including the first one below `0x80`. -/
def skipVarint : List Nat → Except Failure Nat
  | [] => .error .ErrUnexpectedEOF
  | b :: rest =>
    if b < 0x80 then .ok 1
    else
      match skipVarint rest with
      | .ok n => .ok (n + 1)
      | .error e => .error e

/-- A varint read at the index `iNdEx`, an `int`: end of input when
`iNdEx >= l`, a panic when the index is negative. -/
def readVarintAt (data : List Nat) (iNdEx : Int) : Except Failure (Nat × Int) :=
  if iNdEx ≥ data.length then .error .ErrUnexpectedEOF
  else if iNdEx < 0 then .error .OutOfRange
  else
    match readVarint (data.drop iNdEx.toNat) 0 0 with
    | .ok (x, n) => .ok (x, iNdEx + n)
    | .error e => .error e

mutual

/-- The function `skipLogEntry(data)`: the number of bytes of the field at the
start of `data`, computed in `int`. The first argument bounds the depth of the
recursion and the rounds of the loop of case 3. -/
def skipLogEntry : Nat → List Nat → Except Failure Int
  | 0, _ => .error .OutOfFuel
  | fuel + 1, data =>
    if data.length = 0 then .error .Unreachable
    else
      match readVarint data 0 0 with
      | .error e => .error e
      | .ok (wire, n) =>
        let iNdEx : Int := n
        let wireType := wire &&& 0x7
        if wireType = 0 then
          match skipVarint (data.drop n) with
          | .ok k => .ok (iNdEx + k)
          | .error e => .error e
        else if wireType = 1 then .ok (iNdEx + 8)
        else if wireType = 2 then
          match readVarint (data.drop n) 0 0 with
          | .error e => .error e
          | .ok (length, k) => .ok (toInt64 (iNdEx + k + toInt64 length))
        else if wireType = 3 then skipGroup fuel data iNdEx
        else if wireType = 4 then .ok iNdEx
        else if wireType = 5 then .ok (iNdEx + 4)
        else .error (.IllegalWireType wireType)

/-- The loop of case 3 of `skipLogEntry`, from the index `iNdEx`. -/
def skipGroup : Nat → List Nat → Int → Except Failure Int
  | 0, _, _ => .error .OutOfFuel
  | fuel + 1, data, iNdEx =>
    let start := iNdEx
    match readVarintAt data iNdEx with
    | .error e => .error e
    | .ok (innerWire, iNdEx) =>
      if innerWire &&& 0x7 = 4 then .ok iNdEx
      else
        match skipLogEntry fuel (data.drop start.toNat) with
        | .error e => .error e
        | .ok next => skipGroup fuel data (toInt64 (start + next))

end

/-- The default case of the switch of `Unmarshal`: the number of bytes of the
minimal varint of `wire`. -/
def sizeOfWire (wire : Nat) : Nat :=
  sovLoop wire wire

/-- A field of wire type 2 of `Unmarshal`, after its length has been read:
`postIndex := iNdEx + length`, computed in `int`, the check `postIndex > l`
and the slice `data[iNdEx:postIndex]`. -/
def lengthDelimited (data : List Nat) (iNdEx : Nat) (length : Int) :
    Except Failure (List Nat × Nat) :=
  let postIndex := toInt64 (iNdEx + length)
  if postIndex > data.length then .error .ErrUnexpectedEOF
  else
    match slice data iNdEx postIndex with
    | .error e => .error e
    | .ok s => .ok (s, postIndex.toNat)

/-- A field of wire type 2 of `Unmarshal` from the index `iNdEx` that follows its
tag: the varint of the length, read into a `uint64` and converted to `int`
(field 3) or read into an `int` (field 4), which gives the same word, and then
the slice of that length. -/
def readBytes (data : List Nat) (iNdEx : Nat) : Except Failure (List Nat × Nat) :=
  match readVarint (data.drop iNdEx) 0 0 with
  | .error e => .error e
  | .ok (length, k) => lengthDelimited data (iNdEx + k) (toInt64 length)

/-- The function `append(s, bytes...)` on a slice that may be `nil`: appending
nothing to `nil` gives `nil`. -/
def appendBytes (s : Option (List Nat)) (bytes : List Nat) : Option (List Nat) :=
  match s, bytes with
  | none, [] => none
  | none, bs => some bs
  | some old, bs => some (old ++ bs)

/-- The checks on the required fields that follow the loop of `Unmarshal`. -/
def requiredChecks (m : LogEntry) (hasFields : Nat) : Except Failure LogEntry :=
  if hasFields &&& 0x00000001 = 0 then .error (.RequiredNotSet "Index")
  else if hasFields &&& 0x00000002 = 0 then .error (.RequiredNotSet "Term")
  else if hasFields &&& 0x00000004 = 0 then .error (.RequiredNotSet "CommandName")
  else .ok m

/-- One round of the loop `for iNdEx < l` of `Unmarshal`, from the index `iNdEx`
with the entry `m` and the bits `hasFields[0]`: the entry, the index and the
bits after the round. -/
def unmarshalRound (data : List Nat) (m : LogEntry) (iNdEx hasFields : Nat) :
    Except Failure (LogEntry × Nat × Nat) :=
  match readVarint (data.drop iNdEx) 0 0 with
  | .error e => .error e
  | .ok (wire, n) =>
    let iNdEx := iNdEx + n
    let fieldNum := toInt32 (wire >>> 3)
    let wireType := wire &&& 0x7
    if fieldNum = 1 then
      if wireType ≠ 0 then .error (.WrongWireType wireType "Index")
      else
        match readVarint (data.drop iNdEx) 0 0 with
        | .error e => .error e
        | .ok (v, k) => .ok ({ m with Index := some v }, iNdEx + k, hasFields ||| 0x00000001)
    else if fieldNum = 2 then
      if wireType ≠ 0 then .error (.WrongWireType wireType "Term")
      else
        match readVarint (data.drop iNdEx) 0 0 with
        | .error e => .error e
        | .ok (v, k) => .ok ({ m with Term := some v }, iNdEx + k, hasFields ||| 0x00000002)
    else if fieldNum = 3 then
      if wireType ≠ 2 then .error (.WrongWireType wireType "CommandName")
      else
        match readBytes data iNdEx with
        | .error e => .error e
        | .ok (s, postIndex) =>
          .ok ({ m with CommandName := some s }, postIndex, hasFields ||| 0x00000004)
    else if fieldNum = 4 then
      if wireType ≠ 2 then .error (.WrongWireType wireType "Command")
      else
        match readBytes data iNdEx with
        | .error e => .error e
        | .ok (s, postIndex) => .ok ({ m with Command := some s }, postIndex, hasFields)
    else
      let iNdEx : Int := (iNdEx : Int) - sizeOfWire wire
      match slice data iNdEx data.length with
      | .error e => .error e
      | .ok rest =>
        match skipLogEntry (data.length + 1) rest with
        | .error e => .error e
        | .ok skippy =>
          if toInt64 (iNdEx + skippy) > data.length then .error .ErrUnexpectedEOF
          else
            match slice data iNdEx (toInt64 (iNdEx + skippy)) with
            | .error e => .error e
            | .ok bytes =>
              .ok ({ m with XXX_unrecognized := appendBytes m.XXX_unrecognized bytes },
                (toInt64 (iNdEx + skippy)).toNat, hasFields)

/-- The loop `for iNdEx < l` of `Unmarshal` and the checks that follow it, from
the index `iNdEx` with the entry `m` and the bits `hasFields[0]`; the first
argument bounds the number of rounds. -/
def unmarshalLoop (data : List Nat) : Nat → LogEntry → Nat → Nat → Except Failure LogEntry
  | 0, m, iNdEx, hasFields =>
    if iNdEx < data.length then .error .OutOfFuel else requiredChecks m hasFields
  | fuel + 1, m, iNdEx, hasFields =>
    if iNdEx < data.length then
      match unmarshalRound data m iNdEx hasFields with
      | .error e => .error e
      | .ok (m, iNdEx, hasFields) => unmarshalLoop data fuel m iNdEx hasFields
    else requiredChecks m hasFields

/-- The method `(m *LogEntry).Unmarshal(data)`: the entry `m` after the call.
Every round that does not panic and does not leave `iNdEx` where it was moves
it forward, so `len(data) + 1` rounds are reached only by a run that never
ends. -/
def Unmarshal (m : LogEntry) (data : List Nat) : Except Failure LogEntry :=
  unmarshalLoop data (data.length + 1) m 0 0

/-- The method `(m *LogEntry).Size()`. The sum is an `int`; the lengths of the
slices of one entry in memory do not add up to `2^63`. -/
def Size (m : LogEntry) : Nat :=
  (match m.Index with
    | some v => 1 + sovLogEntry v
    | none => 0) +
  (match m.Term with
    | some v => 1 + sovLogEntry v
    | none => 0) +
  (match m.CommandName with
    | some s => 1 + s.length + sovLogEntry s.length
    | none => 0) +
  (match m.Command with
    | some c => 1 + c.length + sovLogEntry c.length
    | none => 0) +
  (match m.XXX_unrecognized with
    | some x => x.length
    | none => 0)

/-- The assignment `data[i] = b` of a `uint8`: a panic when the index is out of
range. -/
def setByte (data : List Nat) (i : Nat) (b : Nat) : Except Failure (List Nat) :=
  if i < data.length then .ok (data.set i (b % 256)) else .error .OutOfRange

/-- The loop of `encodeVarintLogEntry(data, offset, v)`, at most `fuel + 1`
rounds: the buffer after the writes and the offset returned. -/
def encodeVarintLoop : Nat → List Nat → Nat → Nat → Except Failure (List Nat × Nat)
  | 0, data, offset, v =>
    match setByte data offset v with
    | .error e => .error e
    | .ok data => .ok (data, offset + 1)
  | fuel + 1, data, offset, v =>
    if v ≥ 1 <<< 7 then
      match setByte data offset (v &&& 0x7f ||| 0x80) with
      | .error e => .error e
      | .ok data => encodeVarintLoop fuel data (offset + 1) (v >>> 7)
    else
      match setByte data offset v with
      | .error e => .error e
      | .ok data => .ok (data, offset + 1)

/-- The function `encodeVarintLogEntry(data, offset, v)`. The loop shifts `v` by
seven bits per round, so `v` rounds are enough. -/
def encodeVarintLogEntry (data : List Nat) (offset : Nat) (v : Nat) :
    Except Failure (List Nat × Nat) :=
  encodeVarintLoop v data offset v

/-- The call `copy(data[i:], src)`: the buffer after the copy and the number of
bytes copied, the smaller of the two lengths; the slice `data[i:]` panics
when `i` exceeds the length. -/
def copyAt (data : List Nat) (i : Nat) (src : List Nat) : Except Failure (List Nat × Nat) :=
  if i > data.length then .error .OutOfRange
  else
    let n := min (data.length - i) src.length
    .ok (data.take i ++ src.take n ++ data.drop (i + n), n)

/-- A required field of `MarshalTo` of wire type 0: the tag byte and the
varint of the value. -/
def putVarintField (data : List Nat) (i : Nat) (tag v : Nat) :
    Except Failure (List Nat × Nat) :=
  match setByte data i tag with
  | .error e => .error e
  | .ok data => encodeVarintLogEntry data (i + 1) v

/-- A field of `MarshalTo` of wire type 2: the tag byte, the varint of the
length and the copy of the bytes. -/
def putBytesField (data : List Nat) (i : Nat) (tag : Nat) (bytes : List Nat) :
    Except Failure (List Nat × Nat) :=
  match setByte data i tag with
  | .error e => .error e
  | .ok data =>
    match encodeVarintLogEntry data (i + 1) bytes.length with
    | .error e => .error e
    | .ok (data, i) =>
      match copyAt data i bytes with
      | .error e => .error e
      | .ok (data, n) => .ok (data, i + n)

/-- The block `if m.Command != nil` of `MarshalTo`. -/
def putCommand (data : List Nat) (i : Nat) (command : Option (List Nat)) :
    Except Failure (List Nat × Nat) :=
  match command with
  | some c => putBytesField data i 0x22 c
  | none => .ok (data, i)

/-- The block `if m.XXX_unrecognized != nil` of `MarshalTo`. -/
def putUnrecognized (data : List Nat) (i : Nat) (x : Option (List Nat)) :
    Except Failure (List Nat × Nat) :=
  match x with
  | some x =>
    match copyAt data i x with
    | .error e => .error e
    | .ok (data, n) => .ok (data, i + n)
  | none => .ok (data, i)

/-- The method `(m *LogEntry).MarshalTo(data)`: the buffer after the writes and
the number `n` of bytes written. -/
def MarshalTo (m : LogEntry) (data : List Nat) : Except Failure (List Nat × Nat) :=
  match m.Index with
  | none => .error (.RequiredNotSet "Index")
  | some index =>
    match putVarintField data 0 0x8 index with
    | .error e => .error e
    | .ok (data, i) =>
      match m.Term with
      | none => .error (.RequiredNotSet "Term")
      | some term =>
        match putVarintField data i 0x10 term with
        | .error e => .error e
        | .ok (data, i) =>
          match m.CommandName with
          | none => .error (.RequiredNotSet "CommandName")
          | some name =>
            match putBytesField data i 0x1a name with
            | .error e => .error e
            | .ok (data, i) =>
              match putCommand data i m.Command with
              | .error e => .error e
              | .ok (data, i) => putUnrecognized data i m.XXX_unrecognized

/-- The method `(m *LogEntry).Marshal()`: a buffer of `m.Size()` zero bytes is
filled by `MarshalTo`, and `data[:n]` is returned. -/
def Marshal (m : LogEntry) : Except Failure (List Nat) :=
  let size := Size m
  let data := List.replicate size 0
  match MarshalTo m data with
  | .error e => .error e
  | .ok (data, n) => slice data 0 n

/-- The function `bytes.Equal(a, b)`: a `nil` slice equals an empty one. -/
def bytesEqual (a b : Option (List Nat)) : Bool :=
  a.getD [] = b.getD []

/-- The comparison that `Equal` makes of a pointer field: both non-nil with equal
values, or both nil. -/
def fieldEqual {α : Type} [DecidableEq α] (a b : Option α) : Bool :=
  match a, b with
  | some x, some y => decide (x = y)
  | some _, none => false
  | none, some _ => false
  | none, none => true

/-- The method `(this *LogEntry).Equal(that)` on two non-nil entries. -/
def Equal (this that1 : LogEntry) : Bool :=
  if !fieldEqual this.Index that1.Index then false
  else if !fieldEqual this.Term that1.Term then false
  else if !fieldEqual this.CommandName that1.CommandName then false
  else if !bytesEqual this.Command that1.Command then false
  else if !bytesEqual this.XXX_unrecognized that1.XXX_unrecognized then false
  else true

/-- The bytes of the varint of `v`, low seven bits first; `fuel + 1` bounds
their number. -/
def varintBytes : Nat → Nat → List Nat
  | 0, v => [v % 256]
  | fuel + 1, v =>
    if v ≥ 128 then (v % 128 + 128) :: varintBytes fuel (v / 128) else [v]

/-- The bytes of a field of wire type 0: the tag and the varint of the value. -/
def varintField (tag v : Nat) : List Nat :=
  tag :: varintBytes v v

/-- The bytes of a field of wire type 2: the tag, the varint of the length and
the bytes. -/
def bytesField (tag : Nat) (bytes : List Nat) : List Nat :=
  tag :: (varintBytes bytes.length bytes.length ++ bytes)

/-- The bytes of a field of wire type 2 that may be `nil`: none when it is. -/
def optionalField (tag : Nat) (bytes : Option (List Nat)) : List Nat :=
  match bytes with
  | some c => bytesField tag c
  | none => []

/-- The bytes of an entry on the wire: its fields 1 to 4, those that are set,
and its unrecognized bytes. -/
def wireBytes (m : LogEntry) : List Nat :=
  (match m.Index with
    | some v => varintField 0x8 v
    | none => []) ++
  (match m.Term with
    | some v => varintField 0x10 v
    | none => []) ++
  (match m.CommandName with
    | some s => bytesField 0x1a s
    | none => []) ++
  optionalField 0x22 m.Command ++ m.XXX_unrecognized.getD []

/-- A log entry with every field set. -/
def sampleEntry : LogEntry where
  Index := some 300
  Term := some 7
  CommandName := some [0x73, 0x65, 0x74]
  Command := some [1, 2, 3, 4]

end Etcd4pb

namespace Path

/-- The elements of a path: the parts between its slashes. -/
def segments : List Char → List (List Char)
  | [] => [[]]
  | c :: cs =>
    if c = '/' then [] :: segments cs
    else
      match segments cs with
      | [] => [[c]]
      | s :: ss => (c :: s) :: ss

/-- No element of the path is `..`. -/
def NoDotDotSegment (p : String) : Prop :=
  ['.', '.'] ∉ segments p.data

instance : DecidablePred NoDotDotSegment := fun p => by
  unfold NoDotDotSegment
  infer_instance

end Path

namespace Path

/-- The path starts with a `..` element: it is `..` or begins with `../`. -/
def dotDotAt (s : List Char) : Prop :=
  s = ['.', '.'] ∨ ∃ t, s = '.' :: '.' :: '/' :: t

/-- No `..` element at the start of the path or after one of its slashes. -/
def NoDotDotFrom (s : List Char) : Prop :=
  ¬ dotDotAt s ∧ ∀ a b, s = a ++ '/' :: b → ¬ dotDotAt b

/-- The bytes written are the root `/1` of the key space or lie below it. -/
def UnderRoot (out : List Char) : Prop :=
  out = ['/', '1'] ∨ ∃ t, out = '/' :: '1' :: '/' :: t

end Path


/-! ## The events of package `store` in memory -/

namespace Store

/-- A pointer `*NodeExtern` or `*Event`: nil, or the address of a struct. -/
abbrev Ptr := Option Nat

/-- The struct `store.NodeExtern` as it lies in memory, with the fields that
`client.go` and `cluster_test.go` use; `Nodes` is a `[]*NodeExtern`, a list of
pointers. -/
structure NodeCell where
  Key : String
  Value : Option String
  Nodes : List Ptr

/-- The struct `store.Event` as it lies in memory, with the fields that
`client.go` uses. -/
structure EventCell where
  Node : Ptr
  PrevNode : Ptr
  EtcdIndex : Nat

/-- The memory: the node structs and the event structs allocated so far, each
at the address that is its index. A new struct is put at the end. -/
structure Heap where
  nodes : List NodeCell
  events : List EventCell

/-- Runs the function on each pointer of a list in turn, from the memory that
the previous call left, and collects the pointers returned. -/
def mapNodes (f : List NodeCell → Ptr → Option (List NodeCell × Ptr)) :
    List NodeCell → List Ptr → Option (List NodeCell × List Ptr)
  | mem, [] => some (mem, [])
  | mem, p :: ps =>
    match f mem p with
    | none => none
    | some (mem1, q) =>
      match mapNodes f mem1 ps with
      | none => none
      | some (mem2, qs) => some (mem2, q :: qs)

/-- Modelled from the spec: the method `(*NodeExtern).Clone()` of package
`store`, the copy that `trimEventPrefix` works on. The clone of nil is nil; the
clone of a node is a new struct with the same key and value whose `Nodes` are
the clones of the nodes of the original. The first argument bounds the depth
of the recursion: the result is `none` when it is used up, or when an address
is not allocated. -/
def cloneNodeExtern : Nat → List NodeCell → Ptr → Option (List NodeCell × Ptr)
  | _, mem, none => some (mem, none)
  | 0, _, some _ => none
  | fuel + 1, mem, some a =>
    match mem[a]? with
    | none => none
    | some cell =>
      match mapNodes (cloneNodeExtern fuel) mem cell.Nodes with
      | none => none
      | some (mem1, nodes) =>
        some (mem1 ++ [{ cell with Nodes := nodes }], some mem1.length)

/-- Modelled from the spec: the method `(*Event).Clone()` of package `store`: a
new event struct with the same index, whose `Node` and `PrevNode` are clones
of those of the original. -/
def Clone (fuel : Nat) (h : Heap) (a : Nat) : Option (Heap × Nat) :=
  match h.events[a]? with
  | none => none
  | some cell =>
    match cloneNodeExtern fuel h.nodes cell.Node with
    | none => none
    | some (mem1, node) =>
      match cloneNodeExtern fuel mem1 cell.PrevNode with
      | none => none
      | some (mem2, prevNode) =>
        some ({ nodes := mem2,
                events := h.events ++ [{ cell with Node := node, PrevNode := prevNode }] },
          h.events.length)

/-- The value that a `*NodeExtern` stands for: nil, or a node with its key, its
value and the values of its child nodes. -/
inductive NodeValue
  | nil
  | node (Key : String) (Value : Option String) (Nodes : List NodeValue)

/-- The value that a non-nil `*Event` stands for. -/
structure EventValue where
  Node : NodeValue
  PrevNode : NodeValue
  EtcdIndex : Nat

mutual

/-- The pointer stands for the value in the memory: nil for nil; otherwise the
struct at its address has the key and the value of the node, and its `Nodes`
stand, one by one, for the child nodes. -/
def ReadsNode (mem : List NodeCell) : Ptr → NodeValue → Prop
  | p, .nil => p = none
  | p, .node key value nodes =>
    ∃ a ps, p = some a ∧ mem[a]? = some ⟨key, value, ps⟩ ∧ ReadsNodes mem ps nodes

/-- The pointers stand, one by one, for the values. -/
def ReadsNodes (mem : List NodeCell) : List Ptr → List NodeValue → Prop
  | ps, [] => ps = []
  | ps, v :: vs => ∃ q qs, ps = q :: qs ∧ ReadsNode mem q v ∧ ReadsNodes mem qs vs

end

/-- The pointer stands for the event value in the memory: nil for no event;
otherwise the struct at its address has the index of the event, and its `Node`
and `PrevNode` stand for those of the event. -/
def ReadsEvent (h : Heap) : Ptr → Option EventValue → Prop
  | p, none => p = none
  | p, some v =>
    ∃ a cell, p = some a ∧ h.events[a]? = some cell ∧ cell.EtcdIndex = v.EtcdIndex ∧
      ReadsNode h.nodes cell.Node v.Node ∧ ReadsNode h.nodes cell.PrevNode v.PrevNode

mutual

/-- The number of nodes of a value. -/
def NodeValue.size : NodeValue → Nat
  | .nil => 0
  | .node _ _ nodes => sizeNodes nodes + 1

/-- The number of nodes of a list of values. -/
def sizeNodes : List NodeValue → Nat
  | [] => 0
  | v :: vs => v.size + sizeNodes vs

end

end Store

namespace Etcdhttp

open Store

mutual

/-- The node with the prefix removed from the start of its key and of the key
of every node below it, at every depth; a key that does not start with the
prefix stays as it is, and so do the values and the shape of the tree. -/
def trimmedNode : NodeValue → String → NodeValue
  | .nil, _ => .nil
  | .node key value nodes, pfx => .node (TrimPrefix key pfx) value (trimmedNodes nodes pfx)

/-- The nodes of a list, each with the prefix removed as in `trimmedNode`. -/
def trimmedNodes : List NodeValue → String → List NodeValue
  | [], _ => []
  | v :: vs, pfx => trimmedNode v pfx :: trimmedNodes vs pfx

end

/-- The event with the prefix removed from the keys of `Node` and of
`PrevNode`, at every depth, and everything else as it is. -/
def trimmedEvent (v : EventValue) (pfx : String) : EventValue :=
  { v with Node := trimmedNode v.Node pfx, PrevNode := trimmedNode v.PrevNode pfx }

namespace InPlace

/-- The loop `for _, nn := range n.Nodes` of `trimNodeExternPrefix`: the body
runs on each pointer in turn, in the memory that the previous round left; the
assignment to `nn` changes the loop variable only. -/
def rangeNodes (f : List NodeCell → Ptr → Option (List NodeCell × Ptr)) :
    List NodeCell → List Ptr → Option (List NodeCell)
  | mem, [] => some mem
  | mem, nn :: rest =>
    match f mem nn with
    | none => none
    | some (mem1, _) => rangeNodes f mem1 rest

/-- The function `trimNodeExternPrefix(n, prefix)` on the memory: nil for nil;
otherwise the key of the struct at `n` is overwritten with the trimmed key,
the function runs on each of `n.Nodes`, and `n` is returned. The first
argument bounds the depth of the recursion: the result is `none` when it is
used up, or when an address is not allocated. -/
def trimNodeExternPrefix : Nat → List NodeCell → Ptr → String → Option (List NodeCell × Ptr)
  | _, mem, none, _ => some (mem, none)
  | 0, _, some _, _ => none
  | fuel + 1, mem, some n, pfx =>
    match mem[n]? with
    | none => none
    | some cell =>
      let mem1 := mem.set n { cell with Key := TrimPrefix cell.Key pfx }
      match rangeNodes (fun m nn => trimNodeExternPrefix fuel m nn pfx) mem1 cell.Nodes with
      | none => none
      | some mem2 => some (mem2, some n)

/-- The function `trimEventPrefix(ev, prefix)` on the memory: nil for a nil
event; otherwise the event is cloned, `Node` and `PrevNode` of the clone are
trimmed in place and assigned back, and the clone is returned. -/
def trimEventPrefix (fuel : Nat) (h : Heap) (ev : Ptr) (pfx : String) : Option (Heap × Ptr) :=
  match ev with
  | none => some (h, none)
  | some a =>
    match Clone fuel h a with
    | none => none
    | some (h1, e) =>
      match h1.events[e]? with
      | none => none
      | some cell1 =>
        match trimNodeExternPrefix fuel h1.nodes cell1.Node pfx with
        | none => none
        | some (mem2, node) =>
          let events2 := h1.events.set e { cell1 with Node := node }
          match events2[e]? with
          | none => none
          | some cell2 =>
            match trimNodeExternPrefix fuel mem2 cell2.PrevNode pfx with
            | none => none
            | some (mem3, prevNode) =>
              some ({ nodes := mem3,
                      events := events2.set e { cell2 with PrevNode := prevNode } }, some e)

end InPlace

end Etcdhttp

namespace Store

/-- The pointer to a copy of the value whose structs are laid out from the
address `b` on, every node after the nodes below it. -/
def rootPtr (b : Nat) : NodeValue → Ptr
  | .nil => none
  | .node _ _ nodes => some (b + sizeNodes nodes)

/-- The pointers to copies of the values, laid out one after the other from
the address `b` on. -/
def rootPtrs : Nat → List NodeValue → List Ptr
  | _, [] => []
  | b, v :: vs => rootPtr b v :: rootPtrs (b + v.size) vs

mutual

/-- The structs of a copy of the value laid out from the address `b` on: first
those of the child nodes, one child after the other, then the node itself. -/
def cellsOf : Nat → NodeValue → List NodeCell
  | _, .nil => []
  | b, .node key value nodes => cellsOfNodes b nodes ++ [⟨key, value, rootPtrs b nodes⟩]

/-- The structs of copies of the values, laid out one after the other. -/
def cellsOfNodes : Nat → List NodeValue → List NodeCell
  | _, [] => []
  | b, v :: vs => cellsOf b v ++ cellsOfNodes (b + v.size) vs

end

end Store

namespace Etcdhttp

open Store

/-- A memory with one event, at index 8 of the store: its `Node` is the
directory `/1/foo` with the children `/1/foo/bar` and `/0/other`, its
`PrevNode` is the struct of `/1/foo/bar` again. -/
def sampleHeap : Heap where
  nodes :=
    [⟨"/1/foo/bar", some "v", []⟩,
     ⟨"/0/other", some "w", []⟩,
     ⟨"/1/foo", none, [some 0, some 1]⟩]
  events := [⟨some 2, some 0, 8⟩]

/-- The value of the event of `sampleHeap`. -/
def sampleEventValue : EventValue where
  Node := .node "/1/foo" none [.node "/1/foo/bar" (some "v") [], .node "/0/other" (some "w") []]
  PrevNode := .node "/1/foo/bar" (some "v") []
  EtcdIndex := 8

end Etcdhttp

namespace Etcdhttp

open Store

mutual

/-- The value of a node given as a tree. -/
def valueOfNode : NodeExtern → NodeValue
  | .mk key value nodes => .node key value (valueOfNodes nodes)

/-- The values of nodes given as trees. -/
def valueOfNodes : List NodeExtern → List NodeValue
  | [] => []
  | n :: rest => valueOfNode n :: valueOfNodes rest

end

/-- The value of a `*NodeExtern` given as a tree, nil for nil. -/
def valueOfPtr : Option NodeExtern → NodeValue
  | none => .nil
  | some n => valueOfNode n

/-- The value of an event given with its trees. -/
def valueOfEvent (e : Event) : EventValue where
  Node := valueOfPtr e.Node
  PrevNode := valueOfPtr e.PrevNode
  EtcdIndex := e.EtcdIndex

end Etcdhttp

/-! ## What reaches the handlers: `net/http` in front of `client.go` -/

namespace Http

/-- The function `cleanPath(p)` of `net/http`: the canonical path of `p`, rooted
and without `.` and `..` elements, with the trailing slash of `p` kept. -/
def cleanPath (p : String) : String :=
  if p = "" then "/"
  else
    let p1 := if p.data.head? ≠ some '/' then "/" ++ p else p
    let np := Path.Clean p1
    if p1.data.getLast? = some '/' ∧ np ≠ "/" then np ++ "/" else np

end Http

namespace Etcdhttp

/-- The requests that reach `parseKeyRequest` in `keysHandler.ServeHTTP` behind
the `ServeMux` of `NewClientHandler`. The method is one that `allowMethod` lets
through; it is not `CONNECT`, so the mux has compared the URL path with
`cleanPath` of it and has answered with a redirect when they differ. The path
matches one of the two patterns that the handler is registered with:
`keysPrefix` itself, or the subtree `keysPrefix + "/"`. -/
def ServedByKeysHandler (r : Request) : Prop :=
  r.Method ∈ ["HEAD", "GET", "PUT", "POST", "DELETE"] ∧
  Http.cleanPath r.Path = r.Path ∧
  (r.Path = keysPrefix ∨ (keysPrefix ++ "/").data.isPrefixOf r.Path.data = true)

instance : DecidablePred ServedByKeysHandler := fun r => by
  unfold ServedByKeysHandler
  infer_instance

/-- The forms that `r.ParseForm()` builds: a key enters the form together with
a value (`form[key] = append(form[key], value)`), so that every key of the form
has at least one value. -/
def BuiltByParseForm (form : Values) : Prop :=
  ∀ kv ∈ form, kv.2 ≠ []

instance : DecidablePred BuiltByParseForm := fun form => by
  unfold BuiltByParseForm
  infer_instance

end Etcdhttp

/-! # Theorems -/

/-! ## Lemmas on `strconv` -/
namespace Strconv

/-- Reading further digits never lowers the value read so far. -/
theorem le_decimalValue (cs : List Char) (n : Nat) : n ≤ decimalValue cs n := by
  induction cs generalizing n with
  | nil => exact Nat.le_refl n
  | cons c cs ih =>
    have h := ih (n * 10 + (c.toNat - 48))
    simp only [decimalValue]
    omega

/-- The loop of `ParseUint` started below `2^64` succeeds exactly on digits whose
value fits in 64 bits, and then returns that value. -/
theorem parseUintLoop_ok_iff (cs : List Char) (n v : Nat) (hn : n < 2 ^ 64) :
    parseUintLoop cs n = .ok v ↔
      (∀ c ∈ cs, 48 ≤ c.toNat ∧ c.toNat ≤ 57) ∧ decimalValue cs n ≤ 2 ^ 64 - 1 ∧
        v = decimalValue cs n := by
  induction cs generalizing n with
  | nil =>
    simp only [parseUintLoop, decimalValue, List.not_mem_nil, false_implies, implies_true,
      true_and, Except.ok.injEq]
    constructor
    · intro h; subst h; exact ⟨by omega, rfl⟩
    · intro h; exact h.2.symm
  | cons c cs ih =>
    have hge := le_decimalValue cs (n * 10 + (c.toNat - 48))
    simp only [parseUintLoop, decimalValue, List.mem_cons, forall_eq_or_imp]
    by_cases hd : 48 ≤ c.toNat ∧ c.toNat ≤ 57
    · rw [if_pos hd]
      by_cases hc : n ≥ (2 ^ 64 - 1) / 10 + 1
      · rw [if_pos hc]
        constructor
        · intro h; exact absurd h (by simp)
        · intro h; exfalso; norm_num at hc h hge; omega
      · rw [if_neg hc]
        have h10 : n * 10 % 2 ^ 64 = n * 10 := Nat.mod_eq_of_lt (by norm_num at hc ⊢; omega)
        simp only [h10]
        by_cases ho : n * 10 + (c.toNat - 48) < 2 ^ 64
        · have h1 : (n * 10 + (c.toNat - 48)) % 2 ^ 64 = n * 10 + (c.toNat - 48) :=
            Nat.mod_eq_of_lt ho
          simp only [h1]
          rw [if_neg (by omega), ih _ ho]
          simp [hd]
        · have hlt : (n * 10 + (c.toNat - 48)) % 2 ^ 64 < n * 10 := by
            norm_num at hc ho ⊢; omega
          rw [if_pos (Or.inl hlt)]
          constructor
          · intro h; exact absurd h (by simp)
          · intro h; exfalso; omega
    · rw [if_neg hd]
      constructor
      · intro h; exact absurd h (by simp)
      · intro h; exact absurd h.1.1 hd

/-- The call `ParseUint(s, 10, 64)` succeeds exactly on the valid base-10
unsigned 64-bit literals, and then returns the value of the literal. -/
theorem ParseUint_ok_iff (s : String) (v : Nat) :
    ParseUint s = .ok v ↔ IsUint64Literal s ∧ v = decimalValue s.data 0 := by
  unfold ParseUint IsUint64Literal
  by_cases hs : s = ""
  · simp [hs]
  · rw [if_neg hs, parseUintLoop_ok_iff _ _ _ (by norm_num)]
    simp [hs, and_assoc]

/-- The call `ParseUint(s, 10, 64)` returns an error on every string that is not
a valid base-10 unsigned 64-bit literal. -/
theorem ParseUint_error_of_not_literal {s : String} (h : ¬ IsUint64Literal s) :
    ∃ e, ParseUint s = .error e := by
  cases hp : ParseUint s with
  | error e => exact ⟨e, rfl⟩
  | ok v => exact absurd ((ParseUint_ok_iff s v).1 hp).1 h

end Strconv

/-! ## Lemmas on the request translator -/

namespace Etcdhttp

/-- A getter wrapped by `orRequestError` succeeds exactly when the getter does. -/
theorem orRequestError_eq_ok_iff {α : Type} (x : Except Failure α) (code : Ecode)
    (cause : String) (a : α) : orRequestError x code cause = .ok a ↔ x = .ok a := by
  cases x with
  | ok b => simp [orRequestError]
  | error e => cases e <;> simp [orRequestError]

/-- A getter wrapped by `orRequestError` fails with the given request error or
with the panic of the getter, nothing else. -/
theorem orRequestError_eq_error {α : Type} {x : Except Failure α} {code : Ecode}
    {cause : String} {e : Failure} (h : orRequestError x code cause = .error e) :
    e = .IndexOutOfRange ∨ e = .RequestError code cause := by
  cases x with
  | ok b => simp [orRequestError] at h
  | error e0 =>
    cases e0 <;> simp only [orRequestError, Except.error.injEq] at h <;> simp [← h]

/-- Every request that `parseKeyRequest` accepts passed each of its checks, and
the returned request is built from the parsed fields. -/
theorem parseKeyRequest_ok_inv {r : Request} {clock : Clock} {rr : ServerRequest}
    (h : parseKeyRequest r clock = .ok rr) :
    r.ParseFormErr = none ∧ keysPrefix.data.isPrefixOf r.Path.data = true ∧
    ∃ pIdx wIdx rec_ sort wait dir quorum stream ttl pe,
      getUint64 r.Form "prevIndex" = .ok pIdx ∧
      getUint64 r.Form "waitIndex" = .ok wIdx ∧
      getBool r.Form "recursive" = .ok rec_ ∧
      getBool r.Form "sorted" = .ok sort ∧
      getBool r.Form "wait" = .ok wait ∧
      getBool r.Form "dir" = .ok dir ∧
      getBool r.Form "quorum" = .ok quorum ∧
      getBool r.Form "stream" = .ok stream ∧
      ¬ (wait = true ∧ r.Method ≠ "GET") ∧
      ¬ ((r.Form.lookup "prevValue").isSome = true ∧ r.FormValue "prevValue" = "") ∧
      ttlField r = .ok ttl ∧
      prevExistField r = .ok pe ∧
      rr = withExpiration
        { Method := r.Method,
          Path := Path.Join [StoreKeysPrefix, String.mk (r.Path.data.drop keysPrefix.length)],
          Val := r.FormValue "value", Dir := dir, PrevValue := r.FormValue "prevValue",
          PrevIndex := pIdx, PrevExist := pe, Wait := wait, Since := wIdx,
          Recursive := rec_, Sorted := sort, Quorum := quorum, Stream := stream } ttl clock := by
  unfold parseKeyRequest at h
  simp only [bind, Except.bind, pure, Except.pure, throw, throwThe, MonadExceptOf.throw] at h
  split at h
  · exact absurd h (by simp)
  rename_i hform
  split at h
  · exact absurd h (by simp)
  rename_i hpre
  split at h
  · exact absurd h (by simp)
  rename_i pIdx h1
  split at h
  · exact absurd h (by simp)
  rename_i wIdx h2
  split at h
  · exact absurd h (by simp)
  rename_i rec_ h3
  split at h
  · exact absurd h (by simp)
  rename_i sort h4
  split at h
  · exact absurd h (by simp)
  rename_i wait h5
  split at h
  · exact absurd h (by simp)
  rename_i dir h6
  split at h
  · exact absurd h (by simp)
  rename_i quorum h7
  split at h
  · exact absurd h (by simp)
  rename_i stream h8
  split at h
  · exact absurd h (by simp)
  rename_i hwait
  split at h
  · exact absurd h (by simp)
  rename_i hpv
  split at h
  · exact absurd h (by simp)
  rename_i ttl h9
  split at h
  · exact absurd h (by simp)
  rename_i pe h10
  rw [orRequestError_eq_ok_iff] at h1 h2 h3 h4 h5 h6 h7 h8
  refine ⟨?_, by simpa using hpre, pIdx, wIdx, rec_, sort, wait, dir, quorum, stream, ttl, pe,
    h1, h2, h3, h4, h5, h6, h7, h8, hwait, hpv, h9, h10, ?_⟩
  · cases hf : r.ParseFormErr with
    | none => rfl
    | some e => exact absurd hf (hform e)
  · exact (Except.ok.inj h).symm

/-- A request that passes every check of `parseKeyRequest` is accepted, and the
returned request is built from the parsed fields. -/
theorem parseKeyRequest_eq_ok {r : Request} {clock : Clock} {pIdx wIdx : Nat}
    {rec_ sort wait dir quorum stream : Bool} {ttl : Option Nat} {pe : Option Bool}
    (hform : r.ParseFormErr = none) (hpre : keysPrefix.data.isPrefixOf r.Path.data = true)
    (h1 : getUint64 r.Form "prevIndex" = .ok pIdx)
    (h2 : getUint64 r.Form "waitIndex" = .ok wIdx)
    (h3 : getBool r.Form "recursive" = .ok rec_)
    (h4 : getBool r.Form "sorted" = .ok sort)
    (h5 : getBool r.Form "wait" = .ok wait)
    (h6 : getBool r.Form "dir" = .ok dir)
    (h7 : getBool r.Form "quorum" = .ok quorum)
    (h8 : getBool r.Form "stream" = .ok stream)
    (hwait : ¬ (wait = true ∧ r.Method ≠ "GET"))
    (hpv : ¬ ((r.Form.lookup "prevValue").isSome = true ∧ r.FormValue "prevValue" = ""))
    (h9 : ttlField r = .ok ttl) (h10 : prevExistField r = .ok pe) :
    parseKeyRequest r clock = .ok (withExpiration
        { Method := r.Method,
          Path := Path.Join [StoreKeysPrefix, String.mk (r.Path.data.drop keysPrefix.length)],
          Val := r.FormValue "value", Dir := dir, PrevValue := r.FormValue "prevValue",
          PrevIndex := pIdx, PrevExist := pe, Wait := wait, Since := wIdx,
          Recursive := rec_, Sorted := sort, Quorum := quorum, Stream := stream } ttl clock) := by
  unfold parseKeyRequest
  simp only [bind, Except.bind, pure, Except.pure, throw, throwThe, MonadExceptOf.throw]
  simp only [hform, hpre, h1, h2, h3, h4, h5, h6, h7, h8, h9, h10, orRequestError,
    Bool.not_true, Bool.false_eq_true, if_false, if_neg hwait, if_neg hpv]

/-- The field `Wait` of a request is not touched by `withExpiration`. -/
theorem withExpiration_Wait (rr : ServerRequest) (ttl : Option Nat) (clock : Clock) :
    (withExpiration rr ttl clock).Wait = rr.Wait := by
  cases ttl <;> rfl

/-- The field `Method` of a request is not touched by `withExpiration`. -/
theorem withExpiration_Method (rr : ServerRequest) (ttl : Option Nat) (clock : Clock) :
    (withExpiration rr ttl clock).Method = rr.Method := by
  cases ttl <;> rfl

/-- The field `PrevValue` of a request is not touched by `withExpiration`. -/
theorem withExpiration_PrevValue (rr : ServerRequest) (ttl : Option Nat) (clock : Clock) :
    (withExpiration rr ttl clock).PrevValue = rr.PrevValue := by
  cases ttl <;> rfl

end Etcdhttp

/-! ## The authorization gate -/

namespace Etcdhttp

open Auth

/-- With valid credentials the decision is that of the first assigned role that
loads; the roles after it are not consulted. -/
theorem hasKeyPrefixAccessRoles_eq_first (sec : Store) (key : String)
    (recursive writeAccess : Bool) (roles : List String) :
    hasKeyPrefixAccessRoles sec key recursive writeAccess roles =
      match roles.filterMap sec.GetRole with
      | [] => false
      | role :: _ => roleGrants role key recursive writeAccess := by
  induction roles with
  | nil => rfl
  | cons roleName rest ih =>
    cases h : sec.GetRole roleName with
    | none => simp [hasKeyPrefixAccessRoles, List.filterMap_cons, h, ih]
    | some role => simp [hasKeyPrefixAccessRoles, List.filterMap_cons, h, roleGrants]

/-- C1 (the code departs from the claim): `alice` authenticates, her first role
denies and her second role grants access to `/foo`, yet `hasKeyPrefixAccess`
denies, for the exact-key and for the recursive query: the loop returns the
answer of the first role that loads. -/
theorem hasKeyPrefixAccess_denies_when_second_role_grants :
    hasKeyPrefixAccess (some twoRoleStore) aliceGet "/foo" false = false ∧
    hasKeyPrefixAccess (some twoRoleStore) aliceGet "/foo" true = false ∧
    (∃ user role, twoRoleStore.GetUser "alice" = some user ∧
      user.CheckPassword "pw" = true ∧ "open" ∈ user.Roles ∧
      twoRoleStore.GetRole "open" = some role ∧
      roleGrants role "/foo" false false = true ∧
      roleGrants role "/foo" true false = true) := by
  refine ⟨by decide, by decide, ?_⟩
  exact ⟨_, _, rfl, by decide, by decide, rfl, rfl, rfl⟩

end Etcdhttp

/-! ## The request translator: `wait`, `prevValue`, `prevIndex` and `waitIndex` -/

namespace Etcdhttp

/-- A key that `List.lookup` finds is an entry of the form. -/
theorem mem_of_lookup_eq_some {form : Values} {key : String} {vals : List String}
    (h : form.lookup key = some vals) : (key, vals) ∈ form := by
  induction form with
  | nil => simp [List.lookup] at h
  | cons kv rest ih =>
    obtain ⟨k, v⟩ := kv
    by_cases hk : key = k
    · subst hk
      simp only [List.lookup, beq_self_eq_true, Option.some.injEq] at h
      subst h
      exact List.mem_cons_self _ _
    · have hne : (key == k) = false := by simpa using hk
      simp only [List.lookup, hne] at h
      exact List.mem_cons_of_mem _ (ih h)

/-- On a parsed form `getUint64` never indexes an empty slice: it succeeds or
returns the error of `strconv`. -/
theorem getUint64_ne_panic {r : Request} (hform : FormParses r) (key : String) :
    getUint64 r.Form key ≠ .error .IndexOutOfRange := by
  unfold getUint64
  split
  · simp
  · rename_i h
    exact absurd rfl (hform.2 _ (mem_of_lookup_eq_some h))
  · split <;> simp

/-- A field whose first value is not a valid unsigned 64-bit literal makes
`getUint64` return the error of `strconv`. -/
theorem getUint64_error_of_not_literal {form : Values} {key v : String} {rest : List String}
    (hv : form.lookup key = some (v :: rest)) (hbad : ¬ Strconv.IsUint64Literal v) :
    ∃ e, getUint64 form key = .error (.NumError e) := by
  obtain ⟨e, he⟩ := Strconv.ParseUint_error_of_not_literal hbad
  exact ⟨e, by simp [getUint64, hv, he]⟩

/-- C2: for every key request that passes the checks on the form, the prefix,
`prevIndex`, `waitIndex` and the six boolean fields, and whose `wait` parses to
true: with a method other than `GET` the translation fails with
`EcodeInvalidField`; the same request with method `GET`, when the later checks
pass too, is accepted with `Wait = true`. Hence every request that
`parseKeyRequest` returns with `Wait = true` has the method `GET`. -/
theorem parseKeyRequest_wait_only_with_GET (r : Request) (clock : Clock) :
    (FieldChecksPass r → getBool r.Form "wait" = .ok true → r.Method ≠ "GET" →
      parseKeyRequest r clock = .error (.RequestError .EcodeInvalidField
        "\"wait\" can only be used with GET requests")) ∧
    (FieldChecksPass r → getBool r.Form "wait" = .ok true → LateChecksPass r →
      ∃ rr, parseKeyRequest { r with Method := "GET" } clock = .ok rr ∧
        rr.Wait = true ∧ rr.Method = "GET") ∧
    (∀ rr, parseKeyRequest r clock = .ok rr → rr.Wait = true → rr.Method = "GET") := by
  refine ⟨?_, ?_, ?_⟩
  · rintro ⟨hform, hpre, ⟨pIdx, h1⟩, ⟨wIdx, h2⟩, ⟨rec_, h3⟩, ⟨sort, h4⟩, -, ⟨dir, h6⟩,
      ⟨quorum, h7⟩, ⟨stream, h8⟩⟩ h5 hm
    have hpre' : keysPrefix.data.isPrefixOf r.Path.data = true := hpre
    unfold parseKeyRequest
    simp only [bind, Except.bind, pure, Except.pure, throw, throwThe, MonadExceptOf.throw]
    simp only [hform, hpre', h1, h2, h3, h4, h5, h6, h7, h8, orRequestError,
      Bool.not_true, Bool.false_eq_true, if_false]
    simp [hm]
  · rintro ⟨hform, hpre, ⟨pIdx, h1⟩, ⟨wIdx, h2⟩, ⟨rec_, h3⟩, ⟨sort, h4⟩, -, ⟨dir, h6⟩,
      ⟨quorum, h7⟩, ⟨stream, h8⟩⟩ h5 ⟨hpv, ⟨ttl, h9⟩, ⟨pe, h10⟩⟩
    have hok := @parseKeyRequest_eq_ok { r with Method := "GET" } clock _ _ _ _ _ _ _ _ _ _
      hform hpre h1 h2 h3 h4 h5 h6 h7 h8 (by simp) hpv h9 h10
    exact ⟨_, hok, by rw [withExpiration_Wait], by rw [withExpiration_Method]⟩
  · intro rr h hw
    obtain ⟨-, -, pIdx, wIdx, rec_, sort, wait, dir, quorum, stream, ttl, pe, -, -, -, -, -,
      -, -, -, hwait, -, -, -, hrr⟩ := parseKeyRequest_ok_inv h
    subst hrr
    rw [withExpiration_Wait] at hw
    rw [withExpiration_Method]
    by_contra hm
    exact hwait ⟨hw, hm⟩

/-- C2 at the scenario of the specification: `POST /v2/keys/foo` with
`wait=true` fails with `EcodeInvalidField`, the same request with method `GET`
is accepted with `Wait = true`. -/
theorem parseKeyRequest_wait_only_with_GET_witness :
    FieldChecksPass waitPost ∧ getBool waitPost.Form "wait" = .ok true ∧
    waitPost.Method ≠ "GET" ∧ LateChecksPass waitPost ∧
    parseKeyRequest waitPost ⟨0⟩ = .error (.RequestError .EcodeInvalidField
      "\"wait\" can only be used with GET requests") ∧
    (∃ rr, parseKeyRequest { waitPost with Method := "GET" } ⟨0⟩ = .ok rr ∧
      rr.Wait = true ∧ rr.Method = "GET") := by
  have hf : FieldChecksPass waitPost :=
    ⟨rfl, rfl, ⟨0, rfl⟩, ⟨0, rfl⟩, ⟨false, rfl⟩, ⟨false, rfl⟩, ⟨true, rfl⟩, ⟨false, rfl⟩,
      ⟨false, rfl⟩, ⟨false, rfl⟩⟩
  have hw : getBool waitPost.Form "wait" = .ok true := rfl
  have hm : waitPost.Method ≠ "GET" := by decide
  have hl : LateChecksPass waitPost := ⟨by decide, ⟨none, rfl⟩, ⟨none, rfl⟩⟩
  exact ⟨hf, hw, hm, hl, (parseKeyRequest_wait_only_with_GET waitPost ⟨0⟩).1 hf hw hm,
    (parseKeyRequest_wait_only_with_GET waitPost ⟨0⟩).2.1 hf hw hl⟩

/-- The nullable `ttl` fails with `EcodeTTLNaN` or with the panic of the getter,
nothing else. -/
theorem ttlField_eq_error {r : Request} {e : Failure} (h : ttlField r = .error e) :
    e = .IndexOutOfRange ∨ e = .RequestError .EcodeTTLNaN "invalid value for \"ttl\"" := by
  unfold ttlField at h
  split at h
  · split at h
    · exact absurd h (by simp)
    · rename_i e0 he
      obtain rfl : e0 = e := by simpa using h
      exact orRequestError_eq_error he
  · exact absurd h (by simp)

/-- The nullable `prevExist` fails with `EcodeInvalidField` or with the panic of
the getter, nothing else. -/
theorem prevExistField_eq_error {r : Request} {e : Failure}
    (h : prevExistField r = .error e) :
    e = .IndexOutOfRange ∨ e = .RequestError .EcodeInvalidField "invalid value for prevExist" := by
  unfold prevExistField at h
  split at h
  · split at h
    · exact absurd h (by simp)
    · rename_i e0 he
      obtain rfl : e0 = e := by simpa using h
      exact orRequestError_eq_error he
  · exact absurd h (by simp)

/-- C9: for every key request that passes the checks up to the one on `wait`
and the method, a form that contains `prevValue` with the empty string as its
first value makes the translation fail with `EcodePrevValueRequired`. Hence
every accepted request whose form supplies `prevValue` has a non-empty
`PrevValue` (the first value of the field), and a form without `prevValue`
gives `PrevValue = ""` and never the error `EcodePrevValueRequired`. -/
theorem parseKeyRequest_prevValue_required (r : Request) (clock : Clock) :
    (∀ rest, FieldChecksPass r → WaitCheckPasses r →
      r.Form.lookup "prevValue" = some ("" :: rest) →
      parseKeyRequest r clock = .error (.RequestError .EcodePrevValueRequired
        "\"prevValue\" cannot be empty")) ∧
    (∀ rr, parseKeyRequest r clock = .ok rr → (r.Form.lookup "prevValue").isSome = true →
      rr.PrevValue ≠ "" ∧ rr.PrevValue = r.FormValue "prevValue") ∧
    (r.Form.lookup "prevValue" = none →
      (∀ rr, parseKeyRequest r clock = .ok rr → rr.PrevValue = "") ∧
      ∀ cause, parseKeyRequest r clock ≠
        .error (.RequestError .EcodePrevValueRequired cause)) := by
  refine ⟨?_, ?_, ?_⟩
  · rintro rest ⟨hform, hpre, ⟨pIdx, h1⟩, ⟨wIdx, h2⟩, ⟨rec_, h3⟩, ⟨sort, h4⟩, ⟨wait, h5⟩,
      ⟨dir, h6⟩, ⟨quorum, h7⟩, ⟨stream, h8⟩⟩ hwait hpv
    have hpre' : keysPrefix.data.isPrefixOf r.Path.data = true := hpre
    have hw : ¬ (wait = true ∧ r.Method ≠ "GET") := by
      rintro ⟨hw, hm⟩
      exact hwait ⟨by rw [h5, hw], hm⟩
    have hfv : r.FormValue "prevValue" = "" := by simp [Request.FormValue, hpv]
    unfold parseKeyRequest
    simp only [bind, Except.bind, pure, Except.pure, throw, throwThe, MonadExceptOf.throw]
    simp only [hform, hpre', h1, h2, h3, h4, h5, h6, h7, h8, orRequestError,
      Bool.not_true, Bool.false_eq_true, if_false, if_neg hw]
    simp [hpv, hfv]
  · intro rr h hsome
    obtain ⟨-, -, pIdx, wIdx, rec_, sort, wait, dir, quorum, stream, ttl, pe, -, -, -, -, -,
      -, -, -, -, hpv, -, -, hrr⟩ := parseKeyRequest_ok_inv h
    subst hrr
    rw [withExpiration_PrevValue]
    exact ⟨fun he => hpv ⟨hsome, he⟩, rfl⟩
  · intro hnone
    have hfv : r.FormValue "prevValue" = "" := by simp [Request.FormValue, hnone]
    refine ⟨?_, ?_⟩
    · intro rr h
      obtain ⟨-, -, pIdx, wIdx, rec_, sort, wait, dir, quorum, stream, ttl, pe, -, -, -, -, -,
        -, -, -, -, -, -, -, hrr⟩ := parseKeyRequest_ok_inv h
      subst hrr
      rw [withExpiration_PrevValue]
      exact hfv
    · intro cause h
      unfold parseKeyRequest at h
      simp only [bind, Except.bind, pure, Except.pure, throw, throwThe, MonadExceptOf.throw]
        at h
      split at h
      · exact absurd h (by simp)
      split at h
      · exact absurd h (by simp)
      split at h
      · rename_i he; rcases orRequestError_eq_error he with rfl | rfl <;> simp at h
      split at h
      · rename_i he; rcases orRequestError_eq_error he with rfl | rfl <;> simp at h
      split at h
      · rename_i he; rcases orRequestError_eq_error he with rfl | rfl <;> simp at h
      split at h
      · rename_i he; rcases orRequestError_eq_error he with rfl | rfl <;> simp at h
      split at h
      · rename_i he; rcases orRequestError_eq_error he with rfl | rfl <;> simp at h
      split at h
      · rename_i he; rcases orRequestError_eq_error he with rfl | rfl <;> simp at h
      split at h
      · rename_i he; rcases orRequestError_eq_error he with rfl | rfl <;> simp at h
      split at h
      · rename_i he; rcases orRequestError_eq_error he with rfl | rfl <;> simp at h
      split at h
      · exact absurd h (by simp)
      split at h
      · rename_i hpv
        rw [hnone] at hpv
        exact absurd hpv.1 (by simp)
      split at h
      · rename_i he; rcases ttlField_eq_error he with rfl | rfl <;> simp at h
      split at h
      · rename_i he; rcases prevExistField_eq_error he with rfl | rfl <;> simp at h
      · exact absurd h (by simp)

/-- C9 on sample requests: a `PUT` with `prevValue=` (empty) fails with
`EcodePrevValueRequired`; a `PUT` with `prevValue=old` is accepted with
`PrevValue = "old"`; a request without `prevValue` is accepted with an empty
`PrevValue`. -/
theorem parseKeyRequest_prevValue_required_witness :
    (FieldChecksPass emptyPrevValuePut ∧ WaitCheckPasses emptyPrevValuePut ∧
      emptyPrevValuePut.Form.lookup "prevValue" = some [""] ∧
      parseKeyRequest emptyPrevValuePut ⟨0⟩ = .error (.RequestError .EcodePrevValueRequired
        "\"prevValue\" cannot be empty")) ∧
    (∃ rr, parseKeyRequest prevValuePut ⟨0⟩ = .ok rr ∧ rr.PrevValue ≠ "" ∧
      rr.PrevValue = "old") ∧
    (∃ rr, parseKeyRequest { waitPost with Method := "GET" } ⟨0⟩ = .ok rr ∧
      rr.PrevValue = "") := by
  have hf : FieldChecksPass emptyPrevValuePut :=
    ⟨rfl, rfl, ⟨0, rfl⟩, ⟨0, rfl⟩, ⟨false, rfl⟩, ⟨false, rfl⟩, ⟨false, rfl⟩, ⟨false, rfl⟩,
      ⟨false, rfl⟩, ⟨false, rfl⟩⟩
  have hw : WaitCheckPasses emptyPrevValuePut := fun h =>
    Bool.noConfusion (Except.ok.inj (show (Except.ok false : Except Failure Bool) = .ok true
      from h.1))
  refine ⟨⟨hf, hw, rfl,
    (parseKeyRequest_prevValue_required emptyPrevValuePut ⟨0⟩).1 [] hf hw rfl⟩, ?_, ?_⟩
  · obtain ⟨rr, hrr⟩ : ∃ rr, parseKeyRequest prevValuePut ⟨0⟩ = .ok rr := ⟨_, rfl⟩
    have h := (parseKeyRequest_prevValue_required prevValuePut ⟨0⟩).2.1 rr hrr rfl
    exact ⟨rr, hrr, h.1, h.2⟩
  · obtain ⟨rr, hrr⟩ : ∃ rr, parseKeyRequest { waitPost with Method := "GET" } ⟨0⟩ = .ok rr :=
      ⟨_, rfl⟩
    exact ⟨rr, hrr,
      ((parseKeyRequest_prevValue_required { waitPost with Method := "GET" } ⟨0⟩).2.2 rfl).1
        rr hrr⟩

/-- C10: for every key request whose form parses and whose path has the keys
prefix, if `prevIndex` or `waitIndex` is present with a first value that is
not a valid base-10 unsigned 64-bit integer, the translation fails with
`EcodeIndexNaN`, whatever the other fields and the method are. -/
theorem parseKeyRequest_index_not_a_number (r : Request) (clock : Clock)
    (hform : FormParses r) (hpre : HasKeysPrefix r) (v : String) (rest : List String)
    (hv : r.Form.lookup "prevIndex" = some (v :: rest) ∨
      r.Form.lookup "waitIndex" = some (v :: rest))
    (hbad : ¬ Strconv.IsUint64Literal v) :
    ∃ cause, parseKeyRequest r clock = .error (.RequestError .EcodeIndexNaN cause) := by
  have hpre' : keysPrefix.data.isPrefixOf r.Path.data = true := hpre
  unfold parseKeyRequest
  simp only [bind, Except.bind, pure, Except.pure, throw, throwThe, MonadExceptOf.throw]
  simp only [hform.1, hpre', Bool.not_true, Bool.false_eq_true, if_false]
  rcases hv with hv | hv
  · obtain ⟨e, he⟩ := getUint64_error_of_not_literal hv hbad
    exact ⟨"invalid value for \"prevIndex\"", by simp only [he, orRequestError]⟩
  · cases hp : getUint64 r.Form "prevIndex" with
    | ok pIdx =>
      obtain ⟨e, he⟩ := getUint64_error_of_not_literal hv hbad
      exact ⟨"invalid value for \"waitIndex\"", by simp only [he, orRequestError]⟩
    | error e =>
      cases e with
      | IndexOutOfRange => exact absurd hp (getUint64_ne_panic hform _)
      | NumError e => exact ⟨"invalid value for \"prevIndex\"", by simp only [orRequestError]⟩
      | RequestError code cause =>
        exact ⟨"invalid value for \"prevIndex\"", by simp only [orRequestError]⟩

/-- C10 on sample requests: an empty `prevIndex`, a signed one, one with a
letter and one equal to `2^64`, and a `waitIndex` above `2^64 - 1` next to a
valid `prevIndex`, all fail with `EcodeIndexNaN`. -/
theorem parseKeyRequest_index_not_a_number_witness :
    (FormParses (prevIndexGet "") ∧ HasKeysPrefix (prevIndexGet "") ∧
      ¬ Strconv.IsUint64Literal "" ∧
      ∃ cause, parseKeyRequest (prevIndexGet "") ⟨0⟩ =
        .error (.RequestError .EcodeIndexNaN cause)) ∧
    (¬ Strconv.IsUint64Literal "-1" ∧
      ∃ cause, parseKeyRequest (prevIndexGet "-1") ⟨0⟩ =
        .error (.RequestError .EcodeIndexNaN cause)) ∧
    (¬ Strconv.IsUint64Literal "12a" ∧
      ∃ cause, parseKeyRequest (prevIndexGet "12a") ⟨0⟩ =
        .error (.RequestError .EcodeIndexNaN cause)) ∧
    (¬ Strconv.IsUint64Literal "18446744073709551616" ∧
      ∃ cause, parseKeyRequest (prevIndexGet "18446744073709551616") ⟨0⟩ =
        .error (.RequestError .EcodeIndexNaN cause)) ∧
    (¬ Strconv.IsUint64Literal "99999999999999999999" ∧
      ∃ cause, parseKeyRequest (waitIndexGet "99999999999999999999") ⟨0⟩ =
        .error (.RequestError .EcodeIndexNaN cause)) := by
  have hp : ∀ v, FormParses (prevIndexGet v) := fun v =>
    ⟨rfl, by simp [prevIndexGet]⟩
  have hw : ∀ v, FormParses (waitIndexGet v) := fun v =>
    ⟨rfl, by simp [waitIndexGet]⟩
  refine ⟨⟨hp _, rfl, by decide, ?_⟩, ⟨by decide, ?_⟩, ⟨by decide, ?_⟩, ⟨by decide, ?_⟩,
    ⟨by decide, ?_⟩⟩
  · exact parseKeyRequest_index_not_a_number _ ⟨0⟩ (hp _) rfl "" [] (Or.inl rfl) (by decide)
  · exact parseKeyRequest_index_not_a_number _ ⟨0⟩ (hp _) rfl "-1" [] (Or.inl rfl) (by decide)
  · exact parseKeyRequest_index_not_a_number _ ⟨0⟩ (hp _) rfl "12a" [] (Or.inl rfl) (by decide)
  · exact parseKeyRequest_index_not_a_number _ ⟨0⟩ (hp _) rfl "18446744073709551616" []
      (Or.inl rfl) (by decide)
  · exact parseKeyRequest_index_not_a_number _ ⟨0⟩ (hw _) rfl "99999999999999999999" []
      (Or.inr rfl) (by decide)

end Etcdhttp

/-! ## The configuration-change validator -/

namespace Etcdserver

open ServerError ConfChangeType

/-- A collision is reported exactly when a candidate URL is a peer URL of one of
the given members. -/
theorem peerURLCollision_iff (urls : List String) (others : List Member) :
    peerURLCollision urls others = true ↔ ∃ u ∈ urls, ∃ m ∈ others, u ∈ m.PeerURLs := by
  simp [peerURLCollision, List.any_eq_true]

/-- The records of the active members are the values of the member map. -/
theorem mem_activeMembers (c : Cluster) (m : Member) :
    m ∈ c.activeMembers ↔ ∃ e ∈ c.members.entries, e.2 = m := by
  simp [Cluster.activeMembers]

/-- The records of the other members are the values stored under another ID. -/
theorem mem_otherMembers (c : Cluster) (id : Nat) (m : Member) :
    m ∈ c.otherMembers id ↔ ∃ e ∈ c.members.entries, e.1 ≠ id ∧ e.2 = m := by
  simp [Cluster.otherMembers, and_assoc]

/-- The validator modelled from the specification returns, on each of the ten
cases of `TestClusterValidateConfigurationChange`, the error the test expects. -/
theorem validate_agrees_with_test :
    validate testDecode testCluster ⟨RemoveNode, 3, []⟩ = .returns none ∧
    validate testDecode testCluster ⟨AddNode, 4, []⟩ = .returns (some ErrIDRemoved) ∧
    validate testDecode testCluster ⟨RemoveNode, 4, []⟩ = .returns (some ErrIDRemoved) ∧
    validate testDecode testCluster ⟨AddNode, 1, []⟩ = .returns (some ErrIDExists) ∧
    validate testDecode testCluster ⟨AddNode, 5, [5, 1]⟩ = .returns (some ErrPeerURLexists) ∧
    validate testDecode testCluster ⟨RemoveNode, 5, []⟩ = .returns (some ErrIDNotFound) ∧
    validate testDecode testCluster ⟨AddNode, 5, [5, 5]⟩ = .returns none ∧
    validate testDecode testCluster ⟨UpdateNode, 5, [5, 1]⟩ = .returns (some ErrIDNotFound) ∧
    validate testDecode testCluster ⟨UpdateNode, 2, [2, 3]⟩ =
      .returns (some ErrPeerURLexists) ∧
    validate testDecode testCluster ⟨UpdateNode, 2, [2, 5]⟩ = .returns none := by
  decide

/-- C3: for every cluster state and every configuration change whose `NodeID`
is in the removed set, the result is `ErrIDRemoved`, whatever the kind, the
context and the rest of the state: the check comes first. -/
theorem ValidateConfigurationChange_removed (decode : List Nat → Option Member)
    (c : Cluster) (cc : ConfChange) (h : cc.NodeID ∈ c.removed) :
    (ValidateConfigurationChange decode c cc).2 = .returns (some ErrIDRemoved) := by
  simp [ValidateConfigurationChange, validate, h]

/-- C3 on the cluster of the test: member 4 was removed, and adding, removing
or updating node 4 gives `ErrIDRemoved`. -/
theorem ValidateConfigurationChange_removed_witness :
    4 ∈ testCluster.removed ∧
    (ValidateConfigurationChange testDecode testCluster ⟨AddNode, 4, []⟩).2 =
      .returns (some ErrIDRemoved) ∧
    (ValidateConfigurationChange testDecode testCluster ⟨RemoveNode, 4, []⟩).2 =
      .returns (some ErrIDRemoved) ∧
    (ValidateConfigurationChange testDecode testCluster ⟨UpdateNode, 4, [4, 1]⟩).2 =
      .returns (some ErrIDRemoved) :=
  ⟨by decide,
    ValidateConfigurationChange_removed testDecode testCluster ⟨AddNode, 4, []⟩ (by decide),
    ValidateConfigurationChange_removed testDecode testCluster ⟨RemoveNode, 4, []⟩ (by decide),
    ValidateConfigurationChange_removed testDecode testCluster ⟨UpdateNode, 4, [4, 1]⟩
      (by decide)⟩

/-- C4: for every cluster state, an `AddNode` change whose `NodeID` is an active
member (in the member map and not removed) gives `ErrIDExists`, whatever the
context is and whether it decodes or not. -/
theorem ValidateConfigurationChange_add_existing (decode : List Nat → Option Member)
    (c : Cluster) (id : Nat) (ctx : List Nat) (hact : id ∈ c.members)
    (hnr : id ∉ c.removed) :
    (ValidateConfigurationChange decode c ⟨AddNode, id, ctx⟩).2 =
      .returns (some ErrIDExists) := by
  have hs : (c.members.lookup id).isSome = true := AList.lookup_isSome.2 hact
  simp [ValidateConfigurationChange, validate, hnr, hs]

/-- C4 on the cluster of the test: adding node 1 gives `ErrIDExists` with an
empty context, with one that does not decode and with one that decodes. -/
theorem ValidateConfigurationChange_add_existing_witness :
    1 ∈ testCluster.members ∧ 1 ∉ testCluster.removed ∧ testDecode [] = none ∧
    testDecode [9, 9, 9] = none ∧
    (ValidateConfigurationChange testDecode testCluster ⟨AddNode, 1, []⟩).2 =
      .returns (some ErrIDExists) ∧
    (ValidateConfigurationChange testDecode testCluster ⟨AddNode, 1, [9, 9, 9]⟩).2 =
      .returns (some ErrIDExists) ∧
    (ValidateConfigurationChange testDecode testCluster ⟨AddNode, 1, [1, 5]⟩).2 =
      .returns (some ErrIDExists) :=
  ⟨by decide, by decide, rfl, rfl,
    ValidateConfigurationChange_add_existing testDecode testCluster 1 [] (by decide)
      (by decide),
    ValidateConfigurationChange_add_existing testDecode testCluster 1 [9, 9, 9] (by decide)
      (by decide),
    ValidateConfigurationChange_add_existing testDecode testCluster 1 [1, 5] (by decide)
      (by decide)⟩

/-- C5: for every cluster state, an `AddNode` change for a `NodeID` that is
neither active nor removed, whose decoded candidate shares a peer URL with
some active member, gives `ErrPeerURLexists`; and an `UpdateNode` change for
an active `NodeID`, whose decoded candidate shares a peer URL with an active
member stored under another ID, gives `ErrPeerURLexists`. -/
theorem ValidateConfigurationChange_peerURL_exists (decode : List Nat → Option Member)
    (c : Cluster) (id : Nat) (ctx : List Nat) (m : Member) (hnr : id ∉ c.removed)
    (hdec : decode ctx = some m) :
    (id ∉ c.members →
      (∃ e ∈ c.members.entries, ∃ u ∈ m.PeerURLs, u ∈ e.2.PeerURLs) →
      (ValidateConfigurationChange decode c ⟨AddNode, id, ctx⟩).2 =
        .returns (some ErrPeerURLexists)) ∧
    (id ∈ c.members →
      (∃ e ∈ c.members.entries, e.1 ≠ id ∧ ∃ u ∈ m.PeerURLs, u ∈ e.2.PeerURLs) →
      (ValidateConfigurationChange decode c ⟨UpdateNode, id, ctx⟩).2 =
        .returns (some ErrPeerURLexists)) := by
  constructor
  · rintro hna ⟨e, he, u, hu, hue⟩
    have hn : c.members.lookup id = none := AList.lookup_eq_none.2 hna
    have hcol : peerURLCollision m.PeerURLs c.activeMembers = true :=
      (peerURLCollision_iff _ _).2 ⟨u, hu, e.2, (mem_activeMembers c e.2).2 ⟨e, he, rfl⟩, hue⟩
    simp [ValidateConfigurationChange, validate, hnr, hn, hdec, hcol]
  · rintro hact ⟨e, he, hne, u, hu, hue⟩
    have hs : (c.members.lookup id).isSome = true := AList.lookup_isSome.2 hact
    have hn : (c.members.lookup id).isNone = false := by
      cases h : c.members.lookup id with
      | none => simp [h] at hs
      | some x => rfl
    have hcol : peerURLCollision m.PeerURLs (c.otherMembers id) = true :=
      (peerURLCollision_iff _ _).2
        ⟨u, hu, e.2, (mem_otherMembers c id e.2).2 ⟨e, he, hne, rfl⟩, hue⟩
    simp [ValidateConfigurationChange, validate, hnr, hn, hdec, hcol]

/-- C5 on the cluster of the test: adding node 5 with the peer URL of member 1,
and updating member 2 to the peer URL of member 3, give `ErrPeerURLexists`. -/
theorem ValidateConfigurationChange_peerURL_exists_witness :
    (5 ∉ testCluster.removed ∧ 5 ∉ testCluster.members ∧
      testDecode [5, 1] = some (testMember 5 1) ∧
      (ValidateConfigurationChange testDecode testCluster ⟨AddNode, 5, [5, 1]⟩).2 =
        .returns (some ErrPeerURLexists)) ∧
    (2 ∉ testCluster.removed ∧ 2 ∈ testCluster.members ∧
      testDecode [2, 3] = some (testMember 2 3) ∧
      (ValidateConfigurationChange testDecode testCluster ⟨UpdateNode, 2, [2, 3]⟩).2 =
        .returns (some ErrPeerURLexists)) :=
  ⟨⟨by decide, by decide, rfl,
    (ValidateConfigurationChange_peerURL_exists testDecode testCluster 5 [5, 1]
      (testMember 5 1) (by decide) rfl).1 (by decide)
      ⟨⟨1, testMember 1 1⟩, by decide, testURL 1, by decide, by decide⟩⟩,
   ⟨by decide, by decide, rfl,
    (ValidateConfigurationChange_peerURL_exists testDecode testCluster 2 [2, 3]
      (testMember 2 3) (by decide) rfl).2 (by decide)
      ⟨⟨3, testMember 3 3⟩, by decide, by decide, testURL 3, by decide, by decide⟩⟩⟩

/-- C6: for every cluster state, an `UpdateNode` change for an active `NodeID`
whose decoded candidate shares no peer URL with an active member stored under
another ID is accepted (nil error); the peer URLs of the member itself do not
count, so reusing them is accepted as well. -/
theorem ValidateConfigurationChange_update_accepted (decode : List Nat → Option Member)
    (c : Cluster) (id : Nat) (ctx : List Nat) (m : Member) (hnr : id ∉ c.removed)
    (hact : id ∈ c.members) (hdec : decode ctx = some m)
    (hfree : ∀ e ∈ c.members.entries, e.1 ≠ id → ∀ u ∈ m.PeerURLs, u ∉ e.2.PeerURLs) :
    (ValidateConfigurationChange decode c ⟨UpdateNode, id, ctx⟩).2 = .returns none := by
  have hs : (c.members.lookup id).isSome = true := AList.lookup_isSome.2 hact
  have hn : (c.members.lookup id).isNone = false := by
    cases h : c.members.lookup id with
    | none => simp [h] at hs
    | some x => rfl
  have hcol : peerURLCollision m.PeerURLs (c.otherMembers id) = false := by
    cases hc : peerURLCollision m.PeerURLs (c.otherMembers id) with
    | false => rfl
    | true =>
      obtain ⟨u, hu, m', hm', hum⟩ := (peerURLCollision_iff _ _).1 hc
      obtain ⟨e, he, hne, rfl⟩ := (mem_otherMembers c id m').1 hm'
      exact absurd hum (hfree e he hne u hu)
  simp [ValidateConfigurationChange, validate, hnr, hn, hdec, hcol]

/-- C6 on the cluster of the test: updating member 2 to its own current peer
URL, and to a URL that no member uses, is accepted. -/
theorem ValidateConfigurationChange_update_accepted_witness :
    2 ∉ testCluster.removed ∧ 2 ∈ testCluster.members ∧
    testCluster.members.lookup 2 = some (testMember 2 2) ∧
    (ValidateConfigurationChange testDecode testCluster ⟨UpdateNode, 2, [2, 2]⟩).2 =
      .returns none ∧
    (ValidateConfigurationChange testDecode testCluster ⟨UpdateNode, 2, [2, 5]⟩).2 =
      .returns none :=
  ⟨by decide, by decide, by decide,
    ValidateConfigurationChange_update_accepted testDecode testCluster 2 [2, 2]
      (testMember 2 2) (by decide) (by decide) rfl (by decide),
    ValidateConfigurationChange_update_accepted testDecode testCluster 2 [2, 5]
      (testMember 2 5) (by decide) (by decide) rfl (by decide)⟩

/-- C7: for every cluster state and every `NodeID` that is neither active nor
removed, a `RemoveNode` change and an `UpdateNode` change both give
`ErrIDNotFound`, whatever the context; a `RemoveNode` change for an active
`NodeID` is accepted. -/
theorem ValidateConfigurationChange_not_found (decode : List Nat → Option Member)
    (c : Cluster) (id : Nat) (ctx : List Nat) (hnr : id ∉ c.removed) :
    (id ∉ c.members →
      (ValidateConfigurationChange decode c ⟨RemoveNode, id, ctx⟩).2 =
        .returns (some ErrIDNotFound) ∧
      (ValidateConfigurationChange decode c ⟨UpdateNode, id, ctx⟩).2 =
        .returns (some ErrIDNotFound)) ∧
    (id ∈ c.members →
      (ValidateConfigurationChange decode c ⟨RemoveNode, id, ctx⟩).2 = .returns none) := by
  constructor
  · intro hna
    have hn : c.members.lookup id = none := AList.lookup_eq_none.2 hna
    simp [ValidateConfigurationChange, validate, hnr, hn]
  · intro hact
    have hs : (c.members.lookup id).isSome = true := AList.lookup_isSome.2 hact
    have hn : (c.members.lookup id).isNone = false := by
      cases h : c.members.lookup id with
      | none => simp [h] at hs
      | some x => rfl
    simp [ValidateConfigurationChange, validate, hnr, hn]

/-- C7 on the cluster of the test: node 5 was never seen, removing or updating
it gives `ErrIDNotFound`; removing the active member 3 is accepted. -/
theorem ValidateConfigurationChange_not_found_witness :
    (5 ∉ testCluster.removed ∧ 5 ∉ testCluster.members ∧
      (ValidateConfigurationChange testDecode testCluster ⟨RemoveNode, 5, []⟩).2 =
        .returns (some ErrIDNotFound) ∧
      (ValidateConfigurationChange testDecode testCluster ⟨UpdateNode, 5, []⟩).2 =
        .returns (some ErrIDNotFound)) ∧
    (3 ∉ testCluster.removed ∧ 3 ∈ testCluster.members ∧
      (ValidateConfigurationChange testDecode testCluster ⟨RemoveNode, 3, []⟩).2 =
        .returns none) :=
  ⟨⟨by decide, by decide,
    (ValidateConfigurationChange_not_found testDecode testCluster 5 [] (by decide)).1
      (by decide)⟩,
   ⟨by decide, by decide,
    (ValidateConfigurationChange_not_found testDecode testCluster 3 [] (by decide)).2
      (by decide)⟩⟩

end Etcdserver

/-! ## The authorization gate: guests, failed credentials, disabled authorization -/

namespace Etcdhttp

open Auth

/-- The loop of `hasRootAccess` finds the root role exactly when it is among the
roles of the user. -/
theorem hasRootRole_iff (roles : List String) :
    hasRootRole roles = true ↔ RootRoleName ∈ roles := by
  induction roles with
  | nil => simp [hasRootRole]
  | cons role rest ih =>
    by_cases h : role = RootRoleName
    · simp [hasRootRole, h]
    · have h' : ¬ RootRoleName = role := fun e => h e.symm
      simp [hasRootRole, h, h', ih]

/-- C16: with authorization enabled and no basic-auth credentials,
`hasKeyPrefixAccess` is true exactly when the guest role loads and its
`HasKeyAccess` grants the key in the read/write mode of the method (write is
any method other than `GET` and `HEAD`). The recursive flag does not change
the answer, and neither does any other part of the store: two stores with
the same guest role give the same answer. -/
theorem hasKeyPrefixAccess_guest_only (sec : Store) (r : Request) (key : String)
    (recursive : Bool) (hen : sec.AuthEnabled = true) (hno : r.BasicAuth = none) :
    (hasKeyPrefixAccess (some sec) r key recursive = true ↔
      ∃ role, sec.GetRole GuestRoleName = some role ∧
        role.HasKeyAccess key (decide (r.Method ≠ "GET" ∧ r.Method ≠ "HEAD")) = true) ∧
    hasKeyPrefixAccess (some sec) r key (!recursive) =
      hasKeyPrefixAccess (some sec) r key recursive ∧
    (∀ sec' : Store, sec'.AuthEnabled = true →
      sec'.GetRole GuestRoleName = sec.GetRole GuestRoleName →
      hasKeyPrefixAccess (some sec') r key recursive =
        hasKeyPrefixAccess (some sec) r key recursive) := by
  refine ⟨?_, ?_, ?_⟩
  · simp only [hasKeyPrefixAccess, hen, hno, hasGuestAccess, Bool.not_true,
      Bool.false_eq_true, if_false]
    cases hg : sec.GetRole GuestRoleName with
    | none => simp
    | some role => simp
  · simp only [hasKeyPrefixAccess, hen, hno, Bool.not_true, Bool.false_eq_true, if_false]
  · intro sec' hen' hg
    simp only [hasKeyPrefixAccess, hen, hen', hno, hasGuestAccess, hg, Bool.not_true,
      Bool.false_eq_true, if_false]

/-- C16 on the sample store: without credentials a `GET` of `/public` is allowed
by the guest role, a `PUT` of `/public` and a `GET` of `/private` are not,
with either value of the recursive flag. -/
theorem hasKeyPrefixAccess_guest_only_witness :
    gateStore.AuthEnabled = true ∧ (publicRequest "GET" none).BasicAuth = none ∧
    hasKeyPrefixAccess (some gateStore) (publicRequest "GET" none) "/public" false = true ∧
    hasKeyPrefixAccess (some gateStore) (publicRequest "GET" none) "/public" true = true ∧
    hasKeyPrefixAccess (some gateStore) (publicRequest "PUT" none) "/public" false = false ∧
    hasKeyPrefixAccess (some gateStore) (publicRequest "GET" none) "/private" false = false :=
  ⟨rfl, rfl,
    (hasKeyPrefixAccess_guest_only gateStore (publicRequest "GET" none) "/public" false rfl
      rfl).1.2 ⟨publicReader, rfl, by decide⟩,
    by decide, by decide, by decide⟩

/-- C17: with authorization enabled, a request whose basic-auth credentials name
an unknown user, or a known user whose password does not check, is denied by
`hasKeyPrefixAccess` and by `hasRootAccess`, for every key, method and
recursive flag, whatever the guest role grants. -/
theorem access_denied_on_failed_credentials (sec : Store) (r : Request) (key : String)
    (recursive : Bool) (username password : String) (hen : sec.AuthEnabled = true)
    (hcred : r.BasicAuth = some (username, password))
    (hbad : sec.GetUser username = none ∨
      ∃ user, sec.GetUser username = some user ∧ user.CheckPassword password = false) :
    hasKeyPrefixAccess (some sec) r key recursive = false ∧
    hasRootAccess (some sec) r = false := by
  rcases hbad with hnone | ⟨user, hsome, hpw⟩
  · simp [hasKeyPrefixAccess, hasRootAccess, hen, hcred, hnone]
  · simp [hasKeyPrefixAccess, hasRootAccess, hen, hcred, hsome, hpw]

/-- C17 on the sample store: the guest role grants a `GET` of `/public`, yet the
unknown user `eve` and the user `root` with a wrong password are denied. -/
theorem access_denied_on_failed_credentials_witness :
    hasKeyPrefixAccess (some gateStore) (publicRequest "GET" none) "/public" false = true ∧
    gateStore.GetUser "eve" = none ∧
    (hasKeyPrefixAccess (some gateStore) (publicRequest "GET" (some ("eve", "x")))
        "/public" false = false ∧
      hasRootAccess (some gateStore) (publicRequest "GET" (some ("eve", "x"))) = false) ∧
    (hasKeyPrefixAccess (some gateStore) (publicRequest "GET" (some ("root", "wrong")))
        "/public" false = false ∧
      hasRootAccess (some gateStore) (publicRequest "GET" (some ("root", "wrong"))) = false) :=
  ⟨by decide, rfl,
    access_denied_on_failed_credentials gateStore (publicRequest "GET" (some ("eve", "x")))
      "/public" false "eve" "x" rfl rfl (Or.inl rfl),
    access_denied_on_failed_credentials gateStore
      (publicRequest "GET" (some ("root", "wrong"))) "/public" false "root" "wrong" rfl rfl
      (Or.inr ⟨_, rfl, by decide⟩)⟩

/-- C18: without an auth store, and with a store whose authorization is
disabled, `hasKeyPrefixAccess` and `hasRootAccess` return true for every
request, key, method and recursive flag, whatever credentials the request
carries. -/
theorem access_allowed_when_auth_disabled (r : Request) (key : String) (recursive : Bool) :
    (hasKeyPrefixAccess none r key recursive = true ∧ hasRootAccess none r = true) ∧
    (∀ sec : Store, sec.AuthEnabled = false →
      hasKeyPrefixAccess (some sec) r key recursive = true ∧
      hasRootAccess (some sec) r = true) := by
  refine ⟨⟨rfl, rfl⟩, ?_⟩
  intro sec hdis
  simp [hasKeyPrefixAccess, hasRootAccess, hdis]

/-- C18 on the sample store with authorization disabled: a `PUT` of `/private`
with the credentials of an unknown user is allowed, and has root access. -/
theorem access_allowed_when_auth_disabled_witness :
    disabledStore.AuthEnabled = false ∧ disabledStore.GetUser "eve" = none ∧
    hasKeyPrefixAccess (some disabledStore) (publicRequest "PUT" (some ("eve", "x")))
      "/private" true = true ∧
    hasRootAccess (some disabledStore) (publicRequest "PUT" (some ("eve", "x"))) = true :=
  ⟨rfl, rfl,
    (access_allowed_when_auth_disabled (publicRequest "PUT" (some ("eve", "x"))) "/private"
      true).2 disabledStore rfl⟩

/-- C19 (as stated it fails): a `PUT` without any credentials has write root
access when no auth store is configured, and when the store has authorization
disabled; so a true result for a method other than `GET` and `HEAD` does not
imply that credentials authenticate a user holding the root role. -/
theorem hasWriteRootAccess_true_without_credentials :
    (publicRequest "PUT" none).Method ≠ "GET" ∧ (publicRequest "PUT" none).Method ≠ "HEAD" ∧
    (publicRequest "PUT" none).BasicAuth = none ∧
    hasWriteRootAccess none (publicRequest "PUT" none) = true ∧
    hasWriteRootAccess (some disabledStore) (publicRequest "PUT" none) = true ∧
    ¬ (∀ (sec : Option Store) (r : Request), r.Method ≠ "GET" → r.Method ≠ "HEAD" →
      hasWriteRootAccess sec r = true → AuthenticatesRoot sec r) := by
  refine ⟨by decide, by decide, rfl, by decide, by decide, ?_⟩
  intro h
  obtain ⟨s, u, p, user, -, hcred, -⟩ :=
    h (some disabledStore) (publicRequest "PUT" none) (by decide) (by decide) (by decide)
  exact absurd hcred (by simp [publicRequest])

/-- C19 (amended): a request with method `GET` or `HEAD` has write root access
whatever the store and the credentials are; with an auth store configured
and authorization enabled, a request with any other method has write root
access exactly when its credentials authenticate a user (the user exists and
the password checks) whose assigned roles include the root role. -/
theorem hasWriteRootAccess_iff (sec : Option Store) (r : Request) :
    (r.Method = "GET" ∨ r.Method = "HEAD" → hasWriteRootAccess sec r = true) ∧
    (∀ s : Store, sec = some s → s.AuthEnabled = true → r.Method ≠ "GET" →
      r.Method ≠ "HEAD" → (hasWriteRootAccess sec r = true ↔ AuthenticatesRoot sec r)) := by
  constructor
  · intro hm
    simp [hasWriteRootAccess, hm]
  · rintro s rfl hen hg hh
    have hm : ¬ (r.Method = "GET" ∨ r.Method = "HEAD") := by
      rintro (h | h)
      · exact hg h
      · exact hh h
    simp only [hasWriteRootAccess, if_neg hm, hasRootAccess, hen, Bool.not_true,
      Bool.false_eq_true, if_false, AuthenticatesRoot]
    constructor
    · intro h
      cases hc : r.BasicAuth with
      | none => simp [hc] at h
      | some cred =>
        obtain ⟨username, password⟩ := cred
        simp only [hc] at h
        cases hu : s.GetUser username with
        | none => simp [hu] at h
        | some user =>
          simp only [hu] at h
          cases hp : user.CheckPassword password with
          | false => simp [hp] at h
          | true =>
            simp only [hp, Bool.not_true, Bool.false_eq_true, if_false] at h
            exact ⟨s, username, password, user, rfl, rfl, hu, hp, (hasRootRole_iff _).1 h⟩
    · rintro ⟨s', username, password, user, hs, hc, hu, hp, hroot⟩
      obtain rfl : s = s' := Option.some.inj hs
      simp [hc, hu, hp, (hasRootRole_iff _).2 hroot]

/-- C19 (amended) on the sample store: a `HEAD` without credentials and a `PUT`
with the credentials of `root` have write root access; the credentials of
`root` authenticate a user holding the root role. -/
theorem hasWriteRootAccess_iff_witness :
    hasWriteRootAccess (some gateStore) (publicRequest "HEAD" none) = true ∧
    gateStore.AuthEnabled = true ∧
    AuthenticatesRoot (some gateStore) (publicRequest "PUT" (some ("root", "rootpw"))) ∧
    hasWriteRootAccess (some gateStore) (publicRequest "PUT" (some ("root", "rootpw"))) =
      true := by
  have ha : AuthenticatesRoot (some gateStore)
      (publicRequest "PUT" (some ("root", "rootpw"))) :=
    ⟨gateStore, "root", "rootpw", _, rfl, rfl, rfl, by decide, by decide⟩
  exact ⟨(hasWriteRootAccess_iff (some gateStore) (publicRequest "HEAD" none)).1
      (Or.inr rfl), rfl, ha,
    ((hasWriteRootAccess_iff (some gateStore)
      (publicRequest "PUT" (some ("root", "rootpw")))).2 gateStore rfl rfl (by decide)
      (by decide)).2 ha⟩

end Etcdhttp

/-! ## The request translator: `ttl`, the boolean fields, `prevExist` and the path -/

namespace Strconv

/-- The function `ParseBool` returns an error on every string that is not one of
its twelve literals. -/
theorem ParseBool_error_of_not_literal {str : String} (h : ¬ IsBoolLiteral str) :
    ParseBool str = .error .ErrSyntax := by
  unfold IsBoolLiteral at h
  unfold ParseBool
  rw [if_neg (fun h1 => h (by simp only [List.mem_cons] at h1 ⊢; tauto)),
    if_neg (fun h1 => h (by simp only [List.mem_cons] at h1 ⊢; tauto))]

/-- The function `ParseBool` succeeds on each of its twelve literals. -/
theorem ParseBool_ok_of_literal {str : String} (h : IsBoolLiteral str) :
    ∃ b, ParseBool str = .ok b := by
  unfold ParseBool
  split
  · exact ⟨true, rfl⟩
  · split
    · exact ⟨false, rfl⟩
    · rename_i h1 h2
      unfold IsBoolLiteral at h
      exfalso
      simp only [List.mem_cons] at h h1 h2
      tauto

end Strconv

namespace Etcdhttp

/-- On a parsed form `getBool` never indexes an empty slice. -/
theorem getBool_ne_panic {r : Request} (hform : FormParses r) (key : String) :
    getBool r.Form key ≠ .error .IndexOutOfRange := by
  unfold getBool
  split
  · simp
  · rename_i h
    exact absurd rfl (hform.2 _ (mem_of_lookup_eq_some h))
  · split <;> simp

/-- A field whose first value is not a boolean literal makes `getBool` return
the error of `strconv`. -/
theorem getBool_error_of_not_literal {form : Values} {key v : String} {rest : List String}
    (hv : form.lookup key = some (v :: rest)) (hbad : ¬ Strconv.IsBoolLiteral v) :
    getBool form key = .error (.NumError .ErrSyntax) := by
  simp [getBool, hv, Strconv.ParseBool_error_of_not_literal hbad]

/-- A getter that does not panic either succeeds, and so does its wrapping, or
its wrapping is the request error. -/
theorem orRequestError_cases {α : Type} {x : Except Failure α}
    (hx : x ≠ .error .IndexOutOfRange) (code : Ecode) (cause : String) :
    (∃ a, x = .ok a ∧ orRequestError x code cause = .ok a) ∨
    orRequestError x code cause = .error (.RequestError code cause) := by
  cases x with
  | ok a => exact Or.inl ⟨a, rfl, rfl⟩
  | error e =>
    cases e with
    | IndexOutOfRange => exact absurd rfl hx
    | NumError e => exact Or.inr rfl
    | RequestError c m => exact Or.inr rfl

/-- A non-empty string has a positive length. -/
theorem length_pos_of_ne_empty {v : String} (h : v ≠ "") : v.length > 0 := by
  rcases v with ⟨d⟩
  cases d with
  | nil => exact absurd rfl h
  | cons c cs => simp [String.length]

/-- C11 (as stated it fails): a `GET` with `prevIndex=abc` and `ttl=abc` has a
`ttl` that is present, non-empty and not a number, yet the translation fails
with `EcodeIndexNaN`, not `EcodeTTLNaN`: the check on `prevIndex` comes
first. -/
theorem parseKeyRequest_ttl_masked_by_prevIndex :
    (fooRequest "GET" [("prevIndex", ["abc"]), ("ttl", ["abc"])]).Form.lookup "ttl" =
      some ["abc"] ∧
    "abc" ≠ "" ∧ ¬ Strconv.IsUint64Literal "abc" ∧
    parseKeyRequest (fooRequest "GET" [("prevIndex", ["abc"]), ("ttl", ["abc"])]) ⟨0⟩ =
      .error (.RequestError .EcodeIndexNaN "invalid value for \"prevIndex\"") ∧
    ¬ (∀ (r : Request) (clock : Clock) (v : String) (rest : List String),
      r.Form.lookup "ttl" = some (v :: rest) → v ≠ "" → ¬ Strconv.IsUint64Literal v →
      ∃ cause, parseKeyRequest r clock = .error (.RequestError .EcodeTTLNaN cause)) := by
  refine ⟨rfl, by decide, by decide, rfl, ?_⟩
  intro h
  obtain ⟨cause, hc⟩ := h (fooRequest "GET" [("prevIndex", ["abc"]), ("ttl", ["abc"])]) ⟨0⟩
    "abc" [] rfl (by decide) (by decide)
  have he : parseKeyRequest (fooRequest "GET" [("prevIndex", ["abc"]), ("ttl", ["abc"])])
      ⟨0⟩ = .error (.RequestError .EcodeIndexNaN "invalid value for \"prevIndex\"") := rfl
  rw [he] at hc
  simp at hc

/-- C11 (amended): for every key request that passes the checks preceding the
one on `ttl` (form, prefix, `prevIndex`, `waitIndex`, the six boolean fields,
`wait` with the method, `prevValue`), a `ttl` present with a non-empty first
value that is not a valid base-10 unsigned 64-bit integer makes the
translation fail with `EcodeTTLNaN`. -/
theorem parseKeyRequest_ttl_not_a_number (r : Request) (clock : Clock) (v : String)
    (rest : List String) (hpass : ChecksBeforeTTLPass r)
    (hv : r.Form.lookup "ttl" = some (v :: rest)) (hne : v ≠ "")
    (hbad : ¬ Strconv.IsUint64Literal v) :
    parseKeyRequest r clock =
      .error (.RequestError .EcodeTTLNaN "invalid value for \"ttl\"") := by
  obtain ⟨⟨hform, hpre, ⟨pIdx, h1⟩, ⟨wIdx, h2⟩, ⟨rec_, h3⟩, ⟨sort, h4⟩, ⟨wait, h5⟩,
    ⟨dir, h6⟩, ⟨quorum, h7⟩, ⟨stream, h8⟩⟩, hwait, hpv⟩ := hpass
  have hpre' : keysPrefix.data.isPrefixOf r.Path.data = true := hpre
  have hw : ¬ (wait = true ∧ r.Method ≠ "GET") := by
    rintro ⟨hw, hm⟩
    exact hwait ⟨by rw [h5, hw], hm⟩
  have hfv : r.FormValue "ttl" = v := by simp [Request.FormValue, hv]
  obtain ⟨e, he⟩ := getUint64_error_of_not_literal hv hbad
  have httl : ttlField r = .error (.RequestError .EcodeTTLNaN "invalid value for \"ttl\"") := by
    unfold ttlField
    rw [hfv, if_pos (length_pos_of_ne_empty hne), he]
    rfl
  unfold parseKeyRequest
  simp only [bind, Except.bind, pure, Except.pure, throw, throwThe, MonadExceptOf.throw]
  simp only [hform, hpre', h1, h2, h3, h4, h5, h6, h7, h8, orRequestError,
    Bool.not_true, Bool.false_eq_true, if_false, if_neg hw]
  rw [if_neg hpv, httl]

/-- C11 (amended) on sample requests: a `PUT` with `ttl=abc`, with `ttl=-1` and
with `ttl` equal to `2^64` fails with `EcodeTTLNaN`. -/
theorem parseKeyRequest_ttl_not_a_number_witness :
    ChecksBeforeTTLPass (fooRequest "PUT" [("ttl", ["abc"])]) ∧
    parseKeyRequest (fooRequest "PUT" [("ttl", ["abc"])]) ⟨0⟩ =
      .error (.RequestError .EcodeTTLNaN "invalid value for \"ttl\"") ∧
    parseKeyRequest (fooRequest "PUT" [("ttl", ["-1"])]) ⟨0⟩ =
      .error (.RequestError .EcodeTTLNaN "invalid value for \"ttl\"") ∧
    parseKeyRequest (fooRequest "PUT" [("ttl", ["18446744073709551616"])]) ⟨0⟩ =
      .error (.RequestError .EcodeTTLNaN "invalid value for \"ttl\"") := by
  have hp : ∀ v, ChecksBeforeTTLPass (fooRequest "PUT" [("ttl", [v])]) := fun v =>
    ⟨⟨rfl, rfl, ⟨0, rfl⟩, ⟨0, rfl⟩, ⟨false, rfl⟩, ⟨false, rfl⟩, ⟨false, rfl⟩, ⟨false, rfl⟩,
      ⟨false, rfl⟩, ⟨false, rfl⟩⟩,
     fun h => Bool.noConfusion (Except.ok.inj
      (show (Except.ok false : Except Failure Bool) = .ok true from h.1)),
     fun h => Bool.noConfusion h.1⟩
  exact ⟨hp _,
    parseKeyRequest_ttl_not_a_number _ ⟨0⟩ "abc" [] (hp _) rfl (by decide) (by decide),
    parseKeyRequest_ttl_not_a_number _ ⟨0⟩ "-1" [] (hp _) rfl (by decide) (by decide),
    parseKeyRequest_ttl_not_a_number _ ⟨0⟩ "18446744073709551616" [] (hp _) rfl (by decide)
      (by decide)⟩

end Etcdhttp

namespace Etcdhttp

/-- The six boolean fields of a request are not touched by `withExpiration`. -/
theorem withExpiration_booleanField (rr : ServerRequest) (ttl : Option Nat) (clock : Clock)
    (key : String) :
    booleanFieldOf (withExpiration rr ttl clock) key = booleanFieldOf rr key := by
  cases ttl <;> rfl

/-- C12 (as stated it fails): with `prevIndex` and `waitIndex` well formed (both
absent) and `recursive=bogus`, a request whose form does not parse and a
request whose path is outside the keys prefix fail with `EcodeInvalidForm`,
not `EcodeInvalidField`: the checks on the form and on the prefix come
first. -/
theorem parseKeyRequest_boolean_masked_by_form :
    getUint64 unparsedGet.Form "prevIndex" = .ok 0 ∧
    getUint64 unparsedGet.Form "waitIndex" = .ok 0 ∧
    unparsedGet.Form.lookup "recursive" = some ["bogus"] ∧
    membersGet.Form = unparsedGet.Form ∧
    ¬ Strconv.IsBoolLiteral "bogus" ∧
    parseKeyRequest unparsedGet ⟨0⟩ =
      .error (.RequestError .EcodeInvalidForm "invalid URL escape \"%zz\"") ∧
    parseKeyRequest membersGet ⟨0⟩ =
      .error (.RequestError .EcodeInvalidForm "incorrect key prefix") ∧
    ¬ (∀ (r : Request) (clock : Clock) (key v : String) (rest : List String),
      key ∈ booleanFields → (∃ i, getUint64 r.Form "prevIndex" = .ok i) →
      (∃ i, getUint64 r.Form "waitIndex" = .ok i) →
      r.Form.lookup key = some (v :: rest) → ¬ Strconv.IsBoolLiteral v →
      ∃ cause, parseKeyRequest r clock = .error (.RequestError .EcodeInvalidField cause)) := by
  refine ⟨rfl, rfl, rfl, rfl, by decide, rfl, rfl, ?_⟩
  intro h
  obtain ⟨cause, hc⟩ := h membersGet ⟨0⟩ "recursive" "bogus" [] (by decide) ⟨0, rfl⟩ ⟨0, rfl⟩
    rfl (by decide)
  have he : parseKeyRequest membersGet ⟨0⟩ =
      .error (.RequestError .EcodeInvalidForm "incorrect key prefix") := rfl
  rw [he] at hc
  simp at hc

/-- C12 (amended): for every key request whose form parses, whose path has the
keys prefix and whose `prevIndex` and `waitIndex` are well formed, if one of
the fields `recursive`, `sorted`, `wait`, `dir`, `quorum`, `stream` is present
with a first value that is not a valid boolean literal, the translation fails
with `EcodeInvalidField`; an absent boolean field is read as false by
`getBool`, without error, and is false in every accepted request. -/
theorem parseKeyRequest_boolean_field_invalid (r : Request) (clock : Clock)
    (hform : FormParses r) (hpre : HasKeysPrefix r)
    (hp : ∃ i, getUint64 r.Form "prevIndex" = .ok i)
    (hw : ∃ i, getUint64 r.Form "waitIndex" = .ok i) :
    (∀ (key v : String) (rest : List String), key ∈ booleanFields →
      r.Form.lookup key = some (v :: rest) → ¬ Strconv.IsBoolLiteral v →
      ∃ cause, parseKeyRequest r clock =
        .error (.RequestError .EcodeInvalidField cause)) ∧
    (∀ key, key ∈ booleanFields → r.Form.lookup key = none →
      getBool r.Form key = .ok false ∧
      ∀ rr, parseKeyRequest r clock = .ok rr → booleanFieldOf rr key = false) := by
  obtain ⟨pIdx, h1⟩ := hp
  obtain ⟨wIdx, h2⟩ := hw
  have hpre' : keysPrefix.data.isPrefixOf r.Path.data = true := hpre
  constructor
  · intro key v rest hkey hv hbad
    have herr := getBool_error_of_not_literal hv hbad
    unfold parseKeyRequest
    simp only [bind, Except.bind, pure, Except.pure, throw, throwThe, MonadExceptOf.throw]
    simp only [hform.1, hpre', Bool.not_true, Bool.false_eq_true, if_false]
    rw [(orRequestError_eq_ok_iff _ _ _ _).2 h1, (orRequestError_eq_ok_iff _ _ _ _).2 h2]
    simp only []
    rcases orRequestError_cases (getBool_ne_panic hform "recursive") .EcodeInvalidField
      "invalid value for \"recursive\"" with ⟨b1, hb1, ho1⟩ | ho1
    · rw [ho1]
      rcases orRequestError_cases (getBool_ne_panic hform "sorted") .EcodeInvalidField
        "invalid value for \"sorted\"" with ⟨b2, hb2, ho2⟩ | ho2
      · rw [ho2]
        rcases orRequestError_cases (getBool_ne_panic hform "wait") .EcodeInvalidField
          "invalid value for \"wait\"" with ⟨b3, hb3, ho3⟩ | ho3
        · rw [ho3]
          rcases orRequestError_cases (getBool_ne_panic hform "dir") .EcodeInvalidField
            "invalid value for \"dir\"" with ⟨b4, hb4, ho4⟩ | ho4
          · rw [ho4]
            rcases orRequestError_cases (getBool_ne_panic hform "quorum") .EcodeInvalidField
              "invalid value for \"quorum\"" with ⟨b5, hb5, ho5⟩ | ho5
            · rw [ho5]
              rcases orRequestError_cases (getBool_ne_panic hform "stream")
                .EcodeInvalidField "invalid value for \"stream\"" with ⟨b6, hb6, ho6⟩ | ho6
              · exfalso
                simp only [booleanFields, List.mem_cons, List.mem_singleton,
                  List.not_mem_nil, or_false] at hkey
                rcases hkey with rfl | rfl | rfl | rfl | rfl | rfl
                · rw [hb1] at herr; cases herr
                · rw [hb2] at herr; cases herr
                · rw [hb3] at herr; cases herr
                · rw [hb4] at herr; cases herr
                · rw [hb5] at herr; cases herr
                · rw [hb6] at herr; cases herr
              · rw [ho6]; exact ⟨_, rfl⟩
            · rw [ho5]; exact ⟨_, rfl⟩
          · rw [ho4]; exact ⟨_, rfl⟩
        · rw [ho3]; exact ⟨_, rfl⟩
      · rw [ho2]; exact ⟨_, rfl⟩
    · rw [ho1]; exact ⟨_, rfl⟩
  · intro key hkey hnone
    refine ⟨by simp [getBool, hnone], ?_⟩
    intro rr h
    obtain ⟨-, -, pIdx', wIdx', rec_, sort, wait, dir, quorum, stream, ttl, pe, -, -, h3, h4,
      h5, h6, h7, h8, -, -, -, -, hrr⟩ := parseKeyRequest_ok_inv h
    subst hrr
    rw [withExpiration_booleanField]
    have hfalse : ∀ {k : String} {b : Bool}, r.Form.lookup k = none →
        getBool r.Form k = .ok b → b = false := by
      intro k b hk hb
      simp [getBool, hk] at hb
      exact hb
    simp only [booleanFields, List.mem_cons, List.mem_singleton, List.not_mem_nil,
      or_false] at hkey
    rcases hkey with rfl | rfl | rfl | rfl | rfl | rfl
    · simpa [booleanFieldOf] using hfalse hnone h3
    · simpa [booleanFieldOf] using hfalse hnone h4
    · simpa [booleanFieldOf] using hfalse hnone h5
    · simpa [booleanFieldOf] using hfalse hnone h6
    · simpa [booleanFieldOf] using hfalse hnone h7
    · simpa [booleanFieldOf] using hfalse hnone h8

/-- C12 (amended) on sample requests: `recursive=bogus`, and `stream=yes`
behind a valid `wait=true`, fail with `EcodeInvalidField`; with no boolean
field in the form, `getBool` reads `dir` as false. -/
theorem parseKeyRequest_boolean_field_invalid_witness :
    FormParses (fooRequest "GET" [("recursive", ["bogus"])]) ∧
    HasKeysPrefix (fooRequest "GET" [("recursive", ["bogus"])]) ∧
    ¬ Strconv.IsBoolLiteral "bogus" ∧ ¬ Strconv.IsBoolLiteral "yes" ∧
    (∃ cause, parseKeyRequest (fooRequest "GET" [("recursive", ["bogus"])]) ⟨0⟩ =
      .error (.RequestError .EcodeInvalidField cause)) ∧
    (∃ cause, parseKeyRequest (fooRequest "GET" [("wait", ["true"]), ("stream", ["yes"])])
      ⟨0⟩ = .error (.RequestError .EcodeInvalidField cause)) ∧
    getBool (fooRequest "GET" []).Form "dir" = .ok false := by
  have hf : ∀ form : Values, (∀ kv ∈ form, kv.2 ≠ []) → FormParses (fooRequest "GET" form) :=
    fun _ h => ⟨rfl, h⟩
  have h1 : FormParses (fooRequest "GET" [("recursive", ["bogus"])]) :=
    hf _ (by simp)
  have h2 : FormParses (fooRequest "GET" [("wait", ["true"]), ("stream", ["yes"])]) :=
    hf _ (by simp)
  have h3 : FormParses (fooRequest "GET" []) := hf _ (by simp)
  exact ⟨h1, rfl, by decide, by decide,
    (parseKeyRequest_boolean_field_invalid _ ⟨0⟩ h1 rfl ⟨0, rfl⟩ ⟨0, rfl⟩).1 "recursive"
      "bogus" [] (by decide) rfl (by decide),
    (parseKeyRequest_boolean_field_invalid _ ⟨0⟩ h2 rfl ⟨0, rfl⟩ ⟨0, rfl⟩).1 "stream"
      "yes" [] (by decide) rfl (by decide),
    ((parseKeyRequest_boolean_field_invalid _ ⟨0⟩ h3 rfl ⟨0, rfl⟩ ⟨0, rfl⟩).2 "dir"
      (by decide) rfl).1⟩

end Etcdhttp

namespace Etcdhttp

/-- The conversion to `int64` leaves a number of the signed 64-bit range as it
is. -/
theorem toInt64_of_range {x : Int} (hlo : -2 ^ 63 ≤ x) (hhi : x < 2 ^ 63) : toInt64 x = x := by
  unfold toInt64
  norm_num at hlo hhi ⊢
  omega

/-- The field `Expiration` after `withExpiration` with a nil `ttl`. -/
theorem withExpiration_none (rr : ServerRequest) (clock : Clock) :
    (withExpiration rr none clock).Expiration = rr.Expiration := rfl

/-- The field `Expiration` after `withExpiration` with the `ttl` value `t`. -/
theorem withExpiration_some (rr : ServerRequest) (t : Nat) (clock : Clock) :
    (withExpiration rr (some t) clock).Expiration =
      toInt64 (clock.Now + toInt64 (toInt64 t * 1000000000)) := rfl

/-- C13 (as stated it fails): a `PUT` with `ttl` equal to `2^64 - 1` at the
clock time 0 is accepted with `Expiration = -10^9`, and with `ttl=9223372037`
with a negative `Expiration` as well, not with the clock time plus
`ttl × 10^9`: the duration is computed in `int64` and wraps around. -/
theorem parseKeyRequest_expiration_wraps :
    Strconv.ParseUint "18446744073709551615" = .ok 18446744073709551615 ∧
    Strconv.ParseUint "9223372037" = .ok 9223372037 ∧
    (∃ rr, parseKeyRequest (fooRequest "PUT" [("ttl", ["18446744073709551615"])]) ⟨0⟩ =
      .ok rr ∧ rr.Expiration = -1000000000) ∧
    (∃ rr, parseKeyRequest (fooRequest "PUT" [("ttl", ["9223372037"])]) ⟨0⟩ = .ok rr ∧
      rr.Expiration = -9223372036709551616) ∧
    ¬ (∀ (r : Request) (clock : Clock) (rr : ServerRequest) (v : String)
      (rest : List String) (t : Nat), parseKeyRequest r clock = .ok rr →
      r.Form.lookup "ttl" = some (v :: rest) → Strconv.ParseUint v = .ok t →
      rr.Expiration = clock.Now + t * 10 ^ 9) := by
  refine ⟨rfl, rfl, ⟨_, rfl, rfl⟩, ⟨_, rfl, rfl⟩, ?_⟩
  intro h
  have h0 := h (fooRequest "PUT" [("ttl", ["9223372037"])]) ⟨0⟩ _ "9223372037" []
    9223372037 rfl rfl rfl
  revert h0
  decide

end Etcdhttp

namespace Etcdhttp

/-- The nullable `ttl` is nil when the first value of the field is empty or the
field is absent. -/
theorem ttlField_of_empty {r : Request} (h : r.FormValue "ttl" = "") :
    ttlField r = .ok none := by
  simp [ttlField, h]

/-- The nullable `ttl`, when the field has a non-empty first value and the check
passes, holds the parse of that value. -/
theorem ttlField_ok_of_value {r : Request} {v : String} {rest : List String}
    {ttl : Option Nat} (hv : r.Form.lookup "ttl" = some (v :: rest)) (hne : v ≠ "")
    (h : ttlField r = .ok ttl) : ∃ t, Strconv.ParseUint v = .ok t ∧ ttl = some t := by
  have hfv : r.FormValue "ttl" = v := by simp [Request.FormValue, hv]
  unfold ttlField at h
  rw [hfv, if_pos (length_pos_of_ne_empty hne)] at h
  split at h
  · rename_i i hi
    rw [orRequestError_eq_ok_iff] at hi
    simp only [getUint64, hv] at hi
    split at hi
    · rename_i t ht
      obtain rfl : t = i := Except.ok.inj hi
      exact ⟨t, ht, (Except.ok.inj h).symm⟩
    · exact absurd hi (by simp)
  · exact absurd h (by simp)

/-- C13 (amended): for every accepted key request, if `ttl` is absent or its
first value is the empty string then `Expiration` is 0; if the first value of
`ttl` is non-empty it parses to some `t`, and `Expiration` is the `int64`
value of the clock time plus the `int64` value of `t × 10^9`, which is the
clock time in Unix nanoseconds plus `t × 10^9` whenever `t × 10^9`, the
clock time and their sum lie in the signed 64-bit range. -/
theorem parseKeyRequest_expiration (r : Request) (clock : Clock) (rr : ServerRequest)
    (h : parseKeyRequest r clock = .ok rr) :
    ((r.Form.lookup "ttl" = none ∨ ∃ rest, r.Form.lookup "ttl" = some ("" :: rest)) →
      rr.Expiration = 0) ∧
    (∀ (v : String) (rest : List String), r.Form.lookup "ttl" = some (v :: rest) → v ≠ "" →
      ∃ t, Strconv.ParseUint v = .ok t ∧
        rr.Expiration = toInt64 (clock.Now + toInt64 (toInt64 t * 1000000000)) ∧
        ((t : Int) * 10 ^ 9 < 2 ^ 63 → -2 ^ 63 ≤ clock.Now →
          clock.Now + t * 10 ^ 9 < 2 ^ 63 → rr.Expiration = clock.Now + t * 10 ^ 9)) := by
  obtain ⟨-, -, pIdx, wIdx, rec_, sort, wait, dir, quorum, stream, ttl, pe, -, -, -, -, -,
    -, -, -, -, -, httl, -, hrr⟩ := parseKeyRequest_ok_inv h
  subst hrr
  constructor
  · intro habs
    have hfv : r.FormValue "ttl" = "" := by
      rcases habs with hn | ⟨rest, hs⟩
      · simp [Request.FormValue, hn]
      · simp [Request.FormValue, hs]
    rw [ttlField_of_empty hfv] at httl
    obtain rfl : none = ttl := Except.ok.inj httl
    rfl
  · intro v rest hv hne
    obtain ⟨t, ht, rfl⟩ := ttlField_ok_of_value hv hne httl
    refine ⟨t, ht, rfl, ?_⟩
    intro h1 h2 h3
    rw [withExpiration_some]
    have ht0 : (0 : Int) ≤ (t : Int) := Int.ofNat_nonneg t
    have e1 : toInt64 (t : Int) = t := toInt64_of_range (by omega) (by omega)
    have e2 : toInt64 ((t : Int) * 1000000000) = t * 1000000000 :=
      toInt64_of_range (by omega) (by norm_num at h1 ⊢; omega)
    rw [e1, e2]
    have e3 : toInt64 (clock.Now + (t : Int) * 1000000000) = clock.Now + t * 1000000000 :=
      toInt64_of_range (by omega) (by norm_num at h3 ⊢; omega)
    rw [e3]
    norm_num

/-- C13 (amended) on sample requests at the clock time `5 × 10^9`: without `ttl`
and with an empty `ttl` the expiration is 0; `ttl=100` gives the expiration
`105 × 10^9`. -/
theorem parseKeyRequest_expiration_witness :
    (∃ rr, parseKeyRequest (fooRequest "PUT" [("value", ["bar"])]) ⟨5000000000⟩ = .ok rr ∧
      rr.Expiration = 0) ∧
    (∃ rr, parseKeyRequest (fooRequest "PUT" [("ttl", [""])]) ⟨5000000000⟩ = .ok rr ∧
      rr.Expiration = 0) ∧
    (∃ rr, parseKeyRequest (fooRequest "PUT" [("ttl", ["100"])]) ⟨5000000000⟩ = .ok rr ∧
      rr.Expiration = 105000000000) := by
  refine ⟨⟨_, rfl, ?_⟩, ⟨_, rfl, ?_⟩, ⟨_, rfl, ?_⟩⟩
  · exact (parseKeyRequest_expiration (fooRequest "PUT" [("value", ["bar"])]) ⟨5000000000⟩ _
      rfl).1 (Or.inl rfl)
  · exact (parseKeyRequest_expiration (fooRequest "PUT" [("ttl", [""])]) ⟨5000000000⟩ _
      rfl).1 (Or.inr ⟨[], rfl⟩)
  · obtain ⟨t, ht, -, hexp⟩ := (parseKeyRequest_expiration
      (fooRequest "PUT" [("ttl", ["100"])]) ⟨5000000000⟩ _ rfl).2 "100" [] rfl (by decide)
    obtain rfl : (100 : Nat) = t := Except.ok.inj ht
    exact hexp (by decide) (by decide) (by decide)

end Etcdhttp

namespace Etcdhttp

/-- The field `PrevExist` of a request is not touched by `withExpiration`. -/
theorem withExpiration_PrevExist (rr : ServerRequest) (ttl : Option Nat) (clock : Clock) :
    (withExpiration rr ttl clock).PrevExist = rr.PrevExist := by
  cases ttl <;> rfl

/-- The field `Path` of a request is not touched by `withExpiration`. -/
theorem withExpiration_Path (rr : ServerRequest) (ttl : Option Nat) (clock : Clock) :
    (withExpiration rr ttl clock).Path = rr.Path := by
  cases ttl <;> rfl

/-- The nullable `prevExist` is nil exactly when the field is absent; when the
check passes on a field with a first value, it holds the parse of that value. -/
theorem prevExistField_ok {r : Request} {pe : Option Bool} (h : prevExistField r = .ok pe) :
    (pe = none ↔ r.Form.lookup "prevExist" = none) ∧
    (∀ (v : String) (rest : List String), r.Form.lookup "prevExist" = some (v :: rest) →
      ∃ b, Strconv.ParseBool v = .ok b ∧ pe = some b) := by
  unfold prevExistField at h
  cases hl : r.Form.lookup "prevExist" with
  | none =>
    simp only [hl, Option.isSome_none, Bool.false_eq_true, if_false] at h
    obtain rfl : none = pe := Except.ok.inj h
    exact ⟨by simp, fun v rest hv => by simp at hv⟩
  | some vals =>
    simp only [hl, Option.isSome_some, if_true] at h
    split at h
    · rename_i bv hbv
      obtain rfl : some bv = pe := Except.ok.inj h
      rw [orRequestError_eq_ok_iff] at hbv
      refine ⟨by simp, ?_⟩
      intro v rest hv
      obtain rfl : vals = v :: rest := Option.some.inj hv
      simp only [getBool, hl] at hbv
      split at hbv
      · rename_i b hb
        obtain rfl : b = bv := Except.ok.inj hbv
        exact ⟨b, hb, rfl⟩
      · exact absurd hbv (by simp)
    · exact absurd h (by simp)

/-- C14 (as stated it fails): a `GET` with `prevIndex=abc` and an empty
`prevExist` has a `prevExist` whose first value is not a valid boolean, yet
the translation fails with `EcodeIndexNaN`, not `EcodeInvalidField`: the check
on `prevIndex` comes first. -/
theorem parseKeyRequest_prevExist_masked_by_prevIndex :
    (fooRequest "GET" [("prevIndex", ["abc"]), ("prevExist", [""])]).Form.lookup
      "prevExist" = some [""] ∧
    ¬ Strconv.IsBoolLiteral "" ∧
    parseKeyRequest (fooRequest "GET" [("prevIndex", ["abc"]), ("prevExist", [""])]) ⟨0⟩ =
      .error (.RequestError .EcodeIndexNaN "invalid value for \"prevIndex\"") ∧
    ¬ (∀ (r : Request) (clock : Clock) (v : String) (rest : List String),
      r.Form.lookup "prevExist" = some (v :: rest) → ¬ Strconv.IsBoolLiteral v →
      ∃ cause, parseKeyRequest r clock =
        .error (.RequestError .EcodeInvalidField cause)) := by
  refine ⟨rfl, by decide, rfl, ?_⟩
  intro h
  obtain ⟨cause, hc⟩ := h (fooRequest "GET" [("prevIndex", ["abc"]), ("prevExist", [""])])
    ⟨0⟩ "" [] rfl (by decide)
  have he : parseKeyRequest (fooRequest "GET" [("prevIndex", ["abc"]), ("prevExist", [""])])
      ⟨0⟩ = .error (.RequestError .EcodeIndexNaN "invalid value for \"prevIndex\"") := rfl
  rw [he] at hc
  simp at hc

/-- C14 (amended): `prevExist` is a tri-state. For every accepted request,
`PrevExist` is nil exactly when the form has no `prevExist` key, and otherwise
holds the boolean parsed from the first `prevExist` value. In a request that
passes the checks preceding the one on `prevExist` (form, prefix, `prevIndex`,
`waitIndex`, the six boolean fields, `wait` with the method, `prevValue`,
`ttl`), a `prevExist` key whose first value is not a valid boolean, the empty
string included, makes the translation fail with `EcodeInvalidField`. -/
theorem parseKeyRequest_prevExist_tristate (r : Request) (clock : Clock) :
    (∀ rr, parseKeyRequest r clock = .ok rr →
      (rr.PrevExist = none ↔ r.Form.lookup "prevExist" = none) ∧
      (∀ (v : String) (rest : List String), r.Form.lookup "prevExist" = some (v :: rest) →
        ∃ b, Strconv.ParseBool v = .ok b ∧ rr.PrevExist = some b)) ∧
    (∀ (v : String) (rest : List String), ChecksBeforePrevExistPass r →
      r.Form.lookup "prevExist" = some (v :: rest) → ¬ Strconv.IsBoolLiteral v →
      parseKeyRequest r clock =
        .error (.RequestError .EcodeInvalidField "invalid value for prevExist")) := by
  constructor
  · intro rr h
    obtain ⟨-, -, pIdx, wIdx, rec_, sort, wait, dir, quorum, stream, ttl, pe, -, -, -, -, -,
      -, -, -, -, -, -, hpe, hrr⟩ := parseKeyRequest_ok_inv h
    subst hrr
    rw [withExpiration_PrevExist]
    exact prevExistField_ok hpe
  · rintro v rest ⟨⟨⟨hform, hpre, ⟨pIdx, h1⟩, ⟨wIdx, h2⟩, ⟨rec_, h3⟩, ⟨sort, h4⟩,
      ⟨wait, h5⟩, ⟨dir, h6⟩, ⟨quorum, h7⟩, ⟨stream, h8⟩⟩, hwait, hpv⟩, ⟨ttl, httl⟩⟩ hv hbad
    have hpre' : keysPrefix.data.isPrefixOf r.Path.data = true := hpre
    have hw : ¬ (wait = true ∧ r.Method ≠ "GET") := by
      rintro ⟨hw, hm⟩
      exact hwait ⟨by rw [h5, hw], hm⟩
    have hpe : prevExistField r =
        .error (.RequestError .EcodeInvalidField "invalid value for prevExist") := by
      unfold prevExistField
      rw [getBool_error_of_not_literal hv hbad]
      simp [hv, orRequestError]
    unfold parseKeyRequest
    simp only [bind, Except.bind, pure, Except.pure, throw, throwThe, MonadExceptOf.throw]
    simp only [hform, hpre', h1, h2, h3, h4, h5, h6, h7, h8, orRequestError,
      Bool.not_true, Bool.false_eq_true, if_false, if_neg hw]
    rw [if_neg hpv, httl, hpe]

/-- C14 (amended) on sample requests: without `prevExist` the precondition is
nil, `prevExist=true` gives must-exist, `prevExist=0` gives must-not-exist,
and an empty `prevExist` fails with `EcodeInvalidField`. -/
theorem parseKeyRequest_prevExist_tristate_witness :
    (∃ rr, parseKeyRequest (fooRequest "PUT" [("value", ["bar"])]) ⟨0⟩ = .ok rr ∧
      rr.PrevExist = none) ∧
    (∃ rr, parseKeyRequest (fooRequest "PUT" [("prevExist", ["true"])]) ⟨0⟩ = .ok rr ∧
      rr.PrevExist = some true) ∧
    (∃ rr, parseKeyRequest (fooRequest "PUT" [("prevExist", ["0"])]) ⟨0⟩ = .ok rr ∧
      rr.PrevExist = some false) ∧
    ChecksBeforePrevExistPass (fooRequest "PUT" [("prevExist", [""])]) ∧
    ¬ Strconv.IsBoolLiteral "" ∧
    parseKeyRequest (fooRequest "PUT" [("prevExist", [""])]) ⟨0⟩ =
      .error (.RequestError .EcodeInvalidField "invalid value for prevExist") := by
  have hp : ChecksBeforePrevExistPass (fooRequest "PUT" [("prevExist", [""])]) :=
    ⟨⟨⟨rfl, rfl, ⟨0, rfl⟩, ⟨0, rfl⟩, ⟨false, rfl⟩, ⟨false, rfl⟩, ⟨false, rfl⟩, ⟨false, rfl⟩,
      ⟨false, rfl⟩, ⟨false, rfl⟩⟩,
     fun h => Bool.noConfusion (Except.ok.inj
      (show (Except.ok false : Except Failure Bool) = .ok true from h.1)),
     fun h => Bool.noConfusion h.1⟩, ⟨none, rfl⟩⟩
  refine ⟨⟨_, rfl, ?_⟩, ⟨_, rfl, ?_⟩, ⟨_, rfl, ?_⟩, hp, by decide, ?_⟩
  · exact ((parseKeyRequest_prevExist_tristate (fooRequest "PUT" [("value", ["bar"])])
      ⟨0⟩).1 _ rfl).1.2 rfl
  · obtain ⟨b, hb, hpe⟩ := ((parseKeyRequest_prevExist_tristate
      (fooRequest "PUT" [("prevExist", ["true"])]) ⟨0⟩).1 _ rfl).2 "true" [] rfl
    obtain rfl : true = b := Except.ok.inj hb
    exact hpe
  · obtain ⟨b, hb, hpe⟩ := ((parseKeyRequest_prevExist_tristate
      (fooRequest "PUT" [("prevExist", ["0"])]) ⟨0⟩).1 _ rfl).2 "0" [] rfl
    obtain rfl : false = b := Except.ok.inj hb
    exact hpe
  · exact (parseKeyRequest_prevExist_tristate (fooRequest "PUT" [("prevExist", [""])])
      ⟨0⟩).2 "" [] hp rfl (by decide)

/-- The path of a request has the keys prefix exactly when it is the keys prefix
followed by some rest. -/
theorem HasKeysPrefix_iff (r : Request) :
    HasKeysPrefix r ↔ ∃ rest : String, r.Path = keysPrefix ++ rest := by
  unfold HasKeysPrefix
  rw [List.isPrefixOf_iff_prefix]
  constructor
  · rintro ⟨t, ht⟩
    exact ⟨String.mk t, String.ext (by simp [← ht])⟩
  · rintro ⟨rest, hrest⟩
    exact ⟨rest.data, by simp [hrest]⟩

/-- C15: every request whose URL path does not start with the keys prefix
`/v2/keys` fails with `EcodeInvalidForm`; for every accepted request the URL
path is the keys prefix followed by some rest, and `Path` is the `path.Join`
of the storage root `StoreKeysPrefix` with that rest. -/
theorem parseKeyRequest_path (r : Request) (clock : Clock) :
    ((¬ ∃ rest : String, r.Path = keysPrefix ++ rest) →
      ∃ cause, parseKeyRequest r clock = .error (.RequestError .EcodeInvalidForm cause)) ∧
    (∀ rr, parseKeyRequest r clock = .ok rr →
      (∃ rest : String, r.Path = keysPrefix ++ rest) ∧
      ∀ rest : String, r.Path = keysPrefix ++ rest →
        rr.Path = Path.Join [StoreKeysPrefix, rest]) := by
  constructor
  · intro hno
    have hpre : keysPrefix.data.isPrefixOf r.Path.data = false := by
      cases hb : keysPrefix.data.isPrefixOf r.Path.data with
      | false => rfl
      | true => exact absurd ((HasKeysPrefix_iff r).1 hb) hno
    unfold parseKeyRequest
    simp only [bind, Except.bind, pure, Except.pure, throw, throwThe, MonadExceptOf.throw]
    cases hf : r.ParseFormErr with
    | some err => exact ⟨err, rfl⟩
    | none => exact ⟨"incorrect key prefix", by simp [hpre]⟩
  · intro rr h
    obtain ⟨-, hpre, pIdx, wIdx, rec_, sort, wait, dir, quorum, stream, ttl, pe, -, -, -, -,
      -, -, -, -, -, -, -, -, hrr⟩ := parseKeyRequest_ok_inv h
    subst hrr
    refine ⟨(HasKeysPrefix_iff r).1 hpre, ?_⟩
    intro rest hrest
    rw [withExpiration_Path]
    have hd : String.mk (r.Path.data.drop keysPrefix.length) = rest := by
      rw [hrest]
      apply String.ext
      show ((keysPrefix ++ rest).data).drop keysPrefix.data.length = rest.data
      rw [String.data_append, List.drop_left]
    simp only [hd]

/-- C15 on sample requests: `/v2/members` is outside the keys prefix and fails
with `EcodeInvalidForm`; `/v2/keys/foo` is translated to `/1/foo`, and the
bare `/v2/keys` to the storage root `/1`. -/
theorem parseKeyRequest_path_witness :
    (∃ cause, parseKeyRequest membersGet ⟨0⟩ =
      .error (.RequestError .EcodeInvalidForm cause)) ∧
    (∃ rr, parseKeyRequest (fooRequest "GET" []) ⟨0⟩ = .ok rr ∧ rr.Path = "/1/foo") ∧
    (∃ rr, parseKeyRequest { fooRequest "GET" [] with Path := "/v2/keys" } ⟨0⟩ = .ok rr ∧
      rr.Path = "/1") := by
  refine ⟨?_, ⟨_, rfl, ?_⟩, ⟨_, rfl, ?_⟩⟩
  · refine (parseKeyRequest_path membersGet ⟨0⟩).1 ?_
    rintro ⟨rest, hrest⟩
    have h := congrArg (fun s : String => s.data.take 8) hrest
    revert h
    simp [membersGet, keysPrefix]
  · exact (((parseKeyRequest_path (fooRequest "GET" []) ⟨0⟩).2 _ rfl).2 "/foo" rfl).trans
      (by decide)
  · exact (((parseKeyRequest_path { fooRequest "GET" [] with Path := "/v2/keys" } ⟨0⟩).2 _
      rfl).2 "" rfl).trans (by decide)

end Etcdhttp

/-! ## Listing the members -/

namespace Etcdserver

/-- Where the function succeeds on every element, filtering through it keeps
one result per element, in order. -/
theorem map_some_filterMap {α β : Type} (f : α → Option β) (l : List α)
    (h : ∀ x ∈ l, (f x).isSome = true) : (l.filterMap f).map some = l.map f := by
  induction l with
  | nil => rfl
  | cons x xs ih =>
    have hx := h x (List.mem_cons_self _ _)
    have hxs := ih fun y hy => h y (List.mem_cons_of_mem _ hy)
    cases hfx : f x with
    | none => simp [hfx] at hx
    | some b => simp [List.filterMap_cons, hfx, hxs]

/-- The IDs listed by `MemberIDs` are a permutation of the keys of the member
map. -/
theorem MemberIDs_perm_keys (c : Cluster) : c.MemberIDs.Perm c.members.keys :=
  List.perm_insertionSort _ _

/-- An ID is listed by `MemberIDs` exactly when it is a key of the member map. -/
theorem mem_MemberIDs (c : Cluster) (id : Nat) : id ∈ c.MemberIDs ↔ id ∈ c.members := by
  rw [(MemberIDs_perm_keys c).mem_iff, AList.mem_keys]

/-- C20: for every set of active members, `MemberIDs()` lists exactly the IDs
of the active members, in strictly ascending order; `Members()` lists, for
each of these IDs in turn, the record stored under it, so that when every
record is stored under its own ID the IDs of the listed records ascend
strictly; and two clusters holding the same entries in any order of
insertion list the same IDs and the same records. -/
theorem MemberIDs_Members_ascending (c : Cluster) :
    c.MemberIDs.Sorted (· < ·) ∧
    (∀ id, id ∈ c.MemberIDs ↔ id ∈ c.members) ∧
    (c.Members.map some = c.MemberIDs.map fun id => c.members.lookup id) ∧
    (c.KeyedByID → c.Members.map (fun m => m.ID) = c.MemberIDs) ∧
    (∀ c' : Cluster, c'.members.entries.Perm c.members.entries →
      c'.MemberIDs = c.MemberIDs ∧ c'.Members = c.Members) := by
  have hsome : ∀ id ∈ c.MemberIDs, (c.members.lookup id).isSome = true := fun id hid =>
    AList.lookup_isSome.2 ((mem_MemberIDs c id).1 hid)
  have hmap : c.Members.map some = c.MemberIDs.map fun id => c.members.lookup id :=
    map_some_filterMap _ _ hsome
  refine ⟨?_, mem_MemberIDs c, hmap, ?_, ?_⟩
  · exact (List.sorted_insertionSort (· ≤ ·) c.members.keys).lt_of_le
      ((MemberIDs_perm_keys c).nodup_iff.2 c.members.keys_nodup)
  · intro hkey
    have hid : ∀ id ∈ c.MemberIDs,
        (c.members.lookup id).map (fun m => m.ID) = some id := by
      intro id hid
      cases hl : c.members.lookup id with
      | none =>
        have hs := hsome id hid
        rw [hl] at hs
        exact absurd hs (by simp)
      | some m =>
        have hm : (⟨id, m⟩ : Sigma fun _ : Nat => Member) ∈ c.members.entries :=
          AList.mem_lookup_iff.1 hl
        simpa using hkey _ hm
    have h2 : (c.Members.map fun m => m.ID).map some = c.MemberIDs.map some := by
      have h3 := congrArg (List.map (Option.map fun m : Member => m.ID)) hmap
      simp only [List.map_map] at h3 ⊢
      rw [show (some ∘ fun m : Member => m.ID) = (Option.map fun m : Member => m.ID) ∘ some
        from rfl, h3]
      exact List.map_congr_left fun id hid' => by simpa using hid id hid'
    exact List.map_injective_iff.2 (Option.some_injective _) h2
  · intro c' hperm
    have hk : c'.members.keys.Perm c.members.keys := hperm.map _
    have hids : c'.MemberIDs = c.MemberIDs :=
      List.eq_of_perm_of_sorted
        (((MemberIDs_perm_keys c').trans hk).trans (MemberIDs_perm_keys c).symm)
        (List.sorted_insertionSort (· ≤ ·) _) (List.sorted_insertionSort (· ≤ ·) _)
    refine ⟨hids, ?_⟩
    unfold Cluster.Members
    rw [hids]
    congr 1
    funext id
    exact AList.perm_lookup hperm

/-- C20 on the cluster of `TestClusterMembers`: the members stored in the order
1, 20, 100, 5, 50 are listed as 1, 5, 20, 50, 100, by `MemberIDs` and by
`Members`, and so are the same members stored in another order. -/
theorem MemberIDs_Members_ascending_witness :
    (newTestCluster [{ ID := 1 }, { ID := 20 }, { ID := 100 }, { ID := 5 },
      { ID := 50 }]).KeyedByID ∧
    (newTestCluster [{ ID := 1 }, { ID := 20 }, { ID := 100 }, { ID := 5 },
      { ID := 50 }]).MemberIDs = [1, 5, 20, 50, 100] ∧
    (newTestCluster [{ ID := 1 }, { ID := 20 }, { ID := 100 }, { ID := 5 },
      { ID := 50 }]).Members =
      [{ ID := 1 }, { ID := 5 }, { ID := 20 }, { ID := 50 }, { ID := 100 }] ∧
    (newTestCluster [{ ID := 1 }, { ID := 20 }, { ID := 100 }, { ID := 5 },
      { ID := 50 }]).Members.map (fun m => m.ID) = [1, 5, 20, 50, 100] ∧
    (newTestCluster [{ ID := 50 }, { ID := 100 }, { ID := 1 }, { ID := 20 },
      { ID := 5 }]).Members =
      [{ ID := 1 }, { ID := 5 }, { ID := 20 }, { ID := 50 }, { ID := 100 }] ∧
    (newTestCluster [{ ID := 1 }, { ID := 4 }, { ID := 100 }]).MemberIDs = [1, 4, 100] := by
  have hk : (newTestCluster [{ ID := 1 }, { ID := 20 }, { ID := 100 }, { ID := 5 },
      { ID := 50 }]).KeyedByID := by
    unfold Cluster.KeyedByID
    decide
  have hids : (newTestCluster [{ ID := 1 }, { ID := 20 }, { ID := 100 }, { ID := 5 },
      { ID := 50 }]).MemberIDs = [1, 5, 20, 50, 100] := by decide
  have h := MemberIDs_Members_ascending (newTestCluster [{ ID := 1 }, { ID := 20 },
    { ID := 100 }, { ID := 5 }, { ID := 50 }])
  refine ⟨hk, hids, by decide, (h.2.2.2.1 hk).trans hids, ?_, by decide⟩
  exact (h.2.2.2.2 (newTestCluster [{ ID := 50 }, { ID := 100 }, { ID := 1 }, { ID := 20 },
    { ID := 5 }]) (by decide)).2.trans (by decide)

end Etcdserver

/-! ## Listing the URLs -/

namespace Etcdserver

/-- The call `sort.Strings` returns an ascending list. -/
theorem sortStrings_sorted (l : List String) : (sortStrings l).Sorted strLE :=
  List.sorted_insertionSort strLE l

/-- The call `sort.Strings` returns a permutation of its argument. -/
theorem sortStrings_perm (l : List String) : (sortStrings l).Perm l :=
  List.perm_insertionSort strLE l

/-- Two permutations of the same strings are sorted into the same list. -/
theorem sortStrings_eq_of_perm {l₁ l₂ : List String} (h : l₁.Perm l₂) :
    sortStrings l₁ = sortStrings l₂ :=
  List.eq_of_perm_of_sorted ((sortStrings_perm l₁).trans (h.trans (sortStrings_perm l₂).symm))
    (sortStrings_sorted l₁) (sortStrings_sorted l₂)

/-- C21: for every set of active members, `PeerURLs()` and `ClientURLs()`
return a lexicographically ascending list that holds exactly the peer URLs,
respectively client URLs, of the active members; for an empty cluster and
for members without URLs the list is empty. -/
theorem PeerURLs_ClientURLs_sorted (c : Cluster) :
    (c.PeerURLs.Sorted strLE ∧
      (∀ u, u ∈ c.PeerURLs ↔ ∃ e ∈ c.members.entries, u ∈ e.2.PeerURLs) ∧
      ((∀ e ∈ c.members.entries, e.2.PeerURLs = []) → c.PeerURLs = [])) ∧
    (c.ClientURLs.Sorted strLE ∧
      (∀ u, u ∈ c.ClientURLs ↔ ∃ e ∈ c.members.entries, u ∈ e.2.ClientURLs) ∧
      ((∀ e ∈ c.members.entries, e.2.ClientURLs = []) → c.ClientURLs = [])) ∧
    (c.members = ∅ → c.PeerURLs = [] ∧ c.ClientURLs = []) := by
  have hflat : ∀ (f : Member → List String),
      (∀ e ∈ c.members.entries, f e.2 = []) → (c.activeMembers.flatMap f) = [] := by
    intro f h
    rw [List.flatMap_eq_nil_iff]
    intro m hm
    obtain ⟨e, he, rfl⟩ := (mem_activeMembers c m).1 hm
    exact h e he
  refine ⟨⟨sortStrings_sorted _, ?_, ?_⟩, ⟨sortStrings_sorted _, ?_, ?_⟩, ?_⟩
  · intro u
    rw [Cluster.PeerURLs, (sortStrings_perm _).mem_iff, List.mem_flatMap]
    constructor
    · rintro ⟨m, hm, hu⟩
      obtain ⟨e, he, rfl⟩ := (mem_activeMembers c m).1 hm
      exact ⟨e, he, hu⟩
    · rintro ⟨e, he, hu⟩
      exact ⟨e.2, (mem_activeMembers c e.2).2 ⟨e, he, rfl⟩, hu⟩
  · intro h
    rw [Cluster.PeerURLs, hflat _ h]
    rfl
  · intro u
    rw [Cluster.ClientURLs, (sortStrings_perm _).mem_iff, List.mem_flatMap]
    constructor
    · rintro ⟨m, hm, hu⟩
      obtain ⟨e, he, rfl⟩ := (mem_activeMembers c m).1 hm
      exact ⟨e, he, hu⟩
    · rintro ⟨e, he, hu⟩
      exact ⟨e.2, (mem_activeMembers c e.2).2 ⟨e, he, rfl⟩, hu⟩
  · intro h
    rw [Cluster.ClientURLs, hflat _ h]
    rfl
  · intro h
    rw [Cluster.PeerURLs, Cluster.ClientURLs, Cluster.activeMembers, h]
    exact ⟨rfl, rfl⟩

/-- C21 on the cases of `TestClusterPeerURLs` and `TestClusterClientURLs`: the
URLs of the members 2, 3, 1 are listed in ascending order; a cluster without
members and a member without URLs give the empty list. -/
theorem PeerURLs_ClientURLs_sorted_witness :
    (newTestCluster [
        newTestMember 2 ["http://192.0.2.3", "http://192.0.2.4"] "" [],
        newTestMember 3 ["http://192.0.2.5", "http://192.0.2.6"] "" [],
        newTestMember 1 ["http://192.0.2.1", "http://192.0.2.2"] "" []]).PeerURLs =
      ["http://192.0.2.1", "http://192.0.2.2", "http://192.0.2.3", "http://192.0.2.4",
        "http://192.0.2.5", "http://192.0.2.6"] ∧
    (newTestCluster [
        newTestMember 2 [] "" ["http://192.0.2.3", "http://192.0.2.4"],
        newTestMember 3 [] "" ["http://192.0.2.5", "http://192.0.2.6"],
        newTestMember 1 [] "" ["http://192.0.2.1", "http://192.0.2.2"]]).ClientURLs =
      ["http://192.0.2.1", "http://192.0.2.2", "http://192.0.2.3", "http://192.0.2.4",
        "http://192.0.2.5", "http://192.0.2.6"] ∧
    (newTestCluster [newTestMember 1 ["http://192.0.2.1:8001"] "" []]).PeerURLs =
      ["http://192.0.2.1:8001"] ∧
    (newTestCluster []).PeerURLs = [] ∧ (newTestCluster []).ClientURLs = [] ∧
    (newTestCluster [newTestMember 3 [] "" []]).PeerURLs = [] ∧
    (newTestCluster [newTestMember 3 [] "" []]).ClientURLs = [] :=
  ⟨by decide, by decide, by decide,
    ((PeerURLs_ClientURLs_sorted (newTestCluster [])).2.2 rfl).1,
    ((PeerURLs_ClientURLs_sorted (newTestCluster [])).2.2 rfl).2,
    (PeerURLs_ClientURLs_sorted (newTestCluster [newTestMember 3 [] "" []])).1.2.2
      (by decide),
    (PeerURLs_ClientURLs_sorted (newTestCluster [newTestMember 3 [] "" []])).2.1.2.2
      (by decide)⟩

end Etcdserver

/-! ## Reconciling a local cluster with an existing one -/

namespace Etcdserver

/-- The value stored under the key of an entry is the value of the entry. -/
theorem lookup_of_mem_entries (c : Cluster) {e : Sigma fun _ : Nat => Member}
    (he : e ∈ c.members.entries) : c.members.lookup e.1 = some e.2 :=
  AList.mem_lookup_iff.2 (by simpa using he)

/-- The records listed by `Members` are a permutation of the records of the
member map. -/
theorem Members_perm_activeMembers (c : Cluster) : c.Members.Perm c.activeMembers := by
  have hsome : ∀ id ∈ c.MemberIDs, (c.members.lookup id).isSome = true := fun id hid =>
    AList.lookup_isSome.2 ((mem_MemberIDs c id).1 hid)
  have h1 : c.Members.map some = c.MemberIDs.map fun id => c.members.lookup id :=
    map_some_filterMap _ _ hsome
  have h2 : (c.MemberIDs.map fun id => c.members.lookup id).Perm
      (c.members.keys.map fun id => c.members.lookup id) := (MemberIDs_perm_keys c).map _
  have h3 : (c.members.keys.map fun id => c.members.lookup id) = c.activeMembers.map some := by
    unfold AList.keys List.keys Cluster.activeMembers
    rw [List.map_map, List.map_map]
    exact List.map_congr_left fun e he => lookup_of_mem_entries c he
  have h4 : (c.Members.map some).Perm (c.activeMembers.map some) := by
    rw [h1, ← h3]
    exact h2
  have h5 := h4.filterMap id
  simpa [List.filterMap_map] using h5

/-- The number of records listed by `Members` is the number of active members. -/
theorem Members_length (c : Cluster) : c.Members.length = c.members.entries.length := by
  rw [(Members_perm_activeMembers c).length_eq, Cluster.activeMembers, List.length_map]

/-- Ordering by peer URLs permutes the members. -/
theorem byPeerURLs_perm (ms : List Member) : (byPeerURLs ms).Perm ms :=
  List.perm_insertionSort _ ms

/-- A successful assignment found matching peer URL sets at every position. -/
theorem assignIDs_some_map {ls es ms : List Member} (h : assignIDs ls es = some ms) :
    ls.map sortedPeerURLs = es.map sortedPeerURLs ∧
    ms.map (fun m => m.ID) = es.map (fun m => m.ID) ∧
    ms.map (fun m => m.PeerURLs) = ls.map (fun m => m.PeerURLs) ∧
    ms.length = ls.length := by
  induction ls generalizing es ms with
  | nil =>
    cases es with
    | nil =>
      obtain rfl : [] = ms := by simpa [assignIDs] using h
      exact ⟨rfl, rfl, rfl, rfl⟩
    | cons e es => simp [assignIDs] at h
  | cons l ls ih =>
    cases es with
    | nil => simp [assignIDs] at h
    | cons e es =>
      simp only [assignIDs] at h
      split at h
      · rename_i heq
        cases hrec : assignIDs ls es with
        | none => simp [hrec] at h
        | some ms' =>
          obtain rfl : { l with ID := e.ID } :: ms' = ms := by simpa [hrec] using h
          obtain ⟨h1, h2, h3, h4⟩ := ih hrec
          exact ⟨by simp [heq, h1], by simp [h2], by simp [h3], by simp [h4]⟩
      · exact absurd h (by simp)

/-- Each member returned by a successful assignment is a local member that took
the ID of an existing member with the same peer URL set. -/
theorem assignIDs_some_mem {ls es ms : List Member} (h : assignIDs ls es = some ms) :
    ∀ m' ∈ ms, ∃ l ∈ ls, ∃ e ∈ es, m' = { l with ID := e.ID } ∧
      sortedPeerURLs l = sortedPeerURLs e := by
  induction ls generalizing es ms with
  | nil =>
    cases es with
    | nil =>
      obtain rfl : [] = ms := by simpa [assignIDs] using h
      intro m' hm'
      exact absurd hm' (List.not_mem_nil _)
    | cons e es => simp [assignIDs] at h
  | cons l ls ih =>
    cases es with
    | nil => simp [assignIDs] at h
    | cons e es =>
      simp only [assignIDs] at h
      split at h
      · rename_i heq
        cases hrec : assignIDs ls es with
        | none => simp [hrec] at h
        | some ms' =>
          obtain rfl : { l with ID := e.ID } :: ms' = ms := by simpa [hrec] using h
          intro m' hm'
          rcases List.mem_cons.1 hm' with rfl | hm'
          · exact ⟨l, List.mem_cons_self _ _, e, List.mem_cons_self _ _, rfl, heq⟩
          · obtain ⟨l', hl', e', he', h1, h2⟩ := ih hrec m' hm'
            exact ⟨l', List.mem_cons_of_mem _ hl', e', List.mem_cons_of_mem _ he', h1, h2⟩
      · exact absurd h (by simp)

/-- A position at which the peer URL sets differ makes the assignment fail. -/
theorem assignIDs_none_of_mismatch {ls es : List Member} {i : Nat} {l e : Member}
    (hl : ls[i]? = some l) (he : es[i]? = some e)
    (hne : sortedPeerURLs l ≠ sortedPeerURLs e) : assignIDs ls es = none := by
  cases h : assignIDs ls es with
  | none => rfl
  | some ms =>
    exfalso
    have h1 := (assignIDs_some_map h).1
    have h2 := congrArg (fun x => x[i]?) h1
    simp only [List.getElem?_map, hl, he, Option.map_some'] at h2
    exact hne (Option.some.inj h2)

/-- C22: `ValidateClusterAndAssignIDs(local, existing)` returns an error for
every pair of clusters that differ in member count, for every pair in which,
after ordering both by peer URLs, some position holds members whose peer URL
sets differ, and hence for every pair whose multisets of peer URL sets are
not equal. -/
theorem ValidateClusterAndAssignIDs_rejects (lcl ecl : Cluster) :
    (lcl.members.entries.length ≠ ecl.members.entries.length →
      ∃ msg, ValidateClusterAndAssignIDs lcl ecl = .error msg) ∧
    ((∃ (i : Nat) (l e : Member), (byPeerURLs lcl.Members)[i]? = some l ∧
        (byPeerURLs ecl.Members)[i]? = some e ∧ sortedPeerURLs l ≠ sortedPeerURLs e) →
      ∃ msg, ValidateClusterAndAssignIDs lcl ecl = .error msg) ∧
    (¬ (lcl.activeMembers.map sortedPeerURLs).Perm (ecl.activeMembers.map sortedPeerURLs) →
      ∃ msg, ValidateClusterAndAssignIDs lcl ecl = .error msg) := by
  have hmis : assignIDs (byPeerURLs lcl.Members) (byPeerURLs ecl.Members) = none →
      ∃ msg, ValidateClusterAndAssignIDs lcl ecl = .error msg := by
    intro hnone
    unfold ValidateClusterAndAssignIDs
    simp only [hnone]
    split
    · exact ⟨_, rfl⟩
    · exact ⟨_, rfl⟩
  refine ⟨?_, ?_, ?_⟩
  · intro hlen
    have hlen' : (byPeerURLs ecl.Members).length ≠ (byPeerURLs lcl.Members).length := by
      rw [(byPeerURLs_perm _).length_eq, (byPeerURLs_perm _).length_eq, Members_length,
        Members_length]
      exact fun h => hlen h.symm
    unfold ValidateClusterAndAssignIDs
    simp only [if_pos hlen']
    exact ⟨_, rfl⟩
  · rintro ⟨i, l, e, hl, he, hne⟩
    exact hmis (assignIDs_none_of_mismatch hl he hne)
  · intro hperm
    apply hmis
    cases h : assignIDs (byPeerURLs lcl.Members) (byPeerURLs ecl.Members) with
    | none => rfl
    | some ms =>
      exfalso
      apply hperm
      have h1 := (assignIDs_some_map h).1
      have hl : (lcl.activeMembers.map sortedPeerURLs).Perm
          ((byPeerURLs lcl.Members).map sortedPeerURLs) :=
        (((byPeerURLs_perm _).trans (Members_perm_activeMembers lcl)).map _).symm
      have he : ((byPeerURLs ecl.Members).map sortedPeerURLs).Perm
          (ecl.activeMembers.map sortedPeerURLs) :=
        ((byPeerURLs_perm _).trans (Members_perm_activeMembers ecl)).map _
      exact hl.trans (h1 ▸ he)

/-- C22 on the cases of `TestClusterValidateAndAssignIDsBad`: an existing
cluster of one member against an empty local one, and peer URLs that differ
in the port, are rejected. -/
theorem ValidateClusterAndAssignIDs_rejects_witness :
    (∃ msg, ValidateClusterAndAssignIDs (newTestCluster [])
      (newTestCluster [newTestMember 1 ["http://127.0.0.1:2379"] "" []]) = .error msg) ∧
    (∃ msg, ValidateClusterAndAssignIDs
      (newTestCluster [newTestMember 1 ["http://127.0.0.1:4001"] "" []])
      (newTestCluster [newTestMember 1 ["http://127.0.0.1:2379"] "" []]) = .error msg) ∧
    (∃ msg, ValidateClusterAndAssignIDs
      (newTestCluster [newTestMember 1 ["http://127.0.0.1:2379"] "" [],
        newTestMember 2 ["http://127.0.0.2:4001"] "" []])
      (newTestCluster [newTestMember 1 ["http://127.0.0.1:2379"] "" [],
        newTestMember 2 ["http://127.0.0.2:2379"] "" []]) = .error msg) ∧
    (∃ msg, ValidateClusterAndAssignIDs
      (newTestCluster [newTestMember 1 ["http://127.0.0.1:4001"] "" []])
      (newTestCluster [newTestMember 2 ["http://127.0.0.1:2379"] "" []]) = .error msg) := by
  refine ⟨?_, ?_, ?_, ?_⟩
  rotate_right
  · exact (ValidateClusterAndAssignIDs_rejects _ _).2.2 (by decide)
  · exact (ValidateClusterAndAssignIDs_rejects _ _).1 (by decide)
  · exact (ValidateClusterAndAssignIDs_rejects _ _).2.1
      ⟨0, newTestMember 1 ["http://127.0.0.1:4001"] "" [],
        newTestMember 1 ["http://127.0.0.1:2379"] "" [], by decide, by decide, by decide⟩
  · exact (ValidateClusterAndAssignIDs_rejects _ _).2.1
      ⟨1, newTestMember 2 ["http://127.0.0.2:4001"] "" [],
        newTestMember 2 ["http://127.0.0.2:2379"] "" [], by decide, by decide, by decide⟩

end Etcdserver

namespace Etcdserver

/-- Storing members with distinct IDs, none of them a key of the map so far,
puts one entry per member in front of the entries of the map. -/
theorem foldl_insert_entries (ms : List Member) (acc : AList fun _ : Nat => Member)
    (hfresh : ∀ m ∈ ms, m.ID ∉ acc) (hnd : (ms.map fun m => m.ID).Nodup) :
    (ms.foldl (fun acc m => acc.insert m.ID m) acc).entries =
      (ms.reverse.map fun m => (⟨m.ID, m⟩ : Sigma fun _ : Nat => Member)) ++ acc.entries := by
  induction ms generalizing acc with
  | nil => simp
  | cons m rest ih =>
    have hm : m.ID ∉ acc := hfresh m (List.mem_cons_self _ _)
    rw [List.map_cons, List.nodup_cons] at hnd
    have hfresh' : ∀ x ∈ rest, x.ID ∉ acc.insert m.ID m := by
      intro x hx hmem
      rcases (AList.mem_insert acc).1 hmem with heq | hacc
      · exact hnd.1 (heq ▸ List.mem_map_of_mem (fun m => m.ID) hx)
      · exact hfresh x (List.mem_cons_of_mem _ hx) hacc
    rw [List.foldl_cons, ih _ hfresh' hnd.2, AList.insert_entries_of_neg hm]
    simp

/-- A member map built from members with distinct IDs has one entry per
member, each under the ID of the member. -/
theorem membersByID_entries (ms : List Member) (hnd : (ms.map fun m => m.ID).Nodup) :
    (membersByID ms).entries =
      ms.reverse.map fun m => (⟨m.ID, m⟩ : Sigma fun _ : Nat => Member) := by
  unfold membersByID
  rw [foldl_insert_entries ms ∅ (fun m _ => AList.not_mem_empty _) hnd]
  simp

/-- Two clusters whose member maps have the same keys list the same IDs. -/
theorem MemberIDs_eq_of_keys_perm {c c' : Cluster}
    (h : c.members.keys.Perm c'.members.keys) : c.MemberIDs = c'.MemberIDs :=
  List.eq_of_perm_of_sorted
    (((MemberIDs_perm_keys c).trans h).trans (MemberIDs_perm_keys c').symm)
    (List.sorted_insertionSort (· ≤ ·) _) (List.sorted_insertionSort (· ≤ ·) _)

/-- In a cluster that stores each record under its own ID, the IDs of the
records are the keys of the member map. -/
theorem activeMembers_map_ID {c : Cluster} (hk : c.KeyedByID) :
    (c.activeMembers.map fun m => m.ID) = c.members.keys := by
  unfold Cluster.activeMembers AList.keys List.keys
  rw [List.map_map]
  exact List.map_congr_left fun e he => hk e he

/-- C23: for every pair of clusters on which `ValidateClusterAndAssignIDs`
succeeds, the existing cluster storing each record under its own ID:
afterwards every local member is stored under its own ID, which is the ID of
an existing member with the same peer URL set; `MemberIDs()` of the local
cluster equals `MemberIDs()` of the existing one; and the peer URLs of the
local members are those they had before. -/
theorem ValidateClusterAndAssignIDs_assigns (lcl ecl lcl' : Cluster) (hk : ecl.KeyedByID)
    (h : ValidateClusterAndAssignIDs lcl ecl = .ok lcl') :
    (∀ e' ∈ lcl'.members.entries, e'.2.ID = e'.1 ∧
      ∃ m ∈ ecl.Members, m.ID = e'.1 ∧ sortedPeerURLs m = sortedPeerURLs e'.2) ∧
    lcl'.MemberIDs = ecl.MemberIDs ∧
    (lcl'.activeMembers.map fun m => m.PeerURLs).Perm
      (lcl.activeMembers.map fun m => m.PeerURLs) ∧
    lcl'.PeerURLs = lcl.PeerURLs := by
  unfold ValidateClusterAndAssignIDs at h
  simp only at h
  split at h
  · exact absurd h (by simp)
  split at h
  · rename_i ms hms
    obtain rfl : { lcl with members := membersByID ms } = lcl' := Except.ok.inj h
    obtain ⟨-, hid, hurls, -⟩ := assignIDs_some_map hms
    have heperm : (byPeerURLs ecl.Members).Perm ecl.activeMembers :=
      (byPeerURLs_perm _).trans (Members_perm_activeMembers ecl)
    have hlperm : (byPeerURLs lcl.Members).Perm lcl.activeMembers :=
      (byPeerURLs_perm _).trans (Members_perm_activeMembers lcl)
    have hkeys : (ms.map fun m => m.ID).Perm ecl.members.keys := by
      rw [hid, ← activeMembers_map_ID hk]
      exact heperm.map _
    have hnd : (ms.map fun m => m.ID).Nodup := hkeys.nodup_iff.2 ecl.members.keys_nodup
    have hent := membersByID_entries ms hnd
    have hact : ({ lcl with members := membersByID ms } : Cluster).activeMembers =
        ms.reverse := by
      simp only [Cluster.activeMembers, hent, List.map_map]
      exact List.map_id' _
    have hpu : (({ lcl with members := membersByID ms } : Cluster).activeMembers.map
        fun m => m.PeerURLs).Perm (lcl.activeMembers.map fun m => m.PeerURLs) := by
      rw [hact, List.map_reverse, hurls]
      exact (List.reverse_perm _).trans (hlperm.map _)
    refine ⟨?_, ?_, hpu, ?_⟩
    · intro e' he'
      simp only [hent, List.mem_map, List.mem_reverse] at he'
      obtain ⟨m', hm', rfl⟩ := he'
      refine ⟨rfl, ?_⟩
      obtain ⟨l, -, e, he, rfl, hse⟩ := assignIDs_some_mem hms m' hm'
      refine ⟨e, ?_, rfl, ?_⟩
      · exact ((byPeerURLs_perm _).mem_iff).1 he
      · rw [hse.symm]
        rfl
    · apply MemberIDs_eq_of_keys_perm
      show (membersByID ms).keys.Perm ecl.members.keys
      unfold AList.keys List.keys
      rw [hent, List.map_map]
      have : ((fun e : Sigma fun _ : Nat => Member => e.1) ∘ fun m : Member =>
          (⟨m.ID, m⟩ : Sigma fun _ : Nat => Member)) = fun m => m.ID := rfl
      rw [this, List.map_reverse]
      exact (List.reverse_perm _).trans hkeys
    · unfold Cluster.PeerURLs
      apply sortStrings_eq_of_perm
      have := hpu.flatten
      simpa [List.flatMap] using this
  · exact absurd h (by simp)

/-- C23 on the case of `TestClusterValidateAndAssignIDs`: the local members 1
and 2 take the IDs 3 and 4 of the existing members with the same peer URLs. -/
theorem ValidateClusterAndAssignIDs_assigns_witness :
    ∃ lcl', ValidateClusterAndAssignIDs
      (newTestCluster [newTestMember 1 ["http://127.0.0.1:2379"] "" [],
        newTestMember 2 ["http://127.0.0.2:2379"] "" []])
      (newTestCluster [newTestMember 3 ["http://127.0.0.1:2379"] "" [],
        newTestMember 4 ["http://127.0.0.2:2379"] "" []]) = .ok lcl' ∧
      lcl'.MemberIDs = [3, 4] ∧
      lcl'.Members = [newTestMember 3 ["http://127.0.0.1:2379"] "" [],
        newTestMember 4 ["http://127.0.0.2:2379"] "" []] ∧
      lcl'.PeerURLs = ["http://127.0.0.1:2379", "http://127.0.0.2:2379"] := by
  obtain ⟨lcl', hok⟩ : ∃ lcl', ValidateClusterAndAssignIDs
      (newTestCluster [newTestMember 1 ["http://127.0.0.1:2379"] "" [],
        newTestMember 2 ["http://127.0.0.2:2379"] "" []])
      (newTestCluster [newTestMember 3 ["http://127.0.0.1:2379"] "" [],
        newTestMember 4 ["http://127.0.0.2:2379"] "" []]) = .ok lcl' := ⟨_, rfl⟩
  have hk : (newTestCluster [newTestMember 3 ["http://127.0.0.1:2379"] "" [],
      newTestMember 4 ["http://127.0.0.2:2379"] "" []]).KeyedByID := by
    unfold Cluster.KeyedByID
    decide
  have h := ValidateClusterAndAssignIDs_assigns _ _ lcl' hk hok
  have hl : lcl' = { newTestCluster [newTestMember 1 ["http://127.0.0.1:2379"] "" [],
        newTestMember 2 ["http://127.0.0.2:2379"] "" []] with
      members := membersByID [newTestMember 3 ["http://127.0.0.1:2379"] "" [],
        newTestMember 4 ["http://127.0.0.2:2379"] "" []] } :=
    (Except.ok.inj hok).symm
  refine ⟨lcl', hok, h.2.1.trans (by decide), ?_, h.2.2.2.trans (by decide)⟩
  rw [hl]
  decide

end Etcdserver

/-! ## The cluster identifier and the mutations of the membership store -/

namespace Etcdserver

/-- The model of `genID` meets `TestClusterGenID` for a hash that tells lists of
different length apart: the identifier of the members 1 and 2 is not 0, and
it changes when member 3 is added. -/
theorem genID_agrees_with_test :
    (genID (fun l => l.length + 1)
      (newTestCluster [newTestMember 1 [] "" [], newTestMember 2 [] "" []])).id ≠ 0 ∧
    (genID (fun l => l.length + 1)
      (AddMember (fun _ => "") (newTestCluster [newTestMember 1 [] "" [],
        newTestMember 2 [] "" []]) (newTestMember 3 [] "" [])).1.1).id ≠
    (genID (fun l => l.length + 1)
      (newTestCluster [newTestMember 1 [] "" [], newTestMember 2 [] "" []])).id := by
  decide

/-- C24: `genID` is stable and order-independent: any two clusters whose active
members have identical peer URL sets compute the same cluster identifier; in
particular two clusters that hold the same entries, inserted in any order,
do. -/
theorem genID_stable (hash : List String → Nat) (c₁ c₂ : Cluster) :
    ((c₁.activeMembers.map sortedPeerURLs).Perm (c₂.activeMembers.map sortedPeerURLs) →
      (genID hash c₁).id = (genID hash c₂).id) ∧
    (c₁.members.entries.Perm c₂.members.entries →
      (genID hash c₁).id = (genID hash c₂).id) := by
  have key : (c₁.activeMembers.map sortedPeerURLs).Perm (c₂.activeMembers.map sortedPeerURLs) →
      (genID hash c₁).id = (genID hash c₂).id := by
    intro h
    have hj : (c₁.activeMembers.map joinedPeerURLs).Perm
        (c₂.activeMembers.map joinedPeerURLs) := by
      have := h.map fun urls => ",".intercalate urls
      simpa [List.map_map, joinedPeerURLs, Function.comp_def] using this
    show hash c₁.peerURLKeys = hash c₂.peerURLKeys
    unfold Cluster.peerURLKeys
    rw [sortStrings_eq_of_perm hj]
  refine ⟨key, ?_⟩
  intro h
  apply key
  unfold Cluster.activeMembers
  exact (h.map _).map _

/-- C24 on sample clusters, with the sum of the lengths of the keys as the
hash: the same two members inserted in either order, and two members with
the same peer URLs under other IDs, give the same identifier. -/
theorem genID_stable_witness :
    (genID (fun l => (l.map String.length).sum + 1)
      (newTestCluster [newTestMember 1 ["http://h1"] "" [],
        newTestMember 2 ["http://h2"] "" []])).id =
    (genID (fun l => (l.map String.length).sum + 1)
      (newTestCluster [newTestMember 2 ["http://h2"] "" [],
        newTestMember 1 ["http://h1"] "" []])).id ∧
    (genID (fun l => (l.map String.length).sum + 1)
      (newTestCluster [newTestMember 1 ["http://h1"] "" [],
        newTestMember 2 ["http://h2"] "" []])).id =
    (genID (fun l => (l.map String.length).sum + 1)
      (newTestCluster [newTestMember 4 ["http://h2"] "" [],
        newTestMember 3 ["http://h1"] "" []])).id :=
  ⟨(genID_stable _ _ _).2 (by decide), (genID_stable _ _ _).1 (by decide)⟩

/-- C25: for every cluster state and `id`, after `RemoveMember(id)` the ID is
not in the active map and is in the removed set, every other active member
record is unchanged, the removed set has gained `id` only, and the store
has received exactly a `Delete` of the member's key followed by a `Create`
of the removed-member marker of `id`. -/
theorem RemoveMember_effect (c : Cluster) (id : Nat) :
    id ∉ (RemoveMember c id).1.members ∧
    id ∈ (RemoveMember c id).1.removed ∧
    (∀ j, j ≠ id → (RemoveMember c id).1.members.lookup j = c.members.lookup j) ∧
    (RemoveMember c id).1.removed = insert id c.removed ∧
    (RemoveMember c id).2 =
      [.Delete (.member id) true true, .Create (.removedMember id) false "" false true] := by
  refine ⟨?_, ?_, ?_, rfl, rfl⟩
  · show id ∉ c.members.erase id
    rw [AList.mem_erase]
    exact fun h => h.1 rfl
  · show id ∈ insert id c.removed
    exact Finset.mem_insert_self _ _
  · intro j hj
    exact AList.lookup_erase_ne hj

/-- C25 on the case of `TestClusterRemoveMember` and on the cluster of
`TestClusterValidateConfigurationChange`: the store receives the `Delete` and
the `Create` for member 1; removing member 2 leaves the records of the
members 1 and 3. -/
theorem RemoveMember_effect_witness :
    (RemoveMember (newTestCluster []) 1).2 =
      [.Delete (.member 1) true true, .Create (.removedMember 1) false "" false true] ∧
    (RemoveMember testCluster 2).1.members.lookup 3 = some (testMember 3 3) ∧
    (RemoveMember testCluster 2).1.members.lookup 2 = none ∧
    (RemoveMember testCluster 2).1.removed = {2, 4} :=
  ⟨(RemoveMember_effect (newTestCluster []) 1).2.2.2.2,
    ((RemoveMember_effect testCluster 2).2.2.1 3 (by decide)).trans (by decide),
    AList.lookup_eq_none.2 (RemoveMember_effect testCluster 2).1,
    (RemoveMember_effect testCluster 2).2.2.2.1.trans (by decide)⟩

/-- C28: `UpdateAttributes(id, attrs)` on an active `id` (in the active map and
not removed) returns a cluster in which the member's `Name` and `ClientURLs`
are those of `attrs`, its `ID` and `PeerURLs` are unchanged, and so are every
other member, the removed set and the cluster identifier; on an `id` in the
removed set it returns the cluster as it was. -/
theorem UpdateAttributes_effect (c : Cluster) (id : Nat) (attrs : Attributes) :
    (∀ m, c.members.lookup id = some m → id ∉ c.removed →
      ∃ c', UpdateAttributes c id attrs = some c' ∧
        c'.members.lookup id = some
          { ID := m.ID, PeerURLs := m.PeerURLs, Name := attrs.Name,
            ClientURLs := attrs.ClientURLs } ∧
        (∀ j, j ≠ id → c'.members.lookup j = c.members.lookup j) ∧
        c'.removed = c.removed ∧ c'.id = c.id) ∧
    (id ∈ c.removed → UpdateAttributes c id attrs = some c) := by
  constructor
  · intro m hm hnr
    let updated : Member := { m with Name := attrs.Name, ClientURLs := attrs.ClientURLs }
    refine ⟨{ c with members := c.members.insert id updated },
      by simp only [UpdateAttributes, if_neg hnr, hm, updated], ?_, ?_, rfl, rfl⟩
    · exact AList.lookup_insert _
    · intro j hj
      exact AList.lookup_insert_ne hj
  · intro hr
    simp [UpdateAttributes, hr]

/-- C28 on the cases of `TestClusterUpdateAttributes`: member 1 takes the name
`etcd` and the client URL; with member 1 removed the call changes nothing. -/
theorem UpdateAttributes_effect_witness :
    (∃ c', UpdateAttributes (newTestCluster [newTestMember 1 [] "" []]) 1
        ⟨"etcd", ["http://127.0.0.1:4001"]⟩ = some c' ∧
      c'.Members = [newTestMember 1 [] "etcd" ["http://127.0.0.1:4001"]]) ∧
    UpdateAttributes { newTestCluster [] with removed := {1} } 1
        ⟨"etcd", ["http://127.0.0.1:4001"]⟩ =
      some { newTestCluster [] with removed := {1} } ∧
    ({ newTestCluster [] with removed := {1} } : Cluster).Members = [] := by
  refine ⟨?_, ?_, by decide⟩
  · obtain ⟨c', hc', -⟩ := (UpdateAttributes_effect (newTestCluster [newTestMember 1 [] "" []])
      1 ⟨"etcd", ["http://127.0.0.1:4001"]⟩).1 (newTestMember 1 [] "" []) (by decide)
      (by decide)
    refine ⟨c', hc', ?_⟩
    have h2 : UpdateAttributes (newTestCluster [newTestMember 1 [] "" []]) 1
        ⟨"etcd", ["http://127.0.0.1:4001"]⟩ = some
        { newTestCluster [newTestMember 1 [] "" []] with
          members := (newTestCluster [newTestMember 1 [] "" []]).members.insert 1
            (newTestMember 1 [] "etcd" ["http://127.0.0.1:4001"]) } := rfl
    rw [h2] at hc'
    obtain rfl := Option.some.inj hc'
    decide
  · exact (UpdateAttributes_effect { newTestCluster [] with removed := {1} } 1
      ⟨"etcd", ["http://127.0.0.1:4001"]⟩).2 (by decide)

end Etcdserver

/-! ## URL reuse after removal, and the removed set -/

namespace Etcdserver

open ServerError ConfChangeType

/-- The IDs listed by `MemberIDs` ascend strictly. -/
theorem MemberIDs_strictly_ascending (c : Cluster) : c.MemberIDs.Sorted (· < ·) :=
  (List.sorted_insertionSort (· ≤ ·) c.members.keys).lt_of_le
    ((MemberIDs_perm_keys c).nodup_iff.2 c.members.keys_nodup)

/-- A successful reconciliation leaves the removed set of the local cluster as
it was. -/
theorem ValidateClusterAndAssignIDs_removed {lcl ecl lcl' : Cluster}
    (h : ValidateClusterAndAssignIDs lcl ecl = .ok lcl') : lcl'.removed = lcl.removed := by
  unfold ValidateClusterAndAssignIDs at h
  simp only at h
  split at h
  · exact absurd h (by simp)
  split at h
  · obtain rfl := Except.ok.inj h
    rfl
  · exact absurd h (by simp)

/-- C26: for every cluster, after `RemoveMember(r)`, a member with a fresh ID
(neither active nor removed) whose peer URLs are those of the removed member
`r` and collide with no remaining active member is accepted by
`ValidateConfigurationChange` and by `AddMember`, and `MemberIDs()` then
lists, in ascending order, the remaining IDs and the new one. -/
theorem url_reuse_after_removal (decode : List Nat → Option Member)
    (marshal : RaftAttributes → String) (c : Cluster) (r : Nat) (mr m : Member)
    (ctx : List Nat) (_hr : c.members.lookup r = some mr) (_hurls : m.PeerURLs = mr.PeerURLs)
    (hfresh : m.ID ∉ (RemoveMember c r).1.members)
    (hnr : m.ID ∉ (RemoveMember c r).1.removed)
    (hfree : ∀ e ∈ (RemoveMember c r).1.members.entries,
      ∀ u ∈ m.PeerURLs, u ∉ e.2.PeerURLs)
    (hdec : decode ctx = some m) :
    (ValidateConfigurationChange decode (RemoveMember c r).1 ⟨AddNode, m.ID, ctx⟩).2 =
      .returns none ∧
    (AddMember marshal (RemoveMember c r).1 m).2 = none ∧
    (∀ id, id ∈ (AddMember marshal (RemoveMember c r).1 m).1.1.MemberIDs ↔
      id = m.ID ∨ (id ∈ c.members ∧ id ≠ r)) ∧
    (AddMember marshal (RemoveMember c r).1 m).1.1.MemberIDs.Sorted (· < ·) := by
  have hn : (RemoveMember c r).1.members.lookup m.ID = none := AList.lookup_eq_none.2 hfresh
  have hcol : peerURLCollision m.PeerURLs (RemoveMember c r).1.activeMembers = false := by
    cases hc : peerURLCollision m.PeerURLs (RemoveMember c r).1.activeMembers with
    | false => rfl
    | true =>
      obtain ⟨u, hu, m', hm', hum⟩ := (peerURLCollision_iff _ _).1 hc
      obtain ⟨e, he, rfl⟩ := (mem_activeMembers _ m').1 hm'
      exact absurd hum (hfree e he u hu)
  have hadd : AddMember marshal (RemoveMember c r).1 m =
      (({ (RemoveMember c r).1 with members := (RemoveMember c r).1.members.insert m.ID m },
        [.Create (.memberRaftAttributes m.ID) false (marshal m.toRaftAttributes) false true]),
        none) := by
    unfold AddMember
    rw [if_neg hfresh]
  refine ⟨?_, ?_, ?_, MemberIDs_strictly_ascending _⟩
  · simp [ValidateConfigurationChange, validate, hnr, hn, hdec, hcol]
  · rw [hadd]
  · intro id
    rw [hadd, mem_MemberIDs]
    show id ∈ (c.members.erase r).insert m.ID m ↔ _
    rw [AList.mem_insert, AList.mem_erase]
    tauto

/-- C26 on the scenario of the specification: from the members 1 (`http://h1`)
and 2 (`http://h2`), member 2 is removed and member 3 with `http://h2` is
added; the change is accepted and `MemberIDs()` returns 1, 3. -/
theorem url_reuse_after_removal_witness :
    (ValidateConfigurationChange (fun _ => some (newTestMember 3 ["http://h2"] "" []))
      (RemoveMember (newTestCluster [newTestMember 1 ["http://h1"] "" [],
        newTestMember 2 ["http://h2"] "" []]) 2).1 ⟨AddNode, 3, []⟩).2 = .returns none ∧
    (AddMember (fun _ => "") (RemoveMember (newTestCluster
      [newTestMember 1 ["http://h1"] "" [], newTestMember 2 ["http://h2"] "" []]) 2).1
      (newTestMember 3 ["http://h2"] "" [])).2 = none ∧
    (AddMember (fun _ => "") (RemoveMember (newTestCluster
      [newTestMember 1 ["http://h1"] "" [], newTestMember 2 ["http://h2"] "" []]) 2).1
      (newTestMember 3 ["http://h2"] "" [])).1.1.MemberIDs = [1, 3] := by
  have h := url_reuse_after_removal (fun _ => some (newTestMember 3 ["http://h2"] "" []))
    (fun _ => "") (newTestCluster [newTestMember 1 ["http://h1"] "" [],
      newTestMember 2 ["http://h2"] "" []]) 2 (newTestMember 2 ["http://h2"] "" [])
    (newTestMember 3 ["http://h2"] "" []) [] (by decide) rfl (by decide) (by decide)
    (by decide) rfl
  exact ⟨h.1, h.2.1, by decide⟩

/-- C27: the removed set is append-only. No operation of the membership store
(`AddMember`, `RemoveMember`, `UpdateAttributes`,
`ValidateConfigurationChange`, `ValidateClusterAndAssignIDs`, `genID`) takes
an ID out of the removed set; so once `RemoveMember(id)` has run, after any
sequence of operations every `ValidateConfigurationChange` with that `NodeID`
returns `ErrIDRemoved`, whatever its kind and context. -/
theorem removed_append_only (decode : List Nat → Option Member)
    (marshal : RaftAttributes → String) (hash : List String → Nat) :
    (∀ (c : Cluster) (op : StoreOp),
      c.removed ⊆ (applyOp decode marshal hash c op).removed) ∧
    (∀ (c : Cluster) (id : Nat) (ops : List StoreOp) (kind : ConfChangeType)
      (ctx : List Nat),
      (ValidateConfigurationChange decode
        (ops.foldl (applyOp decode marshal hash) (RemoveMember c id).1)
        ⟨kind, id, ctx⟩).2 = .returns (some ErrIDRemoved)) := by
  have hstep : ∀ (c : Cluster) (op : StoreOp),
      c.removed ⊆ (applyOp decode marshal hash c op).removed := by
    intro c op
    cases op with
    | AddMember m =>
      show c.removed ⊆ (AddMember marshal c m).1.1.removed
      unfold AddMember
      split <;> exact Finset.Subset.refl _
    | RemoveMember id =>
      show c.removed ⊆ insert id c.removed
      exact Finset.subset_insert _ _
    | UpdateAttributes id attrs =>
      show c.removed ⊆ ((UpdateAttributes c id attrs).getD c).removed
      unfold UpdateAttributes
      split
      · exact Finset.Subset.refl _
      · split <;> exact Finset.Subset.refl _
    | ValidateConfigurationChange cc => exact Finset.Subset.refl _
    | ValidateClusterAndAssignIDs existing =>
      show c.removed ⊆ (match ValidateClusterAndAssignIDs c existing with
        | .ok c' => c'
        | .error _ => c).removed
      cases h : ValidateClusterAndAssignIDs c existing with
      | error msg => exact Finset.Subset.refl _
      | ok c' =>
        show c.removed ⊆ c'.removed
        rw [ValidateClusterAndAssignIDs_removed h]
    | genID => exact Finset.Subset.refl _
  have hfold : ∀ (ops : List StoreOp) (c : Cluster),
      c.removed ⊆ (ops.foldl (applyOp decode marshal hash) c).removed := by
    intro ops
    induction ops with
    | nil => exact fun c => Finset.Subset.refl _
    | cons op rest ih =>
      intro c
      exact (hstep c op).trans (ih _)
  refine ⟨hstep, ?_⟩
  intro c id ops kind ctx
  have hmem : id ∈ (ops.foldl (applyOp decode marshal hash)
      (RemoveMember c id).1).removed :=
    hfold ops _ (Finset.mem_insert_self id c.removed)
  simp [ValidateConfigurationChange, validate, hmem]

end Etcdserver

/-! ## The watch handler -/

namespace Etcdhttp

open Store

/-- The loop of `handleKeyWatch` never calls `Remove` itself. -/
theorem handleKeyWatchLoop_no_Remove (stream : Bool) (signals : List Signal) :
    Output.Remove ∉ (handleKeyWatchLoop stream signals).1 := by
  induction signals with
  | nil => simp [handleKeyWatchLoop]
  | cons s rest ih =>
    cases s with
    | CloseNotify => simp [handleKeyWatchLoop]
    | Done => simp [handleKeyWatchLoop]
    | Closed => simp [handleKeyWatchLoop]
    | Event ev fails =>
      simp only [handleKeyWatchLoop]
      split
      · simp
      · split
        · simp
        · simpa using ih

/-- The headers, the status and the first flush do not call `Remove`. -/
theorem watchPreamble_no_Remove (startIndex raftIndex raftTerm : Nat) :
    Output.Remove ∉ watchPreamble startIndex raftIndex raftTerm := by
  simp [watchPreamble]

/-- C29: `handleKeyWatch` releases the subscription on every terminal
transition: whenever it returns (client connection closed, deadline elapsed,
event channel closed, encoding error, single-event completion) the watcher's
`Remove` is called exactly once, as the last call of the run; and as long as
the run has not terminated `Remove` has not been called. -/
theorem handleKeyWatch_removes_once (startIndex raftIndex raftTerm : Nat) (stream : Bool)
    (signals : List Signal) :
    ((handleKeyWatch startIndex raftIndex raftTerm stream signals).2 ≠ .Blocked →
      ∃ body, (handleKeyWatch startIndex raftIndex raftTerm stream signals).1 =
        body ++ [.Remove] ∧ Output.Remove ∉ body) ∧
    ((handleKeyWatch startIndex raftIndex raftTerm stream signals).2 = .Blocked →
      Output.Remove ∉ (handleKeyWatch startIndex raftIndex raftTerm stream signals).1) := by
  have hbody : Output.Remove ∉ watchPreamble startIndex raftIndex raftTerm ++
      (handleKeyWatchLoop stream signals).1 := by
    rw [List.mem_append]
    rintro (h | h)
    · exact watchPreamble_no_Remove _ _ _ h
    · exact handleKeyWatchLoop_no_Remove _ _ h
  constructor
  · intro hex
    have hex' : (handleKeyWatchLoop stream signals).2 ≠ .Blocked := hex
    exact ⟨_, by simp only [handleKeyWatch, if_neg hex'], hbody⟩
  · intro hex
    have hex' : (handleKeyWatchLoop stream signals).2 = .Blocked := hex
    simp only [handleKeyWatch, if_pos hex', List.append_nil]
    exact hbody

/-- C29 on one run for each way of returning, and on a run that is still
waiting: the five returning runs end with `Remove`, the waiting one has not
called it. -/
theorem handleKeyWatch_removes_once_witness :
    (handleKeyWatch 7 2 1 true [.Event (some (fooEvent 8)) false, .CloseNotify]) =
      (watchPreamble 7 2 1 ++ [.Encode (trimEventPrefix (some (fooEvent 8)) StoreKeysPrefix),
        .Flush] ++ [.Remove], .ClientClosed) ∧
    (handleKeyWatch 7 2 1 true [.Done]).2 = .TimedOut ∧
    (handleKeyWatch 7 2 1 true [.Closed]).2 = .ChannelClosed ∧
    (handleKeyWatch 7 2 1 true [.Event (some (fooEvent 8)) true]).2 = .EncodeError ∧
    (handleKeyWatch 7 2 1 false [.Event (some (fooEvent 8)) false]).2 = .SingleEvent ∧
    (∃ body, (handleKeyWatch 7 2 1 false [.Event (some (fooEvent 8)) false]).1 =
      body ++ [.Remove] ∧ Output.Remove ∉ body) ∧
    (handleKeyWatch 7 2 1 true [.Event (some (fooEvent 8)) false]).2 = .Blocked ∧
    Output.Remove ∉ (handleKeyWatch 7 2 1 true [.Event (some (fooEvent 8)) false]).1 :=
  ⟨rfl, rfl, rfl, rfl, rfl,
    (handleKeyWatch_removes_once 7 2 1 false [.Event (some (fooEvent 8)) false]).1
      (by decide),
    rfl,
    (handleKeyWatch_removes_once 7 2 1 true [.Event (some (fooEvent 8)) false]).2 rfl⟩

/-- The events encoded by two lists of calls in a row. -/
theorem encodedEvents_append (a b : List Output) :
    encodedEvents (a ++ b) = encodedEvents a ++ encodedEvents b := by
  induction a with
  | nil => rfl
  | cons o rest ih => cases o <;> simp [encodedEvents, ih]

/-- The loop of a streaming watch on events that all encode, followed by a
termination signal: each event is encoded and flushed, in order, and the
loop ends as the signal tells. -/
theorem handleKeyWatchLoop_stream (evs : List (Option Event)) (t : Signal)
    (rest : List Signal) (ht : t.isTermination = true) :
    handleKeyWatchLoop true (evs.map (fun ev => Signal.Event ev false) ++ t :: rest) =
      (evs.flatMap fun ev => [Output.Encode (trimEventPrefix ev StoreKeysPrefix), .Flush],
        exitOf t) := by
  induction evs with
  | nil =>
    cases t with
    | Event ev fails => simp [Signal.isTermination] at ht
    | CloseNotify => rfl
    | Done => rfl
    | Closed => rfl
  | cons ev evs ih =>
    simp only [List.map_cons, List.cons_append, handleKeyWatchLoop, List.flatMap_cons]
    simp [ih]

/-- The loop of a streaming watch on events that all encode, followed by an
event on which the encoder fails: that event ends the loop. -/
theorem handleKeyWatchLoop_stream_error (evs : List (Option Event)) (ev : Option Event)
    (rest : List Signal) :
    handleKeyWatchLoop true
        (evs.map (fun ev => Signal.Event ev false) ++ Signal.Event ev true :: rest) =
      ((evs.flatMap fun ev => [Output.Encode (trimEventPrefix ev StoreKeysPrefix), .Flush]) ++
        [.Encode (trimEventPrefix ev StoreKeysPrefix), .Warning], .EncodeError) := by
  induction evs with
  | nil => simp [handleKeyWatchLoop]
  | cons e evs ih =>
    simp only [List.map_cons, List.cons_append, handleKeyWatchLoop, List.flatMap_cons]
    simp [ih]

/-- C30 (as stated it fails): in a streaming watch that receives an event on
which the encoder fails, then a second event, then the deadline, two events
arrive before the first termination signal but only the first is encoded:
the encoding error ends the stream. -/
theorem handleKeyWatch_stream_stops_on_encode_error :
    eventsBeforeTermination [.Event (some (fooEvent 1)) true,
      .Event (some (fooEvent 2)) false, .Done] = [some (fooEvent 1), some (fooEvent 2)] ∧
    handleKeyWatch 0 0 0 true [.Event (some (fooEvent 1)) true,
      .Event (some (fooEvent 2)) false, .Done] =
      (watchPreamble 0 0 0 ++ [.Encode (trimEventPrefix (some (fooEvent 1)) StoreKeysPrefix),
        .Warning] ++ [.Remove], .EncodeError) ∧
    ¬ (∀ (startIndex raftIndex raftTerm : Nat) (signals : List Signal),
      encodedEvents (handleKeyWatch startIndex raftIndex raftTerm true signals).1 =
        (eventsBeforeTermination signals).map fun ev =>
          trimEventPrefix ev StoreKeysPrefix) := by
  refine ⟨rfl, rfl, ?_⟩
  intro h
  have h1 := congrArg List.length (h 0 0 0 [.Event (some (fooEvent 1)) true,
    .Event (some (fooEvent 2)) false, .Done])
  revert h1
  decide

/-- C30 (amended): with `stream = false`, `handleKeyWatch` encodes at most one
event, and returns right after the first event it receives is encoded. With
`stream = true` and as long as the encoder does not fail, it encodes (and
flushes), in arrival order, every event received before the first
termination signal (client close, deadline, closed event channel) and then
returns without another call but `Remove`, so that a closed event channel
ends the stream with no error written; an event on which the encoder fails
ends the stream as well, the events after it not being encoded. -/
theorem handleKeyWatch_events (startIndex raftIndex raftTerm : Nat) :
    (∀ signals : List Signal,
      (encodedEvents (handleKeyWatch startIndex raftIndex raftTerm false signals).1).length
        ≤ 1) ∧
    (∀ (ev : Option Event) (rest : List Signal),
      handleKeyWatch startIndex raftIndex raftTerm false (.Event ev false :: rest) =
        (watchPreamble startIndex raftIndex raftTerm ++
          [.Encode (trimEventPrefix ev StoreKeysPrefix)] ++ [.Remove], .SingleEvent)) ∧
    (∀ (evs : List (Option Event)) (t : Signal) (rest : List Signal),
      t.isTermination = true →
      handleKeyWatch startIndex raftIndex raftTerm true
          (evs.map (fun ev => Signal.Event ev false) ++ t :: rest) =
        (watchPreamble startIndex raftIndex raftTerm ++
          (evs.flatMap fun ev =>
            [Output.Encode (trimEventPrefix ev StoreKeysPrefix), .Flush]) ++ [.Remove],
          exitOf t)) ∧
    (∀ (evs : List (Option Event)) (ev : Option Event) (rest : List Signal),
      handleKeyWatch startIndex raftIndex raftTerm true
          (evs.map (fun ev => Signal.Event ev false) ++ Signal.Event ev true :: rest) =
        (watchPreamble startIndex raftIndex raftTerm ++
          ((evs.flatMap fun ev =>
            [Output.Encode (trimEventPrefix ev StoreKeysPrefix), .Flush]) ++
            [.Encode (trimEventPrefix ev StoreKeysPrefix), .Warning]) ++ [.Remove],
          .EncodeError)) := by
  refine ⟨?_, ?_, ?_, ?_⟩
  · intro signals
    have hpre : encodedEvents (watchPreamble startIndex raftIndex raftTerm) = [] := rfl
    have hrem : ∀ b : Bool, encodedEvents (if b then [] else [Output.Remove]) = [] := by
      intro b
      cases b <;> rfl
    have hloop : (encodedEvents (handleKeyWatchLoop false signals).1).length ≤ 1 := by
      cases signals with
      | nil => simp [handleKeyWatchLoop, encodedEvents]
      | cons s rest =>
        cases s with
        | CloseNotify => simp [handleKeyWatchLoop, encodedEvents]
        | Done => simp [handleKeyWatchLoop, encodedEvents]
        | Closed => simp [handleKeyWatchLoop, encodedEvents]
        | Event ev fails => cases fails <;> simp [handleKeyWatchLoop, encodedEvents]
    simp only [handleKeyWatch, encodedEvents_append, hpre, List.nil_append, List.length_append]
    have hlast : (encodedEvents (if (handleKeyWatchLoop false signals).2 = Exit.Blocked
        then [] else [Output.Remove])).length = 0 := by
      split <;> rfl
    omega
  · intro ev rest
    rfl
  · intro evs t rest ht
    have hne : exitOf t ≠ .Blocked := by
      cases t <;> simp [exitOf]
    simp only [handleKeyWatch, handleKeyWatchLoop_stream evs t rest ht, if_neg hne]
  · intro evs ev rest
    simp only [handleKeyWatch, handleKeyWatchLoop_stream_error evs ev rest]
    rfl

/-- C30 (amended) on sample runs: a streaming watch that receives two events and
then finds the event channel closed encodes both, in order, and writes
nothing else; a single-event watch returns after the first event. -/
theorem handleKeyWatch_events_witness :
    handleKeyWatch 7 2 1 true [.Event (some (fooEvent 8)) false,
        .Event (some (fooEvent 9)) false, .Closed] =
      (watchPreamble 7 2 1 ++
        [.Encode (trimEventPrefix (some (fooEvent 8)) StoreKeysPrefix), .Flush,
         .Encode (trimEventPrefix (some (fooEvent 9)) StoreKeysPrefix), .Flush] ++ [.Remove],
        .ChannelClosed) ∧
    handleKeyWatch 7 2 1 false [.Event (some (fooEvent 8)) false,
        .Event (some (fooEvent 9)) false, .Closed] =
      (watchPreamble 7 2 1 ++
        [.Encode (trimEventPrefix (some (fooEvent 8)) StoreKeysPrefix)] ++ [.Remove],
        .SingleEvent) :=
  ⟨(handleKeyWatch_events 7 2 1).2.2.1 [some (fooEvent 8), some (fooEvent 9)] .Closed []
      rfl,
    (handleKeyWatch_events 7 2 1).2.1 (some (fooEvent 8))
      [.Event (some (fooEvent 9)) false, .Closed]⟩

end Etcdhttp

/-! ## The form getters -/

namespace Etcdhttp

/-- On a form in which a key has an empty list of values, which `url.Values`
allows but `ParseForm` never builds, `vals[0]` is out of range: called on such
a form, `getUint64` and `getBool` panic. -/
theorem getUint64_getBool_panic_on_empty_values :
    ([("ttl", [])] : Values).lookup "ttl" = some [] ∧
    ¬ BuiltByParseForm [("ttl", [])] ∧
    getUint64 [("ttl", [])] "ttl" = .error .IndexOutOfRange ∧
    getBool [("wait", [])] "wait" = .error .IndexOutOfRange ∧
    ¬ (∀ (form : Values) (key : String), (form.lookup key).isSome = true →
      ((∃ i, getUint64 form key = .ok i) ∨ ∃ e, getUint64 form key = .error (.NumError e)) ∧
      ((∃ b, getBool form key = .ok b) ∨ ∃ e, getBool form key = .error (.NumError e))) := by
  refine ⟨rfl, by decide, rfl, rfl, ?_⟩
  intro h
  obtain ⟨h1, -⟩ := h [("ttl", [])] "ttl" rfl
  have hp : getUint64 [("ttl", [])] "ttl" = .error .IndexOutOfRange := rfl
  rw [hp] at h1
  rcases h1 with ⟨i, hi⟩ | ⟨e, he⟩
  · exact absurd hi (by simp)
  · exact absurd he (by simp)

/-- In a form that `ParseForm` builds, a key that exists has a first value. -/
theorem lookup_of_builtByParseForm {form : Values} {key : String}
    (hform : BuiltByParseForm form) (hkey : (form.lookup key).isSome = true) :
    ∃ v rest, form.lookup key = some (v :: rest) := by
  cases hl : form.lookup key with
  | none =>
    rw [hl] at hkey
    exact absurd hkey (by simp)
  | some vals =>
    cases vals with
    | nil => exact absurd rfl (hform _ (mem_of_lookup_eq_some hl))
    | cons v rest => exact ⟨v, rest, rfl⟩

/-- The getters on a key with a first value: the result is the parse of that
value, the number or the boolean that it denotes when it is well formed and an
error when it is badly formed. -/
theorem getters_of_first_value {form : Values} {key v : String} {rest : List String}
    (hv : form.lookup key = some (v :: rest)) :
    getUint64 form key = getUint64 [(key, [v])] key ∧
    getBool form key = getBool [(key, [v])] key ∧
    (Strconv.IsUint64Literal v →
      getUint64 form key = .ok (Strconv.decimalValue v.data 0)) ∧
    (¬ Strconv.IsUint64Literal v → ∃ e, getUint64 form key = .error (.NumError e)) ∧
    (Strconv.IsBoolLiteral v → ∃ b, getBool form key = .ok b) ∧
    (¬ Strconv.IsBoolLiteral v → getBool form key = .error (.NumError .ErrSyntax)) := by
  have hone : ([(key, [v])] : Values).lookup key = some [v] := by
    simp [List.lookup]
  refine ⟨?_, ?_, ?_, ?_, ?_, ?_⟩
  · simp only [getUint64, hv, hone]
  · simp only [getBool, hv, hone]
  · intro hlit
    have hok := (Strconv.ParseUint_ok_iff v _).2 ⟨hlit, rfl⟩
    simp only [getUint64, hv, hok]
  · intro hbad
    exact getUint64_error_of_not_literal hv hbad
  · intro hlit
    obtain ⟨b, hb⟩ := Strconv.ParseBool_ok_of_literal hlit
    exact ⟨b, by simp only [getBool, hv, hb]⟩
  · intro hbad
    exact getBool_error_of_not_literal hv hbad

/-- C35: for every form and key, if the key does not exist in the form
`getUint64` returns `0` and `getBool` returns `false`, without error; if the
key exists with a first value, the result is the parse of the first value only
(the same as on the form that holds this one value alone): the number or the
boolean that it denotes when it is well formed, an error when it is badly
formed; and on every form that `ParseForm` builds, in which the key exists,
the key has a first value and each function returns a value or an error, never
a panic. -/
theorem getUint64_getBool_first_value (form : Values) (key : String) :
    (form.lookup key = none → getUint64 form key = .ok 0 ∧ getBool form key = .ok false) ∧
    (∀ (v : String) (rest : List String), form.lookup key = some (v :: rest) →
      getUint64 form key = getUint64 [(key, [v])] key ∧
      getBool form key = getBool [(key, [v])] key ∧
      (Strconv.IsUint64Literal v →
        getUint64 form key = .ok (Strconv.decimalValue v.data 0)) ∧
      (¬ Strconv.IsUint64Literal v → ∃ e, getUint64 form key = .error (.NumError e)) ∧
      (Strconv.IsBoolLiteral v → ∃ b, getBool form key = .ok b) ∧
      (¬ Strconv.IsBoolLiteral v → getBool form key = .error (.NumError .ErrSyntax))) ∧
    (BuiltByParseForm form → (form.lookup key).isSome = true →
      (∃ v rest, form.lookup key = some (v :: rest)) ∧
      ((∃ i, getUint64 form key = .ok i) ∨ ∃ e, getUint64 form key = .error (.NumError e)) ∧
      ((∃ b, getBool form key = .ok b) ∨ ∃ e, getBool form key = .error (.NumError e))) := by
  refine ⟨?_, fun v rest hv => getters_of_first_value hv, ?_⟩
  · intro h
    simp [getUint64, getBool, h]
  · intro hform hkey
    obtain ⟨v, rest, hv⟩ := lookup_of_builtByParseForm hform hkey
    obtain ⟨-, -, hu1, hu2, hb1, hb2⟩ := getters_of_first_value hv
    refine ⟨⟨v, rest, hv⟩, ?_, ?_⟩
    · by_cases hlit : Strconv.IsUint64Literal v
      · exact Or.inl ⟨_, hu1 hlit⟩
      · exact Or.inr (hu2 hlit)
    · by_cases hlit : Strconv.IsBoolLiteral v
      · exact Or.inl (hb1 hlit)
      · exact Or.inr ⟨_, hb2 hlit⟩

/-- C35 on sample forms, all as `ParseForm` builds them: an absent key gives
`0`; of the two values of `ttl` only the first, `30`, is parsed, whatever the
second; `wait=yes` is an error; and on the form with `ttl=30&ttl=abc` both
getters return a value or an error for the key `ttl`. -/
theorem getUint64_getBool_first_value_witness :
    getUint64 [("wait", ["true"])] "ttl" = .ok 0 ∧
    getUint64 [("ttl", ["30", "abc"])] "ttl" = .ok 30 ∧
    getBool [("wait", ["yes", "true"])] "wait" = .error (.NumError .ErrSyntax) ∧
    BuiltByParseForm [("ttl", ["30", "abc"])] ∧
    (([("ttl", ["30", "abc"])] : Values).lookup "ttl").isSome = true ∧
    ((∃ v rest, ([("ttl", ["30", "abc"])] : Values).lookup "ttl" = some (v :: rest)) ∧
      ((∃ i, getUint64 [("ttl", ["30", "abc"])] "ttl" = .ok i) ∨
        ∃ e, getUint64 [("ttl", ["30", "abc"])] "ttl" = .error (.NumError e)) ∧
      ((∃ b, getBool [("ttl", ["30", "abc"])] "ttl" = .ok b) ∨
        ∃ e, getBool [("ttl", ["30", "abc"])] "ttl" = .error (.NumError e))) :=
  ⟨((getUint64_getBool_first_value [("wait", ["true"])] "ttl").1 rfl).1,
    (((getUint64_getBool_first_value [("ttl", ["30", "abc"])] "ttl").2.1 "30" ["abc"]
      rfl).2.2.1 (by decide)).trans rfl,
    ((getUint64_getBool_first_value [("wait", ["yes", "true"])] "wait").2.1 "yes" ["true"]
      rfl).2.2.2.2.2 (by decide),
    by decide, rfl,
    (getUint64_getBool_first_value [("ttl", ["30", "abc"])] "ttl").2.2 (by decide) rfl⟩

end Etcdhttp

/-! ## The request translator: the fields of an accepted request -/

namespace Etcdhttp

/-- C37: for every accepted request, the returned `Request` has `Method` equal
to the HTTP method, `Val` equal to the first `value` form value (empty if
absent), `Dir`, `Recursive`, `Sorted`, `Quorum`, `Stream` and `Wait` equal to
the parsed `dir`, `recursive`, `sorted`, `quorum`, `stream` and `wait` fields
(false if absent), `PrevIndex` equal to the parsed `prevIndex` and `Since` to
the parsed `waitIndex` (0 if absent), and `PrevValue` equal to the first
`prevValue`: every field is read from the form key of its own name. -/
theorem parseKeyRequest_fields (r : Request) (clock : Clock) (rr : ServerRequest)
    (h : parseKeyRequest r clock = .ok rr) :
    rr.Method = r.Method ∧
    rr.Val = r.FormValue "value" ∧
    getBool r.Form "dir" = .ok rr.Dir ∧
    getBool r.Form "recursive" = .ok rr.Recursive ∧
    getBool r.Form "sorted" = .ok rr.Sorted ∧
    getBool r.Form "quorum" = .ok rr.Quorum ∧
    getBool r.Form "stream" = .ok rr.Stream ∧
    getBool r.Form "wait" = .ok rr.Wait ∧
    getUint64 r.Form "prevIndex" = .ok rr.PrevIndex ∧
    getUint64 r.Form "waitIndex" = .ok rr.Since ∧
    rr.PrevValue = r.FormValue "prevValue" ∧
    (r.Form.lookup "value" = none → rr.Val = "") ∧
    (∀ key ∈ booleanFields, r.Form.lookup key = none → booleanFieldOf rr key = false) ∧
    (r.Form.lookup "prevIndex" = none → rr.PrevIndex = 0) ∧
    (r.Form.lookup "waitIndex" = none → rr.Since = 0) := by
  obtain ⟨-, -, pIdx, wIdx, rec_, sort, wait, dir, quorum, stream, ttl, pe, h1, h2, h3, h4,
    h5, h6, h7, h8, -, -, -, -, hrr⟩ := parseKeyRequest_ok_inv h
  have hM : rr.Method = r.Method := by subst hrr; cases ttl <;> rfl
  have hV : rr.Val = r.FormValue "value" := by subst hrr; cases ttl <;> rfl
  have hD : rr.Dir = dir := by subst hrr; cases ttl <;> rfl
  have hR : rr.Recursive = rec_ := by subst hrr; cases ttl <;> rfl
  have hS : rr.Sorted = sort := by subst hrr; cases ttl <;> rfl
  have hQ : rr.Quorum = quorum := by subst hrr; cases ttl <;> rfl
  have hSt : rr.Stream = stream := by subst hrr; cases ttl <;> rfl
  have hW : rr.Wait = wait := by subst hrr; cases ttl <;> rfl
  have hP : rr.PrevIndex = pIdx := by subst hrr; cases ttl <;> rfl
  have hSi : rr.Since = wIdx := by subst hrr; cases ttl <;> rfl
  have hPV : rr.PrevValue = r.FormValue "prevValue" := by subst hrr; cases ttl <;> rfl
  have habsB : ∀ (key : String) (b : Bool), getBool r.Form key = .ok b →
      r.Form.lookup key = none → b = false := by
    intro key b hb hnone
    simp only [getBool, hnone] at hb
    exact (Except.ok.inj hb).symm
  have habsU : ∀ (key : String) (i : Nat), getUint64 r.Form key = .ok i →
      r.Form.lookup key = none → i = 0 := by
    intro key i hi hnone
    simp only [getUint64, hnone] at hi
    exact (Except.ok.inj hi).symm
  refine ⟨hM, hV, hD ▸ h6, hR ▸ h3, hS ▸ h4, hQ ▸ h7, hSt ▸ h8, hW ▸ h5, hP ▸ h1, hSi ▸ h2,
    hPV, ?_, ?_, ?_, ?_⟩
  · intro hnone
    rw [hV]
    simp only [Request.FormValue, hnone]
  · intro key hkey hnone
    simp only [booleanFields, List.mem_cons, List.mem_singleton, List.not_mem_nil,
      or_false] at hkey
    rcases hkey with rfl | rfl | rfl | rfl | rfl | rfl
    · simpa [booleanFieldOf, hR] using habsB _ _ h3 hnone
    · simpa [booleanFieldOf, hS] using habsB _ _ h4 hnone
    · simpa [booleanFieldOf, hW] using habsB _ _ h5 hnone
    · simpa [booleanFieldOf, hD] using habsB _ _ h6 hnone
    · simpa [booleanFieldOf, hQ] using habsB _ _ h7 hnone
    · simpa [booleanFieldOf, hSt] using habsB _ _ h8 hnone
  · intro hnone
    rw [hP]
    exact habsU _ _ h1 hnone
  · intro hnone
    rw [hSi]
    exact habsU _ _ h2 hnone

/-- C37 on a sample request: a `GET` of `/v2/keys/foo` with every field given a
value of its own is accepted, and each field of the result holds the value of
its own key. -/
theorem parseKeyRequest_fields_witness :
    ∃ rr, parseKeyRequest (fooRequest "GET" [("value", ["v", "w"]), ("dir", ["true"]),
        ("recursive", ["0"]), ("sorted", ["1"]), ("quorum", ["f"]), ("stream", ["T"]),
        ("wait", ["true"]), ("prevIndex", ["7"]), ("waitIndex", ["9"]),
        ("prevValue", ["old"])]) ⟨0⟩ = .ok rr ∧
      rr.Method = "GET" ∧ rr.Val = "v" ∧ rr.Dir = true ∧ rr.Recursive = false ∧
      rr.Sorted = true ∧ rr.Quorum = false ∧ rr.Stream = true ∧ rr.Wait = true ∧
      rr.PrevIndex = 7 ∧ rr.Since = 9 ∧ rr.PrevValue = "old" := by
  obtain ⟨rr, hok⟩ : ∃ rr, parseKeyRequest (fooRequest "GET" [("value", ["v", "w"]),
      ("dir", ["true"]), ("recursive", ["0"]), ("sorted", ["1"]), ("quorum", ["f"]),
      ("stream", ["T"]), ("wait", ["true"]), ("prevIndex", ["7"]), ("waitIndex", ["9"]),
      ("prevValue", ["old"])]) ⟨0⟩ = .ok rr := ⟨_, rfl⟩
  obtain ⟨hM, hV, hD, hR, hS, hQ, hSt, hW, hP, hSi, hPV, -⟩ :=
    parseKeyRequest_fields _ _ rr hok
  refine ⟨rr, hok, hM, hV, ?_, ?_, ?_, ?_, ?_, ?_, ?_, ?_, hPV⟩
  · exact (Except.ok.inj hD).symm
  · exact (Except.ok.inj hR).symm
  · exact (Except.ok.inj hS).symm
  · exact (Except.ok.inj hQ).symm
  · exact (Except.ok.inj hSt).symm
  · exact (Except.ok.inj hW).symm
  · exact (Except.ok.inj hP).symm
  · exact (Except.ok.inj hSi).symm

end Etcdhttp

/-! ## The request translator: the order of the checks -/

namespace Etcdhttp

/-- C36: `parseKeyRequest` reports the first failing check in a fixed order and
returns nothing else: for every request, it ends in an error exactly when
some check of the list form parse, key prefix, `prevIndex`, `waitIndex`,
`recursive`, `sorted`, `wait`, `dir`, `quorum`, `stream`, `wait` with a
method other than `GET`, empty `prevValue`, `ttl`, `prevExist` fails, the
error is that of the earliest failing check, and whenever an error is
returned the returned `Request` is the empty `Request`. -/
theorem parseKeyRequest_first_failing_check (r : Request) (clock : Clock) :
    (∀ e, parseKeyRequest r clock = .error e ↔ firstFailure checksInOrder r = some e) ∧
    ((∃ rr, parseKeyRequest r clock = .ok rr) ↔ firstFailure checksInOrder r = none) ∧
    (∀ rr e, parseKeyRequestResults r clock = some (rr, some e) → rr = emptyReq) := by
  have key : ∀ e, parseKeyRequest r clock = .error e ↔
      firstFailure checksInOrder r = some e := by
    intro e
    unfold parseKeyRequest
    simp only [checksInOrder, firstFailure, fieldCheck, bind, Except.bind, pure, Except.pure,
      throw, throwThe, MonadExceptOf.throw]
    cases hf : r.ParseFormErr with
    | some err => simp
    | none =>
    cases hp : keysPrefix.data.isPrefixOf r.Path.data with
    | false => simp
    | true =>
    cases h1 : orRequestError (getUint64 r.Form "prevIndex") .EcodeIndexNaN
        "invalid value for \"prevIndex\"" with
    | error e1 => simp
    | ok pIdx =>
    cases h2 : orRequestError (getUint64 r.Form "waitIndex") .EcodeIndexNaN
        "invalid value for \"waitIndex\"" with
    | error e1 => simp
    | ok wIdx =>
    cases h3 : orRequestError (getBool r.Form "recursive") .EcodeInvalidField
        "invalid value for \"recursive\"" with
    | error e1 => simp
    | ok rec_ =>
    cases h4 : orRequestError (getBool r.Form "sorted") .EcodeInvalidField
        "invalid value for \"sorted\"" with
    | error e1 => simp
    | ok sort =>
    cases h5 : orRequestError (getBool r.Form "wait") .EcodeInvalidField
        "invalid value for \"wait\"" with
    | error e1 => simp
    | ok wait =>
    cases h6 : orRequestError (getBool r.Form "dir") .EcodeInvalidField
        "invalid value for \"dir\"" with
    | error e1 => simp
    | ok dir =>
    cases h7 : orRequestError (getBool r.Form "quorum") .EcodeInvalidField
        "invalid value for \"quorum\"" with
    | error e1 => simp
    | ok quorum =>
    cases h8 : orRequestError (getBool r.Form "stream") .EcodeInvalidField
        "invalid value for \"stream\"" with
    | error e1 => simp
    | ok stream =>
    have hw : getBool r.Form "wait" = .ok wait := (orRequestError_eq_ok_iff _ _ _ _).1 h5
    by_cases hwm : wait = true ∧ r.Method ≠ "GET"
    · obtain ⟨hwt, hm⟩ := hwm
      subst hwt
      simp [hw, hm]
    · have hwm2 : (match getBool r.Form "wait" with
          | .ok true =>
            if r.Method ≠ "GET" then
              (.error (.RequestError .EcodeInvalidField
                "\"wait\" can only be used with GET requests") : Except Failure Unit)
            else .ok ()
          | _ => .ok ()) = .ok () := by
        rw [hw]
        cases wait with
        | false => rfl
        | true =>
          have hm : r.Method = "GET" := by
            by_contra hne
            exact hwm ⟨rfl, hne⟩
          simp [hm]
      simp only [hwm2]
      by_cases hpv : (r.Form.lookup "prevValue").isSome = true ∧ r.FormValue "prevValue" = ""
      · simp [hwm, hpv]
      · simp only [if_neg hpv]
        cases h9 : ttlField r with
        | error e1 => simp [hwm]
        | ok ttl =>
        cases h10 : prevExistField r with
        | error e1 => simp [hwm]
        | ok pe => simp [hwm]
  refine ⟨key, ?_, ?_⟩
  · constructor
    · rintro ⟨rr, hrr⟩
      cases hff : firstFailure checksInOrder r with
      | none => rfl
      | some e => rw [(key e).2 hff] at hrr; exact absurd hrr (by simp)
    · intro hnone
      cases hres : parseKeyRequest r clock with
      | ok rr => exact ⟨rr, rfl⟩
      | error e => rw [(key e).1 hres] at hnone; exact absurd hnone (by simp)
  · intro rr e hres
    unfold parseKeyRequestResults at hres
    split at hres
    · simp at hres
    · simp at hres
    · simp only [Option.some.injEq, Prod.mk.injEq] at hres
      exact hres.1.symm

/-- C36 on sample requests: an invalid `ttl` together with `wait=true` on `POST`
gives `InvalidField`, the error of the check on `wait` and the method, not
`TTLNaN`; the same form on `GET` gets as far as the check on `ttl`. -/
theorem parseKeyRequest_first_failing_check_witness :
    parseKeyRequest (fooRequest "POST" [("ttl", ["abc"]), ("wait", ["true"])]) ⟨0⟩ =
      .error (.RequestError .EcodeInvalidField
        "\"wait\" can only be used with GET requests") ∧
    parseKeyRequestResults (fooRequest "POST" [("ttl", ["abc"]), ("wait", ["true"])]) ⟨0⟩ =
      some (emptyReq, some (.RequestError .EcodeInvalidField
        "\"wait\" can only be used with GET requests")) ∧
    parseKeyRequest (fooRequest "GET" [("ttl", ["abc"]), ("wait", ["true"])]) ⟨0⟩ =
      .error (.RequestError .EcodeTTLNaN "invalid value for \"ttl\"") :=
  ⟨((parseKeyRequest_first_failing_check
      (fooRequest "POST" [("ttl", ["abc"]), ("wait", ["true"])]) ⟨0⟩).1 _).2 rfl,
    rfl,
    ((parseKeyRequest_first_failing_check
      (fooRequest "GET" [("ttl", ["abc"]), ("wait", ["true"])]) ⟨0⟩).1 _).2 rfl⟩

end Etcdhttp

/-! ## The user endpoint -/

namespace Etcdhttp

open Auth

/-- The records encoded by two lists of calls in a row. -/
theorem encodedUsers_append {ε : Type} (a b : List (UserReply ε)) :
    encodedUsers (a ++ b) = encodedUsers a ++ encodedUsers b := by
  induction a with
  | nil => rfl
  | cons o rest ih => cases o <;> simp [encodedUsers, ih]

/-- The end of the `PUT` case encodes one record, with an empty password. -/
theorem encodedUsers_putUserReply {ε : Type} (out : UserRecord) (created encodeFails : Bool) :
    encodedUsers (putUserReply out created encodeFails : List (UserReply ε)) =
      [{ out with Password := "" }] := by
  cases encodeFails <;> rfl

/-- C32: the user endpoint never echoes password material: for every request
handled by `forUser`, whatever the store returns and whatever the request
submits, every user record that is written into the response body (on a
successful `GET`, and on a successful `PUT` whether it creates, replaces or
grants and revokes) has the empty string as its `Password`. -/
theorem forUser_password_blank {ε : Type} (allowMethod : String → List String → Bool)
    (sec : Option Store) (store : UserStore ε) (clusterID : String) (r : Request)
    (body : Option UserRecord) (encodeFails : Bool) (user : String) :
    ∀ u ∈ encodedUsers (forUser allowMethod sec store clusterID r body encodeFails user),
      u.Password = "" := by
  intro u hu
  unfold forUser at hu
  split at hu
  · simp [encodedUsers] at hu
  split at hu
  · simp [encodedUsers] at hu
  rw [encodedUsers_append] at hu
  simp only [encodedUsers, List.nil_append] at hu
  split at hu
  · split at hu
    · simp [encodedUsers] at hu
    · cases encodeFails <;> simp [encodedUsers] at hu <;> rw [hu]
  split at hu
  · split at hu
    · simp [encodedUsers] at hu
    · split at hu
      · simp [encodedUsers] at hu
      split at hu
      · split at hu
        · split at hu
          · simp [encodedUsers] at hu
          · rw [encodedUsers_putUserReply] at hu
            simp at hu
            rw [hu]
        · split at hu
          · simp [encodedUsers] at hu
          · rw [encodedUsers_putUserReply] at hu
            simp at hu
            rw [hu]
      split at hu
      · simp [encodedUsers] at hu
      · split at hu
        · simp [encodedUsers] at hu
        · rw [encodedUsers_putUserReply] at hu
          simp at hu
          rw [hu]
  split at hu
  · split at hu <;> simp [encodedUsers] at hu
  · simp [encodedUsers] at hu

/-- C32 on sample requests to a store that holds a password hash for `alice`: a
`GET` of `alice` encodes her record without the hash, and a `PUT` that
creates `bob` with the password `secret` encodes his record without it. -/
theorem forUser_password_blank_witness :
    encodedUsers (forUser (fun m ms => ms.contains m) none aliceStore "cid"
        (userRequest "GET" "alice") none false "alice") =
      [{ User := "alice", Password := "", Roles := ["root"] }] ∧
    encodedUsers (forUser (fun m ms => ms.contains m) none aliceStore "cid"
        (userRequest "PUT" "bob") (some { User := "bob", Password := "secret" }) false
        "bob") = [{ User := "bob", Password := "" }] ∧
    (∃ u, u ∈ encodedUsers (forUser (fun m ms => ms.contains m) none aliceStore "cid"
        (userRequest "PUT" "alice")
        (some { User := "alice", Grant := ["guest"] }) false "alice") ∧
      u.Roles = ["guest"] ∧ u.Password = "") :=
  ⟨rfl, rfl, { User := "alice", Password := "", Roles := ["guest"] },
    List.mem_singleton.2 rfl, rfl,
    forUser_password_blank (fun m ms => ms.contains m) none aliceStore "cid"
      (userRequest "PUT" "alice") (some { User := "alice", Grant := ["guest"] }) false
      "alice" _ (List.mem_singleton.2 rfl)⟩

end Etcdhttp

/-! ## The members handler -/

namespace Etcdhttp

open Auth

/-- The members handler on a request that passes the method gate and the access
gate: the cluster header, then the branch of the method. -/
theorem membersHandlerServeHTTP_DELETE {env : MembersEnv} {sec : Option Store}
    {server : MembersServer} {r : BodyRequest} (encodeFails : Bool)
    (hm : r.Method = "DELETE")
    (hallow : env.allowMethod "DELETE" ["GET", "POST", "DELETE", "PUT"] = true)
    (hacc : hasWriteRootAccess sec r.toRequest = true) :
    membersHandlerServeHTTP env sec server r encodeFails =
      .SetHeader "X-Etcd-Cluster-ID" server.ID ::
      match getID env r.Path with
      | .error reply => [reply]
      | .ok id =>
        .RemoveMember id ::
        match server.RemoveMember id with
        | some .ErrIDRemoved =>
          [.HTTPError 410 ("Member permanently removed: " ++ env.idString id)]
        | some .ErrIDNotFound => [.HTTPError 404 ("No such member: " ++ env.idString id)]
        | some err => [.Errorf, .WriteError err]
        | none => [.WriteHeader 204] := by
  unfold membersHandlerServeHTTP
  simp [hm, hallow, hacc]

/-- C33: `membersHandler` on a `DELETE` that passes the method gate and the
access gate. An empty id is answered with 405 and an unparseable id with 404,
without the server being called. With a parseable id the server's
`RemoveMember` is called once, on that id: no error gives 204,
`ErrIDRemoved` gives 410, `ErrIDNotFound` gives 404, and any other error is
handed to `writeError`; so, `writeError` answering such an error with a
status other than 204, 410 and 404, the status is 204 if and only if
`RemoveMember` returns no error, 410 if and only if it returns
`ErrIDRemoved`, and 404 if and only if it returns `ErrIDNotFound`. -/
theorem membersHandler_DELETE_status (env : MembersEnv) (sec : Option Store)
    (server : MembersServer) (r : BodyRequest) (encodeFails : Bool)
    (writeError : Etcdserver.ServerError → Nat) (hm : r.Method = "DELETE")
    (hallow : env.allowMethod "DELETE" ["GET", "POST", "DELETE", "PUT"] = true)
    (hacc : hasWriteRootAccess sec r.toRequest = true) :
    (trimPrefix r.Path membersPrefix = "" →
      statusOf writeError (membersHandlerServeHTTP env sec server r encodeFails) = some 405 ∧
      serverCalls (membersHandlerServeHTTP env sec server r encodeFails) = []) ∧
    (trimPrefix r.Path membersPrefix ≠ "" →
      env.IDFromString (trimPrefix r.Path membersPrefix) = none →
      statusOf writeError (membersHandlerServeHTTP env sec server r encodeFails) = some 404 ∧
      serverCalls (membersHandlerServeHTTP env sec server r encodeFails) = []) ∧
    (∀ id, trimPrefix r.Path membersPrefix ≠ "" →
      env.IDFromString (trimPrefix r.Path membersPrefix) = some id →
      serverCalls (membersHandlerServeHTTP env sec server r encodeFails) =
        [.RemoveMember id] ∧
      (server.RemoveMember id = none →
        statusOf writeError (membersHandlerServeHTTP env sec server r encodeFails) =
          some 204) ∧
      (server.RemoveMember id = some .ErrIDRemoved →
        statusOf writeError (membersHandlerServeHTTP env sec server r encodeFails) =
          some 410) ∧
      (server.RemoveMember id = some .ErrIDNotFound →
        statusOf writeError (membersHandlerServeHTTP env sec server r encodeFails) =
          some 404) ∧
      (∀ err, server.RemoveMember id = some err → err ≠ .ErrIDRemoved →
        err ≠ .ErrIDNotFound →
        membersHandlerServeHTTP env sec server r encodeFails =
          [.SetHeader "X-Etcd-Cluster-ID" server.ID, .RemoveMember id, .Errorf,
            .WriteError err]) ∧
      ((∀ err, err ≠ .ErrIDRemoved → err ≠ .ErrIDNotFound →
          writeError err ≠ 204 ∧ writeError err ≠ 410 ∧ writeError err ≠ 404) →
        (statusOf writeError (membersHandlerServeHTTP env sec server r encodeFails) =
            some 204 ↔ server.RemoveMember id = none) ∧
        (statusOf writeError (membersHandlerServeHTTP env sec server r encodeFails) =
            some 410 ↔ server.RemoveMember id = some .ErrIDRemoved) ∧
        (statusOf writeError (membersHandlerServeHTTP env sec server r encodeFails) =
            some 404 ↔ server.RemoveMember id = some .ErrIDNotFound))) := by
  rw [membersHandlerServeHTTP_DELETE encodeFails hm hallow hacc]
  refine ⟨?_, ?_, ?_⟩
  · intro hempty
    simp [getID, hempty, statusOf, serverCalls]
  · intro hne hnone
    simp [getID, hne, hnone, statusOf, serverCalls]
  · intro id hne hid
    have hget : getID env r.Path = .ok id := by
      simp [getID, hne, hid]
    simp only [hget]
    cases hrm : server.RemoveMember id with
    | none =>
      simp [statusOf, serverCalls]
    | some err =>
      cases err <;> simp [statusOf, serverCalls] <;> intro hwe <;>
        exact hwe _ (by decide) (by decide)

end Etcdhttp

namespace Etcdhttp

open Auth

/-- C33 on sample requests, `writeError` answering with 500: deleting the active
member 1 gives 204, the removed member 2 gives 410, the unknown member 3
gives 404, a stopped server gives 500; `/v2/members/` gives 405 and
`/v2/members/zz` gives 404, the server not being called. -/
theorem membersHandler_DELETE_status_witness :
    statusOf sampleWriteError (membersHandlerServeHTTP sampleEnv none sampleServer
      (membersRequest "DELETE" "/v2/members/1" "") false) = some 204 ∧
    statusOf sampleWriteError (membersHandlerServeHTTP sampleEnv none sampleServer
      (membersRequest "DELETE" "/v2/members/2" "") false) = some 410 ∧
    statusOf sampleWriteError (membersHandlerServeHTTP sampleEnv none sampleServer
      (membersRequest "DELETE" "/v2/members/3" "") false) = some 404 ∧
    statusOf sampleWriteError (membersHandlerServeHTTP sampleEnv none sampleServer
      (membersRequest "DELETE" "/v2/members/9" "") false) = some 500 ∧
    (statusOf sampleWriteError (membersHandlerServeHTTP sampleEnv none sampleServer
      (membersRequest "DELETE" "/v2/members/" "") false) = some 405 ∧
      serverCalls (membersHandlerServeHTTP sampleEnv none sampleServer
        (membersRequest "DELETE" "/v2/members/" "") false) = []) ∧
    (statusOf sampleWriteError (membersHandlerServeHTTP sampleEnv none sampleServer
      (membersRequest "DELETE" "/v2/members/zz" "") false) = some 404 ∧
      serverCalls (membersHandlerServeHTTP sampleEnv none sampleServer
        (membersRequest "DELETE" "/v2/members/zz" "") false) = []) :=
  ⟨((membersHandler_DELETE_status sampleEnv none sampleServer
      (membersRequest "DELETE" "/v2/members/1" "") false sampleWriteError rfl rfl rfl).2.2 1
      (by decide) rfl).2.1 rfl,
    ((membersHandler_DELETE_status sampleEnv none sampleServer
      (membersRequest "DELETE" "/v2/members/2" "") false sampleWriteError rfl rfl rfl).2.2 2
      (by decide) rfl).2.2.1 rfl,
    ((membersHandler_DELETE_status sampleEnv none sampleServer
      (membersRequest "DELETE" "/v2/members/3" "") false sampleWriteError rfl rfl rfl).2.2 3
      (by decide) rfl).2.2.2.1 rfl,
    rfl,
    (membersHandler_DELETE_status sampleEnv none sampleServer
      (membersRequest "DELETE" "/v2/members/" "") false sampleWriteError rfl rfl rfl).1 rfl,
    (membersHandler_DELETE_status sampleEnv none sampleServer
      (membersRequest "DELETE" "/v2/members/zz" "") false sampleWriteError rfl rfl rfl).2.1
      (by decide) rfl⟩

/-- The members handler on a `POST` that passes the method gate and the access
gate. -/
theorem membersHandlerServeHTTP_POST {env : MembersEnv} {sec : Option Store}
    {server : MembersServer} {r : BodyRequest} (encodeFails : Bool)
    (hm : r.Method = "POST")
    (hallow : env.allowMethod "POST" ["GET", "POST", "DELETE", "PUT"] = true)
    (hacc : hasWriteRootAccess sec r.toRequest = true) :
    membersHandlerServeHTTP env sec server r encodeFails =
      .SetHeader "X-Etcd-Cluster-ID" server.ID ::
      match unmarshalRequest env r with
      | .error reply => [reply]
      | .ok peerURLs =>
        .AddMember (env.NewMember peerURLs) ::
        match server.AddMember (env.NewMember peerURLs) with
        | some err =>
          if err = .ErrIDExists ∨ err = .ErrPeerURLexists then [.HTTPError 409 err.Error]
          else [.Errorf, .WriteError err]
        | none =>
          [.SetHeader "Content-Type" "application/json", .WriteHeader 201,
            .EncodeMember (newMember env (env.NewMember peerURLs))] ++
            encodeWarning encodeFails := by
  unfold membersHandlerServeHTTP
  simp [hm, hallow, hacc]

/-- The members handler on a `PUT` that passes the method gate and the access
gate. -/
theorem membersHandlerServeHTTP_PUT {env : MembersEnv} {sec : Option Store}
    {server : MembersServer} {r : BodyRequest} (encodeFails : Bool)
    (hm : r.Method = "PUT")
    (hallow : env.allowMethod "PUT" ["GET", "POST", "DELETE", "PUT"] = true)
    (hacc : hasWriteRootAccess sec r.toRequest = true) :
    membersHandlerServeHTTP env sec server r encodeFails =
      .SetHeader "X-Etcd-Cluster-ID" server.ID ::
      match getID env r.Path with
      | .error reply => [reply]
      | .ok id =>
        match unmarshalRequest env r with
        | .error reply => [reply]
        | .ok peerURLs =>
          .UpdateMember { ID := id, PeerURLs := peerURLs } ::
          match server.UpdateMember { ID := id, PeerURLs := peerURLs } with
          | some .ErrPeerURLexists =>
            [.HTTPError 409 Etcdserver.ServerError.ErrPeerURLexists.Error]
          | some .ErrIDNotFound => [.HTTPError 404 ("No such member: " ++ env.idString id)]
          | some err => [.Errorf, .WriteError err]
          | none => [.WriteHeader 204] := by
  unfold membersHandlerServeHTTP
  simp [hm, hallow, hacc]

end Etcdhttp

namespace Etcdhttp

open Auth

/-- C34: `membersHandler` on a write that passes the method gate and the access
gate and whose body (and, for `PUT`, id) is read. For `POST` the server's
`AddMember` is called once: no error gives 201, `ErrIDExists` and
`ErrPeerURLexists` give 409, any other error is handed to `writeError`. For
`PUT` the server's `UpdateMember` is called once: no error gives 204,
`ErrPeerURLexists` gives 409, `ErrIDNotFound` gives 404, any other error is
handed to `writeError`. So, `writeError` answering such an error with a
status other than 201, 204, 409 and 404, each of these codes is the status
exactly on the results listed for it. -/
theorem membersHandler_write_conflicts (env : MembersEnv) (sec : Option Store)
    (server : MembersServer) (r : BodyRequest) (encodeFails : Bool)
    (writeError : Etcdserver.ServerError → Nat)
    (hallow : env.allowMethod r.Method ["GET", "POST", "DELETE", "PUT"] = true)
    (hacc : hasWriteRootAccess sec r.toRequest = true) :
    (r.Method = "POST" → ∀ peerURLs, unmarshalRequest env r = .ok peerURLs →
      serverCalls (membersHandlerServeHTTP env sec server r encodeFails) =
        [.AddMember (env.NewMember peerURLs)] ∧
      (server.AddMember (env.NewMember peerURLs) = none →
        statusOf writeError (membersHandlerServeHTTP env sec server r encodeFails) =
          some 201) ∧
      (server.AddMember (env.NewMember peerURLs) = some .ErrIDExists ∨
          server.AddMember (env.NewMember peerURLs) = some .ErrPeerURLexists →
        statusOf writeError (membersHandlerServeHTTP env sec server r encodeFails) =
          some 409) ∧
      (∀ err, server.AddMember (env.NewMember peerURLs) = some err → err ≠ .ErrIDExists →
        err ≠ .ErrPeerURLexists →
        membersHandlerServeHTTP env sec server r encodeFails =
          [.SetHeader "X-Etcd-Cluster-ID" server.ID, .AddMember (env.NewMember peerURLs),
            .Errorf, .WriteError err]) ∧
      ((∀ err, err ≠ .ErrIDExists → err ≠ .ErrPeerURLexists →
          writeError err ≠ 201 ∧ writeError err ≠ 409) →
        (statusOf writeError (membersHandlerServeHTTP env sec server r encodeFails) =
            some 201 ↔ server.AddMember (env.NewMember peerURLs) = none) ∧
        (statusOf writeError (membersHandlerServeHTTP env sec server r encodeFails) =
            some 409 ↔ server.AddMember (env.NewMember peerURLs) = some .ErrIDExists ∨
              server.AddMember (env.NewMember peerURLs) = some .ErrPeerURLexists))) ∧
    (r.Method = "PUT" → ∀ id peerURLs, getID env r.Path = .ok id →
      unmarshalRequest env r = .ok peerURLs →
      serverCalls (membersHandlerServeHTTP env sec server r encodeFails) =
        [.UpdateMember { ID := id, PeerURLs := peerURLs }] ∧
      (server.UpdateMember { ID := id, PeerURLs := peerURLs } = none →
        statusOf writeError (membersHandlerServeHTTP env sec server r encodeFails) =
          some 204) ∧
      (server.UpdateMember { ID := id, PeerURLs := peerURLs } = some .ErrPeerURLexists →
        statusOf writeError (membersHandlerServeHTTP env sec server r encodeFails) =
          some 409) ∧
      (server.UpdateMember { ID := id, PeerURLs := peerURLs } = some .ErrIDNotFound →
        statusOf writeError (membersHandlerServeHTTP env sec server r encodeFails) =
          some 404) ∧
      (∀ err, server.UpdateMember { ID := id, PeerURLs := peerURLs } = some err →
        err ≠ .ErrPeerURLexists → err ≠ .ErrIDNotFound →
        membersHandlerServeHTTP env sec server r encodeFails =
          [.SetHeader "X-Etcd-Cluster-ID" server.ID,
            .UpdateMember { ID := id, PeerURLs := peerURLs }, .Errorf, .WriteError err]) ∧
      ((∀ err, err ≠ .ErrPeerURLexists → err ≠ .ErrIDNotFound →
          writeError err ≠ 204 ∧ writeError err ≠ 409 ∧ writeError err ≠ 404) →
        (statusOf writeError (membersHandlerServeHTTP env sec server r encodeFails) =
            some 204 ↔ server.UpdateMember { ID := id, PeerURLs := peerURLs } = none) ∧
        (statusOf writeError (membersHandlerServeHTTP env sec server r encodeFails) =
            some 409 ↔
          server.UpdateMember { ID := id, PeerURLs := peerURLs } = some .ErrPeerURLexists) ∧
        (statusOf writeError (membersHandlerServeHTTP env sec server r encodeFails) =
            some 404 ↔
          server.UpdateMember { ID := id, PeerURLs := peerURLs } = some .ErrIDNotFound))) := by
  constructor
  · intro hm peerURLs hreq
    rw [hm] at hallow
    rw [membersHandlerServeHTTP_POST encodeFails hm hallow hacc]
    simp only [hreq]
    cases hadd : server.AddMember (env.NewMember peerURLs) with
    | none =>
      cases encodeFails <;> simp [statusOf, serverCalls, encodeWarning]
    | some err =>
      cases err <;> simp [statusOf, serverCalls] <;> intro hwe <;>
        exact hwe _ (by decide) (by decide)
  · intro hm id peerURLs hid hreq
    rw [hm] at hallow
    rw [membersHandlerServeHTTP_PUT encodeFails hm hallow hacc]
    simp only [hid, hreq]
    cases hupd : server.UpdateMember { ID := id, PeerURLs := peerURLs } with
    | none =>
      simp [statusOf, serverCalls]
    | some err =>
      cases err <;> simp [statusOf, serverCalls] <;> intro hwe <;>
        exact hwe _ (by decide) (by decide)

/-- C34 on sample requests, `writeError` answering with 500: adding a member
with a free peer URL gives 201, with the peer URL of member 1 gives 409;
updating member 1 to a free peer URL gives 204, to its own gives 409, and
updating the unknown member 3 gives 404. -/
theorem membersHandler_write_conflicts_witness :
    statusOf sampleWriteError (membersHandlerServeHTTP sampleEnv none sampleServer
      (membersRequest "POST" "/v2/members" "http://h7") false) = some 201 ∧
    statusOf sampleWriteError (membersHandlerServeHTTP sampleEnv none sampleServer
      (membersRequest "POST" "/v2/members" "http://h1") false) = some 409 ∧
    statusOf sampleWriteError (membersHandlerServeHTTP sampleEnv none sampleServer
      (membersRequest "PUT" "/v2/members/1" "http://h7") false) = some 204 ∧
    statusOf sampleWriteError (membersHandlerServeHTTP sampleEnv none sampleServer
      (membersRequest "PUT" "/v2/members/1" "http://h1") false) = some 409 ∧
    statusOf sampleWriteError (membersHandlerServeHTTP sampleEnv none sampleServer
      (membersRequest "PUT" "/v2/members/3" "http://h7") false) = some 404 :=
  ⟨((membersHandler_write_conflicts sampleEnv none sampleServer
      (membersRequest "POST" "/v2/members" "http://h7") false sampleWriteError rfl rfl).1
      rfl ["http://h7"] rfl).2.1 rfl,
    ((membersHandler_write_conflicts sampleEnv none sampleServer
      (membersRequest "POST" "/v2/members" "http://h1") false sampleWriteError rfl rfl).1
      rfl ["http://h1"] rfl).2.2.1 (Or.inr rfl),
    ((membersHandler_write_conflicts sampleEnv none sampleServer
      (membersRequest "PUT" "/v2/members/1" "http://h7") false sampleWriteError rfl rfl).2
      rfl 1 ["http://h7"] rfl rfl).2.1 rfl,
    ((membersHandler_write_conflicts sampleEnv none sampleServer
      (membersRequest "PUT" "/v2/members/1" "http://h1") false sampleWriteError rfl rfl).2
      rfl 1 ["http://h1"] rfl rfl).2.2.1 rfl,
    ((membersHandler_write_conflicts sampleEnv none sampleServer
      (membersRequest "PUT" "/v2/members/3" "http://h7") false sampleWriteError rfl rfl).2
      rfl 3 ["http://h7"] rfl rfl).2.2.2.1 rfl⟩

end Etcdhttp

/-! ## The wire format of a log entry -/

namespace Etcd4pb

/-- C39 (the code diverges from it): `Unmarshal` is not total. On the eleven
bytes `1a ff ff ff ff ff ff ff ff ff 01`, field 3 with the length prefix
`2^64 - 1`, the length is `-1` as an `int`, `postIndex` is one less than
`iNdEx`, the check `postIndex > l` passes and the slice
`data[iNdEx:postIndex]` panics; the same holds for field 4. On the eleven
bytes `2a f5 ff ff ff ff ff ff ff ff 01`, an unknown field of wire type 2
with the length prefix `-11`, `skipLogEntry` returns `0`, `iNdEx` stays where
it was, and the loop never ends: no number of rounds is enough. -/
theorem Unmarshal_not_total :
    Unmarshal {} [0x1a, 0xff, 0xff, 0xff, 0xff, 0xff, 0xff, 0xff, 0xff, 0xff, 0x01] =
      .error .OutOfRange ∧
    Unmarshal {} [0x22, 0xff, 0xff, 0xff, 0xff, 0xff, 0xff, 0xff, 0xff, 0xff, 0x01] =
      .error .OutOfRange ∧
    skipLogEntry 12 [0x2a, 0xf5, 0xff, 0xff, 0xff, 0xff, 0xff, 0xff, 0xff, 0xff, 0x01] =
      .ok 0 ∧
    (∀ fuel, unmarshalLoop
      [0x2a, 0xf5, 0xff, 0xff, 0xff, 0xff, 0xff, 0xff, 0xff, 0xff, 0x01] fuel {} 0 0 =
        .error .OutOfFuel) := by
  refine ⟨rfl, rfl, rfl, ?_⟩
  intro fuel
  induction fuel with
  | zero => rfl
  | succ n ih => exact ih

end Etcd4pb

namespace Etcd4pb

/-- The number of bytes of the varint is what `sovLogEntry` counts. -/
theorem varintBytes_length (fuel v : Nat) : (varintBytes fuel v).length = sovLoop fuel v := by
  induction fuel generalizing v with
  | zero => rfl
  | succ n ih =>
    simp only [varintBytes, sovLoop, Nat.shiftRight_eq_div_pow]
    by_cases hv : v ≥ 128
    · have hne : ¬ v / 2 ^ 7 = 0 := by
        have : 1 ≤ v / 2 ^ 7 := (Nat.le_div_iff_mul_le (by norm_num)).2 (by norm_num; omega)
        omega
      rw [if_pos hv, if_neg hne, List.length_cons, ih, Nat.add_comm]
    · have hz : v / 2 ^ 7 = 0 := Nat.div_eq_of_lt (by norm_num; omega)
      rw [if_neg hv, if_pos hz]
      rfl

/-- Every byte of a varint is below 256. -/
theorem varintBytes_lt (fuel v : Nat) : ∀ b ∈ varintBytes fuel v, b < 256 := by
  induction fuel generalizing v with
  | zero =>
    intro b hb
    simp only [varintBytes, List.mem_singleton] at hb
    omega
  | succ n ih =>
    intro b hb
    simp only [varintBytes] at hb
    split at hb
    · rcases List.mem_cons.1 hb with rfl | hb
      · omega
      · exact ih _ b hb
    · simp only [List.mem_singleton] at hb
      omega

/-- The low seven bits of a byte `v % 128 + 128`. -/
theorem low7_of_mod_add (v : Nat) : (v % 128 + 128) &&& 0x7F = v % 128 := by
  have h := Nat.and_pow_two_sub_one_eq_mod (v % 128 + 128) 7
  norm_num at h
  rw [h]

/-- The low seven bits of a byte below 128. -/
theorem low7_of_lt {v : Nat} (hv : v < 128) : v &&& 0x7F = v := by
  have h := Nat.and_pow_two_sub_one_eq_mod v 7
  norm_num at h
  rw [h]
  omega

/-- Or-ing a value into the bits above an accumulator adds it. -/
theorem or_mul_eq_add {acc d shift : Nat} (hacc : acc < 2 ^ shift) :
    acc ||| d * 2 ^ shift = acc + d * 2 ^ shift := by
  rw [Nat.or_comm, Nat.mul_comm, ← Nat.mul_add_lt_is_or hacc, Nat.add_comm]

/-- Reading back the varint of `v` gives `v`, placed above the bits read so
far, and consumes exactly its bytes. -/
theorem readVarint_varintBytes (fuel : Nat) :
    ∀ (v shift acc : Nat) (rest : List Nat), v ≤ fuel → acc < 2 ^ shift →
      acc + v * 2 ^ shift < 2 ^ 64 →
      readVarint (varintBytes fuel v ++ rest) shift acc =
        .ok (acc + v * 2 ^ shift, (varintBytes fuel v).length) := by
  induction fuel with
  | zero =>
    intro v shift acc rest hv hacc hlt
    obtain rfl : v = 0 := by omega
    have hacc64 : acc < 18446744073709551616 := by omega
    simp [varintBytes, readVarint, Nat.mod_eq_of_lt hacc64]
  | succ n ih =>
    intro v shift acc rest hv hacc hlt
    simp only [varintBytes]
    by_cases hbig : v ≥ 128
    · rw [if_pos hbig]
      have hpos : 0 < 2 ^ shift := Nat.two_pow_pos shift
      have hsplit : v = 128 * (v / 128) + v % 128 := (Nat.div_add_mod v 128).symm
      have hshift : shift + 7 < 64 := by
        by_contra hge
        have h1 : 2 ^ 64 ≤ 2 ^ (shift + 7) := Nat.pow_le_pow_right (by norm_num) (by omega)
        have h2 : 2 ^ (shift + 7) ≤ v * 2 ^ shift := by
          rw [Nat.pow_add, Nat.mul_comm]
          exact Nat.mul_le_mul_right _ (by norm_num; omega)
        omega
      have hlow : (v % 128) * 2 ^ shift + acc < 2 ^ (shift + 7) := by
        rw [Nat.pow_add]
        have : v % 128 + 1 ≤ 2 ^ 7 := by norm_num; omega
        calc (v % 128) * 2 ^ shift + acc < (v % 128) * 2 ^ shift + 2 ^ shift := by omega
          _ = (v % 128 + 1) * 2 ^ shift := by ring
          _ ≤ 2 ^ 7 * 2 ^ shift := Nat.mul_le_mul_right _ this
          _ = 2 ^ shift * 2 ^ 7 := by ring
      have htotal : acc + (v % 128) * 2 ^ shift + (v / 128) * 2 ^ (shift + 7) =
          acc + v * 2 ^ shift := by
        rw [Nat.pow_add]
        nth_rewrite 3 [hsplit]
        ring
      have hstep : (acc ||| ((v % 128 + 128 &&& 0x7F) <<< shift) % 2 ^ 64) % 2 ^ 64 =
          acc + (v % 128) * 2 ^ shift := by
        rw [low7_of_mod_add, Nat.shiftLeft_eq]
        have hle : acc + (v % 128) * 2 ^ shift < 2 ^ 64 := by
          have : 0 ≤ (v / 128) * 2 ^ (shift + 7) := Nat.zero_le _
          omega
        have hd : (v % 128) * 2 ^ shift < 2 ^ 64 := by omega
        rw [Nat.mod_eq_of_lt hd, or_mul_eq_add hacc, Nat.mod_eq_of_lt hle]
      have hnot : ¬ v % 128 + 128 < 0x80 := by omega
      have hmod : (shift + 7) % 2 ^ 64 = shift + 7 := Nat.mod_eq_of_lt (by omega)
      have hrec := ih (v / 128) (shift + 7) (acc + (v % 128) * 2 ^ shift) rest
        (by omega) (by omega) (by omega)
      simp only [List.cons_append, readVarint, hstep, if_neg hnot, hmod, List.append_eq, hrec,
        htotal, List.length_cons]
    · rw [if_neg hbig]
      have hv128 : v < 128 := by omega
      have hd : v * 2 ^ shift < 2 ^ 64 := by omega
      have hstep : (acc ||| ((v &&& 0x7F) <<< shift) % 2 ^ 64) % 2 ^ 64 =
          acc + v * 2 ^ shift := by
        rw [low7_of_lt hv128, Nat.shiftLeft_eq, Nat.mod_eq_of_lt hd, or_mul_eq_add hacc,
          Nat.mod_eq_of_lt hlt]
      have hlt80 : v < 0x80 := by omega
      simp only [List.cons_append, List.nil_append, readVarint, hstep, if_pos hlt80,
        List.length_singleton]

end Etcd4pb

namespace Etcd4pb

/-- Writing a byte at the end of the part already written. -/
theorem setByte_append (pre post : List Nat) (x b : Nat) :
    setByte (pre ++ x :: post) pre.length b = .ok (pre ++ (b % 256) :: post) := by
  simp [setByte]

/-- The byte that the loop of `encodeVarintLogEntry` writes for a round. -/
theorem continuation_byte (v : Nat) : (v &&& 0x7f ||| 0x80) % 256 = v % 128 + 128 := by
  have h := Nat.and_pow_two_sub_one_eq_mod v 7
  norm_num at h
  have hlt : v % 128 < 2 ^ 7 := by norm_num; omega
  have hor := Nat.mul_add_lt_is_or hlt 1
  norm_num at hor
  rw [h, Nat.or_comm, ← hor]
  omega

/-- The loop of `encodeVarintLogEntry` fills a hole of the right length with the
bytes of the varint, and writes nowhere else. -/
theorem encodeVarintLoop_append (fuel : Nat) :
    ∀ (v : Nat) (pre hole post : List Nat), hole.length = (varintBytes fuel v).length →
      encodeVarintLoop fuel (pre ++ hole ++ post) pre.length v =
        .ok (pre ++ varintBytes fuel v ++ post, pre.length + (varintBytes fuel v).length) := by
  induction fuel with
  | zero =>
    intro v pre hole post hlen
    obtain ⟨x, rfl⟩ : ∃ x, hole = [x] := by
      match hole, hlen with
      | [x], _ => exact ⟨x, rfl⟩
    simp [encodeVarintLoop, varintBytes, setByte_append]
  | succ n ih =>
    intro v pre hole post hlen
    simp only [varintBytes] at hlen ⊢
    by_cases hbig : v ≥ 128
    · rw [if_pos hbig] at hlen ⊢
      obtain ⟨x, hole', rfl⟩ : ∃ x hole', hole = x :: hole' := by
        match hole, hlen with
        | x :: hole', _ => exact ⟨x, hole', rfl⟩
      have hlen' : hole'.length = (varintBytes n (v / 128)).length := by
        simpa using hlen
      have hcond : v ≥ 1 <<< 7 := by
        have : (1 : Nat) <<< 7 = 128 := by decide
        omega
      have hshift : v >>> 7 = v / 128 := by
        rw [Nat.shiftRight_eq_div_pow]
      have hrec := ih (v / 128) (pre ++ [v % 128 + 128]) hole' post hlen'
      simp only [List.length_append, List.length_singleton, List.append_assoc,
        List.singleton_append] at hrec
      simp only [encodeVarintLoop, if_pos hcond, List.append_assoc, List.cons_append,
        setByte_append, continuation_byte, hshift, List.length_cons]
      refine hrec.trans ?_
      simp only [List.cons_append, Nat.add_assoc,
        Nat.add_comm (varintBytes n (v / 128)).length 1]
    · rw [if_neg hbig] at hlen ⊢
      obtain ⟨x, rfl⟩ : ∃ x, hole = [x] := by
        match hole, hlen with
        | [x], _ => exact ⟨x, rfl⟩
      have hcond : ¬ v ≥ 1 <<< 7 := by
        have : (1 : Nat) <<< 7 = 128 := by decide
        omega
      have hmod : v % 256 = v := Nat.mod_eq_of_lt (by omega)
      simp only [encodeVarintLoop, if_neg hcond, List.append_assoc, List.singleton_append,
        setByte_append, hmod, List.length_singleton]

/-- The call `copy(data[i:], src)` fills a hole of the length of `src` with
`src`, and writes nowhere else. -/
theorem copyAt_append (pre hole post src : List Nat) (hlen : hole.length = src.length) :
    copyAt (pre ++ hole ++ post) pre.length src = .ok (pre ++ src ++ post, src.length) := by
  have hmin : min (hole.length + post.length) src.length = src.length := by
    rw [hlen]
    exact Nat.min_eq_right (Nat.le_add_right _ _)
  simp [copyAt, hmin, List.take_append_eq_append_take, List.drop_append_eq_append_drop, hlen]

/-- The loop of `encodeVarintLogEntry`, at an index given by an equation. -/
theorem encodeVarintLoop_at (fuel v : Nat) (pre hole post : List Nat) (i : Nat)
    (hi : i = pre.length) (hlen : hole.length = (varintBytes fuel v).length) :
    encodeVarintLoop fuel (pre ++ (hole ++ post)) i v =
      .ok (pre ++ (varintBytes fuel v ++ post), i + (varintBytes fuel v).length) := by
  subst hi
  have h := encodeVarintLoop_append fuel v pre hole post hlen
  simpa only [List.append_assoc] using h

/-- The call `copy(data[i:], src)`, at an index given by an equation. -/
theorem copyAt_at (pre hole post src : List Nat) (i : Nat) (hi : i = pre.length)
    (hlen : hole.length = src.length) :
    copyAt (pre ++ (hole ++ post)) i src = .ok (pre ++ (src ++ post), src.length) := by
  subst hi
  have h := copyAt_append pre hole post src hlen
  simpa only [List.append_assoc] using h

end Etcd4pb

namespace Etcd4pb

/-- A field of wire type 0 fills a hole of its length with its bytes. -/
theorem putVarintField_append (pre hole post : List Nat) (i tag v : Nat) (hi : i = pre.length)
    (htag : tag < 256) (hlen : hole.length = (varintField tag v).length) :
    putVarintField (pre ++ (hole ++ post)) i tag v =
      .ok (pre ++ (varintField tag v ++ post), i + (varintField tag v).length) := by
  subst hi
  obtain ⟨x, hole', rfl⟩ : ∃ x hole', hole = x :: hole' := by
    match hole, hlen with
    | x :: hole', _ => exact ⟨x, hole', rfl⟩
  have hlen' : hole'.length = (varintBytes v v).length := by
    simpa [varintField] using hlen
  have hbuf : pre ++ tag :: (hole' ++ post) = (pre ++ [tag]) ++ (hole' ++ post) := by simp
  simp only [putVarintField, List.cons_append, setByte_append, Nat.mod_eq_of_lt htag,
    encodeVarintLogEntry]
  rw [hbuf, encodeVarintLoop_at v v (pre ++ [tag]) hole' post (pre.length + 1) (by simp only [List.length_append, List.length_singleton]) hlen']
  simp only [varintField, List.append_assoc, List.singleton_append, List.cons_append,
    List.length_cons, List.nil_append, Except.ok.injEq, Prod.mk.injEq, true_and]
  omega

/-- A list of the length of two lists in a row splits accordingly. -/
theorem exists_split_of_length {l : List Nat} {a b : Nat} (h : l.length = a + b) :
    ∃ l1 l2, l = l1 ++ l2 ∧ l1.length = a ∧ l2.length = b :=
  ⟨l.take a, l.drop a, (List.take_append_drop a l).symm, by rw [List.length_take]; omega,
    by rw [List.length_drop]; omega⟩

/-- A field of wire type 2 fills a hole of its length with its bytes. -/
theorem putBytesField_append (pre hole post : List Nat) (i tag : Nat) (bytes : List Nat)
    (hi : i = pre.length) (htag : tag < 256)
    (hlen : hole.length = (bytesField tag bytes).length) :
    putBytesField (pre ++ (hole ++ post)) i tag bytes =
      .ok (pre ++ (bytesField tag bytes ++ post), i + (bytesField tag bytes).length) := by
  subst hi
  obtain ⟨x, hole', rfl⟩ : ∃ x hole', hole = x :: hole' := by
    match hole, hlen with
    | x :: hole', _ => exact ⟨x, hole', rfl⟩
  have hlen' : hole'.length = (varintBytes bytes.length bytes.length).length + bytes.length := by
    simpa [bytesField] using hlen
  obtain ⟨h1, h2, rfl, hl1, hl2⟩ := exists_split_of_length hlen'
  have hbuf : pre ++ tag :: (h1 ++ (h2 ++ post)) = (pre ++ [tag]) ++ (h1 ++ (h2 ++ post)) := by
    simp
  have hbuf2 : pre ++ [tag] ++ (varintBytes bytes.length bytes.length ++ (h2 ++ post)) =
      (pre ++ [tag] ++ varintBytes bytes.length bytes.length) ++ (h2 ++ post) := by
    simp
  simp only [putBytesField, List.cons_append, List.append_assoc, setByte_append,
    Nat.mod_eq_of_lt htag, encodeVarintLogEntry]
  rw [hbuf, encodeVarintLoop_at bytes.length bytes.length (pre ++ [tag]) h1 (h2 ++ post)
    (pre.length + 1) (by simp only [List.length_append, List.length_singleton]) hl1]
  simp only []
  rw [hbuf2, copyAt_at (pre ++ [tag] ++ varintBytes bytes.length bytes.length) h2 post bytes
    (pre.length + 1 + (varintBytes bytes.length bytes.length).length)
    (by simp only [List.length_append, List.length_singleton]) hl2]
  simp only [bytesField, List.length_cons, List.length_append, List.cons_append,
    List.append_assoc, List.singleton_append, List.nil_append, Except.ok.injEq, Prod.mk.injEq,
    true_and]
  omega

end Etcd4pb

namespace Etcd4pb

/-- A field of wire type 0 written after the bytes done so far. -/
theorem putVarintField_state (done hole post : List Nat) (i tag v : Nat)
    (hi : i = done.length) (htag : tag < 256)
    (hlen : hole.length = (varintField tag v).length) :
    putVarintField (done ++ (hole ++ post)) i tag v =
      .ok ((done ++ varintField tag v) ++ post, (done ++ varintField tag v).length) := by
  rw [putVarintField_append done hole post i tag v hi htag hlen, hi]
  simp only [List.append_assoc, List.length_append]

/-- A field of wire type 2 written after the bytes done so far. -/
theorem putBytesField_state (done hole post : List Nat) (i tag : Nat) (bytes : List Nat)
    (hi : i = done.length) (htag : tag < 256)
    (hlen : hole.length = (bytesField tag bytes).length) :
    putBytesField (done ++ (hole ++ post)) i tag bytes =
      .ok ((done ++ bytesField tag bytes) ++ post, (done ++ bytesField tag bytes).length) := by
  rw [putBytesField_append done hole post i tag bytes hi htag hlen, hi]
  simp only [List.append_assoc, List.length_append]

/-- The optional field `Command` written after the bytes done so far. -/
theorem putCommand_state (done hole post : List Nat) (i : Nat) (command : Option (List Nat))
    (hi : i = done.length) (hlen : hole.length = (optionalField 0x22 command).length) :
    putCommand (done ++ (hole ++ post)) i command =
      .ok ((done ++ optionalField 0x22 command) ++ post,
        (done ++ optionalField 0x22 command).length) := by
  cases command with
  | some c => exact putBytesField_state done hole post i 0x22 c hi (by decide) hlen
  | none =>
    obtain rfl : hole = [] := List.length_eq_zero.1 hlen
    simp [putCommand, optionalField, hi]

/-- The unrecognized bytes copied after the bytes done so far, into a buffer
that they fill. -/
theorem putUnrecognized_state (done hole : List Nat) (i : Nat) (x : Option (List Nat))
    (hi : i = done.length) (hlen : hole.length = (x.getD []).length) :
    putUnrecognized (done ++ (hole ++ [])) i x =
      .ok (done ++ x.getD [], (done ++ x.getD []).length) := by
  cases x with
  | some x =>
    simp only [putUnrecognized]
    rw [copyAt_at done hole [] x i hi hlen, hi]
    simp only [List.append_nil, List.length_append, Option.getD_some]
  | none =>
    obtain rfl : hole = [] := List.length_eq_zero.1 hlen
    simp [putUnrecognized, hi]

/-- The size that `Size` computes is the number of bytes on the wire. -/
theorem Size_eq_length (m : LogEntry) : Size m = (wireBytes m).length := by
  rcases m with ⟨index, term, name, command, x⟩
  cases index <;> cases term <;> cases name <;> cases command <;> cases x <;>
    simp [Size, wireBytes, optionalField, varintField, bytesField, sovLogEntry,
      varintBytes_length] <;> omega

end Etcd4pb

namespace Etcd4pb

/-- With its three required fields set, `MarshalTo` fills a buffer of `Size`
bytes with the bytes of the entry, without a write outside of it, and
returns their number. -/
theorem MarshalTo_of_required (m : LogEntry) (iv tv : Nat) (name : List Nat)
    (h1 : m.Index = some iv) (h2 : m.Term = some tv) (h3 : m.CommandName = some name)
    (data : List Nat) (hdata : data.length = Size m) :
    MarshalTo m data = .ok (wireBytes m, Size m) := by
  rcases m with ⟨index, term, cname, command, x⟩
  simp only at h1 h2 h3
  subst h1 h2 h3
  have hlen : data.length = (varintField 0x8 iv).length + ((varintField 0x10 tv).length +
      ((bytesField 0x1a name).length + ((optionalField 0x22 command).length +
        (x.getD []).length))) := by
    rw [hdata, Size_eq_length]
    simp only [wireBytes, List.length_append]
    omega
  obtain ⟨hole1, r1, rfl, hl1, hr1⟩ := exists_split_of_length hlen
  obtain ⟨hole2, r2, rfl, hl2, hr2⟩ := exists_split_of_length hr1
  obtain ⟨hole3, r3, rfl, hl3, hr3⟩ := exists_split_of_length hr2
  obtain ⟨hole4, hole5, rfl, hl4, hl5⟩ := exists_split_of_length hr3
  have hbuf : hole1 ++ (hole2 ++ (hole3 ++ (hole4 ++ hole5))) =
      [] ++ (hole1 ++ (hole2 ++ (hole3 ++ (hole4 ++ (hole5 ++ []))))) := by
    simp only [List.nil_append, List.append_nil]
  have e1 := putVarintField_state [] hole1 (hole2 ++ (hole3 ++ (hole4 ++ (hole5 ++ [])))) 0 0x8
    iv rfl (by decide) hl1
  have e2 := putVarintField_state ([] ++ varintField 0x8 iv) hole2
    (hole3 ++ (hole4 ++ (hole5 ++ []))) _ 0x10 tv rfl (by decide) hl2
  have e3 := putBytesField_state ([] ++ varintField 0x8 iv ++ varintField 0x10 tv) hole3
    (hole4 ++ (hole5 ++ [])) _ 0x1a name rfl (by decide) hl3
  have e4 := putCommand_state
    ([] ++ varintField 0x8 iv ++ varintField 0x10 tv ++ bytesField 0x1a name) hole4
    (hole5 ++ []) _ command rfl hl4
  have e5 := putUnrecognized_state
    ([] ++ varintField 0x8 iv ++ varintField 0x10 tv ++ bytesField 0x1a name ++
      optionalField 0x22 command) hole5 _ x rfl hl5
  rw [hbuf]
  simp only [MarshalTo]
  rw [e1]
  simp only []
  rw [e2]
  simp only []
  rw [e3]
  simp only []
  rw [e4]
  simp only []
  rw [e5]
  simp only [wireBytes, List.nil_append, Size_eq_length]

end Etcd4pb

namespace Etcd4pb

/-- With its three required fields set, `Marshal` returns the bytes of the
entry. -/
theorem Marshal_of_required (m : LogEntry) (iv tv : Nat) (name : List Nat)
    (h1 : m.Index = some iv) (h2 : m.Term = some tv) (h3 : m.CommandName = some name) :
    Marshal m = .ok (wireBytes m) := by
  have hto := MarshalTo_of_required m iv tv name h1 h2 h3 (List.replicate (Size m) 0)
    (List.length_replicate _ _)
  unfold Marshal
  simp only [hto]
  simp [slice, Size_eq_length]

/-- Without one of its three required fields, `Marshal` fails with the error
that names the first one missing. -/
theorem Marshal_required_not_set (m : LogEntry) :
    (m.Index = none → Marshal m = .error (.RequiredNotSet "Index")) ∧
    (∀ iv, m.Index = some iv → m.Term = none →
      Marshal m = .error (.RequiredNotSet "Term")) ∧
    (∀ iv tv, m.Index = some iv → m.Term = some tv → m.CommandName = none →
      Marshal m = .error (.RequiredNotSet "CommandName")) := by
  refine ⟨?_, ?_, ?_⟩
  · intro h
    simp [Marshal, MarshalTo, h]
  · intro iv h1 h2
    have hlen : (List.replicate (Size m) 0).length = (varintField 0x8 iv).length +
        (Size m - (varintField 0x8 iv).length) := by
      rw [List.length_replicate, Size_eq_length]
      simp only [wireBytes, h1, List.length_append]
      omega
    obtain ⟨hole1, r1, hsplit, hl1, -⟩ := exists_split_of_length hlen
    have e1 := putVarintField_state [] hole1 r1 0 0x8 iv rfl (by decide) hl1
    simp only [List.nil_append] at e1
    simp only [Marshal, MarshalTo, h1, h2, hsplit, e1]
  · intro iv tv h1 h2 h3
    have hlen : (List.replicate (Size m) 0).length = (varintField 0x8 iv).length +
        ((varintField 0x10 tv).length +
          (Size m - (varintField 0x8 iv).length - (varintField 0x10 tv).length)) := by
      rw [List.length_replicate, Size_eq_length]
      simp only [wireBytes, h1, h2, List.length_append]
      omega
    obtain ⟨hole1, r1, hsplit, hl1, hr1⟩ := exists_split_of_length hlen
    obtain ⟨hole2, r2, rfl, hl2, -⟩ := exists_split_of_length hr1
    have e1 := putVarintField_state [] hole1 (hole2 ++ r2) 0 0x8 iv rfl (by decide) hl1
    have e2 := putVarintField_state ([] ++ varintField 0x8 iv) hole2 r2 _ 0x10 tv rfl
      (by decide) hl2
    simp only [Marshal, MarshalTo, h1, h2, h3, hsplit]
    rw [show hole1 ++ (hole2 ++ r2) = [] ++ (hole1 ++ (hole2 ++ r2)) from rfl, e1]
    simp only []
    rw [e2]

/-- Past the end of the input, with the three required fields seen, the loop of
`Unmarshal` returns the entry. -/
theorem unmarshalLoop_done (data : List Nat) (fuel : Nat) (m : LogEntry) (i : Nat)
    (hi : data.length ≤ i) : unmarshalLoop data fuel m i 7 = .ok m := by
  have hnot : ¬ i < data.length := by omega
  cases fuel <;> simp only [unmarshalLoop, if_neg hnot] <;> rfl

/-- The rest of the input at the end of a prefix. -/
theorem drop_prefix (pre rest : List Nat) (i : Nat) (hi : i = pre.length) :
    (pre ++ rest).drop i = rest := by
  subst hi
  exact List.drop_left pre rest

/-- A tag byte below 128 read as a varint. -/
theorem readVarint_tag (tag : Nat) (rest : List Nat) (htag : tag < 128) :
    readVarint (tag :: rest) 0 0 = .ok (tag, 1) := by
  have h := readVarint_varintBytes tag tag 0 0 rest (Nat.le_refl _) (by norm_num)
    (by norm_num; omega)
  have hb : varintBytes tag tag = [tag] := by
    cases tag with
    | zero => rfl
    | succ n => simp [varintBytes]; omega
  simpa [hb] using h

end Etcd4pb

namespace Etcd4pb

/-- A length prefix within the input: the slice of wire type 2 is the bytes that
follow, and the index moves past them. -/
theorem lengthDelimited_ok (pre bytes post : List Nat) (j : Nat) (hj : j = pre.length)
    (hsize : (pre ++ (bytes ++ post)).length < 2 ^ 63) :
    lengthDelimited (pre ++ (bytes ++ post)) j (toInt64 bytes.length) =
      .ok (bytes, (pre ++ bytes).length) := by
  subst hj
  simp only [List.length_append] at hsize
  have hL : toInt64 (bytes.length : Int) = bytes.length :=
    Etcdhttp.toInt64_of_range (by omega) (by omega)
  have hP : toInt64 ((pre.length : Int) + bytes.length) = pre.length + bytes.length :=
    Etcdhttp.toInt64_of_range (by omega) (by omega)
  have hnot : ¬ ((pre.length : Int) + bytes.length >
      ((pre ++ (bytes ++ post)).length : Int)) := by
    simp only [List.length_append, Nat.cast_add]
    omega
  have hcond : (0 : Int) ≤ pre.length ∧ (pre.length : Int) ≤ pre.length + bytes.length ∧
      (pre.length : Int) + bytes.length ≤ ((pre ++ (bytes ++ post)).length : Int) := by
    simp only [List.length_append, Nat.cast_add]
    omega
  have htake : (List.drop pre.length (pre ++ (bytes ++ post))).take bytes.length = bytes := by
    rw [List.drop_left, List.take_left]
  have hsub : ((pre.length : Int) + bytes.length - pre.length).toNat = bytes.length := by
    omega
  have htonat : ((pre.length : Int) + bytes.length).toNat = pre.length + bytes.length := by
    omega
  unfold lengthDelimited
  rw [hL]
  simp only []
  rw [hP, if_neg hnot]
  unfold slice
  rw [if_pos hcond]
  simp only [Int.toNat_ofNat, hsub, htake, htonat, List.length_append]

/-- The round of `Unmarshal` on a field of wire type 0 with tag `8`: the value
becomes `Index`. -/
theorem unmarshalRound_Index (pre post : List Nat) (v : Nat) (hv : v < 2 ^ 64) (m : LogEntry)
    (hasFields : Nat) :
    unmarshalRound (pre ++ (varintField 0x8 v ++ post)) m pre.length hasFields =
      .ok ({ m with Index := some v }, (pre ++ varintField 0x8 v).length,
        hasFields ||| 0x00000001) := by
  have hd1 : (pre ++ (varintField 0x8 v ++ post)).drop pre.length =
      0x8 :: (varintBytes v v ++ post) := by
    rw [List.drop_left]
    rfl
  have hd2 : (pre ++ (varintField 0x8 v ++ post)).drop (pre.length + 1) =
      varintBytes v v ++ post := by
    rw [← List.drop_drop, List.drop_left]
    rfl
  have hread := readVarint_varintBytes v v 0 0 post (Nat.le_refl _) (by norm_num)
    (by simpa using hv)
  simp only [Nat.zero_add, pow_zero, Nat.mul_one] at hread
  have hf : toInt32 (((8 : Nat) >>> 3 : Nat) : Int) = 1 := by decide
  unfold unmarshalRound
  rw [hd1, readVarint_tag 8 _ (by decide)]
  simp only []
  rw [hf, if_pos rfl, if_neg (by decide), hd2, hread]
  simp only [varintField, List.length_append, List.length_cons, Nat.add_assoc,
    Nat.add_comm 1]

/-- The round of `Unmarshal` on a field of wire type 0 with tag `0x10`: the
value becomes `Term`. -/
theorem unmarshalRound_Term (pre post : List Nat) (v : Nat) (hv : v < 2 ^ 64) (m : LogEntry)
    (hasFields : Nat) :
    unmarshalRound (pre ++ (varintField 0x10 v ++ post)) m pre.length hasFields =
      .ok ({ m with Term := some v }, (pre ++ varintField 0x10 v).length,
        hasFields ||| 0x00000002) := by
  have hd1 : (pre ++ (varintField 0x10 v ++ post)).drop pre.length =
      0x10 :: (varintBytes v v ++ post) := by
    rw [List.drop_left]
    rfl
  have hd2 : (pre ++ (varintField 0x10 v ++ post)).drop (pre.length + 1) =
      varintBytes v v ++ post := by
    rw [← List.drop_drop, List.drop_left]
    rfl
  have hread := readVarint_varintBytes v v 0 0 post (Nat.le_refl _) (by norm_num)
    (by simpa using hv)
  simp only [Nat.zero_add, pow_zero, Nat.mul_one] at hread
  have hf : toInt32 (((0x10 : Nat) >>> 3 : Nat) : Int) = 2 := by decide
  unfold unmarshalRound
  rw [hd1, readVarint_tag 0x10 _ (by decide)]
  simp only []
  rw [hf, if_neg (by decide), if_pos rfl, if_neg (by decide), hd2, hread]
  simp only [varintField, List.length_append, List.length_cons, Nat.add_assoc,
    Nat.add_comm 1]

/-- A field of wire type 2 read after its tag: the bytes, and the index past
them. -/
theorem readBytes_ok (pre post bytes : List Nat) (tag : Nat) (i : Nat)
    (hi : i = pre.length + 1)
    (hsize : (pre ++ (bytesField tag bytes ++ post)).length < 2 ^ 63) :
    readBytes (pre ++ (bytesField tag bytes ++ post)) i =
      .ok (bytes, (pre ++ bytesField tag bytes).length) := by
  subst hi
  have hd2 : (pre ++ (bytesField tag bytes ++ post)).drop (pre.length + 1) =
      varintBytes bytes.length bytes.length ++ (bytes ++ post) := by
    rw [← List.drop_drop, List.drop_left]
    simp only [bytesField, List.cons_append, List.append_assoc, List.drop_succ_cons,
      List.drop_zero]
  have hL : bytes.length < 2 ^ 64 := by
    simp only [bytesField, List.length_append, List.length_cons] at hsize
    omega
  have hread := readVarint_varintBytes bytes.length bytes.length 0 0 (bytes ++ post)
    (Nat.le_refl _) (by norm_num) (by simpa using hL)
  simp only [Nat.zero_add, pow_zero, Nat.mul_one] at hread
  have hdata : pre ++ (bytesField tag bytes ++ post) =
      (pre ++ tag :: varintBytes bytes.length bytes.length) ++ (bytes ++ post) := by
    simp only [bytesField, List.cons_append, List.append_assoc]
  have hld := lengthDelimited_ok (pre ++ tag :: varintBytes bytes.length bytes.length) bytes
    post (pre.length + 1 + (varintBytes bytes.length bytes.length).length)
    (by simp only [List.length_append, List.length_cons]; omega)
    (by rw [← hdata]; exact hsize)
  unfold readBytes
  rw [hd2, hread]
  simp only []
  rw [hdata, hld]
  simp only [bytesField, List.length_append, List.length_cons, List.append_assoc,
    List.cons_append]

/-- The round of `Unmarshal` on a field of wire type 2 with tag `0x1a`: the
bytes become `CommandName`. -/
theorem unmarshalRound_CommandName (pre post bytes : List Nat) (m : LogEntry)
    (hasFields : Nat) (hsize : (pre ++ (bytesField 0x1a bytes ++ post)).length < 2 ^ 63) :
    unmarshalRound (pre ++ (bytesField 0x1a bytes ++ post)) m pre.length hasFields =
      .ok ({ m with CommandName := some bytes }, (pre ++ bytesField 0x1a bytes).length,
        hasFields ||| 0x00000004) := by
  have hd1 : (pre ++ (bytesField 0x1a bytes ++ post)).drop pre.length =
      0x1a :: (varintBytes bytes.length bytes.length ++ (bytes ++ post)) := by
    rw [List.drop_left]
    simp only [bytesField, List.cons_append, List.append_assoc]
  have hf : toInt32 (((0x1a : Nat) >>> 3 : Nat) : Int) = 3 := by decide
  unfold unmarshalRound
  rw [hd1, readVarint_tag 0x1a _ (by decide)]
  simp only []
  rw [hf, if_neg (by decide), if_neg (by decide), if_pos rfl, if_neg (by decide),
    readBytes_ok pre post bytes 0x1a _ rfl hsize]

/-- The round of `Unmarshal` on a field of wire type 2 with tag `0x22`: the
bytes become `Command`. -/
theorem unmarshalRound_Command (pre post bytes : List Nat) (m : LogEntry)
    (hasFields : Nat) (hsize : (pre ++ (bytesField 0x22 bytes ++ post)).length < 2 ^ 63) :
    unmarshalRound (pre ++ (bytesField 0x22 bytes ++ post)) m pre.length hasFields =
      .ok ({ m with Command := some bytes }, (pre ++ bytesField 0x22 bytes).length,
        hasFields) := by
  have hd1 : (pre ++ (bytesField 0x22 bytes ++ post)).drop pre.length =
      0x22 :: (varintBytes bytes.length bytes.length ++ (bytes ++ post)) := by
    rw [List.drop_left]
    simp only [bytesField, List.cons_append, List.append_assoc]
  have hf : toInt32 (((0x22 : Nat) >>> 3 : Nat) : Int) = 4 := by decide
  unfold unmarshalRound
  rw [hd1, readVarint_tag 0x22 _ (by decide)]
  simp only []
  rw [hf, if_neg (by decide), if_neg (by decide), if_neg (by decide), if_pos rfl,
    if_neg (by decide), readBytes_ok pre post bytes 0x22 _ rfl hsize]

end Etcd4pb
namespace Etcd4pb

/-- A round of the loop of `Unmarshal` that succeeds hands its state to the next
round. -/
theorem unmarshalLoop_step {data : List Nat} {m m' : LogEntry} {i i' hasFields hasFields' : Nat}
    (fuel : Nat) (hlt : i < data.length)
    (hround : unmarshalRound data m i hasFields = .ok (m', i', hasFields')) :
    unmarshalLoop data (fuel + 1) m i hasFields = unmarshalLoop data fuel m' i' hasFields' := by
  simp only [unmarshalLoop, if_pos hlt, hround]

/-- The wire bytes of an entry whose three required fields are set and that has
no unrecognized bytes. -/
theorem wireBytes_of_required (index term : Nat) (name : List Nat)
    (command x : Option (List Nat)) (hx : x.getD [] = []) :
    wireBytes ⟨some index, some term, some name, command, x⟩ =
      varintField 0x8 index ++ (varintField 0x10 term ++ (bytesField 0x1a name ++
        (optionalField 0x22 command ++ []))) := by
  simp only [wireBytes, hx, List.append_nil, List.append_assoc]

/-- Reading back the wire bytes of an entry whose three required fields are set
and that has no unrecognized bytes gives its four fields. -/
theorem Unmarshal_wireBytes (index term : Nat) (name : List Nat)
    (command x : Option (List Nat)) (hx : x.getD [] = []) (hi : index < 2 ^ 64)
    (ht : term < 2 ^ 64)
    (hsize : (wireBytes ⟨some index, some term, some name, command, x⟩).length < 2 ^ 63) :
    Unmarshal {} (wireBytes ⟨some index, some term, some name, command, x⟩) =
      .ok ⟨some index, some term, some name, command, none⟩ := by
  rw [wireBytes_of_required index term name command x hx] at hsize ⊢
  generalize hd : varintField 0x8 index ++ (varintField 0x10 term ++ (bytesField 0x1a name ++
    (optionalField 0x22 command ++ []))) = data at hsize ⊢
  have hl1 : (varintField 0x8 index).length = (varintBytes index index).length + 1 := rfl
  have hl2 : (varintField 0x10 term).length = (varintBytes term term).length + 1 := rfl
  have hl3 : (bytesField 0x1a name).length =
      (varintBytes name.length name.length).length + name.length + 1 := by
    simp only [bytesField, List.length_cons, List.length_append]
  have hlen : data.length = (varintField 0x8 index).length + ((varintField 0x10 term).length +
      ((bytesField 0x1a name).length + (optionalField 0x22 command).length)) := by
    rw [← hd]
    simp only [List.length_append, List.length_nil, Nat.add_zero]
  have hd1 : data = [] ++ (varintField 0x8 index ++ (varintField 0x10 term ++
      (bytesField 0x1a name ++ (optionalField 0x22 command ++ [])))) := by
    rw [← hd, List.nil_append]
  have hd2 : data = varintField 0x8 index ++ (varintField 0x10 term ++
      (bytesField 0x1a name ++ (optionalField 0x22 command ++ []))) := hd.symm
  have hd3 : data = (varintField 0x8 index ++ varintField 0x10 term) ++
      (bytesField 0x1a name ++ (optionalField 0x22 command ++ [])) := by
    rw [← hd, List.append_assoc]
  have r1 : unmarshalRound data {} 0 0 = .ok (⟨some index, none, none, none, none⟩,
      (varintField 0x8 index).length, 0 ||| 0x00000001) := by
    have h := unmarshalRound_Index [] (varintField 0x10 term ++
      (bytesField 0x1a name ++ (optionalField 0x22 command ++ []))) index hi {} 0
    rw [← hd1] at h
    simpa only [List.nil_append, List.length_nil] using h
  have r2 : unmarshalRound data ⟨some index, none, none, none, none⟩
      (varintField 0x8 index).length (0 ||| 0x00000001) =
      .ok (⟨some index, some term, none, none, none⟩,
        (varintField 0x8 index ++ varintField 0x10 term).length,
        0 ||| 0x00000001 ||| 0x00000002) := by
    have h := unmarshalRound_Term (varintField 0x8 index)
      (bytesField 0x1a name ++ (optionalField 0x22 command ++ [])) term ht
      ⟨some index, none, none, none, none⟩ (0 ||| 0x00000001)
    rw [← hd2] at h
    exact h
  have r3 : unmarshalRound data ⟨some index, some term, none, none, none⟩
      (varintField 0x8 index ++ varintField 0x10 term).length
      (0 ||| 0x00000001 ||| 0x00000002) =
      .ok (⟨some index, some term, some name, none, none⟩,
        (varintField 0x8 index ++ varintField 0x10 term ++ bytesField 0x1a name).length,
        0 ||| 0x00000001 ||| 0x00000002 ||| 0x00000004) := by
    have h := unmarshalRound_CommandName (varintField 0x8 index ++ varintField 0x10 term)
      (optionalField 0x22 command ++ []) name ⟨some index, some term, none, none, none⟩
      (0 ||| 0x00000001 ||| 0x00000002) (hd3 ▸ hsize)
    rw [← hd3] at h
    exact h
  obtain ⟨fuel, hfuel⟩ : ∃ fuel, data.length + 1 = fuel + 1 + 1 + 1 + 1 :=
    ⟨data.length - 3, by omega⟩
  unfold Unmarshal
  rw [hfuel, unmarshalLoop_step _ (by omega) r1,
    unmarshalLoop_step _ (by omega) r2,
    unmarshalLoop_step _ (by simp only [List.length_append]; omega) r3]
  cases command with
  | none =>
    exact unmarshalLoop_done data _ _ _ (by
      simp only [optionalField, List.length_nil] at hlen
      simp only [List.length_append]
      omega)
  | some c =>
    have hd4 : data = (varintField 0x8 index ++ varintField 0x10 term ++ bytesField 0x1a name) ++
        (bytesField 0x22 c ++ []) := by
      rw [← hd]
      simp only [optionalField, List.append_assoc]
    have r4 : unmarshalRound data ⟨some index, some term, some name, none, none⟩
        (varintField 0x8 index ++ varintField 0x10 term ++ bytesField 0x1a name).length
        (0 ||| 0x00000001 ||| 0x00000002 ||| 0x00000004) =
        .ok (⟨some index, some term, some name, some c, none⟩,
          (varintField 0x8 index ++ varintField 0x10 term ++ bytesField 0x1a name ++
            bytesField 0x22 c).length,
          0 ||| 0x00000001 ||| 0x00000002 ||| 0x00000004) := by
      have h := unmarshalRound_Command
        (varintField 0x8 index ++ varintField 0x10 term ++ bytesField 0x1a name) [] c
        ⟨some index, some term, some name, none, none⟩
        (0 ||| 0x00000001 ||| 0x00000002 ||| 0x00000004) (hd4 ▸ hsize)
      rw [← hd4] at h
      exact h
    have hl4 : (bytesField 0x22 c).length =
        (varintBytes c.length c.length).length + c.length + 1 := by
      simp only [bytesField, List.length_cons, List.length_append]
    simp only [optionalField] at hlen
    obtain ⟨fuel', rfl⟩ : ∃ fuel', fuel = fuel' + 1 := ⟨fuel - 1, by omega⟩
    rw [unmarshalLoop_step _ (by simp only [List.length_append]; omega) r4]
    exact unmarshalLoop_done data _ _ _ (by simp only [List.length_append]; omega)

end Etcd4pb

namespace Etcd4pb

/-- C40: for every `LogEntry` `m` whose `Index`, `Term` and `CommandName` are set
and whose `XXX_unrecognized` is empty (the two numbers being `uint64` values
and the size an `int`), `Marshal(m)` succeeds and returns exactly `Size(m)`
bytes, `MarshalTo` filling its buffer of `Size(m)` bytes without a write
outside of it, and `Unmarshal` of those bytes into an empty `LogEntry`
succeeds and yields an entry `e` with `e.Equal(m) = true`; and `Marshal` fails
with a required-not-set error exactly when `Index`, `Term` or `CommandName`
is unset. -/
theorem Marshal_Unmarshal_round_trip (m : LogEntry) :
    (∀ iv tv name, m.Index = some iv → m.Term = some tv → m.CommandName = some name →
      m.XXX_unrecognized.getD [] = [] → iv < 2 ^ 64 → tv < 2 ^ 64 → Size m < 2 ^ 63 →
      ∃ bytes e, MarshalTo m (List.replicate (Size m) 0) = .ok (bytes, Size m) ∧
        Marshal m = .ok bytes ∧ bytes.length = Size m ∧
        Unmarshal {} bytes = .ok e ∧ Equal e m = true) ∧
    ((∃ field, Marshal m = .error (.RequiredNotSet field)) ↔
      m.Index = none ∨ m.Term = none ∨ m.CommandName = none) := by
  constructor
  · intro iv tv name h1 h2 h3 hx hiv htv hsize
    refine ⟨wireBytes m, ⟨some iv, some tv, some name, m.Command, none⟩,
      MarshalTo_of_required m iv tv name h1 h2 h3 _ (List.length_replicate _ _),
      Marshal_of_required m iv tv name h1 h2 h3, (Size_eq_length m).symm, ?_, ?_⟩
    · rcases m with ⟨index, term, cname, command, x⟩
      simp only at h1 h2 h3 hx
      subst h1 h2 h3
      exact Unmarshal_wireBytes iv tv name command x hx hiv htv
        (by rw [← Size_eq_length]; exact hsize)
    · rcases m with ⟨index, term, cname, command, x⟩
      simp only at h1 h2 h3 hx
      subst h1 h2 h3
      simp [Equal, fieldEqual, bytesEqual, hx]
  · constructor
    · rintro ⟨field, hfail⟩
      by_contra hall
      simp only [not_or] at hall
      obtain ⟨hi, ht, hn⟩ := hall
      obtain ⟨iv, hiv⟩ := Option.ne_none_iff_exists'.1 hi
      obtain ⟨tv, htv⟩ := Option.ne_none_iff_exists'.1 ht
      obtain ⟨name, hname⟩ := Option.ne_none_iff_exists'.1 hn
      rw [Marshal_of_required m iv tv name hiv htv hname] at hfail
      exact absurd hfail (by simp)
    · intro hunset
      obtain ⟨hI, hT, hN⟩ := Marshal_required_not_set m
      cases hi : m.Index with
      | none => exact ⟨_, hI hi⟩
      | some iv =>
        cases ht : m.Term with
        | none => exact ⟨_, hT iv hi ht⟩
        | some tv =>
          cases hn : m.CommandName with
          | none => exact ⟨_, hN iv tv hi ht hn⟩
          | some name =>
            rcases hunset with h | h | h
            · rw [hi] at h; exact absurd h (by simp)
            · rw [ht] at h; exact absurd h (by simp)
            · rw [hn] at h; exact absurd h (by simp)

/-- C40 on a sample entry with `Index` 300, `Term` 7, the name `set` and four
bytes of command: its sixteen bytes on the wire are read back into an equal
entry; without `Term`, `Marshal` fails. -/
theorem Marshal_Unmarshal_round_trip_witness :
    Marshal sampleEntry = .ok [0x08, 0xac, 0x02, 0x10, 0x07, 0x1a, 0x03, 0x73, 0x65, 0x74,
      0x22, 0x04, 1, 2, 3, 4] ∧
    (∃ bytes e, MarshalTo sampleEntry (List.replicate (Size sampleEntry) 0) =
        .ok (bytes, Size sampleEntry) ∧
      Marshal sampleEntry = .ok bytes ∧ bytes.length = Size sampleEntry ∧
      Unmarshal {} bytes = .ok e ∧ Equal e sampleEntry = true) ∧
    (∃ field, Marshal { sampleEntry with Term := none } = .error (.RequiredNotSet field)) :=
  ⟨rfl,
    (Marshal_Unmarshal_round_trip sampleEntry).1 300 7 [0x73, 0x65, 0x74] rfl rfl rfl rfl
      (by decide) (by decide) (by decide),
    (Marshal_Unmarshal_round_trip { sampleEntry with Term := none }).2.2 (Or.inr (Or.inl rfl))⟩

end Etcd4pb


/-! ## Confinement to the key space -/

namespace Path

/-- The elements after a slash are elements of the whole path. -/
theorem segments_append_slash (a b : List Char) :
    ∃ pre, pre ≠ [] ∧ segments (a ++ '/' :: b) = pre ++ segments b := by
  induction a with
  | nil => exact ⟨[[]], by simp, by simp [segments]⟩
  | cons c a ih =>
    obtain ⟨pre, hne, hpre⟩ := ih
    by_cases hc : c = '/'
    · exact ⟨[] :: pre, by simp, by simp [segments, hc, hpre]⟩
    · obtain ⟨s, ss, rfl⟩ : ∃ s ss, pre = s :: ss := by
        cases pre with
        | nil => exact absurd rfl hne
        | cons s ss => exact ⟨s, ss, rfl⟩
      exact ⟨(c :: s) :: ss, by simp, by simp [segments, hc, hpre]⟩

/-- A path that starts with a `..` element has `..` among its elements. -/
theorem mem_segments_of_dotDotAt {s : List Char} (h : dotDotAt s) :
    ['.', '.'] ∈ segments s := by
  rcases h with rfl | ⟨t, rfl⟩
  · decide
  · have h1 : segments ('/' :: t) = [] :: segments t := by simp [segments]
    have h2 : segments ('.' :: '/' :: t) = ['.'] :: segments t := by
      simp [segments, h1]
    have h3 : segments ('.' :: '.' :: '/' :: t) = ['.', '.'] :: segments t := by
      rw [segments, if_neg (by decide), h2]
    rw [h3]
    exact List.mem_cons_self _ _

/-- A path without a `..` element has none at its start nor after a slash. -/
theorem NoDotDotFrom_of_not_mem {s : List Char} (h : ['.', '.'] ∉ segments s) :
    NoDotDotFrom s := by
  refine ⟨fun hd => h (mem_segments_of_dotDotAt hd), ?_⟩
  intro a b hab hd
  obtain ⟨pre, -, hpre⟩ := segments_append_slash a b
  apply h
  rw [hab, hpre]
  exact List.mem_append_right _ (mem_segments_of_dotDotAt hd)

/-- After a slash. -/
theorem NoDotDotFrom_of_slash {s : List Char} (h : NoDotDotFrom ('/' :: s)) :
    NoDotDotFrom s :=
  ⟨h.2 [] s rfl, fun a b hab => h.2 ('/' :: a) b (by rw [hab]; rfl)⟩

/-- Before a slash: a path that begins with a slash has no `..` element at its
start. -/
theorem NoDotDotFrom_slash_of {s : List Char} (h : NoDotDotFrom s) :
    NoDotDotFrom ('/' :: s) := by
  refine ⟨?_, ?_⟩
  · rintro (h1 | ⟨t, h1⟩) <;> simp at h1
  · intro a b hab
    cases a with
    | nil =>
      simp only [List.nil_append, List.cons.injEq, true_and] at hab
      subst hab
      exact h.1
    | cons c a =>
      simp only [List.cons_append, List.cons.injEq] at hab
      exact h.2 a b hab.2

/-- After any part of the path that ends before a slash or at the end. -/
theorem NoDotDotFrom_rest {s e rest : List Char} (h : NoDotDotFrom s) (hs : s = e ++ rest)
    (hrest : rest = [] ∨ ∃ b, rest = '/' :: b) : NoDotDotFrom rest := by
  refine ⟨?_, ?_⟩
  · rcases hrest with rfl | ⟨b, rfl⟩
    · rintro (h1 | ⟨t, h1⟩) <;> simp at h1
    · rintro (h1 | ⟨t, h1⟩) <;> simp at h1
  · intro a b hab
    exact h.2 (e ++ a) b (by rw [hs, hab, List.append_assoc])

end Path

namespace Path

/-- The rest of a path from an index within it: the byte there, then the rest
from the next index. -/
theorem drop_eq_getD_cons (p : List Char) (r : Nat) (hr : r < p.length) :
    p.drop r = p.getD r ' ' :: p.drop (r + 1) := by
  rw [List.getD_eq_getElem p ' ' hr]
  exact List.drop_eq_getElem_cons hr

/-- The byte at an index, read from the rest of the path. -/
theorem getD_eq_headD_drop (p : List Char) (r : Nat) :
    p.getD r ' ' = (p.drop r).headD ' ' := by
  by_cases hr : r < p.length
  · rw [drop_eq_getD_cons p r hr]
    rfl
  · have h : p.length ≤ r := by omega
    rw [List.drop_eq_nil_of_le h, List.getD_eq_default p ' ' h]
    rfl

/-- Dropping the bytes that `takeWhile` takes leaves those of `dropWhile`. -/
theorem drop_length_takeWhile (f : Char → Bool) (l : List Char) :
    l.drop (l.takeWhile f).length = l.dropWhile f := by
  induction l with
  | nil => rfl
  | cons c l ih =>
    by_cases hc : f c = true
    · simp [List.takeWhile, List.dropWhile, hc, ih]
    · simp [List.takeWhile, List.dropWhile, hc]

/-- The main loop of `path.Clean` on a rooted path keeps what it has written at
or below the root `/1`, as long as no `..` element is read. -/
theorem cleanLoop_underRoot (p : List Char) :
    ∀ (fuel r : Nat) (out : List Char), UnderRoot out → NoDotDotFrom (p.drop r) →
      UnderRoot (cleanLoop p true fuel r out 1) := by
  intro fuel
  induction fuel with
  | zero =>
    intro r out hout _
    simpa [cleanLoop] using hout
  | succ n ih =>
    intro r out hout hno
    rw [cleanLoop]
    simp only []
    by_cases hr : r < p.length
    · rw [if_pos hr]
      have hs := drop_eq_getD_cons p r hr
      by_cases h1 : p.getD r ' ' = '/'
      · rw [if_pos h1]
        apply ih (r + 1) out hout
        rw [hs, h1] at hno
        exact NoDotDotFrom_of_slash hno
      · rw [if_neg h1]
        by_cases h2 : p.getD r ' ' = '.' ∧ (r + 1 = p.length ∨ p.getD (r + 1) ' ' = '/')
        · rw [if_pos h2]
          apply ih (r + 1) out hout
          refine NoDotDotFrom_rest hno (e := ['.']) (by rw [hs, h2.1]; rfl) ?_
          rcases h2.2 with hend | hsl
          · left
            exact List.drop_eq_nil_of_le (by omega)
          · right
            have hr1 : r + 1 < p.length := by
              by_contra hge
              rw [List.getD_eq_default p ' ' (by omega)] at hsl
              exact absurd hsl (by decide)
            exact ⟨p.drop (r + 1 + 1), by rw [drop_eq_getD_cons p (r + 1) hr1, hsl]⟩
        · rw [if_neg h2]
          by_cases h3 : p.getD r ' ' = '.' ∧ p.getD (r + 1) ' ' = '.' ∧
              (r + 2 = p.length ∨ p.getD (r + 2) ' ' = '/')
          · exfalso
            apply hno.1
            obtain ⟨ha, hb, hc⟩ := h3
            have hr1 : r + 1 < p.length := by
              by_contra hge
              rw [List.getD_eq_default p ' ' (by omega)] at hb
              exact absurd hb (by decide)
            have hs1 := drop_eq_getD_cons p (r + 1) hr1
            rw [hs, ha, hs1, hb]
            rcases hc with hend | hsl
            · left
              rw [List.drop_eq_nil_of_le (by omega)]
            · right
              have hr2 : r + 2 < p.length := by
                by_contra hge
                rw [List.getD_eq_default p ' ' (by omega)] at hsl
                exact absurd hsl (by decide)
              exact ⟨p.drop (r + 2 + 1), by
                rw [show r + 1 + 1 = r + 2 from rfl, drop_eq_getD_cons p (r + 2) hr2, hsl]⟩
          · rw [if_neg h3]
            have hlen : out.length ≠ 1 := by
              rcases hout with rfl | ⟨t, rfl⟩ <;> simp
            have hcond : (True ∧ out.length ≠ 1) ∨ ((!true) = true ∧ out.length ≠ 0) :=
              Or.inl ⟨trivial, hlen⟩
            rw [if_pos hcond]
            apply ih
            · rcases hout with rfl | ⟨t, rfl⟩
              · exact Or.inr ⟨_, rfl⟩
              · exact Or.inr ⟨_, rfl⟩
            · have hsplit : p.drop r = (p.drop r).takeWhile (fun c => c != '/') ++
                  (p.drop r).dropWhile (fun c => c != '/') :=
                (List.takeWhile_append_dropWhile _ _).symm
              have hdrop : p.drop (r + ((p.drop r).takeWhile (fun c => c != '/')).length) =
                  (p.drop r).dropWhile (fun c => c != '/') := by
                rw [← List.drop_drop]
                exact drop_length_takeWhile _ _
              rw [hdrop]
              refine NoDotDotFrom_rest hno hsplit ?_
              cases hdw : (p.drop r).dropWhile (fun c => c != '/') with
              | nil => exact Or.inl rfl
              | cons c b =>
                right
                have hhead := List.head_dropWhile_not (fun c => c != '/') (p.drop r)
                  (by rw [hdw]; simp)
                simp only [hdw, List.head_cons] at hhead
                have hc : c = '/' := by simpa using hhead
                exact ⟨b, by rw [hc]⟩
    · rw [if_neg hr]
      exact hout

end Path

namespace Path

/-- The function `path.Join` on the root `/1` and a rest without a `..`
element returns `/1` itself or a path below it. -/
theorem Join_underRoot (rest : String) (h : NoDotDotSegment rest) :
    UnderRoot (Join ["/1", rest]).data := by
  have hj : Join ["/1", rest] = Clean ("/1/" ++ rest) := rfl
  have hdata : ("/1/" ++ rest).data = '/' :: '1' :: '/' :: rest.data := rfl
  have hne : ("/1/" ++ rest) ≠ "" := by
    intro he
    have := congrArg String.data he
    rw [hdata] at this
    exact absurd this (by simp)
  have hlen : ("/1/" ++ rest).length = rest.data.length + 2 + 1 := by
    show ("/1/" ++ rest).data.length = _
    rw [hdata]
    rfl
  have hloop : UnderRoot
      (cleanLoop ('/' :: '1' :: '/' :: rest.data) true (rest.data.length + 2 + 1) 1 ['/'] 1) := by
    rw [cleanLoop]
    simp only []
    rw [if_pos (by simp), if_neg (by simp), if_neg (by simp), if_neg (by simp)]
    rw [if_neg (by simp)]
    have helem : (List.drop 1 ('/' :: '1' :: '/' :: rest.data)).takeWhile (fun c => c != '/') =
        ['1'] := by
      simp [List.takeWhile]
    rw [helem]
    apply cleanLoop_underRoot
    · exact Or.inl rfl
    · exact NoDotDotFrom_slash_of (NoDotDotFrom_of_not_mem h)
  rw [hj, Clean, if_neg hne]
  simp only [hdata, hlen, List.head?_cons, if_true]
  by_cases h0 : (cleanLoop ('/' :: '1' :: '/' :: rest.data) true
      (rest.data.length + 2 + 1) 1 ['/'] 1).length = 0
  · rw [List.length_eq_zero] at h0
    rw [h0] at hloop
    rcases hloop with h1 | ⟨t, h1⟩ <;> simp at h1
  · rw [if_neg h0]
    exact hloop

end Path

namespace Path

/-- A path has at least one element. -/
theorem segments_ne_nil (s : List Char) : segments s ≠ [] := by
  cases s with
  | nil => simp [segments]
  | cons c cs =>
    by_cases hc : c = '/'
    · simp [segments, hc]
    · rw [segments, if_neg hc]
      cases segments cs <;> simp

/-- The elements of two paths joined by a slash are those of the first, then
those of the second. -/
theorem segments_append (a b : List Char) :
    segments (a ++ '/' :: b) = segments a ++ segments b := by
  induction a with
  | nil => simp [segments]
  | cons c a ih =>
    by_cases hc : c = '/'
    · simp [segments, hc, ih]
    · obtain ⟨s, ss, hs⟩ : ∃ s ss, segments a = s :: ss := by
        cases h : segments a with
        | nil => exact absurd h (segments_ne_nil a)
        | cons s ss => exact ⟨s, ss, rfl⟩
      simp [segments, hc, ih, hs]

/-- A path without a slash is its only element. -/
theorem segments_of_no_slash (e : List Char) (h : '/' ∉ e) : segments e = [e] := by
  induction e with
  | nil => rfl
  | cons c e ih =>
    have hc : c ≠ '/' := fun hc => h (by simp [hc])
    have he : '/' ∉ e := fun he => h (List.mem_cons_of_mem _ he)
    simp [segments, hc, ih he]

/-- The backtracking loop of `path.Clean` stops at index 1 or at a slash. -/
theorem backtrack_stop (out : List Char) :
    ∀ n, 1 ≤ n → 1 ≤ backtrack out 1 n ∧
      (backtrack out 1 n = 1 ∨ out.getD (backtrack out 1 n) ' ' = '/') := by
  intro n
  induction n with
  | zero => intro h; omega
  | succ w ih =>
    intro _
    rw [backtrack]
    by_cases hc : w + 1 > 1 ∧ out.getD (w + 1) ' ' ≠ '/'
    · rw [if_pos hc]
      exact ih (by omega)
    · rw [if_neg hc]
      refine ⟨by omega, ?_⟩
      by_cases h1 : w + 1 > 1
      · right
        by_contra hne
        exact hc ⟨h1, hne⟩
      · left
        omega

/-- What a rooted path is cleaned to so far: it starts with a slash and none of
its elements is `..`. -/
theorem take_backtrack_rooted (out t : List Char) (hout : out = '/' :: t)
    (hno : ['.', '.'] ∉ segments out) (hlen : out.length > 1) :
    (∃ t1, out.take (backtrack out 1 (out.length - 1)) = '/' :: t1) ∧
      ['.', '.'] ∉ segments (out.take (backtrack out 1 (out.length - 1))) := by
  obtain ⟨hge, hstop⟩ := backtrack_stop out (out.length - 1) (by omega)
  generalize backtrack out 1 (out.length - 1) = w at hge hstop
  obtain ⟨k, rfl⟩ : ∃ k, w = k + 1 := ⟨w - 1, by omega⟩
  refine ⟨⟨t.take k, by rw [hout, List.take_succ_cons]⟩, ?_⟩
  rcases hstop with h1 | hsl
  · have hk : k = 0 := by omega
    subst hk
    have htake : out.take (0 + 1) = ['/'] := by
      rw [hout]
      rfl
    rw [htake]
    decide
  · have hlt : k + 1 < out.length := by
      by_contra hge2
      rw [List.getD_eq_default out ' ' (by omega)] at hsl
      exact absurd hsl (by decide)
    have hsplit : out = out.take (k + 1) ++ '/' :: out.drop (k + 1 + 1) := by
      conv_lhs => rw [← List.take_append_drop (k + 1) out]
      rw [drop_eq_getD_cons out (k + 1) hlt, hsl]
    intro hmem
    apply hno
    rw [hsplit, segments_append]
    exact List.mem_append_left _ hmem

end Path

namespace Path

/-- An element read by `path.Clean` that is `..` is followed by a slash or by
the end of the path. -/
theorem dotdot_of_takeWhile (p : List Char) (r : Nat) (hr : r < p.length)
    (h : (p.drop r).takeWhile (fun c => c != '/') = ['.', '.']) :
    p.getD r ' ' = '.' ∧ p.getD (r + 1) ' ' = '.' ∧
      (r + 2 = p.length ∨ p.getD (r + 2) ' ' = '/') := by
  have hsplit : p.drop r = ['.', '.'] ++ (p.drop r).dropWhile (fun c => c != '/') := by
    rw [← h]
    exact (List.takeWhile_append_dropWhile _ _).symm
  have hdrop : p.drop (r + 2) = (p.drop r).dropWhile (fun c => c != '/') := by
    rw [← List.drop_drop]
    conv_lhs => rw [hsplit]
    rfl
  have h0 : p.getD r ' ' = '.' := by
    rw [getD_eq_headD_drop, hsplit]
    rfl
  have h1 : p.getD (r + 1) ' ' = '.' := by
    rw [getD_eq_headD_drop, ← List.drop_drop, hsplit]
    rfl
  refine ⟨h0, h1, ?_⟩
  cases hdw : (p.drop r).dropWhile (fun c => c != '/') with
  | nil =>
    left
    rw [hdw] at hdrop
    have hlen := congrArg List.length hdrop
    rw [List.length_drop, List.length_nil] at hlen
    have hlen2 := congrArg List.length hsplit
    rw [hdw, List.length_drop] at hlen2
    simp only [List.append_nil, List.length_cons, List.length_nil] at hlen2
    omega
  | cons c b =>
    right
    have hhead := List.head_dropWhile_not (fun c => c != '/') (p.drop r)
      (by rw [hdw]; simp)
    simp only [hdw, List.head_cons] at hhead
    have hc : c = '/' := by simpa using hhead
    rw [getD_eq_headD_drop, hdrop, hdw, hc]
    rfl

/-- The element that `path.Clean` reads has no slash. -/
theorem slash_not_mem_takeWhile (s : List Char) :
    '/' ∉ s.takeWhile (fun c => c != '/') := by
  intro hmem
  have h := List.mem_takeWhile_imp hmem
  simp at h

/-- The main loop of `path.Clean` on a rooted path keeps what it has written
rooted and free of `..` elements. -/
theorem cleanLoop_rooted (p : List Char) :
    ∀ (fuel r : Nat) (out : List Char), (∃ t, out = '/' :: t) →
      ['.', '.'] ∉ segments out →
      (∃ t, cleanLoop p true fuel r out 1 = '/' :: t) ∧
        ['.', '.'] ∉ segments (cleanLoop p true fuel r out 1) := by
  intro fuel
  induction fuel with
  | zero =>
    intro r out hroot hno
    simpa [cleanLoop] using ⟨hroot, hno⟩
  | succ n ih =>
    intro r out hroot hno
    rw [cleanLoop]
    simp only []
    by_cases hr : r < p.length
    · rw [if_pos hr]
      by_cases h1 : p.getD r ' ' = '/'
      · rw [if_pos h1]
        exact ih (r + 1) out hroot hno
      · rw [if_neg h1]
        by_cases h2 : p.getD r ' ' = '.' ∧ (r + 1 = p.length ∨ p.getD (r + 1) ' ' = '/')
        · rw [if_pos h2]
          exact ih (r + 1) out hroot hno
        · rw [if_neg h2]
          by_cases h3 : p.getD r ' ' = '.' ∧ p.getD (r + 1) ' ' = '.' ∧
              (r + 2 = p.length ∨ p.getD (r + 2) ' ' = '/')
          · rw [if_pos h3]
            by_cases h4 : out.length > 1
            · rw [if_pos h4]
              obtain ⟨t, ht⟩ := hroot
              obtain ⟨hroot2, hno2⟩ := take_backtrack_rooted out t ht hno h4
              exact ih (r + 2) _ hroot2 hno2
            · rw [if_neg h4]
              have hnr : ¬ ((!true) = true) := by simp
              rw [if_neg hnr]
              exact ih (r + 2) out hroot hno
          · rw [if_neg h3]
            have helem : (p.drop r).takeWhile (fun c => c != '/') ≠ ['.', '.'] :=
              fun he => h3 (dotdot_of_takeWhile p r hr he)
            have hseg := segments_of_no_slash _ (slash_not_mem_takeWhile (p.drop r))
            obtain ⟨t, ht⟩ := hroot
            by_cases h5 : (True ∧ out.length ≠ 1) ∨ ((!true) = true ∧ out.length ≠ 0)
            · rw [if_pos h5]
              apply ih
              · exact ⟨t ++ ['/'] ++ (p.drop r).takeWhile (fun c => c != '/'), by rw [ht]; rfl⟩
              · rw [List.append_assoc, List.singleton_append, segments_append, hseg]
                intro hmem
                rcases List.mem_append.1 hmem with hm | hm
                · exact hno hm
                · exact helem (List.mem_singleton.1 hm).symm
            · rw [if_neg h5]
              have hlen : out.length = 1 := by
                by_contra hne
                exact h5 (Or.inl ⟨trivial, hne⟩)
              have hout : out = ['/'] := by
                rw [ht] at hlen ⊢
                cases t with
                | nil => rfl
                | cons c t => simp at hlen
              apply ih
              · exact ⟨(p.drop r).takeWhile (fun c => c != '/'), by rw [hout]; rfl⟩
              · rw [hout]
                have happ : ['/'] ++ (p.drop r).takeWhile (fun c => c != '/') =
                    [] ++ '/' :: (p.drop r).takeWhile (fun c => c != '/') := rfl
                rw [happ, segments_append, hseg]
                intro hmem
                rcases List.mem_append.1 hmem with hm | hm
                · exact absurd hm (by decide)
                · exact helem (List.mem_singleton.1 hm).symm
    · rw [if_neg hr]
      exact ⟨hroot, hno⟩

/-- The function `path.Clean` on a rooted path returns a rooted path without
`..` elements. -/
theorem Clean_rooted (p : String) (t : List Char) (hp : p.data = '/' :: t) :
    (∃ t1, (Clean p).data = '/' :: t1) ∧ ['.', '.'] ∉ segments (Clean p).data := by
  have hne : p ≠ "" := by
    intro he
    rw [he] at hp
    exact absurd hp (by simp)
  have hloop := cleanLoop_rooted p.data p.length 1 ['/'] ⟨[], rfl⟩ (by decide)
  have hclean : (Clean p).data = cleanLoop p.data true p.length 1 ['/'] 1 := by
    rw [Clean, if_neg hne]
    simp only [hp, List.head?_cons, if_true]
    rw [← hp]
    obtain ⟨t1, ht1⟩ := hloop.1
    rw [if_neg (by rw [ht1]; simp)]
  rw [hclean]
  exact hloop

end Path

namespace Http

/-- A path that `cleanPath` leaves as it is has no `..` element. -/
theorem not_mem_segments_of_cleanPath (p : String) (h : cleanPath p = p) :
    ['.', '.'] ∉ Path.segments p.data := by
  by_cases he : p = ""
  · rw [cleanPath, if_pos he] at h
    rw [← h]
    decide
  rw [cleanPath, if_neg he] at h
  simp only [] at h
  by_cases hhead : p.data.head? ≠ some '/'
  · exfalso
    rw [if_pos hhead] at h
    obtain ⟨⟨t1, ht1⟩, -⟩ := Path.Clean_rooted ("/" ++ p) p.data rfl
    apply hhead
    split at h
    · rw [← h, String.data_append, ht1]
      rfl
    · rw [← h, ht1]
      rfl
  · rw [if_neg hhead] at h
    obtain ⟨t, ht⟩ : ∃ t, p.data = '/' :: t := by
      cases hd : p.data with
      | nil => exact absurd (String.ext hd : p = "") he
      | cons c t =>
        rw [hd] at hhead
        simp only [List.head?_cons, ne_eq, Option.some.injEq, not_not] at hhead
        exact ⟨t, by rw [hhead]⟩
    obtain ⟨-, hno⟩ := Path.Clean_rooted p t ht
    split at h
    · rw [← h, String.data_append]
      have hs : ("/" : String).data = '/' :: [] := rfl
      rw [hs, Path.segments_append]
      intro hmem
      rcases List.mem_append.1 hmem with hm | hm
      · exact hno hm
      · exact absurd hm (by decide)
    · rw [← h]
      exact hno

end Http

namespace Etcdhttp

/-- The bytes of a path at or below `/1` are those of the storage root, alone
or followed by a slash and a rest. -/
theorem underRoot_storeKeysPrefix {p : String} (h : Path.UnderRoot p.data) :
    p = StoreKeysPrefix ∨ ∃ t : String, p = StoreKeysPrefix ++ "/" ++ t := by
  rcases h with h | ⟨t, h⟩
  · exact Or.inl (String.ext h)
  · exact Or.inr ⟨String.mk t, String.ext h⟩

/-- Called on its own, without the `ServeMux` in front of the handler,
`parseKeyRequest` accepts the path `/v2/keys/../x` and translates it to `/x`:
the confinement to the key space rests on the paths that the mux lets through.
The mux answers this path with a redirect to `/v2/x`, so the handler does not
see it. -/
theorem parseKeyRequest_dotdot_leaves_root :
    (∃ rr, parseKeyRequest { fooRequest "GET" [] with Path := "/v2/keys/../x" } ⟨0⟩ = .ok rr ∧
      rr.Path = "/x") ∧
    (¬ ∀ (r : Request) (clock : Clock) (rr : ServerRequest),
      parseKeyRequest r clock = .ok rr →
        rr.Path = StoreKeysPrefix ∨ ∃ t : String, rr.Path = StoreKeysPrefix ++ "/" ++ t) ∧
    Http.cleanPath "/v2/keys/../x" = "/v2/x" ∧
    ¬ ServedByKeysHandler { fooRequest "GET" [] with Path := "/v2/keys/../x" } := by
  have hp : Path.Join [StoreKeysPrefix, "/../x"] = "/x" := by decide
  refine ⟨⟨_, rfl, hp⟩, ?_, by decide, by decide⟩
  intro hall
  rcases hall { fooRequest "GET" [] with Path := "/v2/keys/../x" } ⟨0⟩ _ rfl with h | ⟨t, h⟩
  · exact absurd (hp.symm.trans h) (by decide)
  · have hd : ['/', 'x'] = '/' :: '1' :: '/' :: t.data :=
      congrArg String.data (hp.symm.trans h)
    exact absurd (List.cons.inj (List.cons.inj hd).2).1 (by decide)

/-- For every request that `parseKeyRequest` accepts and whose URL path after
the keys prefix has no `..` element, the resulting `Path` is the storage root
itself or begins with the storage root followed by a slash. -/
theorem parseKeyRequest_confined_of_noDotDot (r : Request) (clock : Clock)
    (rr : ServerRequest) (h : parseKeyRequest r clock = .ok rr)
    (hdd : Path.NoDotDotSegment (String.mk (r.Path.data.drop keysPrefix.length))) :
    rr.Path = StoreKeysPrefix ∨ ∃ t : String, rr.Path = StoreKeysPrefix ++ "/" ++ t := by
  obtain ⟨-, -, pIdx, wIdx, rec_, sort, wait, dir, quorum, stream, ttl, pe, -, -, -, -,
    -, -, -, -, -, -, -, -, hrr⟩ := parseKeyRequest_ok_inv h
  subst hrr
  rw [withExpiration_Path]
  exact underRoot_storeKeysPrefix (Path.Join_underRoot _ hdd)

/-- The URL path of a request that the mux hands to `keysHandler` has no `..`
element after the keys prefix. -/
theorem noDotDotSegment_of_served (r : Request) (h : ServedByKeysHandler r) :
    Path.NoDotDotSegment (String.mk (r.Path.data.drop keysPrefix.length)) := by
  obtain ⟨-, hclean, hpat⟩ := h
  have hno := Http.not_mem_segments_of_cleanPath r.Path hclean
  rcases hpat with hroot | hsub
  · rw [hroot]
    decide
  · rw [List.isPrefixOf_iff_prefix] at hsub
    obtain ⟨t, ht⟩ := hsub
    have hdata : r.Path.data = keysPrefix.data ++ '/' :: t := by
      rw [← ht, String.data_append, List.append_assoc]
      rfl
    have hdrop : r.Path.data.drop keysPrefix.length = '/' :: t := by
      rw [hdata]
      exact List.drop_left _ _
    rw [hdata, Path.segments_append] at hno
    unfold Path.NoDotDotSegment
    show ['.', '.'] ∉ Path.segments (r.Path.data.drop keysPrefix.length)
    rw [hdrop]
    have hsl : Path.segments ('/' :: t) = [] :: Path.segments t := by
      simp [Path.segments]
    rw [hsl]
    intro hmem
    rcases List.mem_cons.1 hmem with hm | hm
    · exact absurd hm (by decide)
    · exact hno (List.mem_append_right _ hm)

/-- C38: for every request that `parseKeyRequest` accepts, if the request is one
that the `ServeMux` hands to `keysHandler` (a path with a `..` element is
answered with a redirect by the mux and never arrives), the resulting `Path`
is the storage root `StoreKeysPrefix` itself or begins with the storage root
followed by a slash; the same holds for every accepted request whose URL path
after the keys prefix has no `..` element, which covers the form `/v2/keysX`. -/
theorem parseKeyRequest_confined (r : Request) (clock : Clock) (rr : ServerRequest)
    (h : parseKeyRequest r clock = .ok rr) :
    (ServedByKeysHandler r →
      rr.Path = StoreKeysPrefix ∨ ∃ t : String, rr.Path = StoreKeysPrefix ++ "/" ++ t) ∧
    (Path.NoDotDotSegment (String.mk (r.Path.data.drop keysPrefix.length)) →
      rr.Path = StoreKeysPrefix ∨ ∃ t : String, rr.Path = StoreKeysPrefix ++ "/" ++ t) :=
  ⟨fun hs => parseKeyRequest_confined_of_noDotDot r clock rr h (noDotDotSegment_of_served r hs),
    parseKeyRequest_confined_of_noDotDot r clock rr h⟩

/-- C38 on sample requests: `/v2/keys/foo` and `/v2/keys/a/b/` pass the mux and
are translated to `/1/foo` and `/1/a/b`; `/v2/keysX`, which matches no pattern
of the handler, would be translated to `/1/X`; all three are below the storage
root. -/
theorem parseKeyRequest_confined_witness :
    (ServedByKeysHandler (fooRequest "GET" []) ∧
      ∃ rr, parseKeyRequest (fooRequest "GET" []) ⟨0⟩ = .ok rr ∧ rr.Path = "/1/foo" ∧
        (rr.Path = StoreKeysPrefix ∨ ∃ t : String, rr.Path = StoreKeysPrefix ++ "/" ++ t)) ∧
    (ServedByKeysHandler { fooRequest "PUT" [] with Path := "/v2/keys/a/b/" } ∧
      ∃ rr, parseKeyRequest { fooRequest "PUT" [] with Path := "/v2/keys/a/b/" } ⟨0⟩ = .ok rr ∧
        rr.Path = "/1/a/b" ∧
        (rr.Path = StoreKeysPrefix ∨ ∃ t : String, rr.Path = StoreKeysPrefix ++ "/" ++ t)) ∧
    (¬ ServedByKeysHandler { fooRequest "GET" [] with Path := "/v2/keysX" } ∧
      ∃ rr, parseKeyRequest { fooRequest "GET" [] with Path := "/v2/keysX" } ⟨0⟩ = .ok rr ∧
        rr.Path = "/1/X" ∧
        (rr.Path = StoreKeysPrefix ∨ ∃ t : String, rr.Path = StoreKeysPrefix ++ "/" ++ t)) :=
  ⟨⟨by decide, _, rfl, by decide,
      (parseKeyRequest_confined (fooRequest "GET" []) ⟨0⟩ _ rfl).1 (by decide)⟩,
    ⟨by decide, _, rfl, by decide,
      (parseKeyRequest_confined { fooRequest "PUT" [] with Path := "/v2/keys/a/b/" } ⟨0⟩ _
        rfl).1 (by decide)⟩,
    ⟨by decide, _, rfl, by decide,
      (parseKeyRequest_confined { fooRequest "GET" [] with Path := "/v2/keysX" } ⟨0⟩ _
        rfl).2 (by decide)⟩⟩

end Etcdhttp

/-! ## Trimming the prefix from a copy of the event -/

namespace Store

/-- The struct right after a list of structs is at the address that is the
length of the list. -/
theorem getElem_middle {α : Type} (pre post : List α) (c : α) (a : Nat)
    (ha : a = pre.length) : (pre ++ c :: post)[a]? = some c := by
  subst ha
  rw [List.getElem?_append_right (Nat.le_refl _), Nat.sub_self]
  exact List.getElem?_cons_zero

/-- Overwriting the struct right after a list of structs. -/
theorem set_middle {α : Type} (pre post : List α) (c d : α) (a : Nat)
    (ha : a = pre.length) : (pre ++ c :: post).set a d = pre ++ d :: post := by
  subst ha
  simp

mutual

/-- A copy of a value takes as many structs as the value has nodes. -/
theorem cellsOf_length : ∀ (v : NodeValue) (b : Nat), (cellsOf b v).length = v.size
  | .nil, _ => rfl
  | .node _ _ nodes, b => by
    simp only [cellsOf, NodeValue.size, List.length_append, List.length_singleton,
      cellsOfNodes_length nodes b]

/-- Copies of values take as many structs as the values have nodes. -/
theorem cellsOfNodes_length : ∀ (vs : List NodeValue) (b : Nat),
    (cellsOfNodes b vs).length = sizeNodes vs
  | [], _ => rfl
  | v :: vs, b => by
    simp only [cellsOfNodes, sizeNodes, List.length_append, cellsOf_length v b,
      cellsOfNodes_length vs (b + v.size)]

end

mutual

/-- A pointer that stands for a value still does when structs are allocated. -/
theorem ReadsNode_append : ∀ (v : NodeValue) (mem extra : List NodeCell) (p : Ptr),
    ReadsNode mem p v → ReadsNode (mem ++ extra) p v
  | .nil, _, _, _, h => by
    simpa only [ReadsNode] using h
  | .node key value nodes, mem, extra, p, h => by
    simp only [ReadsNode] at h ⊢
    obtain ⟨a, ps, hp, ha, hps⟩ := h
    have hlt : a < mem.length := by
      by_contra hge
      rw [List.getElem?_eq_none (by omega)] at ha
      exact absurd ha (by simp)
    exact ⟨a, ps, hp, by rw [List.getElem?_append_left hlt]; exact ha,
      ReadsNodes_append nodes mem extra ps hps⟩

/-- Pointers that stand for values still do when structs are allocated. -/
theorem ReadsNodes_append : ∀ (vs : List NodeValue) (mem extra : List NodeCell)
    (ps : List Ptr), ReadsNodes mem ps vs → ReadsNodes (mem ++ extra) ps vs
  | [], _, _, _, h => by
    simpa only [ReadsNodes] using h
  | v :: vs, mem, extra, ps, h => by
    simp only [ReadsNodes] at h ⊢
    obtain ⟨q, qs, hps, hq, hqs⟩ := h
    exact ⟨q, qs, hps, ReadsNode_append v mem extra q hq, ReadsNodes_append vs mem extra qs hqs⟩

end

end Store

namespace Etcdhttp

open Store

mutual

/-- Trimming keeps the number of nodes. -/
theorem trimmedNode_size : ∀ (v : NodeValue) (pfx : String),
    (trimmedNode v pfx).size = v.size
  | .nil, _ => rfl
  | .node _ _ nodes, pfx => by
    simp only [trimmedNode, NodeValue.size, trimmedNodes_size nodes pfx]

/-- Trimming keeps the number of nodes of a list. -/
theorem trimmedNodes_size : ∀ (vs : List NodeValue) (pfx : String),
    sizeNodes (trimmedNodes vs pfx) = sizeNodes vs
  | [], _ => rfl
  | v :: vs, pfx => by
    simp only [trimmedNodes, sizeNodes, trimmedNode_size v pfx, trimmedNodes_size vs pfx]

end

/-- Trimming keeps the address of the root of a copy. -/
theorem rootPtr_trimmedNode (b : Nat) (v : NodeValue) (pfx : String) :
    rootPtr b (trimmedNode v pfx) = rootPtr b v := by
  cases v with
  | nil => rfl
  | node key value nodes => simp only [trimmedNode, rootPtr, trimmedNodes_size]

/-- Trimming keeps the addresses of the roots of copies. -/
theorem rootPtrs_trimmedNodes (vs : List NodeValue) (pfx : String) :
    ∀ b, rootPtrs b (trimmedNodes vs pfx) = rootPtrs b vs := by
  induction vs with
  | nil => intro b; rfl
  | cons v vs ih =>
    intro b
    simp only [trimmedNodes, rootPtrs, rootPtr_trimmedNode, trimmedNode_size, ih]

end Etcdhttp

namespace Store

mutual

/-- The root pointer of a copy stands for the value in every memory that holds
the structs of the copy at their addresses. -/
theorem ReadsNode_cellsOf : ∀ (v : NodeValue) (pre post : List NodeCell) (b : Nat),
    b = pre.length → ReadsNode (pre ++ cellsOf b v ++ post) (rootPtr b v) v
  | .nil, _, _, _, _ => by
    simp only [ReadsNode, rootPtr]
  | .node key value nodes, pre, post, b, hb => by
    simp only [ReadsNode, rootPtr, cellsOf]
    refine ⟨b + sizeNodes nodes, rootPtrs b nodes, rfl, ?_, ?_⟩
    · rw [← List.append_assoc, List.append_assoc (pre ++ cellsOfNodes b nodes)]
      exact getElem_middle _ _ _ _ (by
        rw [List.length_append, cellsOfNodes_length, hb])
    · rw [← List.append_assoc, List.append_assoc (pre ++ cellsOfNodes b nodes)]
      exact ReadsNodes_cellsOfNodes nodes pre _ b hb

/-- The root pointers of copies stand for the values. -/
theorem ReadsNodes_cellsOfNodes : ∀ (vs : List NodeValue) (pre post : List NodeCell)
    (b : Nat), b = pre.length →
    ReadsNodes (pre ++ cellsOfNodes b vs ++ post) (rootPtrs b vs) vs
  | [], _, _, _, _ => by
    simp only [ReadsNodes, rootPtrs]
  | v :: vs, pre, post, b, hb => by
    simp only [ReadsNodes, rootPtrs, cellsOfNodes]
    refine ⟨_, _, rfl, ?_, ?_⟩
    · rw [← List.append_assoc, List.append_assoc (pre ++ cellsOf b v)]
      exact ReadsNode_cellsOf v pre _ b hb
    · rw [← List.append_assoc]
      exact ReadsNodes_cellsOfNodes vs (pre ++ cellsOf b v) post (b + v.size) (by
        rw [List.length_append, cellsOf_length, hb])

end

end Store

namespace Etcdhttp

open Store

namespace InPlace

mutual

/-- On a memory that holds a copy of a value, with enough fuel,
`trimNodeExternPrefix` at the root of the copy returns the root and leaves the
copy of the trimmed value in its place; the structs before and after the copy
stay as they are. -/
theorem trimNodeExternPrefix_cellsOf : ∀ (v : NodeValue) (fuel : Nat)
    (pre post : List NodeCell) (b : Nat) (pfx : String), b = pre.length → v.size ≤ fuel →
    trimNodeExternPrefix fuel (pre ++ cellsOf b v ++ post) (rootPtr b v) pfx =
      some (pre ++ cellsOf b (trimmedNode v pfx) ++ post, rootPtr b v)
  | .nil, fuel, pre, post, b, pfx, _, _ => by
    cases fuel <;> simp [rootPtr, cellsOf, trimmedNode, trimNodeExternPrefix]
  | .node key value nodes, 0, _, _, _, _, _, hfuel => by
    simp only [NodeValue.size] at hfuel
    omega
  | .node key value nodes, fuel + 1, pre, post, b, pfx, hb, hfuel => by
    have hsize : sizeNodes nodes ≤ fuel := by
      simp only [NodeValue.size] at hfuel
      omega
    have haddr : b + sizeNodes nodes = (pre ++ cellsOfNodes b nodes).length := by
      rw [List.length_append, cellsOfNodes_length, hb]
    have hmem : pre ++ cellsOf b (.node key value nodes) ++ post =
        (pre ++ cellsOfNodes b nodes) ++ ⟨key, value, rootPtrs b nodes⟩ :: post := by
      simp only [cellsOf, List.append_assoc, List.singleton_append]
    have hmem2 : pre ++ cellsOf b (trimmedNode (.node key value nodes) pfx) ++ post =
        pre ++ cellsOfNodes b (trimmedNodes nodes pfx) ++
          (⟨TrimPrefix key pfx, value, rootPtrs b nodes⟩ :: post) := by
      simp only [trimmedNode, cellsOf, List.append_assoc, List.singleton_append,
        rootPtrs_trimmedNodes]
    rw [hmem, hmem2]
    simp only [rootPtr, trimNodeExternPrefix]
    rw [getElem_middle _ _ _ _ haddr]
    simp only []
    rw [set_middle _ _ _ _ _ haddr,
      rangeNodes_cellsOfNodes nodes fuel pre _ b pfx hb hsize]

/-- The loop of `trimNodeExternPrefix` over the roots of copies laid out one
after the other leaves the copies of the trimmed values in their place. -/
theorem rangeNodes_cellsOfNodes : ∀ (vs : List NodeValue) (fuel : Nat)
    (pre post : List NodeCell) (b : Nat) (pfx : String), b = pre.length →
    sizeNodes vs ≤ fuel →
    rangeNodes (fun m nn => trimNodeExternPrefix fuel m nn pfx)
        (pre ++ cellsOfNodes b vs ++ post) (rootPtrs b vs) =
      some (pre ++ cellsOfNodes b (trimmedNodes vs pfx) ++ post)
  | [], _, _, _, _, _, _, _ => by
    simp only [rootPtrs, cellsOfNodes, trimmedNodes, rangeNodes]
  | v :: vs, fuel, pre, post, b, pfx, hb, hfuel => by
    simp only [sizeNodes] at hfuel
    have h1 := trimNodeExternPrefix_cellsOf v fuel pre
      (cellsOfNodes (b + v.size) vs ++ post) b pfx hb (by omega)
    have h2 := rangeNodes_cellsOfNodes vs fuel (pre ++ cellsOf b (trimmedNode v pfx)) post
      (b + v.size) pfx (by rw [List.length_append, cellsOf_length, trimmedNode_size, hb])
      (by omega)
    simp only [rootPtrs, cellsOfNodes, trimmedNodes, rangeNodes, trimmedNode_size]
    rw [← List.append_assoc pre, List.append_assoc (pre ++ cellsOf b v), h1]
    simp only []
    rw [← List.append_assoc, h2, ← List.append_assoc pre]

end

end InPlace

end Etcdhttp

namespace Store

mutual

/-- With enough fuel, the clone of a pointer that stands for a value puts a copy
of the value at the end of the memory and returns its root. -/
theorem cloneNodeExtern_cellsOf : ∀ (v : NodeValue) (fuel : Nat) (mem extra : List NodeCell)
    (p : Ptr), ReadsNode mem p v → v.size ≤ fuel →
    cloneNodeExtern fuel (mem ++ extra) p =
      some (mem ++ extra ++ cellsOf (mem ++ extra).length v, rootPtr (mem ++ extra).length v)
  | .nil, fuel, mem, extra, p, h, _ => by
    simp only [ReadsNode] at h
    subst h
    cases fuel <;> simp [rootPtr, cellsOf, cloneNodeExtern]
  | .node key value nodes, 0, _, _, _, _, hfuel => by
    simp only [NodeValue.size] at hfuel
    omega
  | .node key value nodes, fuel + 1, mem, extra, p, h, hfuel => by
    have hsize : sizeNodes nodes ≤ fuel := by
      simp only [NodeValue.size] at hfuel
      omega
    simp only [ReadsNode] at h
    obtain ⟨a, ps, hp, ha, hps⟩ := h
    subst hp
    have hlt : a < mem.length := by
      by_contra hge
      rw [List.getElem?_eq_none (by omega)] at ha
      exact absurd ha (by simp)
    have ha2 : (mem ++ extra)[a]? = some ⟨key, value, ps⟩ := by
      rw [List.getElem?_append_left hlt]
      exact ha
    simp only [cloneNodeExtern, ha2, mapNodes_cellsOfNodes nodes fuel mem extra ps hps hsize,
      rootPtr, cellsOf, List.length_append, cellsOfNodes_length, List.append_assoc,
      Nat.add_assoc]

/-- With enough fuel, cloning pointers that stand for values, one after the
other, puts copies of the values at the end of the memory, one after the
other, and returns their roots. -/
theorem mapNodes_cellsOfNodes : ∀ (vs : List NodeValue) (fuel : Nat)
    (mem extra : List NodeCell) (ps : List Ptr), ReadsNodes mem ps vs → sizeNodes vs ≤ fuel →
    mapNodes (cloneNodeExtern fuel) (mem ++ extra) ps =
      some (mem ++ extra ++ cellsOfNodes (mem ++ extra).length vs,
        rootPtrs (mem ++ extra).length vs)
  | [], _, _, _, _, h, _ => by
    simp only [ReadsNodes] at h
    subst h
    simp only [mapNodes, cellsOfNodes, rootPtrs, List.append_nil]
  | v :: vs, fuel, mem, extra, ps, h, hfuel => by
    simp only [sizeNodes] at hfuel
    simp only [ReadsNodes] at h
    obtain ⟨q, qs, hps, hq, hqs⟩ := h
    subst hps
    have h1 := cloneNodeExtern_cellsOf v fuel mem extra q hq (by omega)
    have h2 := mapNodes_cellsOfNodes vs fuel mem (extra ++ cellsOf (mem ++ extra).length v)
      qs hqs (by omega)
    simp only [List.append_assoc, List.length_append, cellsOf_length, Nat.add_assoc] at h2
    simp only [mapNodes, h1, cellsOfNodes, rootPtrs, List.length_append, cellsOf_length,
      List.append_assoc, Nat.add_assoc, h2]

end

end Store

namespace Etcdhttp

open Store

/-- The function `strings.TrimPrefix` removes the prefix from a string that
starts with it. -/
theorem TrimPrefix_append (pfx s : String) : TrimPrefix (pfx ++ s) pfx = s := by
  have hp : pfx.data.isPrefixOf (pfx ++ s).data = true := by
    rw [String.data_append, List.isPrefixOf_iff_prefix]
    exact List.prefix_append _ _
  have hd : (pfx ++ s).data.drop pfx.length = s.data := by
    rw [String.data_append]
    exact List.drop_left _ _
  rw [TrimPrefix, if_pos hp, hd]

/-- The function `strings.TrimPrefix` leaves a string that does not start with
the prefix as it is. -/
theorem TrimPrefix_unchanged (pfx s : String) (h : pfx.data.isPrefixOf s.data = false) :
    TrimPrefix s pfx = s := by
  rw [TrimPrefix, h]
  rfl

namespace InPlace

/-- With enough fuel, `trimEventPrefix` on a pointer that stands for an event
value allocates a copy of the event after the structs of the memory, which it
leaves as they are, and returns the address of the copy, trimmed. -/
theorem trimEventPrefix_some (h : Heap) (a : Nat) (cell : EventCell) (pfx : String)
    (v : EventValue) (hcell : h.events[a]? = some cell)
    (hN : ReadsNode h.nodes cell.Node v.Node)
    (hP : ReadsNode h.nodes cell.PrevNode v.PrevNode)
    (fuel : Nat) (hfuel : v.Node.size + v.PrevNode.size ≤ fuel) :
    trimEventPrefix fuel h (some a) pfx =
      some ({ nodes := h.nodes ++ cellsOf h.nodes.length (trimmedNode v.Node pfx) ++
                cellsOf (h.nodes.length + v.Node.size) (trimmedNode v.PrevNode pfx),
              events := h.events ++
                [{ Node := rootPtr h.nodes.length v.Node,
                   PrevNode := rootPtr (h.nodes.length + v.Node.size) v.PrevNode,
                   EtcdIndex := cell.EtcdIndex }] },
        some h.events.length) := by
  have hc1 := cloneNodeExtern_cellsOf v.Node fuel h.nodes [] cell.Node hN (by omega)
  have hc2 := cloneNodeExtern_cellsOf v.PrevNode fuel h.nodes (cellsOf h.nodes.length v.Node)
    cell.PrevNode hP (by omega)
  simp only [List.append_nil, List.length_append, cellsOf_length] at hc1 hc2
  have ht1 := trimNodeExternPrefix_cellsOf v.Node fuel h.nodes
    (cellsOf (h.nodes.length + v.Node.size) v.PrevNode) h.nodes.length pfx rfl (by omega)
  have ht2 := trimNodeExternPrefix_cellsOf v.PrevNode fuel
    (h.nodes ++ cellsOf h.nodes.length (trimmedNode v.Node pfx)) []
    (h.nodes.length + v.Node.size) pfx
    (by rw [List.length_append, cellsOf_length, trimmedNode_size]) (by omega)
  simp only [List.append_nil] at ht2
  have hget : ∀ c : EventCell, (h.events ++ [c])[h.events.length]? = some c :=
    fun c => getElem_middle h.events [] c _ rfl
  have hset : ∀ c d : EventCell, (h.events ++ [c]).set h.events.length d = h.events ++ [d] :=
    fun c d => set_middle h.events [] c d _ rfl
  simp only [trimEventPrefix, Clone, hcell, hc1, hc2, hget, hset, ht1, ht2]

end InPlace

/-- C31: for every event in memory and every prefix, `trimEventPrefix`, given
enough fuel, returns an event that stands for the value of the input with the
prefix removed from the start of the key of `Node`, of `PrevNode` and of every
node below them (a key that does not start with the prefix stays as it is),
the shape of the trees, the values and the index being the same; a nil event
gives nil, a nil node stays nil; and every struct of the memory before the
call is still there unchanged, the input event standing for the same value as
before, because the keys are overwritten in a copy. -/
theorem trimEventPrefix_trims_a_copy (h : Heap) (ev : Ptr) (pfx : String)
    (val : Option EventValue) (hval : ReadsEvent h ev val) :
    (∃ fuel0, ∀ fuel, fuel0 ≤ fuel → ∃ h1 e,
      InPlace.trimEventPrefix fuel h ev pfx = some (h1, e) ∧
      ReadsEvent h1 e (val.map fun v => trimmedEvent v pfx) ∧
      (ev = none → e = none) ∧
      h.nodes <+: h1.nodes ∧ h.events <+: h1.events ∧ ReadsEvent h1 ev val) ∧
    (∀ s : String, TrimPrefix (pfx ++ s) pfx = s) ∧
    (∀ s : String, pfx.data.isPrefixOf s.data = false → TrimPrefix s pfx = s) ∧
    trimmedNode .nil pfx = .nil := by
  refine ⟨?_, TrimPrefix_append pfx, TrimPrefix_unchanged pfx, rfl⟩
  cases val with
  | none =>
    simp only [ReadsEvent] at hval
    subst hval
    exact ⟨0, fun fuel _ => ⟨h, none, rfl, by simp only [Option.map, ReadsEvent],
      fun _ => rfl, List.prefix_refl _, List.prefix_refl _, by simp only [ReadsEvent]⟩⟩
  | some v =>
    simp only [ReadsEvent] at hval
    obtain ⟨a, cell, hev, hcell, hidx, hN, hP⟩ := hval
    subst hev
    refine ⟨v.Node.size + v.PrevNode.size, fun fuel hfuel => ⟨_, _,
      InPlace.trimEventPrefix_some h a cell pfx v hcell hN hP fuel hfuel, ?_, ?_, ?_, ?_, ?_⟩⟩
    · simp only [Option.map, ReadsEvent]
      refine ⟨_, _, rfl, getElem_middle h.events [] _ _ rfl, hidx, ?_, ?_⟩
      · have hr := ReadsNode_cellsOf (trimmedNode v.Node pfx) h.nodes
          (cellsOf (h.nodes.length + v.Node.size) (trimmedNode v.PrevNode pfx))
          h.nodes.length rfl
        rw [rootPtr_trimmedNode] at hr
        exact hr
      · have hr := ReadsNode_cellsOf (trimmedNode v.PrevNode pfx)
          (h.nodes ++ cellsOf h.nodes.length (trimmedNode v.Node pfx)) []
          (h.nodes.length + v.Node.size)
          (by rw [List.length_append, cellsOf_length, trimmedNode_size])
        rw [rootPtr_trimmedNode, List.append_nil] at hr
        exact hr
    · intro hnil
      exact absurd hnil (by simp)
    · exact ⟨_, (List.append_assoc _ _ _).symm⟩
    · exact List.prefix_append _ _
    · simp only [ReadsEvent]
      have hlt : a < h.events.length := by
        by_contra hge
        rw [List.getElem?_eq_none (by omega)] at hcell
        exact absurd hcell (by simp)
      refine ⟨a, cell, rfl, by rw [List.getElem?_append_left hlt]; exact hcell, hidx, ?_, ?_⟩
      · rw [List.append_assoc]
        exact ReadsNode_append _ _ _ _ hN
      · rw [List.append_assoc]
        exact ReadsNode_append _ _ _ _ hP

end Etcdhttp

namespace Etcdhttp

open Store

mutual

/-- On trees, `trimNodeExternPrefix` gives the trimmed value. -/
theorem valueOfNode_trimNodeExternPrefix : ∀ (n : NodeExtern) (pfx : String),
    valueOfNode (trimNodeExternPrefix n pfx) = trimmedNode (valueOfNode n) pfx
  | .mk key value nodes, pfx => by
    simp only [trimNodeExternPrefix, valueOfNode, trimmedNode,
      valueOfNodes_trimNodeExternPrefixList nodes pfx]

/-- On trees, the loop of `trimNodeExternPrefix` gives the trimmed values. -/
theorem valueOfNodes_trimNodeExternPrefixList : ∀ (ns : List NodeExtern) (pfx : String),
    valueOfNodes (trimNodeExternPrefixList ns pfx) = trimmedNodes (valueOfNodes ns) pfx
  | [], _ => by
    simp only [trimNodeExternPrefixList, valueOfNodes, trimmedNodes]
  | n :: rest, pfx => by
    simp only [trimNodeExternPrefixList, valueOfNodes, trimmedNodes,
      valueOfNode_trimNodeExternPrefix n pfx, valueOfNodes_trimNodeExternPrefixList rest pfx]

end

/-- The function `trimEventPrefix` on events given with their trees returns the
value that the function on the memory leaves at the address it returns. -/
theorem valueOfEvent_trimEventPrefix (ev : Option Event) (pfx : String) :
    (trimEventPrefix ev pfx).map valueOfEvent =
      (ev.map valueOfEvent).map fun v => trimmedEvent v pfx := by
  cases ev with
  | none => rfl
  | some e =>
    cases hn : e.Node <;> cases hp : e.PrevNode <;>
      simp [trimEventPrefix, valueOfEvent, trimmedEvent, valueOfPtr, hn, hp, trimmedNode,
        valueOfNode_trimNodeExternPrefix]

end Etcdhttp

namespace Etcdhttp

open Store

/-- C31 on the sample memory: the event at address 0 stands for the sample
value; with the prefix `/1`, `trimEventPrefix` returns the new address 1, the
copy has the keys `/foo`, `/foo/bar` and, unchanged, `/0/other`, and the three
node structs and the event struct of the input are as before. -/
theorem trimEventPrefix_trims_a_copy_witness :
    ReadsEvent sampleHeap (some 0) (some sampleEventValue) ∧
    InPlace.trimEventPrefix 4 sampleHeap (some 0) "/1" =
      some ({ nodes := sampleHeap.nodes ++
                [⟨"/foo/bar", some "v", []⟩,
                 ⟨"/0/other", some "w", []⟩,
                 ⟨"/foo", none, [some 3, some 4]⟩,
                 ⟨"/foo/bar", some "v", []⟩],
              events := sampleHeap.events ++ [⟨some 5, some 6, 8⟩] }, some 1) ∧
    ((∃ fuel0, ∀ fuel, fuel0 ≤ fuel → ∃ h1 e,
      InPlace.trimEventPrefix fuel sampleHeap (some 0) "/1" = some (h1, e) ∧
      ReadsEvent h1 e ((some sampleEventValue).map fun v => trimmedEvent v "/1") ∧
      ((some 0 : Ptr) = none → e = none) ∧
      sampleHeap.nodes <+: h1.nodes ∧ sampleHeap.events <+: h1.events ∧
      ReadsEvent h1 (some 0) (some sampleEventValue)) ∧
    (∀ s : String, TrimPrefix ("/1" ++ s) "/1" = s) ∧
    (∀ s : String, "/1".data.isPrefixOf s.data = false → TrimPrefix s "/1" = s) ∧
    trimmedNode .nil "/1" = .nil) :=
  have hbar : ReadsNode sampleHeap.nodes (some 0) (.node "/1/foo/bar" (some "v") []) :=
    ⟨0, [], rfl, rfl, rfl⟩
  have hother : ReadsNode sampleHeap.nodes (some 1) (.node "/0/other" (some "w") []) :=
    ⟨1, [], rfl, rfl, rfl⟩
  have hread : ReadsEvent sampleHeap (some 0) (some sampleEventValue) :=
    ⟨0, ⟨some 2, some 0, 8⟩, rfl, rfl, rfl,
      ⟨2, [some 0, some 1], rfl, rfl,
        ⟨some 0, [some 1], rfl, hbar, ⟨some 1, [], rfl, hother, rfl⟩⟩⟩,
      hbar⟩
  ⟨hread, rfl, trimEventPrefix_trims_a_copy sampleHeap (some 0) "/1" (some sampleEventValue) hread⟩

end Etcdhttp
end Mantle
